import Mathlib

/-!
# ConcurrentQueues: ring-buffer queues (`rb::detail`, `ObjectQueueSCSP`, `ObjectQueueMCSP`,
`BufferQueueSCSP`)

Shallow embedding of the C++ sources under `RingBuffers/include/RingBuffers`.

Conventions of the embedding
* `size_t`, `uintptr_t` and `uint64_t` are natural numbers below `2 ^ 64`; every C++ arithmetic
  operation that can wrap is written with an explicit `% 2 ^ 64`.
* `std::atomic<T>` cells are plain fields: the development is about sequential executions in
  which every public member function runs as one step.
* A slot of raw object storage is an `Option Obj`: `none` is storage holding no live object
  (never constructed, or already destroyed by `std::destroy_at`).
* A consumer functor is observed through the list of the arguments it is invoked with, in call
  order.
-/

namespace rb

/-- Addition of two `size_t` values. -/
def add_sz (a b : Nat) : Nat := (a + b) % 2 ^ 64

/-- Subtraction of two `size_t` values. -/
def sub_sz (a b : Nat) : Nat := (a + (2 ^ 64 - b % 2 ^ 64)) % 2 ^ 64

namespace detail

/-- `detail::count(output_pos, input_pos, buffer_size)`. -/
def count (output_pos input_pos buffer_size : Nat) : Nat :=
  let diff := sub_sz input_pos output_pos
  if output_pos > input_pos then add_sz diff buffer_size else diff

/-- `detail::count_avl(output_pos, input_pos, buffer_size)`. -/
def count_avl (output_pos input_pos buffer_size : Nat) : Nat :=
  if input_pos < output_pos then sub_sz (sub_sz output_pos input_pos) 1
  else add_sz (sub_sz (sub_sz buffer_size input_pos) 1) (if output_pos ≠ 0 then 1 else 0)

/-- `detail::next_pos(output_pos, input_pos, buffer_size, n)`. -/
def next_pos (output_pos input_pos buffer_size n : Nat) : Nat :=
  let next_pos := add_sz output_pos n
  if output_pos ≤ input_pos then min input_pos next_pos
  else if next_pos < buffer_size then next_pos else min input_pos (sub_sz next_pos buffer_size)

/-- `detail::max_pos`, the largest `size_t`. -/
def max_pos : Nat := 2 ^ 64 - 1

/-- `detail::RingBuffer<T>`: a span together with the two cursors. -/
structure RingBuffer (T : Type) where
  buffer : List T
  input_pos : Nat
  output_pos : Nat

/-- A `std::span` into the ring storage, given by the index of its first element and its size. -/
structure Span where
  first_index : Nat
  size : Nat
deriving DecidableEq, Repr

/-- `buffer.subspan(offset)`: everything from `offset` to the end. -/
def subspan_from (buffer_size offset : Nat) : Span := ⟨offset, buffer_size - offset⟩

/-- `buffer.subspan(offset, count)`. -/
def subspan (offset count : Nat) : Span := ⟨offset, count⟩

/-- `buffer.first(count)`. -/
def first (count : Nat) : Span := ⟨0, count⟩

/-- The slots `std::ranges::for_each` visits on a span, in order. -/
def Span.slots (s : Span) : List Nat := List.range' s.first_index s.size

/-- `detail::apply(functor, rb)`: the slots the functor is invoked on, in call order, and the
returned number of slots. -/
def apply {T : Type} (rb : RingBuffer T) : List Nat × Nat :=
  if rb.input_pos = rb.output_pos then ([], 0)
  else if rb.output_pos > rb.input_pos then
    let rng1 := subspan_from rb.buffer.length rb.output_pos
    let rng2 := first rb.input_pos
    (rng1.slots ++ rng2.slots, add_sz rng1.size rng2.size)
  else
    let rng := subspan rb.output_pos (sub_sz rb.input_pos rb.output_pos)
    (rng.slots, rng.size)

/-- The lambda of `detail::invoke_and_destroy` run on the slots of `visited` from left to right:
each slot is handed to the functor (`std::invoke(func, obj)`) and then destroyed
(`std::destroy_at(&obj)`).  Returns the arguments handed to the functor and the storage
afterwards. -/
def invoke_and_destroy_each {Obj : Type} :
    List Nat → List (Option Obj) → List (Option Obj) × List (Option Obj)
  | [], buffer => ([], buffer)
  | i :: rest, buffer =>
    let obj := (buffer.get? i).getD none
    let r := invoke_and_destroy_each rest (buffer.set i none)
    (obj :: r.1, r.2)

/-- `detail::invoke_and_destroy(func, rb)`: arguments handed to the functor, storage afterwards,
and the returned count. -/
def invoke_and_destroy {Obj : Type} (rb : RingBuffer (Option Obj)) :
    List (Option Obj) × List (Option Obj) × Nat :=
  let a := apply rb
  let r := invoke_and_destroy_each a.1 rb.buffer
  (r.1, r.2, a.2)

end detail

/-! ## `ObjectQueueSCSP` -/

/-- The anonymous struct `m_Writer` of the SCSP queues. -/
structure WriterSCSP where
  input_pos : Nat
  output_pos : Nat
deriving DecidableEq, Repr

/-- The anonymous struct `m_Reader` of the SCSP queues. -/
structure ReaderSCSP where
  output_pos : Nat
  input_pos : Nat
deriving DecidableEq, Repr

/-- `rb::ObjectQueueSCSP<Obj, wait_interface>` (the allocator and the wait interface carry no
queue state). -/
structure ObjectQueueSCSP (Obj : Type) where
  m_Writer : WriterSCSP
  m_Reader : ReaderSCSP
  m_Buffer : List (Option Obj)
deriving DecidableEq, Repr

namespace ObjectQueueSCSP

variable {Obj : Type}

/-- The constructor `ObjectQueueSCSP(buffer_size)`: `buffer_size + 1` raw slots, cursors zero. -/
def mk_queue (buffer_size : Nat) : ObjectQueueSCSP Obj :=
  { m_Writer := ⟨0, 0⟩, m_Reader := ⟨0, 0⟩,
    m_Buffer := List.replicate (add_sz buffer_size 1) none }

/-- `capacity()`. -/
def capacity (q : ObjectQueueSCSP Obj) : Nat := sub_sz q.m_Buffer.length 1

/-- `empty()`. -/
def empty (q : ObjectQueueSCSP Obj) : Bool :=
  q.m_Writer.input_pos == q.m_Reader.output_pos

/-- `count()`. -/
def count (q : ObjectQueueSCSP Obj) : Nat :=
  detail.count q.m_Reader.output_pos q.m_Writer.input_pos q.m_Buffer.length

/-- `consume(functor)`: the returned flag, the arguments the functor was invoked with, and the
queue afterwards. -/
def consume (q : ObjectQueueSCSP Obj) : Bool × List (Option Obj) × ObjectQueueSCSP Obj :=
  let output_pos := q.m_Reader.output_pos
  let go (q1 : ObjectQueueSCSP Obj) : Bool × List (Option Obj) × ObjectQueueSCSP Obj :=
    let obj := (q1.m_Buffer.get? output_pos).getD none
    let next_pos := add_sz output_pos 1
    (true, [obj],
      { q1 with
        m_Buffer := q1.m_Buffer.set output_pos none
        m_Reader := { q1.m_Reader with
          output_pos := if next_pos ≠ q1.m_Buffer.length then next_pos else 0 } })
  if output_pos = q.m_Reader.input_pos then
    let q1 := { q with m_Reader := { q.m_Reader with input_pos := q.m_Writer.input_pos } }
    if output_pos = q1.m_Reader.input_pos then (false, [], q1) else go q1
  else go q

/-- `consume_all(functor)`: the returned count, the arguments the functor was invoked with, and
the queue afterwards (the scope guard has run). -/
def consume_all (q : ObjectQueueSCSP Obj) : Nat × List (Option Obj) × ObjectQueueSCSP Obj :=
  let rb : detail.RingBuffer (Option Obj) :=
    { buffer := q.m_Buffer, input_pos := q.m_Writer.input_pos,
      output_pos := q.m_Reader.output_pos }
  let r := detail.invoke_and_destroy rb
  (r.2.2, r.1,
    { q with m_Buffer := r.2.1, m_Reader := { output_pos := rb.input_pos, input_pos := rb.input_pos } })

/-- `consume_n(functor, n)`. -/
def consume_n (q : ObjectQueueSCSP Obj) (n : Nat) :
    Nat × List (Option Obj) × ObjectQueueSCSP Obj :=
  let output_pos := q.m_Reader.output_pos
  let input_pos := q.m_Writer.input_pos
  let next_pos := detail.next_pos output_pos input_pos q.m_Buffer.length n
  let r := detail.invoke_and_destroy
    { buffer := q.m_Buffer, input_pos := next_pos, output_pos := output_pos }
  (r.2.2, r.1,
    { q with m_Buffer := r.2.1, m_Reader := { output_pos := next_pos, input_pos := input_pos } })

/-- `emplace(args...)`; `obj` is the object `std::construct_at` builds from the arguments. -/
def emplace (q : ObjectQueueSCSP Obj) (obj : Obj) : Bool × ObjectQueueSCSP Obj :=
  let input_pos := q.m_Writer.input_pos
  let next_pos := if add_sz input_pos 1 ≠ q.m_Buffer.length then add_sz input_pos 1 else 0
  let go (q1 : ObjectQueueSCSP Obj) : Bool × ObjectQueueSCSP Obj :=
    (true,
      { q1 with
        m_Buffer := q1.m_Buffer.set input_pos (some obj)
        m_Writer := { q1.m_Writer with input_pos := next_pos } })
  if next_pos = q.m_Writer.output_pos then
    let q1 := { q with m_Writer := { q.m_Writer with output_pos := q.m_Reader.output_pos } }
    if next_pos = q1.m_Writer.output_pos then (false, q1) else go q1
  else go q

/-- `push(obj)`. -/
def push (q : ObjectQueueSCSP Obj) (obj : Obj) : Bool × ObjectQueueSCSP Obj := emplace q obj

/-- Writing the objects a producer functor constructs at the front of the span it was given:
object `k` of the list goes to slot `first_index + k`. -/
def construct_in_span {Obj : Type} : List (Option Obj) → Nat → List Obj → List (Option Obj)
  | buffer, _, [] => buffer
  | buffer, i, o :: os => construct_in_span (buffer.set i (some o)) (i + 1) os

/-- `emplace_n(functor)`.  The functor receives the span `m_Buffer.subspan(input_pos, n_avl)`,
constructs the objects `functor span` at its front and returns their number.  Result: the
returned number, the span handed to the functor (if it was invoked), the queue afterwards. -/
def emplace_n (q : ObjectQueueSCSP Obj) (functor : detail.Span → List Obj) :
    Nat × Option detail.Span × ObjectQueueSCSP Obj :=
  let input_pos := q.m_Writer.input_pos
  let go (q1 : ObjectQueueSCSP Obj) (n_avl : Nat) :
      Nat × Option detail.Span × ObjectQueueSCSP Obj :=
    let span := detail.subspan input_pos n_avl
    let objs := functor span
    let obj_emplaced := objs.length % 2 ^ 64
    let next_pos := add_sz input_pos obj_emplaced
    (obj_emplaced, some span,
      { q1 with
        m_Buffer := construct_in_span q1.m_Buffer input_pos objs
        m_Writer := { q1.m_Writer with
          input_pos := if next_pos ≠ q1.m_Buffer.length then next_pos else 0 } })
  let n_avl := detail.count_avl q.m_Writer.output_pos input_pos q.m_Buffer.length
  if n_avl = 0 then
    let q1 := { q with m_Writer := { q.m_Writer with output_pos := q.m_Reader.output_pos } }
    let n_avl1 := detail.count_avl q1.m_Writer.output_pos input_pos q1.m_Buffer.length
    if n_avl1 = 0 then (0, none, q1) else go q1 n_avl1
  else go q n_avl

end ObjectQueueSCSP


/-! ## Ring positions -/

/-- Number of steps from slot `a` forward to slot `b` in a ring of `S` slots. -/
def ring_dist (S a b : Nat) : Nat := if a ≤ b then b - a else b + S - a

/-- Position `x < 2 * S` folded back into the ring of `S` slots. -/
def ring_wrap (S x : Nat) : Nat := if x < S then x else x - S

/-- The `k` slots met going forward from slot `a` in a ring of `S` slots. -/
def ring_slots (S a k : Nat) : List Nat := (List.range k).map (fun j => ring_wrap S (a + j))

/-- Content of slot `i` of raw storage. -/
def slot_at {Obj : Type} (buffer : List (Option Obj)) (i : Nat) : Option Obj :=
  (buffer.get? i).getD none

namespace ObjectQueueSCSP

variable {Obj : Type}

/-- The stored elements, oldest first: the slots from `output_pos` up to `input_pos`. -/
def stored (q : ObjectQueueSCSP Obj) : List (Option Obj) :=
  (ring_slots q.m_Buffer.length q.m_Reader.output_pos
    (ring_dist q.m_Buffer.length q.m_Reader.output_pos q.m_Writer.input_pos)).map
    (slot_at q.m_Buffer)

/-- Well-formed queue of capacity `N`: `N + 1` slots, all cursors inside the ring, and going
round the ring from the writer's cached output position one meets the reader's output position,
the reader's cached input position and the writer's input position, in this order, within one
lap. -/
def WF (N : Nat) (q : ObjectQueueSCSP Obj) : Prop :=
  q.m_Buffer.length = N + 1 ∧ N + 1 < 2 ^ 64 ∧
  q.m_Writer.input_pos < N + 1 ∧ q.m_Writer.output_pos < N + 1 ∧
  q.m_Reader.output_pos < N + 1 ∧ q.m_Reader.input_pos < N + 1 ∧
  ring_dist (N + 1) q.m_Writer.output_pos q.m_Reader.output_pos +
    ring_dist (N + 1) q.m_Reader.output_pos q.m_Reader.input_pos +
    ring_dist (N + 1) q.m_Reader.input_pos q.m_Writer.input_pos ≤ N

instance (N : Nat) (q : ObjectQueueSCSP Obj) : Decidable (WF N q) := by
  unfold WF; infer_instance

/-- A call of the sequential interface of `ObjectQueueSCSP`. -/
inductive Call (Obj : Type) where
  | push (obj : Obj)
  | consume
  | consume_all
deriving DecidableEq, Repr

/-- What a call lets its caller observe: the returned value and the arguments the consumer
functor was invoked with. -/
inductive Outcome (Obj : Type) where
  | push (ok : Bool)
  | consume (ok : Bool) (handed : List (Option Obj))
  | consume_all (n : Nat) (handed : List (Option Obj))
deriving DecidableEq, Repr

/-- One call on the queue. -/
def call (q : ObjectQueueSCSP Obj) : Call Obj → Outcome Obj × ObjectQueueSCSP Obj
  | .push obj => let r := push q obj; (.push r.1, r.2)
  | .consume => let r := consume q; (.consume r.1 r.2.1, r.2.2)
  | .consume_all => let r := consume_all q; (.consume_all r.1 r.2.1, r.2.2)

/-- A sequence of calls, one after the other. -/
def run (q : ObjectQueueSCSP Obj) : List (Call Obj) → List (Outcome Obj) × ObjectQueueSCSP Obj
  | [] => ([], q)
  | c :: cs =>
    let r := call q c
    let rs := run r.2 cs
    (r.1 :: rs.1, rs.2)

end ObjectQueueSCSP

/-! ## The bounded FIFO queue `ObjectQueueSCSP` is specified against -/

/-- Bounded FIFO queue of capacity `capacity`: the items in push order, oldest first. -/
structure BoundedFifo (Obj : Type) where
  capacity : Nat
  items : List Obj
deriving DecidableEq, Repr

namespace BoundedFifo

variable {Obj : Type}

/-- One call on the bounded FIFO queue: a push succeeds iff fewer than `capacity` items are
stored, `consume` hands out the oldest item, `consume_all` hands out every item, oldest first. -/
def call (f : BoundedFifo Obj) :
    ObjectQueueSCSP.Call Obj → ObjectQueueSCSP.Outcome Obj × BoundedFifo Obj
  | .push obj =>
    if f.items.length < f.capacity then (.push true, { f with items := f.items ++ [obj] })
    else (.push false, f)
  | .consume =>
    match f.items with
    | [] => (.consume false [], f)
    | x :: xs => (.consume true [some x], { f with items := xs })
  | .consume_all => (.consume_all f.items.length (f.items.map some), { f with items := [] })

/-- A sequence of calls on the bounded FIFO queue. -/
def run (f : BoundedFifo Obj) :
    List (ObjectQueueSCSP.Call Obj) → List (ObjectQueueSCSP.Outcome Obj) × BoundedFifo Obj
  | [] => ([], f)
  | c :: cs =>
    let r := call f c
    let rs := run r.2 cs
    (r.1 :: rs.1, rs.2)

end BoundedFifo

namespace ObjectQueueSCSP

variable {Obj : Type}

/-- The values of the pushes that returned `true`, in call order. -/
def pushed_values : List (Call Obj) → List (Outcome Obj) → List Obj
  | .push obj :: cs, .push true :: os => obj :: pushed_values cs os
  | _ :: cs, _ :: os => pushed_values cs os
  | _, _ => []

/-- Every argument handed to the consumer functor, in call order. -/
def handed_values : List (Outcome Obj) → List (Option Obj)
  | [] => []
  | .push _ :: os => handed_values os
  | .consume _ handed :: os => handed ++ handed_values os
  | .consume_all _ handed :: os => handed ++ handed_values os

end ObjectQueueSCSP
end rb

namespace rb
namespace ObjectQueueSCSP

variable {Obj : Type}

/-- The states of a queue of capacity `N` reached from the constructor by calls of `emplace`,
`emplace_n` with a functor that constructs no more objects than its span holds, `consume`,
`consume_all`, and `consume_n` with an `n` for which `output_pos + n` does not wrap. -/
inductive Reachable (N : Nat) : ObjectQueueSCSP Obj → Prop where
  | init : Reachable N (mk_queue N)
  | emplace {q} (obj : Obj) : Reachable N q → Reachable N (emplace q obj).2
  | emplace_n {q} (functor : detail.Span → List Obj) : Reachable N q →
      (∀ s, (functor s).length ≤ s.size) → Reachable N (emplace_n q functor).2.2
  | consume {q} : Reachable N q → Reachable N (consume q).2.2
  | consume_all {q} : Reachable N q → Reachable N (consume_all q).2.2
  | consume_n {q} (n : Nat) : Reachable N q → q.m_Reader.output_pos + n < 2 ^ 64 →
      Reachable N (consume_n q n).2.2

end ObjectQueueSCSP
end rb

/-! ## Tagged cursor words and the MCSP protocol (`rb_common.h`, `ObjectQueueMCSP.h`)

A cursor word is a `uint64_t` whose low `tb` bits are the tag and whose high bits are the value.
On natural numbers `x & tag_mask` is `x % 2 ^ tb`, `x >> tb` is `x / 2 ^ tb`, the bitwise or of
`value << tb` with a tag below `2 ^ tb` is their sum, and `x & ~tag_mask` is `x - x % 2 ^ tb`. -/

namespace rb
namespace detail

/-- `detail::tag<tb>(index)`. -/
def tag (tb index : Nat) : Nat := index % 2 ^ tb

/-- `detail::value<tb>(index)`. -/
def value (tb index : Nat) : Nat := index / 2 ^ tb

/-- `detail::tagged_size<tb, U>(value, tag)` for `U = uint64_t`. -/
def tagged_size (tb value tag : Nat) : Nat := (value * 2 ^ tb) % 2 ^ 64 + tag % 2 ^ tb

/-- `detail::incr_tagged<tb>(ts, value)`. -/
def incr_tagged (tb ts value : Nat) : Nat := tagged_size tb value (add_sz (tag tb ts) 1)

/-- `detail::same_tagged<tb>(ts, value)`. -/
def same_tagged (tb ts value : Nat) : Nat := tagged_size tb value (tag tb ts)

/-- `detail::empty<tb>(output_pos, input_pos)`. -/
def empty (tb output_pos input_pos : Nat) : Bool :=
  decide (tag tb input_pos < tag tb output_pos) || decide (value tb output_pos = value tb input_pos)

/-- `detail::count<tb>(output_pos, input_pos, buffer_size)` on tagged cursors. -/
def count_tagged (tb op ip buffer_size : Nat) : Nat :=
  if tag tb ip ≥ tag tb op then count (value tb op) (value tb ip) buffer_size else 0

/-- `detail::ReserveResult`. -/
structure ReserveResult where
  output_pos : Nat
  next_output_pos : Nat
deriving DecidableEq, Repr

/-- `std::atomic<U>::compare_exchange_strong(expected, desired)` on a cell holding `cell`:
success flag and the cell afterwards. -/
def compare_exchange (cell expected desired : Nat) : Bool × Nat :=
  if cell = expected then (true, desired) else (false, cell)

/-- One pass of `reserve_one`: load both cursors, test for empty, compare-exchange.  Returns the
reservation, the `output_pos` cell afterwards, and whether the compare-exchange failed. -/
def reserve_one_attempt (tb output_pos input_pos array_size : Nat) :
    Option ReserveResult × Nat × Bool :=
  let op := output_pos
  let ip := input_pos
  if empty tb op ip then (none, output_pos, false)
  else
    let next_pos := if add_sz (value tb op) 1 = array_size then 0 else add_sz (value tb op) 1
    let r := compare_exchange output_pos op (same_tagged tb ip next_pos)
    if r.1 then (some ⟨value tb op, next_pos⟩, r.2, false) else (none, r.2, true)

/-- One pass of `reserve_all`. -/
def reserve_all_attempt (tb output_pos input_pos : Nat) : Option ReserveResult × Nat × Bool :=
  let op := output_pos
  let ip := input_pos
  if empty tb op ip then (none, output_pos, false)
  else
    let r := compare_exchange output_pos op ip
    if r.1 then (some ⟨value tb op, value tb ip⟩, r.2, false) else (none, r.2, true)

/-- One pass of `reserve_n`. -/
def reserve_n_attempt (tb output_pos input_pos array_size n : Nat) :
    Option ReserveResult × Nat × Bool :=
  let op := output_pos
  let ip := input_pos
  if empty tb op ip then (none, output_pos, false)
  else
    let next_pos := detail.next_pos (value tb op) (value tb ip) array_size n
    let r := compare_exchange output_pos op (same_tagged tb ip next_pos)
    if r.1 then (some ⟨value tb op, next_pos⟩, r.2, false) else (none, r.2, true)

/-- The retry loop of the `not check_once` overloads: a pass is repeated while its
compare-exchange fails, at most `fuel + 1` times. -/
def retry (attempt : Nat → Option ReserveResult × Nat × Bool) :
    Nat → Nat → Option ReserveResult × Nat
  | 0, output_pos => ((attempt output_pos).1, (attempt output_pos).2.1)
  | fuel + 1, output_pos =>
    let r := attempt output_pos
    if r.2.2 then retry attempt fuel r.2.1 else (r.1, r.2.1)

/-- `detail::reserve_one<check_once, tb>(output_pos, input_pos, array_size)`: the reservation and
the `output_pos` cell afterwards.  No other thread runs during the call, so the loop of the
`not check_once` overload needs no more passes than `check_once` (see `retry_eq`). -/
def reserve_one (check_once : Bool) (tb output_pos input_pos array_size : Nat) :
    Option ReserveResult × Nat :=
  if check_once then
    let r := reserve_one_attempt tb output_pos input_pos array_size
    (r.1, r.2.1)
  else retry (fun op => reserve_one_attempt tb op input_pos array_size) 1 output_pos

/-- `detail::reserve_all<check_once, tb>(output_pos, input_pos)`. -/
def reserve_all (check_once : Bool) (tb output_pos input_pos : Nat) :
    Option ReserveResult × Nat :=
  if check_once then
    let r := reserve_all_attempt tb output_pos input_pos
    (r.1, r.2.1)
  else retry (fun op => reserve_all_attempt tb op input_pos) 1 output_pos

/-- `detail::reserve_n<check_once, tb>(output_pos, input_pos, array_size, n)`. -/
def reserve_n (check_once : Bool) (tb output_pos input_pos array_size n : Nat) :
    Option ReserveResult × Nat :=
  if check_once then
    let r := reserve_n_attempt tb output_pos input_pos array_size n
    (r.1, r.2.1)
  else retry (fun op => reserve_n_attempt tb op input_pos array_size n) 1 output_pos

/-- The loop of `detail::sync` over the position array: `none` when an announced position
equals `prev_pos` (the early `return prev_pos`), else the final `(gpos, lpos)`. -/
def sync_loop (prev_pos : Nat) : List Nat → Nat × Nat → Option (Nat × Nat)
  | [], acc => some acc
  | output_pos :: rest, (gpos, lpos) =>
    if output_pos = prev_pos then none
    else if output_pos > prev_pos then sync_loop prev_pos rest (min gpos output_pos, lpos)
    else sync_loop prev_pos rest (gpos, min lpos output_pos)

/-- `detail::sync<tb>(prev_pos, position_array, current_pos)`. -/
def sync (tb prev_pos : Nat) (position_array : List Nat) (current_pos : Nat) : Nat :=
  let cp := value tb current_pos
  if cp = prev_pos then prev_pos
  else
    match sync_loop prev_pos position_array (if cp > prev_pos then cp else max_pos, cp) with
    | none => prev_pos
    | some (gpos, lpos) =>
      if cp > prev_pos then gpos else (if gpos ≠ max_pos then gpos else lpos)

/-- `detail::publish<tb>(input_pos, current_pos, next_pos, output_pos)`: the `input_pos` and
`output_pos` cells afterwards. -/
def publish (tb current_pos next_pos output_pos : Nat) : Nat × Nat :=
  let pos := incr_tagged tb current_pos next_pos
  (pos, if tag tb pos = 0 then output_pos - output_pos % 2 ^ tb else output_pos)

end detail

/-- The anonymous struct `m_Writer` of the MCSP queues: the tagged `input_pos` and the cached
output position. -/
structure WriterMCSP where
  input_pos : Nat
  output_pos : Nat
deriving DecidableEq, Repr

/-- `rb::ObjectQueueMCSP<Obj, wait_interface>`. -/
structure ObjectQueueMCSP (Obj : Type) where
  m_Writer : WriterMCSP
  m_OutputPos : Nat
  m_Buffer : List (Option Obj)
  m_PositionArray : List Nat
deriving DecidableEq, Repr

namespace ObjectQueueMCSP

variable {Obj : Type}

/-- `ObjectQueueMCSP::tb`. -/
@[reducible] def tb : Nat := 16

/-- The constructor `ObjectQueueMCSP(buffer_size, max_readers)`; `init_readers` fills the
position array with `max_pos`. -/
def mk_queue (buffer_size max_readers : Nat) : ObjectQueueMCSP Obj :=
  { m_Writer := ⟨0, 0⟩, m_OutputPos := 0,
    m_Buffer := List.replicate (add_sz buffer_size 1) none,
    m_PositionArray := List.replicate max_readers detail.max_pos }

/-- `empty()`. -/
def empty (q : ObjectQueueMCSP Obj) : Bool := detail.empty tb q.m_OutputPos q.m_Writer.input_pos

/-- `count()`. -/
def count (q : ObjectQueueMCSP Obj) : Nat :=
  detail.count_tagged tb q.m_OutputPos q.m_Writer.input_pos q.m_Buffer.length

/-- `get_reader(index)`: the `Reader` constructor runs `set_reader`. -/
def get_reader (q : ObjectQueueMCSP Obj) (index : Nat) : ObjectQueueMCSP Obj :=
  { q with m_PositionArray := q.m_PositionArray.set index (detail.value tb q.m_OutputPos) }

/-- `Reader::~Reader()` of the reader with index `m_Index`: `release_reader(pos)`. -/
def drop_reader (q : ObjectQueueMCSP Obj) (m_Index : Nat) : ObjectQueueMCSP Obj :=
  { q with m_PositionArray := q.m_PositionArray.set m_Index detail.max_pos }

/-- `Reader::consume<check_once, release>(functor)` of the reader with index `m_Index`. -/
def consume (q : ObjectQueueMCSP Obj) (m_Index : Nat) (check_once release : Bool) :
    Bool × List (Option Obj) × ObjectQueueMCSP Obj :=
  let r := detail.reserve_one check_once tb q.m_OutputPos q.m_Writer.input_pos q.m_Buffer.length
  match r.1 with
  | none => (false, [], { q with m_OutputPos := r.2 })
  | some rp =>
    let obj := (q.m_Buffer.get? rp.output_pos).getD none
    (true, [obj],
      { q with
        m_OutputPos := r.2
        m_Buffer := q.m_Buffer.set rp.output_pos none
        m_PositionArray :=
          if release then q.m_PositionArray.set m_Index rp.next_output_pos
          else q.m_PositionArray })

/-- `Reader::consume_all<check_once>(functor)`. -/
def consume_all (q : ObjectQueueMCSP Obj) (_m_Index : Nat) (check_once : Bool) :
    Nat × List (Option Obj) × ObjectQueueMCSP Obj :=
  let r := detail.reserve_all check_once tb q.m_OutputPos q.m_Writer.input_pos
  match r.1 with
  | none => (0, [], { q with m_OutputPos := r.2 })
  | some rp =>
    let d := detail.invoke_and_destroy
      { buffer := q.m_Buffer, input_pos := rp.next_output_pos, output_pos := rp.output_pos }
    (d.2.2, d.1, { q with m_OutputPos := r.2, m_Buffer := d.2.1 })

/-- `Reader::consume_n<check_once, release>(functor, n)`. -/
def consume_n (q : ObjectQueueMCSP Obj) (m_Index : Nat) (n : Nat) (check_once release : Bool) :
    Nat × List (Option Obj) × ObjectQueueMCSP Obj :=
  let r := detail.reserve_n check_once tb q.m_OutputPos q.m_Writer.input_pos q.m_Buffer.length n
  match r.1 with
  | none => (0, [], { q with m_OutputPos := r.2 })
  | some rp =>
    let d := detail.invoke_and_destroy
      { buffer := q.m_Buffer, input_pos := rp.next_output_pos, output_pos := rp.output_pos }
    (d.2.2, d.1,
      { q with
        m_OutputPos := r.2
        m_Buffer := d.2.1
        m_PositionArray :=
          if release then q.m_PositionArray.set m_Index rp.next_output_pos
          else q.m_PositionArray })

/-- `emplace(args...)`. -/
def emplace (q : ObjectQueueMCSP Obj) (obj : Obj) : Bool × ObjectQueueMCSP Obj :=
  let pos := q.m_Writer.input_pos
  let input_pos := detail.value tb pos
  let next_pos := if add_sz input_pos 1 ≠ q.m_Buffer.length then add_sz input_pos 1 else 0
  let go (q1 : ObjectQueueMCSP Obj) : Bool × ObjectQueueMCSP Obj :=
    let p := detail.publish tb pos next_pos q1.m_OutputPos
    (true,
      { q1 with
        m_Buffer := q1.m_Buffer.set input_pos (some obj)
        m_Writer := { q1.m_Writer with input_pos := p.1 }
        m_OutputPos := p.2 })
  if next_pos = q.m_Writer.output_pos then
    let q1 := { q with m_Writer := { q.m_Writer with
      output_pos := detail.sync tb q.m_Writer.output_pos q.m_PositionArray q.m_OutputPos } }
    if next_pos = q1.m_Writer.output_pos then (false, q1) else go q1
  else go q

/-- `push(obj)`. -/
def push (q : ObjectQueueMCSP Obj) (obj : Obj) : Bool × ObjectQueueMCSP Obj := emplace q obj

/-- An atomic step of the queue: a member function called by the producer or by the reader of
the given index. -/
inductive Step (Obj : Type) where
  | get_reader (index : Nat)
  | drop_reader (index : Nat)
  | push (obj : Obj)
  | consume (index : Nat) (check_once release : Bool)
  | consume_all (index : Nat) (check_once : Bool)
  | consume_n (index : Nat) (n : Nat) (check_once release : Bool)
deriving DecidableEq, Repr

/-- What a step lets its caller observe. -/
inductive Observed (Obj : Type) where
  | done
  | push (ok : Bool)
  | consumed (index : Nat) (returned : Nat) (handed : List (Option Obj))
deriving DecidableEq, Repr

/-- One atomic step. -/
def step (q : ObjectQueueMCSP Obj) : Step Obj → Observed Obj × ObjectQueueMCSP Obj
  | .get_reader i => (.done, get_reader q i)
  | .drop_reader i => (.done, drop_reader q i)
  | .push obj => let r := push q obj; (.push r.1, r.2)
  | .consume i c rel =>
    let r := consume q i c rel; (.consumed i (if r.1 then 1 else 0) r.2.1, r.2.2)
  | .consume_all i c => let r := consume_all q i c; (.consumed i r.1 r.2.1, r.2.2)
  | .consume_n i n c rel => let r := consume_n q i n c rel; (.consumed i r.1 r.2.1, r.2.2)

/-- A sequence of atomic steps. -/
def run (q : ObjectQueueMCSP Obj) : List (Step Obj) → List (Observed Obj) × ObjectQueueMCSP Obj
  | [] => ([], q)
  | s :: ss =>
    let r := step q s
    let rs := run r.2 ss
    (r.1 :: rs.1, rs.2)

/-- The arguments a step handed to a reader's functor, each with the index of the reader. -/
def handed_of : Observed Obj → List (Nat × Option Obj)
  | .consumed i _ handed => handed.map (fun o => (i, o))
  | _ => []

/-- The arguments handed to the readers' functors, in the order of the calls, each with the
index of the reader that received it. -/
def handed_log : List (Observed Obj) → List (Nat × Option Obj)
  | [] => []
  | o :: os => handed_of o ++ handed_log os

/-- The value of a step that is a push that returned `true`. -/
def pushed_of : Step Obj → Observed Obj → List Obj
  | .push obj, .push true => [obj]
  | _, _ => []

/-- The values of the pushes that returned `true`, in call order. -/
def pushed_log : List (Step Obj) → List (Observed Obj) → List Obj
  | s :: ss, o :: os => pushed_of s o ++ pushed_log ss os
  | _, _ => []

/-- The stored elements, oldest first: the slots from `value(output_pos)` up to
`value(input_pos)`. -/
def stored (q : ObjectQueueMCSP Obj) : List (Option Obj) :=
  (ring_slots q.m_Buffer.length (detail.value tb q.m_OutputPos)
    (ring_dist q.m_Buffer.length (detail.value tb q.m_OutputPos)
      (detail.value tb q.m_Writer.input_pos))).map (slot_at q.m_Buffer)

/-- The reclaim order of the ring: going round from the producer's cached output position one
meets every announced reader position (the entries of the position array other than
`max_pos`), then `value(output_pos)`, then `value(input_pos)`. -/
def ring_order (q : ObjectQueueMCSP Obj) : Prop :=
  (∀ a ∈ q.m_PositionArray, a ≠ detail.max_pos →
    ring_dist q.m_Buffer.length q.m_Writer.output_pos a ≤
      ring_dist q.m_Buffer.length q.m_Writer.output_pos (detail.value tb q.m_OutputPos)) ∧
  ring_dist q.m_Buffer.length q.m_Writer.output_pos (detail.value tb q.m_OutputPos) ≤
    ring_dist q.m_Buffer.length q.m_Writer.output_pos (detail.value tb q.m_Writer.input_pos)

instance (q : ObjectQueueMCSP Obj) : Decidable (ring_order q) := by
  unfold ring_order; infer_instance

end ObjectQueueMCSP
end rb

namespace rb
namespace ObjectQueueMCSP

variable {Obj : Type}

/-- Well-formed MCSP queue of capacity `N`: `N + 1` slots that 48-bit cursor values can index,
cursor values and the producer's cache inside the ring, the tag of `output_pos` not above the
tag of `input_pos`, every entry of the position array vacant (`max_pos`) or inside the ring, and
the reclaim order of the ring. -/
def WF (N : Nat) (q : ObjectQueueMCSP Obj) : Prop :=
  q.m_Buffer.length = N + 1 ∧ N + 1 ≤ 2 ^ 48 ∧
  detail.value tb q.m_Writer.input_pos < N + 1 ∧ detail.value tb q.m_OutputPos < N + 1 ∧
  q.m_Writer.output_pos < N + 1 ∧
  detail.tag tb q.m_OutputPos ≤ detail.tag tb q.m_Writer.input_pos ∧
  (∀ a ∈ q.m_PositionArray, a = detail.max_pos ∨ a < N + 1) ∧
  ring_order q

/-- The argument `n` of a `consume_n` step is small enough for `output_pos + n` not to wrap. -/
def Step.in_range : Step Obj → Prop
  | .consume_n _ n _ _ => n ≤ 2 ^ 63
  | _ => True

end ObjectQueueMCSP
end rb

/-! ## The byte arena and `BufferQueueSCSP` (`rb_common.h`, `BufferQueueSCSP.h`)

A `std::span<std::byte>` is the address of its first byte and its size; addresses are
`uintptr_t` values. -/

namespace rb

/-- `Buffer = std::span<std::byte>`. -/
structure Buffer where
  data : Nat
  size : Nat
deriving DecidableEq, Repr, Inhabited

namespace Buffer

/-- The empty span `{}`. -/
def nil : Buffer := ⟨0, 0⟩

/-- `span.empty()`. -/
def empty (b : Buffer) : Bool := b.size == 0

/-- `span.subspan(offset)`. -/
def subspan_from (b : Buffer) (offset : Nat) : Buffer := ⟨b.data + offset, b.size - offset⟩

/-- `span.subspan(offset, count)`. -/
def subspan (b : Buffer) (offset count : Nat) : Buffer := ⟨b.data + offset, count⟩

/-- `span.first(count)`. -/
def first (b : Buffer) (count : Nat) : Buffer := ⟨b.data, count⟩

/-- The bytes of `r` are bytes of `c`. -/
def within (r c : Buffer) : Prop := c.data ≤ r.data ∧ r.data + r.size ≤ c.data + c.size

/-- No byte belongs to both ranges. -/
def disjoint (x y : Buffer) : Prop :=
  x.size = 0 ∨ y.size = 0 ∨ x.data + x.size ≤ y.data ∨ y.data + y.size ≤ x.data

instance (r c : Buffer) : Decidable (within r c) := by unfold within; infer_instance

instance (x y : Buffer) : Decidable (disjoint x y) := by unfold disjoint; infer_instance

end Buffer

namespace detail

/-- `detail::RingBuffer<std::byte>`: the arena span and its two cursors. -/
structure ByteRingBuffer where
  buffer : Buffer
  input_pos : Nat
  output_pos : Nat
deriving DecidableEq, Repr

/-- The lambda `getAlignedStorage` of `detail::get_storage`. -/
def getAlignedStorage (bytes alignment : Nat) (buffer : Buffer) : Buffer :=
  let avl_bytes := buffer.size
  if avl_bytes < bytes then Buffer.nil
  else
    let ptr := buffer.data
    let aligned_ptr := Nat.land (add_sz (sub_sz ptr 1) alignment) (sub_sz 0 alignment)
    let diff := sub_sz aligned_ptr ptr
    if diff > sub_sz avl_bytes bytes then Buffer.nil
    else ⟨aligned_ptr, sub_sz avl_bytes diff⟩

/-- `detail::get_storage(rb, bytes, alignment)`. -/
def get_storage (rb : ByteRingBuffer) (bytes alignment : Nat) : Buffer :=
  if rb.input_pos ≥ rb.output_pos then
    let buffer := getAlignedStorage bytes alignment (rb.buffer.subspan_from rb.input_pos)
    if ¬ buffer.empty then buffer
    else if rb.output_pos ≠ 0 then
      getAlignedStorage bytes alignment (rb.buffer.first (sub_sz rb.output_pos 1))
    else Buffer.nil
  else
    getAlignedStorage bytes alignment
      (rb.buffer.subspan rb.input_pos (sub_sz (sub_sz rb.output_pos rb.input_pos) 1))

end detail

/-- The anonymous struct `m_Writer` of `BufferQueueSCSP`. -/
structure WriterBQ where
  input_pos : Nat
  output_pos : Nat
  byte_rb : detail.ByteRingBuffer
deriving DecidableEq, Repr

/-- `rb::BufferQueueSCSP<buffer_align, wait_interface>`. -/
structure BufferQueueSCSP where
  m_Writer : WriterBQ
  m_Reader : ReaderSCSP
  m_SpliceArray : List Buffer
deriving DecidableEq, Repr

namespace BufferQueueSCSP

/-- The constructor `BufferQueueSCSP(buffer_size, max_buffers)`; `arena` is the address
`allocate_bytes(buffer_size, buffer_align)` returned.  The splice array starts out
uninitialised; its slots are given the value `{}`. -/
def mk_queue (arena buffer_size max_buffers : Nat) : BufferQueueSCSP :=
  { m_Writer := { input_pos := 0, output_pos := 0,
                  byte_rb := { buffer := ⟨arena, buffer_size⟩, input_pos := 0, output_pos := 0 } }
    m_Reader := ⟨0, 0⟩
    m_SpliceArray := List.replicate (add_sz max_buffers 1) Buffer.nil }

/-- `buffer_size()`. -/
def buffer_size (q : BufferQueueSCSP) : Nat := q.m_Writer.byte_rb.buffer.size

/-- `max_buffers()`. -/
def max_buffers (q : BufferQueueSCSP) : Nat := sub_sz q.m_SpliceArray.length 1

/-- `empty()`. -/
def empty (q : BufferQueueSCSP) : Bool := q.m_Writer.input_pos == q.m_Reader.output_pos

/-- `count()`. -/
def count (q : BufferQueueSCSP) : Nat :=
  detail.count q.m_Reader.output_pos q.m_Writer.input_pos q.m_SpliceArray.length

/-- The descriptor in slot `i` of the splice array. -/
def splice_at (q : BufferQueueSCSP) (i : Nat) : Buffer := (q.m_SpliceArray.get? i).getD Buffer.nil

/-- `consume(functor)`: returned flag, the descriptors handed to the functor, queue afterwards. -/
def consume (q : BufferQueueSCSP) : Bool × List Buffer × BufferQueueSCSP :=
  let output_pos := q.m_Reader.output_pos
  let go (q1 : BufferQueueSCSP) : Bool × List Buffer × BufferQueueSCSP :=
    let next_pos := add_sz output_pos 1
    (true, [q1.splice_at output_pos],
      { q1 with m_Reader := { q1.m_Reader with
          output_pos := if next_pos ≠ q1.m_SpliceArray.length then next_pos else 0 } })
  if output_pos = q.m_Reader.input_pos then
    let q1 := { q with m_Reader := { q.m_Reader with input_pos := q.m_Writer.input_pos } }
    if output_pos = q1.m_Reader.input_pos then (false, [], q1) else go q1
  else go q

/-- `consume_all(functor)`. -/
def consume_all (q : BufferQueueSCSP) : Nat × List Buffer × BufferQueueSCSP :=
  let rb : detail.RingBuffer Buffer :=
    { buffer := q.m_SpliceArray, input_pos := q.m_Writer.input_pos,
      output_pos := q.m_Reader.output_pos }
  let a := detail.apply rb
  (a.2, a.1.map q.splice_at,
    { q with m_Reader := { output_pos := rb.input_pos, input_pos := rb.input_pos } })

/-- `consume_n(functor, n)`. -/
def consume_n (q : BufferQueueSCSP) (n : Nat) : Nat × List Buffer × BufferQueueSCSP :=
  let output_pos := q.m_Reader.output_pos
  let input_pos := q.m_Writer.input_pos
  let next_pos := detail.next_pos output_pos input_pos q.m_SpliceArray.length n
  let a := detail.apply
    ({ buffer := q.m_SpliceArray, input_pos := next_pos, output_pos := output_pos } :
      detail.RingBuffer Buffer)
  (a.2, a.1.map q.splice_at,
    { q with m_Reader := { output_pos := next_pos, input_pos := input_pos } })

/-- The private `sync()`. -/
def sync (q : BufferQueueSCSP) : BufferQueueSCSP :=
  let output_pos := q.m_Reader.output_pos
  { q with m_Writer := { q.m_Writer with
      output_pos := output_pos
      byte_rb := { q.m_Writer.byte_rb with
        output_pos :=
          if output_pos ≠ q.m_Writer.input_pos then
            sub_sz (q.splice_at output_pos).data q.m_Writer.byte_rb.buffer.data
          else q.m_Writer.byte_rb.input_pos } } }

/-- The common first part of `allocate` and `allocate_and_release`: the carved range (empty on
failure) and the queue afterwards. -/
def carve (q : BufferQueueSCSP) (size_bytes alignment : Nat) : Buffer × BufferQueueSCSP :=
  let input_pos := q.m_Writer.input_pos
  let next_pos := if add_sz input_pos 1 ≠ q.m_SpliceArray.length then add_sz input_pos 1 else 0
  let buffer := detail.get_storage q.m_Writer.byte_rb size_bytes alignment
  if next_pos = q.m_Writer.output_pos ∨ buffer.empty then
    let q1 := sync q
    let buffer1 := detail.get_storage q1.m_Writer.byte_rb size_bytes alignment
    if next_pos = q1.m_Writer.output_pos ∨ buffer1.empty then (Buffer.nil, q1) else (buffer1, q1)
  else (buffer, q)

/-- `allocate(size_bytes, alignment)`. -/
def allocate (q : BufferQueueSCSP) (size_bytes alignment : Nat) : Buffer × BufferQueueSCSP :=
  carve q size_bytes alignment

/-- `release(buffer_rel)`. -/
def release (q : BufferQueueSCSP) (buffer_rel : Buffer) : Nat × BufferQueueSCSP :=
  let input_pos := q.m_Writer.input_pos
  let next_pos := if add_sz input_pos 1 ≠ q.m_SpliceArray.length then add_sz input_pos 1 else 0
  (buffer_rel.size,
    { q with
      m_SpliceArray := q.m_SpliceArray.set input_pos buffer_rel
      m_Writer := { q.m_Writer with
        input_pos := next_pos
        byte_rb := { q.m_Writer.byte_rb with
          input_pos :=
            add_sz (sub_sz buffer_rel.data q.m_Writer.byte_rb.buffer.data) buffer_rel.size } } })

/-- `allocate_and_release(size_bytes, alignment, functor)`: the returned optional size, the
range the functor was invoked with (if it was invoked), and the queue afterwards. -/
def allocate_and_release (q : BufferQueueSCSP) (size_bytes alignment : Nat)
    (functor : Buffer → Buffer) : Option Nat × Option Buffer × BufferQueueSCSP :=
  let input_pos := q.m_Writer.input_pos
  let next_pos := if add_sz input_pos 1 ≠ q.m_SpliceArray.length then add_sz input_pos 1 else 0
  let go (q1 : BufferQueueSCSP) (buffer : Buffer) : Option Nat × Option Buffer × BufferQueueSCSP :=
    let buffer_rel := functor buffer
    (some buffer_rel.size, some buffer,
      { q1 with
        m_SpliceArray := q1.m_SpliceArray.set input_pos buffer_rel
        m_Writer := { q1.m_Writer with
          input_pos := next_pos
          byte_rb := { q1.m_Writer.byte_rb with
            input_pos :=
              add_sz (sub_sz buffer_rel.data q1.m_Writer.byte_rb.buffer.data)
                buffer_rel.size } } })
  let buffer := detail.get_storage q.m_Writer.byte_rb size_bytes alignment
  if next_pos = q.m_Writer.output_pos ∨ buffer.empty then
    let q1 := sync q
    let buffer1 := detail.get_storage q1.m_Writer.byte_rb size_bytes alignment
    if next_pos = q1.m_Writer.output_pos ∨ buffer1.empty then (none, none, q1) else go q1 buffer1
  else go q buffer

/-- The released buffers not yet consumed, oldest first: the descriptors in the slots from
`m_Reader.output_pos` up to `m_Writer.input_pos`. -/
def stored (q : BufferQueueSCSP) : List Buffer :=
  (ring_slots q.m_SpliceArray.length q.m_Reader.output_pos
    (ring_dist q.m_SpliceArray.length q.m_Reader.output_pos q.m_Writer.input_pos)).map
    q.splice_at

end BufferQueueSCSP
end rb

namespace rb
namespace BufferQueueSCSP

/-- Well-formed slot ring of a buffer queue with `M + 1` slots: all cursors inside the ring, and
going round from the writer's cached output position one meets the reader's output position,
the reader's cached input position and the writer's input position, in this order, within one
lap. -/
def WF (M : Nat) (q : BufferQueueSCSP) : Prop :=
  q.m_SpliceArray.length = M + 1 ∧ M + 1 < 2 ^ 64 ∧
  q.m_Writer.input_pos < M + 1 ∧ q.m_Writer.output_pos < M + 1 ∧
  q.m_Reader.output_pos < M + 1 ∧ q.m_Reader.input_pos < M + 1 ∧
  ring_dist (M + 1) q.m_Writer.output_pos q.m_Reader.output_pos +
    ring_dist (M + 1) q.m_Reader.output_pos q.m_Reader.input_pos +
    ring_dist (M + 1) q.m_Reader.input_pos q.m_Writer.input_pos ≤ M

instance (M : Nat) (q : BufferQueueSCSP) : Decidable (WF M q) := by
  unfold WF; infer_instance

end BufferQueueSCSP
end rb

namespace rb
namespace BufferQueueSCSP

/-- The buffers of `ds` lie one after the other, in list order, between address `lo` and
address `hi`. -/
def chain (lo hi : Nat) : List Buffer → Prop
  | [] => lo ≤ hi
  | d :: ds => lo ≤ d.data ∧ chain (d.data + d.size) hi ds

/-- The descriptors the writer has not reclaimed yet, oldest first: the slots from the writer's
cached output position up to `input_pos`. -/
def window (q : BufferQueueSCSP) : List Buffer :=
  (ring_slots q.m_SpliceArray.length q.m_Writer.output_pos
    (ring_dist q.m_SpliceArray.length q.m_Writer.output_pos q.m_Writer.input_pos)).map
    q.splice_at

/-- The arena invariant: the arena fits the address space, both arena cursors are inside it, and
the unreclaimed buffers lie in release order between the arena cursors `out` and `in`: either in
`[out, in]`, or, when the arena has wrapped (`in < out`), first in `[out, B]` and then in
`[0, in]`. -/
def arena_inv (q : BufferQueueSCSP) : Prop :=
  q.m_Writer.byte_rb.buffer.data + q.m_Writer.byte_rb.buffer.size < 2 ^ 64 ∧
  q.m_Writer.byte_rb.input_pos ≤ q.m_Writer.byte_rb.buffer.size ∧
  q.m_Writer.byte_rb.output_pos ≤ q.m_Writer.byte_rb.buffer.size ∧
  ((q.m_Writer.byte_rb.output_pos ≤ q.m_Writer.byte_rb.input_pos ∧
      chain (q.m_Writer.byte_rb.buffer.data + q.m_Writer.byte_rb.output_pos)
        (q.m_Writer.byte_rb.buffer.data + q.m_Writer.byte_rb.input_pos) (window q)) ∨
    (q.m_Writer.byte_rb.input_pos < q.m_Writer.byte_rb.output_pos ∧
      ∃ d1 d2, window q = d1 ++ d2 ∧
        chain (q.m_Writer.byte_rb.buffer.data + q.m_Writer.byte_rb.output_pos)
          (q.m_Writer.byte_rb.buffer.data + q.m_Writer.byte_rb.buffer.size) d1 ∧
        chain q.m_Writer.byte_rb.buffer.data
          (q.m_Writer.byte_rb.buffer.data + q.m_Writer.byte_rb.input_pos) d2))

/-- The range `c` lies in the free part of the arena: in the forward region `[in, B)`, or in the
wrap region `[0, out - 1)`, or, when the arena has wrapped, in `[in, out - 1)`. -/
def in_free_region (q : BufferQueueSCSP) (c : Buffer) : Prop :=
  (q.m_Writer.byte_rb.output_pos ≤ q.m_Writer.byte_rb.input_pos ∧
      q.m_Writer.byte_rb.buffer.data + q.m_Writer.byte_rb.input_pos ≤ c.data ∧
      c.data + c.size ≤ q.m_Writer.byte_rb.buffer.data + q.m_Writer.byte_rb.buffer.size) ∨
  (q.m_Writer.byte_rb.output_pos ≤ q.m_Writer.byte_rb.input_pos ∧
      q.m_Writer.byte_rb.buffer.data ≤ c.data ∧
      c.data + c.size + 1 ≤ q.m_Writer.byte_rb.buffer.data + q.m_Writer.byte_rb.output_pos) ∨
  (q.m_Writer.byte_rb.input_pos < q.m_Writer.byte_rb.output_pos ∧
      q.m_Writer.byte_rb.buffer.data + q.m_Writer.byte_rb.input_pos ≤ c.data ∧
      c.data + c.size + 1 ≤ q.m_Writer.byte_rb.buffer.data + q.m_Writer.byte_rb.output_pos)

/-- The states of a buffer queue with arena address `arena`, arena size `B` and `M` slots that
sequences of `allocate`, `release`, `allocate_and_release`, `consume`, `consume_all` and
`consume_n` calls reach, together with the range carved by the last call if that call was a
successful `allocate`.  A `release` follows a successful `allocate` (consumer calls may come in
between) and releases a sub-range of the range it carved; the builder of
`allocate_and_release` returns a sub-range of the range it is handed; `consume_n` is called
with an `n` for which `output_pos + n` does not wrap. -/
inductive Reachable (arena B M : Nat) : BufferQueueSCSP → Option Buffer → Prop where
  | init : Reachable arena B M (mk_queue arena B M) none
  | consume {q g} : Reachable arena B M q g → Reachable arena B M (consume q).2.2 g
  | consume_all {q g} : Reachable arena B M q g → Reachable arena B M (consume_all q).2.2 g
  | consume_n {q g} (n : Nat) : Reachable arena B M q g →
      q.m_Reader.output_pos + n < 2 ^ 64 → Reachable arena B M (consume_n q n).2.2 g
  | allocate {q g} (size_bytes alignment : Nat) : Reachable arena B M q g →
      Reachable arena B M (allocate q size_bytes alignment).2
        (if (allocate q size_bytes alignment).1.size = 0 then none
          else some (allocate q size_bytes alignment).1)
  | release {q c} (buffer_rel : Buffer) : Reachable arena B M q (some c) →
      buffer_rel.within c → Reachable arena B M (release q buffer_rel).2 none
  | allocate_and_release {q g} (size_bytes alignment : Nat) (functor : Buffer → Buffer) :
      Reachable arena B M q g →
      ((allocate q size_bytes alignment).1.size ≠ 0 →
        (functor (allocate q size_bytes alignment).1).within
          (allocate q size_bytes alignment).1) →
      Reachable arena B M (allocate_and_release q size_bytes alignment functor).2.2 none

end BufferQueueSCSP
end rb

namespace rb
namespace BufferQueueSCSP

/-- The invariant of the reachable states: the slot ring is well formed, the arena invariant
holds, the arena is the one the queue was built with, and a range carved by a pending
`allocate` is not empty, lies in the free part of the arena, and has a free slot waiting. -/
def reach_inv (arena B M : Nat) (q : BufferQueueSCSP) (g : Option Buffer) : Prop :=
  WF M q ∧ arena_inv q ∧ q.m_Writer.byte_rb.buffer = ⟨arena, B⟩ ∧
  ∀ c, g = some c →
    c.size ≠ 0 ∧ in_free_region q c ∧
      ring_wrap (M + 1) (q.m_Writer.input_pos + 1) ≠ q.m_Writer.output_pos

end BufferQueueSCSP
end rb

namespace rb

/-- The first multiple of `a` that is not below `x`. -/
def align_up (a x : Nat) : Nat := (x + a - 1) / a * a

end rb

/-! ## Destruction of the objects left in an object queue (`rb_common.h`, `ObjectQueueSCSP.h`) -/

namespace rb
namespace detail

/-- `std::ranges::destroy(span)` on the slots of `visited`, from left to right: the content of
each slot when `std::destroy_at` reaches it, and the storage afterwards. -/
def destroy_each {Obj : Type} :
    List Nat → List (Option Obj) → List (Option Obj) × List (Option Obj)
  | [], buffer => ([], buffer)
  | i :: rest, buffer =>
    let obj := (buffer.get? i).getD none
    let r := destroy_each rest (buffer.set i none)
    (obj :: r.1, r.2)

/-- `detail::destroy_non_consumed(rb)`: the slots destroyed, in order, what they held, and the
storage afterwards. -/
def destroy_non_consumed {Obj : Type} (rb : RingBuffer (Option Obj)) :
    List Nat × List (Option Obj) × List (Option Obj) :=
  if rb.output_pos = rb.input_pos then ([], [], rb.buffer)
  else if rb.output_pos > rb.input_pos then
    let rng1 := subspan_from rb.buffer.length rb.output_pos
    let rng2 := first rb.input_pos
    let r1 := destroy_each rng1.slots rb.buffer
    let r2 := destroy_each rng2.slots r1.2
    (rng1.slots ++ rng2.slots, r1.1 ++ r2.1, r2.2)
  else
    let rng := subspan rb.output_pos (sub_sz rb.input_pos rb.output_pos)
    let r := destroy_each rng.slots rb.buffer
    (rng.slots, r.1, r.2)

end detail

namespace ObjectQueueSCSP

variable {Obj : Type}

/-- The destructor `~ObjectQueueSCSP()`: the slots whose object it destroys, in order, what
they held, and the storage handed back to the allocator. -/
def destructor (q : ObjectQueueSCSP Obj) : List Nat × List (Option Obj) × List (Option Obj) :=
  detail.destroy_non_consumed
    { buffer := q.m_Buffer, input_pos := q.m_Writer.input_pos,
      output_pos := q.m_Reader.output_pos }

/-- Slot `j` lies in the live range `[output_pos, input_pos)` of the ring. -/
def live (q : ObjectQueueSCSP Obj) (j : Nat) : Prop :=
  ring_dist q.m_Buffer.length q.m_Reader.output_pos j <
    ring_dist q.m_Buffer.length q.m_Reader.output_pos q.m_Writer.input_pos

instance (q : ObjectQueueSCSP Obj) (j : Nat) : Decidable (live q j) := by
  unfold live; infer_instance

/-- The lifetime invariant: a slot of the ring holds a constructed object exactly when it lies
in the live range. -/
def lifetime_inv (q : ObjectQueueSCSP Obj) : Prop :=
  ∀ j, j < q.m_Buffer.length → ((slot_at q.m_Buffer j).isSome = true ↔ live q j)

end ObjectQueueSCSP
end rb

/-! ## Function queues (`detail/fq_common.h`, `FunctionQueue.h`, `FunctionQueueSCSP.h`,
`FunctionQueueMCSP.h`)

Conventions of the embedding
* A type `Callable` is given by what the templates use of it: its size and alignment, the type
  traits, and its call operator as a function of the object's state `S` (its captures) and the
  arguments.  The call operator does not modify the object.
* The objects constructed in the arena are recorded per address (`Memory.live`); every call of
  `std::destroy_at` is logged (`Memory.destroyed`).
* A pointer to function is the name of the function it points to.
* A consumer functor is given by the arguments it invokes the wrapper it receives with, one
  invocation after the other; the wrapper goes out of scope when the functor returns. -/

namespace rb

/-- `enum class FQOpt`. -/
inductive FQOpt where
  | InvokeOnce
  | InvokeOnceDNI
  | InvokeMultiple
deriving DecidableEq, Repr

/-- What the templates use of a type `Callable`. -/
structure CallableType (S Args R : Type) where
  /-- `sizeof(Callable)`. -/
  size_of : Nat
  /-- `alignof(Callable)`. -/
  align_of : Nat
  /-- `std::is_empty_v<Callable>`. -/
  is_empty : Bool
  /-- `std::is_trivially_default_constructible_v<Callable>`. -/
  is_trivially_default_constructible : Bool
  /-- `std::is_trivially_destructible_v<Callable>`. -/
  is_trivially_destructible : Bool
  /-- The call operator, applied to an object in state `s`. -/
  call : S → Args → R
  /-- The state of the object `Callable{}`. -/
  value_init : S

namespace detail

/-- The concept `empty_callable<Callable>`. -/
def empty_callable {S Args R : Type} (T : CallableType S Args R) : Bool :=
  T.is_empty && T.is_trivially_default_constructible && T.is_trivially_destructible

/-- One call of `std::destroy_at`: the address, whether the destructor of the type is trivial,
and the object that was alive at the address (`none`: there was none). -/
structure Destroyed (S : Type) where
  addr : Nat
  trivial : Bool
  obj : Option S
deriving DecidableEq, Repr

/-- The objects in the arena and the log of the destructions. -/
structure Memory (S : Type) where
  /-- The state of the object alive at an address, if one is. -/
  live : Nat → Option S
  /-- The calls of `std::destroy_at`, in call order. -/
  destroyed : List (Destroyed S)

namespace Memory

variable {S Args R : Type}

/-- Memory without objects. -/
def fresh : Memory S := ⟨fun _ => none, []⟩

/-- `std::construct_at(ptr, cargs...)`, where `s` is the state of the object built. -/
def construct_at (m : Memory S) (ptr : Nat) (s : S) : Memory S :=
  { m with live := fun a => if a = ptr then some s else m.live a }

/-- `std::destroy_at(ptr)` for an object of type `T`. -/
def destroy_at (m : Memory S) (T : CallableType S Args R) (ptr : Nat) : Memory S :=
  { live := fun a => if a = ptr then none else m.live a
    destroyed := m.destroyed ++ [⟨ptr, T.is_trivially_destructible, m.live ptr⟩] }

end Memory

/-- `IFPtr<FSig>::type`: a pointer to one of the invokers of `FunctionPtrs<Callable, FSig>`. -/
inductive IFPtr (S Args R : Type) where
  /-- `FunctionPtrs<Callable, FSig>::indfptr`. -/
  | indfptr (T : CallableType S Args R)
  /-- `FunctionPtrs<Callable, FSig>::ifptr`. -/
  | ifptr (T : CallableType S Args R)

/-- `DFPtr`: a pointer to the function `destroy` of `FunctionPtrs<Callable, FSig>`. -/
inductive DFPtr (S Args R : Type) where
  /-- `FunctionPtrs<Callable, FSig>::dfptr`. -/
  | dfptr (T : CallableType S Args R)

namespace FunctionPtrs

variable {S Args R : Type}

/-- `FunctionPtrs<Callable, R(Args...)>::invoke_and_destroy(data, args...)`: the returned value
(`none` when no object is alive at `data`) and the memory afterwards. -/
def invoke_and_destroy (T : CallableType S Args R) (m : Memory S) (data : Nat) (args : Args) :
    Option R × Memory S :=
  if empty_callable T then (some (T.call T.value_init args), m)
  else ((m.live data).map (fun s => T.call s args), m.destroy_at T data)

/-- `FunctionPtrs<Callable, R(Args...)>::invoke(data, args...)`. -/
def invoke (T : CallableType S Args R) (m : Memory S) (data : Nat) (args : Args) :
    Option R × Memory S :=
  if empty_callable T then (some (T.call T.value_init args), m)
  else ((m.live data).map (fun s => T.call s args), m)

/-- `FunctionPtrs<Callable, R(Args...)>::destroy(data)`. -/
def destroy (T : CallableType S Args R) (m : Memory S) (data : Nat) : Memory S :=
  m.destroy_at T data

end FunctionPtrs

variable {S Args R : Type}

/-- The type `Callable` an invoker was instantiated for. -/
def IFPtr.type : IFPtr S Args R → CallableType S Args R
  | .indfptr T => T
  | .ifptr T => T

/-- `std::invoke(fptr, obj, args...)`. -/
def IFPtr.invoke : IFPtr S Args R → Memory S → Nat → Args → Option R × Memory S
  | .indfptr T => FunctionPtrs.invoke_and_destroy T
  | .ifptr T => FunctionPtrs.invoke T

/-- `std::invoke(dfptr, obj)`. -/
def DFPtr.invoke : DFPtr S Args R → Memory S → Nat → Memory S
  | .dfptr T => FunctionPtrs.destroy T

/-- The member `dfptr` of `FData<FSig, opt>`. -/
inductive DField (S Args R : Type) where
  /-- The empty struct `Empty`, the type of the member when `opt == FQOpt::InvokeOnce`. -/
  | Empty
  /-- A `DFPtr`; `none` is `nullptr`. -/
  | ptr (p : Option (DFPtr S Args R))

/-- `FData<FSig, opt>`. -/
structure FData (S Args R : Type) where
  obj : Nat
  fptr : IFPtr S Args R
  dfptr : DField S Args R

/-- `Function<FSig, opt>`: the wrapper handed to a consumer; `m_FD` is `none` when it is
`nullptr`. -/
structure Function (S Args R : Type) where
  m_FD : Option (FData S Args R)

/-- `Function::operator()(args...)`: the returned value (`none` when `m_FD` is null or no object
is alive at `m_FD->obj`), the wrapper and the memory afterwards. -/
def Function.call (opt : FQOpt) (f : Function S Args R) (m : Memory S) (args : Args) :
    Option R × Function S Args R × Memory S :=
  match f.m_FD with
  | none => (none, f, m)
  | some fd =>
    let r := fd.fptr.invoke m fd.obj args
    (r.1, if opt = FQOpt.InvokeOnceDNI then ⟨none⟩ else f, r.2)

/-- `Function::~Function()`. -/
def Function.destructor (opt : FQOpt) (f : Function S Args R) (m : Memory S) : Memory S :=
  if opt = FQOpt.InvokeOnce then m
  else
    match f.m_FD with
    | none => m
    | some fd =>
      match fd.dfptr with
      | .ptr (some d) => d.invoke m fd.obj
      | _ => m

/-- A consumer functor at work on the wrapper it received: it invokes the wrapper with the
arguments of `script`, one after the other.  Returns the values the invocations returned. -/
def run_script (opt : FQOpt) :
    List Args → Function S Args R → Memory S → List (Option R) × Function S Args R × Memory S
  | [], f, m => ([], f, m)
  | a :: rest, f, m =>
    let r := f.call opt m a
    let rs := run_script opt rest r.2.1 r.2.2
    (r.1 :: rs.1, rs.2.1, rs.2.2)

/-- `detail::invoke(func, fd)`, that is `fwd(func)(Function{&fd})`: the wrapper is built, the
functor runs, and the wrapper is destroyed.  A slot that was never written holds no descriptor
(`none`).  In the source the members of such a slot are uninitialised; a wrapper built on it
that is invoked (or, outside `InvokeOnce`, destroyed) reads them, which is undefined behaviour:
the program has no result there.  The value given for `none` only keeps the function total and
stands for no behaviour of the program; the claims proved about runs of the queues hand the
functors wrappers of written slots only. -/
def invoke (opt : FQOpt) (script : List Args) (fd : Option (FData S Args R)) (m : Memory S) :
    List (Option R) × Memory S :=
  match fd with
  | none => (script.map (fun _ => none), m)
  | some d =>
    let r := run_script opt script ⟨some d⟩ m
    (r.1, r.2.1.destructor opt r.2.2)

/-- The lambda of `detail::invoke(func, rb)` run on the slots of `visited`, from left to
right. -/
def invoke_each (opt : FQOpt) (script : List Args) (buffer : List (Option (FData S Args R))) :
    List Nat → Memory S → List (List (Option R)) × Memory S
  | [], m => ([], m)
  | i :: rest, m =>
    let r := invoke opt script ((buffer.get? i).getD none) m
    let rs := invoke_each opt script buffer rest r.2
    (r.1 :: rs.1, rs.2)

/-- `detail::invoke(func, rb)`: the returned count, the values returned to the functor for each
wrapper, and the memory afterwards. -/
def invoke_all (opt : FQOpt) (script : List Args) (rb : RingBuffer (Option (FData S Args R)))
    (m : Memory S) : Nat × List (List (Option R)) × Memory S :=
  let a := apply rb
  let r := invoke_each opt script rb.buffer a.1 m
  (a.2, r.1, r.2)

/-- `detail::EmplaceResult<FSig, opt>`. -/
structure EmplaceResult (S Args R : Type) where
  fd : FData S Args R
  next_pos : Nat

/-- `detail::get_storage<Callable>(rb)`; the null pointer is `0`. -/
def get_storage_callable (T : CallableType S Args R) (rb : ByteRingBuffer) : Nat :=
  if ¬ empty_callable T then
    let buffer := get_storage rb T.size_of T.align_of
    if buffer.empty then 0 else buffer.data
  else add_sz rb.buffer.data rb.input_pos

/-- `detail::emplace<Callable, FSig, opt>(ptr, cargs...)`, where `s` is the state of the object
`std::construct_at` builds from `cargs`. -/
def emplace (opt : FQOpt) (T : CallableType S Args R) (m : Memory S) (ptr : Nat) (s : S) :
    EmplaceResult S Args R × Memory S :=
  let fptr : IFPtr S Args R := if opt = FQOpt.InvokeMultiple then .ifptr T else .indfptr T
  let dfptr : DField S Args R :=
    if opt ≠ FQOpt.InvokeOnce then
      .ptr (if T.is_trivially_destructible then none else some (.dfptr T))
    else .Empty
  if ¬ empty_callable T then
    (⟨⟨ptr, fptr, dfptr⟩, add_sz ptr T.size_of⟩, m.construct_at ptr s)
  else (⟨⟨ptr, fptr, dfptr⟩, ptr⟩, m)

/-- The lambda `destroy` of `detail::destroy_non_consumed` run on the slots of `visited`. -/
def destroy_functions (buffer : List (Option (FData S Args R))) : List Nat → Memory S → Memory S
  | [], m => m
  | i :: rest, m =>
    let m1 :=
      match (buffer.get? i).getD none with
      | some ⟨obj, _, .ptr (some d)⟩ => d.invoke m obj
      | _ => m
    destroy_functions buffer rest m1

/-- `detail::destroy_non_consumed(rb)` for a ring of function descriptors. -/
def destroy_non_consumed_functions (rb : RingBuffer (Option (FData S Args R))) (m : Memory S) :
    Memory S :=
  if rb.output_pos = rb.input_pos then m
  else if rb.output_pos > rb.input_pos then
    let m1 := destroy_functions rb.buffer (subspan_from rb.buffer.length rb.output_pos).slots m
    destroy_functions rb.buffer (first rb.input_pos).slots m1
  else
    destroy_functions rb.buffer
      (subspan rb.output_pos (sub_sz rb.input_pos rb.output_pos)).slots m

/-- The member `obj` of the descriptor in slot `i`. -/
def obj_at (buffer : List (Option (FData S Args R))) (i : Nat) : Nat :=
  match (buffer.get? i).getD none with
  | some fd => fd.obj
  | none => 0

end detail
end rb

/-! ### `FunctionQueue`, `FunctionQueueSCSP`, `FunctionQueueMCSP` -/

namespace rb

/-- `rb::FunctionQueue<FSig, opt, buffer_align>`; `memory` is the memory of the arena
`m_ByteRB.buffer`. -/
structure FunctionQueue (S Args R : Type) where
  m_FunctionRB : detail.RingBuffer (Option (detail.FData S Args R))
  m_ByteRB : detail.ByteRingBuffer
  memory : detail.Memory S

namespace FunctionQueue

variable {S Args R : Type}

/-- The constructor `FunctionQueue(buffer_size, max_functions)`; `arena` is the address
`allocate_bytes(buffer_size, buffer_align)` returned. -/
def mk_queue (arena buffer_size max_functions : Nat) : FunctionQueue S Args R :=
  { m_FunctionRB := { buffer := List.replicate (add_sz max_functions 1) none,
                      input_pos := 0, output_pos := 0 }
    m_ByteRB := { buffer := ⟨arena, buffer_size⟩, input_pos := 0, output_pos := 0 }
    memory := detail.Memory.fresh }

/-- `buffer_size()`. -/
def buffer_size (q : FunctionQueue S Args R) : Nat := q.m_ByteRB.buffer.size

/-- `max_functions()`. -/
def max_functions (q : FunctionQueue S Args R) : Nat := sub_sz q.m_FunctionRB.buffer.length 1

/-- `empty()`. -/
def empty (q : FunctionQueue S Args R) : Bool :=
  q.m_FunctionRB.input_pos == q.m_FunctionRB.output_pos

/-- `count()`. -/
def count (q : FunctionQueue S Args R) : Nat :=
  detail.count q.m_FunctionRB.output_pos q.m_FunctionRB.input_pos q.m_FunctionRB.buffer.length

/-- The private `set_output_pos(next_pos)`. -/
def set_output_pos (q : FunctionQueue S Args R) (next_pos : Nat) : FunctionQueue S Args R :=
  { q with
    m_FunctionRB := { q.m_FunctionRB with output_pos := next_pos }
    m_ByteRB := { q.m_ByteRB with
      output_pos :=
        if next_pos ≠ q.m_FunctionRB.input_pos then
          sub_sz (detail.obj_at q.m_FunctionRB.buffer next_pos) q.m_ByteRB.buffer.data
        else q.m_ByteRB.input_pos } }

/-- `consume(functor)`: the returned flag, the values returned to the functor, the queue
afterwards. -/
def consume (opt : FQOpt) (q : FunctionQueue S Args R) (script : List Args) :
    Bool × List (List (Option R)) × FunctionQueue S Args R :=
  if q.empty then (false, [], q)
  else
    let r := detail.invoke opt script
      ((q.m_FunctionRB.buffer.get? q.m_FunctionRB.output_pos).getD none) q.memory
    let next_pos := add_sz q.m_FunctionRB.output_pos 1
    (true, [r.1],
      set_output_pos { q with memory := r.2 }
        (if next_pos ≠ q.m_FunctionRB.buffer.length then next_pos else 0))

/-- `consume_all(functor)`. -/
def consume_all (opt : FQOpt) (q : FunctionQueue S Args R) (script : List Args) :
    Nat × List (List (Option R)) × FunctionQueue S Args R :=
  let r := detail.invoke_all opt script q.m_FunctionRB q.memory
  (r.1, r.2.1, set_output_pos { q with memory := r.2.2 } q.m_FunctionRB.input_pos)

/-- `consume_n(functor, n)`. -/
def consume_n (opt : FQOpt) (q : FunctionQueue S Args R) (script : List Args) (n : Nat) :
    Nat × List (List (Option R)) × FunctionQueue S Args R :=
  let next_pos := detail.next_pos q.m_FunctionRB.output_pos q.m_FunctionRB.input_pos
    q.m_FunctionRB.buffer.length n
  let r := detail.invoke_all opt script
    { buffer := q.m_FunctionRB.buffer, input_pos := next_pos,
      output_pos := q.m_FunctionRB.output_pos } q.memory
  (r.1, r.2.1, set_output_pos { q with memory := r.2.2 } next_pos)

/-- `emplace<Callable>(args...)`, where `s` is the state of the object built from `args`. -/
def emplace (opt : FQOpt) (q : FunctionQueue S Args R) (T : CallableType S Args R) (s : S) :
    Bool × FunctionQueue S Args R :=
  let next_pos0 := add_sz q.m_FunctionRB.input_pos 1
  let ptr := detail.get_storage_callable T q.m_ByteRB
  let next_pos := if next_pos0 = q.m_FunctionRB.buffer.length then 0 else next_pos0
  if next_pos = q.m_FunctionRB.output_pos ∨ ptr = 0 then (false, q)
  else
    let res := detail.emplace opt T q.memory ptr s
    (true,
      { m_ByteRB := { q.m_ByteRB with
          input_pos := sub_sz res.1.next_pos q.m_ByteRB.buffer.data }
        m_FunctionRB := { q.m_FunctionRB with
          buffer := q.m_FunctionRB.buffer.set q.m_FunctionRB.input_pos (some res.1.fd)
          input_pos := next_pos }
        memory := res.2 })

/-- `push(callable)`. -/
def push (opt : FQOpt) (q : FunctionQueue S Args R) (T : CallableType S Args R) (s : S) :
    Bool × FunctionQueue S Args R := emplace opt q T s

/-- The destructor `~FunctionQueue()`: the memory of the arena when it is handed back. -/
def destructor (opt : FQOpt) (q : FunctionQueue S Args R) : detail.Memory S :=
  if opt ≠ FQOpt.InvokeOnce then detail.destroy_non_consumed_functions q.m_FunctionRB q.memory
  else q.memory

end FunctionQueue

/-- `rb::FunctionQueueSCSP<FSig, opt, wait_interface, buffer_align>`; `memory` is the memory
of the arena `m_Writer.byte_rb.buffer`. -/
structure FunctionQueueSCSP (S Args R : Type) where
  m_Writer : WriterBQ
  m_Reader : ReaderSCSP
  m_FunctionArray : List (Option (detail.FData S Args R))
  memory : detail.Memory S

namespace FunctionQueueSCSP

variable {S Args R : Type}

/-- The constructor `FunctionQueueSCSP(buffer_size, max_functions)`. -/
def mk_queue (arena buffer_size max_functions : Nat) : FunctionQueueSCSP S Args R :=
  { m_Writer := { input_pos := 0, output_pos := 0,
                  byte_rb := { buffer := ⟨arena, buffer_size⟩, input_pos := 0, output_pos := 0 } }
    m_Reader := ⟨0, 0⟩
    m_FunctionArray := List.replicate (add_sz max_functions 1) none
    memory := detail.Memory.fresh }

/-- `buffer_size()`. -/
def buffer_size (q : FunctionQueueSCSP S Args R) : Nat := q.m_Writer.byte_rb.buffer.size

/-- `max_functions()`. -/
def max_functions (q : FunctionQueueSCSP S Args R) : Nat := sub_sz q.m_FunctionArray.length 1

/-- `empty()`. -/
def empty (q : FunctionQueueSCSP S Args R) : Bool :=
  q.m_Writer.input_pos == q.m_Reader.output_pos

/-- `count()`. -/
def count (q : FunctionQueueSCSP S Args R) : Nat :=
  detail.count q.m_Reader.output_pos q.m_Writer.input_pos q.m_FunctionArray.length

/-- `consume(functor)`. -/
def consume (opt : FQOpt) (q : FunctionQueueSCSP S Args R) (script : List Args) :
    Bool × List (List (Option R)) × FunctionQueueSCSP S Args R :=
  let output_pos := q.m_Reader.output_pos
  let go (q1 : FunctionQueueSCSP S Args R) :
      Bool × List (List (Option R)) × FunctionQueueSCSP S Args R :=
    let r := detail.invoke opt script ((q1.m_FunctionArray.get? output_pos).getD none) q1.memory
    let next_pos := add_sz output_pos 1
    (true, [r.1],
      { q1 with
        memory := r.2
        m_Reader := { q1.m_Reader with
          output_pos := if next_pos ≠ q1.m_FunctionArray.length then next_pos else 0 } })
  if output_pos = q.m_Reader.input_pos then
    let q1 := { q with m_Reader := { q.m_Reader with input_pos := q.m_Writer.input_pos } }
    if output_pos = q1.m_Reader.input_pos then (false, [], q1) else go q1
  else go q

/-- `consume_all(functor)`. -/
def consume_all (opt : FQOpt) (q : FunctionQueueSCSP S Args R) (script : List Args) :
    Nat × List (List (Option R)) × FunctionQueueSCSP S Args R :=
  let rb : detail.RingBuffer (Option (detail.FData S Args R)) :=
    { buffer := q.m_FunctionArray, input_pos := q.m_Writer.input_pos,
      output_pos := q.m_Reader.output_pos }
  let r := detail.invoke_all opt script rb q.memory
  (r.1, r.2.1,
    { q with memory := r.2.2
             m_Reader := { output_pos := rb.input_pos, input_pos := rb.input_pos } })

/-- `consume_n(functor, n)`. -/
def consume_n (opt : FQOpt) (q : FunctionQueueSCSP S Args R) (script : List Args) (n : Nat) :
    Nat × List (List (Option R)) × FunctionQueueSCSP S Args R :=
  let output_pos := q.m_Reader.output_pos
  let input_pos := q.m_Writer.input_pos
  let next_pos := detail.next_pos output_pos input_pos q.m_FunctionArray.length n
  let r := detail.invoke_all opt script
    { buffer := q.m_FunctionArray, input_pos := next_pos, output_pos := output_pos } q.memory
  (r.1, r.2.1,
    { q with memory := r.2.2
             m_Reader := { output_pos := next_pos, input_pos := input_pos } })

/-- The private `sync()`. -/
def sync (q : FunctionQueueSCSP S Args R) : FunctionQueueSCSP S Args R :=
  let output_pos := q.m_Reader.output_pos
  { q with m_Writer := { q.m_Writer with
      output_pos := output_pos
      byte_rb := { q.m_Writer.byte_rb with
        output_pos :=
          if output_pos ≠ q.m_Writer.input_pos then
            sub_sz (detail.obj_at q.m_FunctionArray output_pos) q.m_Writer.byte_rb.buffer.data
          else q.m_Writer.byte_rb.input_pos } } }

/-- `emplace<Callable>(args...)`, where `s` is the state of the object built from `args`. -/
def emplace (opt : FQOpt) (q : FunctionQueueSCSP S Args R) (T : CallableType S Args R) (s : S) :
    Bool × FunctionQueueSCSP S Args R :=
  let input_pos := q.m_Writer.input_pos
  let next_pos :=
    if add_sz input_pos 1 ≠ q.m_FunctionArray.length then add_sz input_pos 1 else 0
  let go (q1 : FunctionQueueSCSP S Args R) (ptr : Nat) : Bool × FunctionQueueSCSP S Args R :=
    let res := detail.emplace opt T q1.memory ptr s
    (true,
      { q1 with
        m_FunctionArray := q1.m_FunctionArray.set input_pos (some res.1.fd)
        memory := res.2
        m_Writer := { q1.m_Writer with
          input_pos := next_pos
          byte_rb := { q1.m_Writer.byte_rb with
            input_pos := sub_sz res.1.next_pos q1.m_Writer.byte_rb.buffer.data } } })
  let ptr := detail.get_storage_callable T q.m_Writer.byte_rb
  if next_pos = q.m_Writer.output_pos ∨ ptr = 0 then
    let q1 := sync q
    let ptr1 := detail.get_storage_callable T q1.m_Writer.byte_rb
    if next_pos = q1.m_Writer.output_pos ∨ ptr1 = 0 then (false, q1) else go q1 ptr1
  else go q ptr

/-- `push(callable)`. -/
def push (opt : FQOpt) (q : FunctionQueueSCSP S Args R) (T : CallableType S Args R) (s : S) :
    Bool × FunctionQueueSCSP S Args R := emplace opt q T s

/-- The destructor `~FunctionQueueSCSP()`: the memory of the arena when it is handed back. -/
def destructor (opt : FQOpt) (q : FunctionQueueSCSP S Args R) : detail.Memory S :=
  if opt ≠ FQOpt.InvokeOnce then
    detail.destroy_non_consumed_functions
      { buffer := q.m_FunctionArray, input_pos := q.m_Writer.input_pos,
        output_pos := q.m_Reader.output_pos } q.memory
  else q.memory

end FunctionQueueSCSP

/-- The anonymous struct `m_Writer` of `FunctionQueueMCSP`: the tagged `input_pos`, the cached
output position and the arena. -/
structure WriterFQMCSP where
  input_pos : Nat
  output_pos : Nat
  byte_rb : detail.ByteRingBuffer
deriving DecidableEq, Repr

/-- `rb::FunctionQueueMCSP<FSig, opt, wait_interface, buffer_align>`. -/
structure FunctionQueueMCSP (S Args R : Type) where
  m_Writer : WriterFQMCSP
  m_OutputPos : Nat
  m_FunctionArray : List (Option (detail.FData S Args R))
  m_PositionArray : List Nat
  memory : detail.Memory S

namespace FunctionQueueMCSP

variable {S Args R : Type}

/-- `FunctionQueueMCSP::tb`. -/
@[reducible] def tb : Nat := 16

/-- The constructor `FunctionQueueMCSP(buffer_size, max_functions, max_readers)`. -/
def mk_queue (arena buffer_size max_functions max_readers : Nat) : FunctionQueueMCSP S Args R :=
  { m_Writer := { input_pos := 0, output_pos := 0,
                  byte_rb := { buffer := ⟨arena, buffer_size⟩, input_pos := 0, output_pos := 0 } }
    m_OutputPos := 0
    m_FunctionArray := List.replicate (add_sz max_functions 1) none
    m_PositionArray := List.replicate max_readers detail.max_pos
    memory := detail.Memory.fresh }

/-- `empty()`. -/
def empty (q : FunctionQueueMCSP S Args R) : Bool :=
  detail.empty tb q.m_OutputPos q.m_Writer.input_pos

/-- `count()`. -/
def count (q : FunctionQueueMCSP S Args R) : Nat :=
  detail.count_tagged tb q.m_OutputPos q.m_Writer.input_pos q.m_FunctionArray.length

/-- `get_reader(index)`: the `Reader` constructor runs `set_reader`. -/
def get_reader (q : FunctionQueueMCSP S Args R) (index : Nat) : FunctionQueueMCSP S Args R :=
  { q with m_PositionArray := q.m_PositionArray.set index (detail.value tb q.m_OutputPos) }

/-- `Reader::~Reader()` of the reader with index `m_Index`. -/
def drop_reader (q : FunctionQueueMCSP S Args R) (m_Index : Nat) : FunctionQueueMCSP S Args R :=
  { q with m_PositionArray := q.m_PositionArray.set m_Index detail.max_pos }

/-- `Reader::consume<check_once, release>(functor)` of the reader with index `m_Index`. -/
def consume (opt : FQOpt) (q : FunctionQueueMCSP S Args R) (m_Index : Nat)
    (check_once release : Bool) (script : List Args) :
    Bool × List (List (Option R)) × FunctionQueueMCSP S Args R :=
  let r := detail.reserve_one check_once tb q.m_OutputPos q.m_Writer.input_pos
    q.m_FunctionArray.length
  match r.1 with
  | none => (false, [], { q with m_OutputPos := r.2 })
  | some rp =>
    let d := detail.invoke opt script ((q.m_FunctionArray.get? rp.output_pos).getD none)
      q.memory
    (true, [d.1],
      { q with
        m_OutputPos := r.2
        memory := d.2
        m_PositionArray :=
          if release then q.m_PositionArray.set m_Index rp.next_output_pos
          else q.m_PositionArray })

/-- `Reader::consume_all<check_once>(functor)`. -/
def consume_all (opt : FQOpt) (q : FunctionQueueMCSP S Args R) (_m_Index : Nat)
    (check_once : Bool) (script : List Args) :
    Nat × List (List (Option R)) × FunctionQueueMCSP S Args R :=
  let r := detail.reserve_all check_once tb q.m_OutputPos q.m_Writer.input_pos
  match r.1 with
  | none => (0, [], { q with m_OutputPos := r.2 })
  | some rp =>
    let d := detail.invoke_all opt script
      { buffer := q.m_FunctionArray, input_pos := rp.next_output_pos,
        output_pos := rp.output_pos } q.memory
    (d.1, d.2.1, { q with m_OutputPos := r.2, memory := d.2.2 })

/-- `Reader::consume_n<check_once, release>(functor, n)`. -/
def consume_n (opt : FQOpt) (q : FunctionQueueMCSP S Args R) (m_Index : Nat) (n : Nat)
    (check_once release : Bool) (script : List Args) :
    Nat × List (List (Option R)) × FunctionQueueMCSP S Args R :=
  let r := detail.reserve_n check_once tb q.m_OutputPos q.m_Writer.input_pos
    q.m_FunctionArray.length n
  match r.1 with
  | none => (0, [], { q with m_OutputPos := r.2 })
  | some rp =>
    let d := detail.invoke_all opt script
      { buffer := q.m_FunctionArray, input_pos := rp.next_output_pos,
        output_pos := rp.output_pos } q.memory
    (d.1, d.2.1,
      { q with
        m_OutputPos := r.2
        memory := d.2.2
        m_PositionArray :=
          if release then q.m_PositionArray.set m_Index rp.next_output_pos
          else q.m_PositionArray })

/-- The private `sync()`. -/
def sync (q : FunctionQueueMCSP S Args R) : FunctionQueueMCSP S Args R :=
  let output_pos := detail.sync tb q.m_Writer.output_pos q.m_PositionArray q.m_OutputPos
  { q with m_Writer := { q.m_Writer with
      output_pos := output_pos
      byte_rb := { q.m_Writer.byte_rb with
        output_pos :=
          if output_pos ≠ detail.value tb q.m_Writer.input_pos then
            sub_sz (detail.obj_at q.m_FunctionArray output_pos) q.m_Writer.byte_rb.buffer.data
          else q.m_Writer.byte_rb.input_pos } } }

/-- `emplace<Callable>(args...)`, where `s` is the state of the object built from `args`. -/
def emplace (opt : FQOpt) (q : FunctionQueueMCSP S Args R) (T : CallableType S Args R) (s : S) :
    Bool × FunctionQueueMCSP S Args R :=
  let pos := q.m_Writer.input_pos
  let input_pos := detail.value tb pos
  let next_pos :=
    if add_sz input_pos 1 ≠ q.m_FunctionArray.length then add_sz input_pos 1 else 0
  let go (q1 : FunctionQueueMCSP S Args R) (ptr : Nat) : Bool × FunctionQueueMCSP S Args R :=
    let res := detail.emplace opt T q1.memory ptr s
    let p := detail.publish tb pos next_pos q1.m_OutputPos
    (true,
      { q1 with
        m_FunctionArray := q1.m_FunctionArray.set input_pos (some res.1.fd)
        memory := res.2
        m_OutputPos := p.2
        m_Writer := { q1.m_Writer with
          input_pos := p.1
          byte_rb := { q1.m_Writer.byte_rb with
            input_pos := sub_sz res.1.next_pos q1.m_Writer.byte_rb.buffer.data } } })
  let ptr := detail.get_storage_callable T q.m_Writer.byte_rb
  if next_pos = q.m_Writer.output_pos ∨ ptr = 0 then
    let q1 := sync q
    let ptr1 := detail.get_storage_callable T q1.m_Writer.byte_rb
    if next_pos = q1.m_Writer.output_pos ∨ ptr1 = 0 then (false, q1) else go q1 ptr1
  else go q ptr

/-- `push(callable)`. -/
def push (opt : FQOpt) (q : FunctionQueueMCSP S Args R) (T : CallableType S Args R) (s : S) :
    Bool × FunctionQueueMCSP S Args R := emplace opt q T s

/-- The destructor `~FunctionQueueMCSP()`: the memory of the arena when it is handed back. -/
def destructor (opt : FQOpt) (q : FunctionQueueMCSP S Args R) : detail.Memory S :=
  if opt ≠ FQOpt.InvokeOnce then
    detail.destroy_non_consumed_functions
      { buffer := q.m_FunctionArray, input_pos := detail.value tb q.m_Writer.input_pos,
        output_pos := detail.value tb q.m_OutputPos } q.memory
  else q.memory

end FunctionQueueMCSP
end rb

/-! ### Callable types used in the examples -/

namespace rb
namespace detail

/-- The state the invokers call for a callable pushed in state `s`: the object constructed in
the arena, or, for an `empty_callable` type, the object `Callable{}`. -/
def called_state {S Args R : Type} (T : CallableType S Args R) (s : S) : S :=
  if empty_callable T then T.value_init else s

/-- A closure that captures a number and adds it to its argument: 8 bytes, with a destructor
that is not trivial. -/
def adder : CallableType Nat Nat Nat :=
  { size_of := 8, align_of := 8, is_empty := false, is_trivially_default_constructible := false,
    is_trivially_destructible := false, call := fun s a => s + a, value_init := 0 }

/-- A closure that captures a number and adds it to its argument, trivially destructible. -/
def plain_adder : CallableType Nat Nat Nat :=
  { size_of := 8, align_of := 8, is_empty := false, is_trivially_default_constructible := false,
    is_trivially_destructible := true, call := fun s a => s + a, value_init := 0 }

/-- A stateless callable, the successor function: an empty class. -/
def stateless_succ : CallableType Nat Nat Nat :=
  { size_of := 1, align_of := 1, is_empty := true, is_trivially_default_constructible := true,
    is_trivially_destructible := true, call := fun _ a => a + 1, value_init := 0 }

end detail
end rb

/-! ### The arena bookkeeping of the function queues, seen as that of a buffer queue -/

namespace rb
namespace detail

variable {S Args R : Type}

/-- The bytes of the arena a descriptor stands for: those of the object constructed at `obj`,
none for an `empty_callable` type, and none for a slot that holds no descriptor. -/
def range_of (fd : Option (FData S Args R)) : Buffer :=
  match fd with
  | none => Buffer.nil
  | some d => ⟨d.obj, if empty_callable d.fptr.type then 0 else d.fptr.type.size_of⟩

/-- The descriptor `detail::emplace<Callable, FSig, opt>` builds for an object at `ptr`. -/
def descriptor (opt : FQOpt) (T : CallableType S Args R) (ptr : Nat) : FData S Args R :=
  ⟨ptr, if opt = FQOpt.InvokeMultiple then .ifptr T else .indfptr T,
    if opt ≠ FQOpt.InvokeOnce then
      .ptr (if T.is_trivially_destructible then none else some (.dfptr T))
    else .Empty⟩

end detail

namespace FunctionQueueSCSP

variable {S Args R : Type}

/-- The buffer queue that does the bookkeeping of this function queue: same cursors, same
arena, and for each descriptor the range of its object. -/
def as_buffer_queue (q : FunctionQueueSCSP S Args R) : BufferQueueSCSP :=
  { m_Writer := q.m_Writer, m_Reader := q.m_Reader,
    m_SpliceArray := q.m_FunctionArray.map detail.range_of }

/-- Well-formed slot ring of a function queue with `M + 1` slots. -/
def WF (M : Nat) (q : FunctionQueueSCSP S Args R) : Prop :=
  BufferQueueSCSP.WF M (as_buffer_queue q)

instance (M : Nat) (q : FunctionQueueSCSP S Args R) : Decidable (WF M q) := by
  unfold WF; infer_instance

/-- The descriptors not yet consumed, oldest first. -/
def stored (q : FunctionQueueSCSP S Args R) : List (Option (detail.FData S Args R)) :=
  (ring_slots q.m_FunctionArray.length q.m_Reader.output_pos
    (ring_dist q.m_FunctionArray.length q.m_Reader.output_pos q.m_Writer.input_pos)).map
    (fun i => (q.m_FunctionArray.get? i).getD none)

end FunctionQueueSCSP
end rb

/-! ### What the function queues are specified against -/

namespace rb
namespace detail

variable {S Args R : Type}

/-- In memory `m` the descriptor `fd` stands for the callable `c`, a type with the state of the
pushed object: it is the descriptor `detail::emplace` builds for the type, and, unless the type
is an `empty_callable`, the object is alive at `obj` in the pushed state. -/
def holds (opt : FQOpt) (m : Memory S) (fd : Option (FData S Args R))
    (c : CallableType S Args R × S) : Prop :=
  ∃ ptr, fd = some (descriptor opt c.1 ptr) ∧
    (empty_callable c.1 = false → m.live ptr = some c.2 ∧ 1 ≤ c.1.size_of)

/-- The functors considered: in the InvokeOnce modes a functor invokes the wrapper it receives
at most once. -/
def script_ok (opt : FQOpt) (script : List Args) : Prop :=
  opt = FQOpt.InvokeMultiple ∨ script.length ≤ 1

instance (opt : FQOpt) (script : List Args) : Decidable (script_ok opt script) := by
  unfold script_ok; infer_instance

/-- The values a functor with the given script is to get from the wrapper of the callable `c`:
the value of the callable for each argument. -/
def expected (c : CallableType S Args R × S) (script : List Args) : List (Option R) :=
  script.map (fun a => some (c.1.call (called_state c.1 c.2) a))

/-- The objects on which a destructor that is not trivial has run, in the order of the
runs. -/
def nontrivial_log (m : Memory S) : List (Option S) :=
  (m.destroyed.filter (fun e => !e.trivial)).map (fun e => e.obj)

/-- The states of the callables of `cs` whose type is not trivially destructible. -/
def nontrivial_states (cs : List (CallableType S Args R × S)) : List (Option S) :=
  (cs.filter (fun c => !c.1.is_trivially_destructible)).map (fun c => some c.2)

end detail
end rb

/-! ### Sequences of calls of the function queues -/

namespace rb

/-- The content of the slots of `arr` from slot `out` up to slot `inp`, oldest first. -/
def ring_stored {X : Type} (arr : List (Option X)) (out inp : Nat) : List (Option X) :=
  (ring_slots arr.length out (ring_dist arr.length out inp)).map (slot_at arr)

/-- What `sizeof` guarantees of a type. -/
def CallableType.valid {S Args R : Type} (T : CallableType S Args R) : Prop := 1 ≤ T.size_of

instance {S Args R : Type} (T : CallableType S Args R) : Decidable T.valid := by
  unfold CallableType.valid; infer_instance

/-- A call of `FunctionQueue` or `FunctionQueueSCSP`: a push of a callable of type `T` in state
`s`, or a consume call with a functor that invokes each wrapper it receives with the arguments
of `script`. -/
inductive FQCall (S Args R : Type) where
  | push (T : CallableType S Args R) (s : S)
  | consume (script : List Args)
  | consume_all (script : List Args)
  | consume_n (script : List Args) (n : Nat)

/-- The calls considered for a queue with `M` function slots: the types pushed are valid, the
functors are those of `script_ok`, and the `n` of a `consume_n` is small enough for
`output_pos + n` not to wrap. -/
def FQCall.ok {S Args R : Type} (opt : FQOpt) (M : Nat) : FQCall S Args R → Prop
  | .push T _ => T.valid
  | .consume script => detail.script_ok opt script
  | .consume_all script => detail.script_ok opt script
  | .consume_n script n => detail.script_ok opt script ∧ n + M < 2 ^ 64

instance {S Args R : Type} (opt : FQOpt) (M : Nat) (c : FQCall S Args R) :
    Decidable (c.ok opt M) := by
  cases c <;> unfold FQCall.ok <;> infer_instance

/-- What calls of a function queue let one observe: the callables the queue accepted (the pushes
that returned `true`), in call order, and for every wrapper handed to a functor, in the order the
wrappers were handed out, the arguments the functor invoked it with and the values the
invocations returned. -/
structure FQLog (S Args R : Type) where
  accepted : List (CallableType S Args R × S)
  handed : List (List Args × List (Option R))

namespace detail

variable {S Args R : Type}

/-- The log of a push. -/
def push_log (T : CallableType S Args R) (s : S) (ok : Bool) : FQLog S Args R :=
  ⟨if ok then [(T, s)] else [], []⟩

/-- The log of a consume call whose functor has the given script. -/
def consume_log (script : List Args) (values : List (List (Option R))) : FQLog S Args R :=
  ⟨[], values.map (fun v => (script, v))⟩

/-- A sequence of calls, one after the other; the logs of the calls are put together. -/
def run_calls {Q Op : Type} (step : Q → Op → FQLog S Args R × Q) :
    Q → List Op → FQLog S Args R × Q
  | q, [] => (⟨[], []⟩, q)
  | q, op :: ops =>
    let r := step q op
    let rs := run_calls step r.2 ops
    (⟨r.1.accepted ++ rs.1.accepted, r.1.handed ++ rs.1.handed⟩, rs.2)

/-- The values a log is to show for the wrappers handed out when the callables of `cs` are handed
out in this order: for the i-th wrapper the values of the i-th callable at the arguments the
functor invoked the wrapper with. -/
def expected_values (cs : List (CallableType S Args R × S)) (scripts : List (List Args)) :
    List (List (Option R)) :=
  List.zipWith expected cs scripts

end detail

namespace FunctionQueue

variable {S Args R : Type}

/-- One call. -/
def call (opt : FQOpt) (q : FunctionQueue S Args R) :
    FQCall S Args R → FQLog S Args R × FunctionQueue S Args R
  | .push T s => let r := push opt q T s; (detail.push_log T s r.1, r.2)
  | .consume script => let r := consume opt q script; (detail.consume_log script r.2.1, r.2.2)
  | .consume_all script =>
    let r := consume_all opt q script; (detail.consume_log script r.2.1, r.2.2)
  | .consume_n script n =>
    let r := consume_n opt q script n; (detail.consume_log script r.2.1, r.2.2)

/-- A sequence of calls. -/
def run (opt : FQOpt) (q : FunctionQueue S Args R) (calls : List (FQCall S Args R)) :
    FQLog S Args R × FunctionQueue S Args R :=
  detail.run_calls (call opt) q calls

/-- The buffer queue that does the bookkeeping of this function queue: the writer's cached
output position is the output position itself. -/
def as_buffer_queue (q : FunctionQueue S Args R) : BufferQueueSCSP :=
  { m_Writer := { input_pos := q.m_FunctionRB.input_pos, output_pos := q.m_FunctionRB.output_pos,
                  byte_rb := q.m_ByteRB }
    m_Reader := ⟨q.m_FunctionRB.output_pos, q.m_FunctionRB.output_pos⟩
    m_SpliceArray := q.m_FunctionRB.buffer.map detail.range_of }

end FunctionQueue

namespace FunctionQueueSCSP

variable {S Args R : Type}

/-- One call. -/
def call (opt : FQOpt) (q : FunctionQueueSCSP S Args R) :
    FQCall S Args R → FQLog S Args R × FunctionQueueSCSP S Args R
  | .push T s => let r := push opt q T s; (detail.push_log T s r.1, r.2)
  | .consume script => let r := consume opt q script; (detail.consume_log script r.2.1, r.2.2)
  | .consume_all script =>
    let r := consume_all opt q script; (detail.consume_log script r.2.1, r.2.2)
  | .consume_n script n =>
    let r := consume_n opt q script n; (detail.consume_log script r.2.1, r.2.2)

/-- A sequence of calls. -/
def run (opt : FQOpt) (q : FunctionQueueSCSP S Args R) (calls : List (FQCall S Args R)) :
    FQLog S Args R × FunctionQueueSCSP S Args R :=
  detail.run_calls (call opt) q calls

end FunctionQueueSCSP

namespace FunctionQueueMCSP

variable {S Args R : Type}

/-- An atomic step of the queue: a member function called by the producer or by the reader of
the given index. -/
inductive Step (S Args R : Type) where
  | get_reader (index : Nat)
  | drop_reader (index : Nat)
  | push (T : CallableType S Args R) (s : S)
  | consume (index : Nat) (check_once release : Bool) (script : List Args)
  | consume_all (index : Nat) (check_once : Bool) (script : List Args)
  | consume_n (index : Nat) (n : Nat) (check_once release : Bool) (script : List Args)

/-- The steps considered for a queue with `M` function slots. -/
def Step.ok (opt : FQOpt) (M : Nat) : Step S Args R → Prop
  | .get_reader _ => True
  | .drop_reader _ => True
  | .push T _ => T.valid
  | .consume _ _ _ script => detail.script_ok opt script
  | .consume_all _ _ script => detail.script_ok opt script
  | .consume_n _ n _ _ script => detail.script_ok opt script ∧ n + M < 2 ^ 64

instance (opt : FQOpt) (M : Nat) (c : Step S Args R) : Decidable (c.ok opt M) := by
  cases c <;> unfold Step.ok <;> infer_instance

/-- One atomic step. -/
def step (opt : FQOpt) (q : FunctionQueueMCSP S Args R) :
    Step S Args R → FQLog S Args R × FunctionQueueMCSP S Args R
  | .get_reader i => (⟨[], []⟩, get_reader q i)
  | .drop_reader i => (⟨[], []⟩, drop_reader q i)
  | .push T s => let r := push opt q T s; (detail.push_log T s r.1, r.2)
  | .consume i c rel script =>
    let r := consume opt q i c rel script; (detail.consume_log script r.2.1, r.2.2)
  | .consume_all i c script =>
    let r := consume_all opt q i c script; (detail.consume_log script r.2.1, r.2.2)
  | .consume_n i n c rel script =>
    let r := consume_n opt q i n c rel script; (detail.consume_log script r.2.1, r.2.2)

/-- A sequence of atomic steps. -/
def run (opt : FQOpt) (q : FunctionQueueMCSP S Args R) (steps : List (Step S Args R)) :
    FQLog S Args R × FunctionQueueMCSP S Args R :=
  detail.run_calls (step opt) q steps

/-- The buffer queue that does the bookkeeping of the arena of this function queue. -/
def as_buffer_queue (q : FunctionQueueMCSP S Args R) : BufferQueueSCSP :=
  { m_Writer := { input_pos := detail.value tb q.m_Writer.input_pos,
                  output_pos := q.m_Writer.output_pos, byte_rb := q.m_Writer.byte_rb }
    m_Reader := ⟨detail.value tb q.m_OutputPos, detail.value tb q.m_OutputPos⟩
    m_SpliceArray := q.m_FunctionArray.map detail.range_of }

/-- The object queue with the cursors, the slots and the position array of this function
queue. -/
def as_object_queue (q : FunctionQueueMCSP S Args R) :
    ObjectQueueMCSP (detail.FData S Args R) :=
  { m_Writer := ⟨q.m_Writer.input_pos, q.m_Writer.output_pos⟩
    m_OutputPos := q.m_OutputPos
    m_Buffer := q.m_FunctionArray
    m_PositionArray := q.m_PositionArray }

end FunctionQueueMCSP

namespace detail

variable {S Args R : Type}

/-- The invariant of the function queues, on the buffer queue `b` that does the bookkeeping of
a queue with slots `arr` and memory `mem`: the slot ring is well formed, the arena invariant
holds, the arena is the one the queue was built with and does not start at the null address, and
the descriptors not yet consumed stand for the callables of `items`, oldest first. -/
def fq_inv (opt : FQOpt) (arena B M : Nat) (b : BufferQueueSCSP)
    (arr : List (Option (FData S Args R))) (mem : Memory S)
    (items : List (CallableType S Args R × S)) : Prop :=
  b.m_SpliceArray = arr.map range_of ∧ BufferQueueSCSP.WF M b ∧ BufferQueueSCSP.arena_inv b ∧
  b.m_Writer.byte_rb.buffer = ⟨arena, B⟩ ∧ 0 < arena ∧
  List.Forall₂ (holds opt mem) (ring_stored arr b.m_Reader.output_pos b.m_Writer.input_pos) items

end detail

namespace FunctionQueue

variable {S Args R : Type}

/-- The invariant of `FunctionQueue`. -/
def Inv (opt : FQOpt) (arena B M : Nat) (q : FunctionQueue S Args R)
    (items : List (CallableType S Args R × S)) : Prop :=
  detail.fq_inv opt arena B M (as_buffer_queue q) q.m_FunctionRB.buffer q.memory items

end FunctionQueue

namespace FunctionQueueSCSP

variable {S Args R : Type}

/-- The invariant of `FunctionQueueSCSP`. -/
def Inv (opt : FQOpt) (arena B M : Nat) (q : FunctionQueueSCSP S Args R)
    (items : List (CallableType S Args R × S)) : Prop :=
  detail.fq_inv opt arena B M (as_buffer_queue q) q.m_FunctionArray q.memory items

end FunctionQueueSCSP

namespace FunctionQueueMCSP

variable {S Args R : Type}

/-- The invariant of `FunctionQueueMCSP`. -/
def Inv (opt : FQOpt) (arena B M : Nat) (q : FunctionQueueMCSP S Args R)
    (items : List (CallableType S Args R × S)) : Prop :=
  detail.fq_inv opt arena B M (as_buffer_queue q) q.m_FunctionArray q.memory items ∧
  ObjectQueueMCSP.WF M (as_object_queue q)

end FunctionQueueMCSP
end rb
namespace rb
namespace ObjectQueueMCSP

variable {Obj : Type}

/-- One call of a single-reader driver on the MCSP queue, as in `oq_test_1r_1w.cpp`: the producer
calls `push`; the consumer takes a fresh reader handle `get_reader(0)` for each call, calls
`consume<check_once, true>` or `consume_all<check_once>` on it, and the handle's destructor
releases the reader at the end of the full expression. -/
def call_one_reader (check_once : Bool) (q : ObjectQueueMCSP Obj) :
    ObjectQueueSCSP.Call Obj → ObjectQueueSCSP.Outcome Obj × ObjectQueueMCSP Obj
  | .push obj => let r := push q obj; (.push r.1, r.2)
  | .consume =>
    let r := consume (get_reader q 0) 0 check_once true
    (.consume r.1 r.2.1, drop_reader r.2.2 0)
  | .consume_all =>
    let r := consume_all (get_reader q 0) 0 check_once
    (.consume_all r.1 r.2.1, drop_reader r.2.2 0)

/-- A sequence of calls of the single-reader driver. -/
def run_one_reader (check_once : Bool) (q : ObjectQueueMCSP Obj) :
    List (ObjectQueueSCSP.Call Obj) → List (ObjectQueueSCSP.Outcome Obj) × ObjectQueueMCSP Obj
  | [] => ([], q)
  | c :: cs =>
    let r := call_one_reader check_once q c
    let rs := run_one_reader check_once r.2 cs
    (r.1 :: rs.1, rs.2)

/-- The step is not a call of the reader registered in slot `idx` of the position array: it is a
call of the producer or of a reader that holds another slot. -/
def Step.other_than (idx : Nat) : Step Obj → Prop
  | .get_reader i => i ≠ idx
  | .drop_reader i => i ≠ idx
  | .push _ => True
  | .consume i _ _ => i ≠ idx
  | .consume_all i _ => i ≠ idx
  | .consume_n i _ _ _ => i ≠ idx

instance (idx : Nat) (s : Step Obj) : Decidable (Step.other_than idx s) := by
  cases s <;> unfold Step.other_than <;> infer_instance

end ObjectQueueMCSP
end rb
namespace rb
namespace detail

/-- The aligned fit of a request of `bytes` bytes in the region of addresses `[lo, hi)`, in the
words of the specification of `get_storage`: it starts at the first multiple of `alignment`
that is not below `lo`, and it is the rest of the region from that address when at least `bytes`
bytes of the region remain there, and empty otherwise. -/
def aligned_fit (bytes alignment lo hi : Nat) : Buffer :=
  if align_up alignment lo + bytes ≤ hi then
    ⟨align_up alignment lo, hi - align_up alignment lo⟩
  else Buffer.nil

end detail
end rb

namespace rb
namespace ObjectQueueMCSP

variable {Obj : Type}

/-- `emplace_n(functor)`.  The functor receives the span `m_Buffer.subspan(input_pos, n_avl)`,
constructs the objects `functor span` at its front and returns their number.  Result: the
returned number, the span handed to the functor (if it was invoked), the queue afterwards. -/
def emplace_n (q : ObjectQueueMCSP Obj) (functor : detail.Span → List Obj) :
    Nat × Option detail.Span × ObjectQueueMCSP Obj :=
  let pos := q.m_Writer.input_pos
  let input_pos := detail.value tb pos
  let go (q1 : ObjectQueueMCSP Obj) (n_avl : Nat) :
      Nat × Option detail.Span × ObjectQueueMCSP Obj :=
    let span := detail.subspan input_pos n_avl
    let objs := functor span
    let obj_emplaced := objs.length % 2 ^ 64
    let next_pos := add_sz input_pos obj_emplaced
    let p := detail.publish tb pos (if next_pos ≠ q1.m_Buffer.length then next_pos else 0)
      q1.m_OutputPos
    (obj_emplaced, some span,
      { q1 with
        m_Buffer := ObjectQueueSCSP.construct_in_span q1.m_Buffer input_pos objs
        m_Writer := { q1.m_Writer with input_pos := p.1 }
        m_OutputPos := p.2 })
  let n_avl := detail.count_avl q.m_Writer.output_pos input_pos q.m_Buffer.length
  if n_avl = 0 then
    let q1 := { q with m_Writer := { q.m_Writer with
      output_pos := detail.sync tb q.m_Writer.output_pos q.m_PositionArray q.m_OutputPos } }
    let n_avl1 := detail.count_avl q1.m_Writer.output_pos input_pos q1.m_Buffer.length
    if n_avl1 = 0 then (0, none, q1) else go q1 n_avl1
  else go q n_avl

/-- The states of an MCSP object queue of capacity `N` with `R` reader slots that whole calls,
executed one after the other, reach from the constructor: readers that come and go, `emplace`,
`emplace_n` and the reader calls `consume`, `consume_all` and `consume_n`, with any
arguments. -/
inductive Reachable (N R : Nat) : ObjectQueueMCSP Obj → Prop where
  | init : Reachable N R (mk_queue N R)
  | get_reader {q} (index : Nat) : Reachable N R q → Reachable N R (get_reader q index)
  | drop_reader {q} (index : Nat) : Reachable N R q → Reachable N R (drop_reader q index)
  | emplace {q} (obj : Obj) : Reachable N R q → Reachable N R (emplace q obj).2
  | emplace_n {q} (functor : detail.Span → List Obj) : Reachable N R q →
      Reachable N R (emplace_n q functor).2.2
  | consume {q} (index : Nat) (check_once release : Bool) : Reachable N R q →
      Reachable N R (consume q index check_once release).2.2
  | consume_all {q} (index : Nat) (check_once : Bool) : Reachable N R q →
      Reachable N R (consume_all q index check_once).2.2
  | consume_n {q} (index n : Nat) (check_once release : Bool) : Reachable N R q →
      Reachable N R (consume_n q index n check_once release).2.2

end ObjectQueueMCSP
end rb

namespace rb
namespace FunctionQueueMCSP

/-- The calls of a run of a queue with two function slots (an array of three) after which every
slot of the array has been written: reader 0 registers, two callables are pushed into slots 0
and 1 and consumed, a third is pushed into slot 2 and consumed, two more are pushed into slots 0
and 1, reader 1 registers, and reader 0 consumes the callable of slot 0. Every functor invokes
the wrapper it receives once, with argument 0. -/
def two_lap_steps : List (Step Nat Nat Nat) :=
  [.get_reader 0, .push detail.adder 1, .push detail.adder 2, .consume 0 true true [0],
    .consume 0 true true [0], .push detail.adder 3, .consume 0 true true [0],
    .push detail.adder 4, .push detail.adder 5, .get_reader 1, .consume 0 true true [0]]

end FunctionQueueMCSP
end rb

namespace rb

/-! ## Arithmetic of ring positions -/

theorem ring_dist_self (S a : Nat) : ring_dist S a a = 0 := by
  simp [ring_dist]

theorem ring_dist_lt {S a b : Nat} (ha : a < S) (hb : b < S) : ring_dist S a b < S := by
  unfold ring_dist; split_ifs <;> omega

theorem ring_dist_eq_zero {S a b : Nat} (ha : a < S) (hb : b < S) :
    ring_dist S a b = 0 ↔ a = b := by
  unfold ring_dist; split_ifs <;> omega

/-- Distances along the ring add up as long as they stay within one lap. -/
theorem ring_dist_add {S a b c : Nat} (ha : a < S) (hb : b < S) (hc : c < S)
    (h : ring_dist S a b + ring_dist S b c < S) :
    ring_dist S a c = ring_dist S a b + ring_dist S b c := by
  unfold ring_dist at h ⊢; split_ifs at h ⊢ <;> omega

/-- A position between two others splits the distance between them. -/
theorem ring_dist_split {S a b c : Nat} (ha : a < S) (hb : b < S) (hc : c < S)
    (h : ring_dist S a b ≤ ring_dist S a c) :
    ring_dist S a c = ring_dist S a b + ring_dist S b c := by
  unfold ring_dist at h ⊢; split_ifs at h ⊢ <;> omega

theorem ring_wrap_lt {S a k : Nat} (ha : a < S) (hk : k ≤ S) : ring_wrap S (a + k) < S := by
  unfold ring_wrap; split_ifs <;> omega

theorem ring_dist_wrap {S a k : Nat} (ha : a < S) (hk : k < S) :
    ring_dist S a (ring_wrap S (a + k)) = k := by
  unfold ring_dist ring_wrap; split_ifs <;> omega

theorem ring_wrap_dist {S a b : Nat} (ha : a < S) (hb : b < S) :
    ring_wrap S (a + ring_dist S a b) = b := by
  unfold ring_dist ring_wrap; split_ifs <;> omega

/-- The slot after `b` is `a` exactly when `a` is a whole lap less one before `b`. -/
theorem ring_wrap_succ_eq {S a b : Nat} (ha : a < S) (hb : b < S) :
    ring_wrap S (b + 1) = a ↔ ring_dist S a b + 1 = S := by
  unfold ring_dist ring_wrap; split_ifs <;> omega

/-- Going `k` further from `b` adds `k` to the distance from `a`, within one lap. -/
theorem ring_dist_wrap_add {S a b k : Nat} (ha : a < S) (hb : b < S)
    (h : ring_dist S a b + k < S) :
    ring_dist S a (ring_wrap S (b + k)) = ring_dist S a b + k := by
  unfold ring_dist ring_wrap at *; split_ifs at h ⊢ <;> omega

/-- Going `k` further from `a` takes `k` off the distance to `b`, when `b` is not passed. -/
theorem ring_dist_wrap_sub {S a b k : Nat} (ha : a < S) (hb : b < S)
    (h : k ≤ ring_dist S a b) :
    ring_dist S (ring_wrap S (a + k)) b = ring_dist S a b - k := by
  unfold ring_dist ring_wrap at *; split_ifs at h ⊢ <;> omega

/-- The cursors of a single-consumer ring in reclaim order: from the writer's cached output
position `wo` one meets the reader's position `ro`, the reader's cached input position `ri` and
the writer's position `inp`, within one lap. -/
theorem ring_order_facts {S wo ro ri inp : Nat} (hwo : wo < S) (hro : ro < S) (hri : ri < S)
    (hin : inp < S)
    (hd : ring_dist S wo ro + ring_dist S ro ri + ring_dist S ri inp + 1 ≤ S) :
    ring_dist S ro inp = ring_dist S ro ri + ring_dist S ri inp ∧
    ring_dist S wo inp = ring_dist S wo ro + ring_dist S ro inp := by
  have e1 := ring_dist_add hro hri hin (by omega)
  have e2 := ring_dist_add hwo hro hin (by omega)
  exact ⟨e1, e2⟩

end rb

namespace rb

/-! ## Ring arithmetic -/

theorem add_sz_of_lt {a b : Nat} (h : a + b < 2 ^ 64) : add_sz a b = a + b := by
  unfold add_sz; exact Nat.mod_eq_of_lt h

theorem sub_sz_of_le {a b : Nat} (hb : b ≤ a) (ha : a < 2 ^ 64) : sub_sz a b = a - b := by
  unfold sub_sz
  have hb2 : b % 2 ^ 64 = b := Nat.mod_eq_of_lt (by omega)
  rw [hb2]
  omega

theorem ring_slots_zero (S a : Nat) : ring_slots S a 0 = [] := rfl

theorem ring_slots_length (S a k : Nat) : (ring_slots S a k).length = k := by
  simp [ring_slots]

theorem ring_slots_succ (S a k : Nat) :
    ring_slots S a (k + 1) = ring_slots S a k ++ [ring_wrap S (a + k)] := by
  simp [ring_slots, List.range_succ]

theorem ring_slots_cons {S a k : Nat} (ha : a < S) (hk : k + 1 ≤ S) :
    ring_slots S a (k + 1) = a :: ring_slots S (ring_wrap S (a + 1)) k := by
  unfold ring_slots
  rw [List.range_succ_eq_map, List.map_cons, List.map_map]
  congr 1
  · simp [ring_wrap, ha]
  · apply List.map_congr_left
    intro j hj
    have hj2 : j < k := List.mem_range.mp hj
    simp only [Function.comp, ring_wrap]
    split_ifs <;> omega

theorem mem_ring_slots {S a k i : Nat} :
    i ∈ ring_slots S a k ↔ ∃ j, j < k ∧ ring_wrap S (a + j) = i := by
  simp [ring_slots]

theorem ring_slots_nodup {S a k : Nat} (hk : k ≤ S) : (ring_slots S a k).Nodup := by
  unfold ring_slots
  refine List.Nodup.map_on ?_ (List.nodup_range k)
  intro x hx y hy hxy
  have hx2 : x < k := List.mem_range.mp hx
  have hy2 : y < k := List.mem_range.mp hy
  simp only [ring_wrap] at hxy
  split_ifs at hxy <;> omega

theorem ring_slots_lt {S a k i : Nat} (ha : a < S) (hk : k ≤ S) (hi : i ∈ ring_slots S a k) :
    i < S := by
  obtain ⟨j, hj, rfl⟩ := mem_ring_slots.mp hi
  simp only [ring_wrap]
  split_ifs <;> omega

/-- The slots `detail::apply` visits are the ring slots from `output_pos` up to `input_pos`, and
the number it returns is their number. -/
theorem detail.apply_eq {T : Type} (rb : detail.RingBuffer T) (hS : rb.buffer.length < 2 ^ 64)
    (hi : rb.input_pos < rb.buffer.length) (ho : rb.output_pos < rb.buffer.length) :
    detail.apply rb =
      (ring_slots rb.buffer.length rb.output_pos
        (ring_dist rb.buffer.length rb.output_pos rb.input_pos),
       ring_dist rb.buffer.length rb.output_pos rb.input_pos) := by
  unfold detail.apply
  by_cases h1 : rb.input_pos = rb.output_pos
  · simp [h1, ring_dist, ring_slots]
  · rw [if_neg h1]
    by_cases h2 : rb.output_pos > rb.input_pos
    · rw [if_pos h2]
      have hd : ring_dist rb.buffer.length rb.output_pos rb.input_pos =
          (rb.buffer.length - rb.output_pos) + rb.input_pos := by
        unfold ring_dist; rw [if_neg (by omega)]; omega
      rw [hd]
      simp only [detail.subspan_from, detail.first, detail.Span.slots]
      rw [add_sz_of_lt (by omega)]
      congr 1
      unfold ring_slots
      rw [List.range_add, List.map_append, List.map_map, List.range'_eq_map_range,
        List.range'_eq_map_range]
      congr 1
      · apply List.map_congr_left
        intro j hj
        have := List.mem_range.mp hj
        simp only [ring_wrap]; split_ifs <;> omega
      · apply List.map_congr_left
        intro j hj
        have := List.mem_range.mp hj
        simp only [ring_wrap, Function.comp]; split_ifs <;> omega
    · rw [if_neg h2]
      have hd : ring_dist rb.buffer.length rb.output_pos rb.input_pos =
          rb.input_pos - rb.output_pos := by
        unfold ring_dist; rw [if_pos (by omega)]
      rw [hd]
      simp only [detail.subspan, detail.Span.slots]
      rw [sub_sz_of_le (by omega) (by omega)]
      congr 1
      unfold ring_slots
      rw [List.range'_eq_map_range]
      apply List.map_congr_left
      intro j hj
      have := List.mem_range.mp hj
      simp only [ring_wrap]; split_ifs <;> omega

theorem slot_at_set_ne {Obj : Type} (buffer : List (Option Obj)) {i j : Nat} (v : Option Obj)
    (h : i ≠ j) : slot_at (buffer.set i v) j = slot_at buffer j := by
  simp [slot_at, List.getElem?_set_ne h]

theorem slot_at_set_eq {Obj : Type} (buffer : List (Option Obj)) {i : Nat} (v : Option Obj)
    (h : i < buffer.length) : slot_at (buffer.set i v) i = v := by
  simp [slot_at, List.getElem?_set_self h]

/-- Handing out and destroying distinct slots hands out exactly their contents, in order. -/
theorem detail.invoke_and_destroy_each_handed {Obj : Type} (l : List Nat) :
    ∀ (buffer : List (Option Obj)), l.Nodup →
      (detail.invoke_and_destroy_each l buffer).1 = l.map (slot_at buffer) := by
  induction l with
  | nil => intro buffer _; rfl
  | cons i rest ih =>
    intro buffer hnd
    have hnd2 := List.nodup_cons.mp hnd
    simp only [detail.invoke_and_destroy_each, List.map_cons]
    rw [ih _ hnd2.2]
    congr 1
    apply List.map_congr_left
    intro j hj
    apply slot_at_set_ne
    rintro rfl
    exact hnd2.1 hj

theorem detail.invoke_and_destroy_each_length {Obj : Type} (l : List Nat) :
    ∀ (buffer : List (Option Obj)),
      (detail.invoke_and_destroy_each l buffer).2.length = buffer.length := by
  induction l with
  | nil => intro buffer; rfl
  | cons i rest ih =>
    intro buffer
    simp only [detail.invoke_and_destroy_each]
    rw [ih]; simp

end rb

namespace rb
namespace ObjectQueueSCSP
variable {Obj : Type}

theorem emplace_eq (N : Nat) (q : ObjectQueueSCSP Obj) (obj : Obj) (h : WF N q) :
    emplace q obj =
      if ring_dist (N + 1) q.m_Reader.output_pos q.m_Writer.input_pos < N then
        (true,
          { m_Buffer := q.m_Buffer.set q.m_Writer.input_pos (some obj)
            m_Reader := q.m_Reader
            m_Writer :=
              { input_pos := ring_wrap (N + 1) (q.m_Writer.input_pos + 1)
                output_pos :=
                  if ring_wrap (N + 1) (q.m_Writer.input_pos + 1) = q.m_Writer.output_pos
                  then q.m_Reader.output_pos else q.m_Writer.output_pos } })
      else
        (false, { q with m_Writer := { q.m_Writer with output_pos := q.m_Reader.output_pos } }) := by
  obtain ⟨hlen, hN, hwi, hwo, hro, hri, hd⟩ := h
  have hnext : (if add_sz q.m_Writer.input_pos 1 ≠ q.m_Buffer.length
      then add_sz q.m_Writer.input_pos 1 else 0) = ring_wrap (N + 1) (q.m_Writer.input_pos + 1) := by
    rw [add_sz_of_lt (by omega), hlen]
    simp only [ring_wrap]
    split_ifs <;> omega
  obtain ⟨e1, e2⟩ := ring_order_facts hwo hro hri hwi (by omega)
  have f1 := ring_wrap_succ_eq (S := N + 1) hwo hwi
  have f2 := ring_wrap_succ_eq (S := N + 1) hro hwi
  have l1 := ring_dist_lt hwo hwi
  have l2 := ring_dist_lt hro hwi
  unfold emplace
  simp only [hnext]
  by_cases h1 : ring_wrap (N + 1) (q.m_Writer.input_pos + 1) = q.m_Writer.output_pos
  · have g1 := f1.mp h1
    by_cases h2 : ring_wrap (N + 1) (q.m_Writer.input_pos + 1) = q.m_Reader.output_pos
    · have g2 := f2.mp h2
      have g3 : ¬ ring_dist (N + 1) q.m_Reader.output_pos q.m_Writer.input_pos < N := by omega
      simp only [if_pos h1, if_pos h2, if_neg g3]
    · have g2 := mt f2.mpr h2
      have g3 : ring_dist (N + 1) q.m_Reader.output_pos q.m_Writer.input_pos < N := by omega
      simp only [if_pos h1, if_neg h2, if_pos g3]
  · have g1 := mt f1.mpr h1
    have g3 : ring_dist (N + 1) q.m_Reader.output_pos q.m_Writer.input_pos < N := by omega
    simp only [if_neg h1, if_pos g3]

theorem consume_eq (N : Nat) (q : ObjectQueueSCSP Obj) (h : WF N q) :
    consume q =
      if q.m_Reader.output_pos = q.m_Writer.input_pos then (false, [], q)
      else
        (true, [slot_at q.m_Buffer q.m_Reader.output_pos],
          { m_Buffer := q.m_Buffer.set q.m_Reader.output_pos none
            m_Writer := q.m_Writer
            m_Reader :=
              { output_pos := ring_wrap (N + 1) (q.m_Reader.output_pos + 1)
                input_pos :=
                  if q.m_Reader.output_pos = q.m_Reader.input_pos
                  then q.m_Writer.input_pos else q.m_Reader.input_pos } }) := by
  obtain ⟨hlen, hN, hwi, hwo, hro, hri, hd⟩ := h
  have hnext : (if add_sz q.m_Reader.output_pos 1 ≠ q.m_Buffer.length
      then add_sz q.m_Reader.output_pos 1 else 0) = ring_wrap (N + 1) (q.m_Reader.output_pos + 1) := by
    rw [add_sz_of_lt (by omega), hlen]
    simp only [ring_wrap]
    split_ifs <;> omega
  unfold consume
  simp only [hnext, slot_at]
  by_cases h1 : q.m_Reader.output_pos = q.m_Reader.input_pos
  · by_cases h2 : q.m_Reader.output_pos = q.m_Writer.input_pos
    · simp only [if_pos h1, if_pos h2]
      have : q.m_Reader.input_pos = q.m_Writer.input_pos := by omega
      cases q with
      | mk w r b =>
        cases r with
        | mk ro ri => simp_all
    · simp only [if_pos h1, if_neg h2]
  · have h2 : q.m_Reader.output_pos ≠ q.m_Writer.input_pos := by
      simp only [ring_dist] at hd
      split_ifs at hd <;> omega
    simp only [if_neg h1, if_neg h2]

theorem count_eq (N : Nat) (q : ObjectQueueSCSP Obj) (h : WF N q) :
    count q = ring_dist (N + 1) q.m_Reader.output_pos q.m_Writer.input_pos := by
  obtain ⟨hlen, hN, hwi, hwo, hro, hri, hd⟩ := h
  unfold count detail.count ring_dist
  rw [hlen]
  by_cases h1 : q.m_Reader.output_pos ≤ q.m_Writer.input_pos
  · rw [if_neg (by omega), if_pos h1, sub_sz_of_le h1 (by omega)]
  · rw [if_pos (by omega), if_neg h1]
    unfold sub_sz add_sz
    have : q.m_Reader.output_pos % 2 ^ 64 = q.m_Reader.output_pos := Nat.mod_eq_of_lt (by omega)
    rw [this]
    omega

theorem stored_length (q : ObjectQueueSCSP Obj) :
    (stored q).length =
      ring_dist q.m_Buffer.length q.m_Reader.output_pos q.m_Writer.input_pos := by
  simp [stored, ring_slots_length]

theorem consume_all_eq (N : Nat) (q : ObjectQueueSCSP Obj) (h : WF N q) :
    consume_all q =
      (ring_dist (N + 1) q.m_Reader.output_pos q.m_Writer.input_pos, stored q,
        { m_Writer := q.m_Writer
          m_Reader := ⟨q.m_Writer.input_pos, q.m_Writer.input_pos⟩
          m_Buffer := (detail.invoke_and_destroy_each
            (ring_slots (N + 1) q.m_Reader.output_pos
              (ring_dist (N + 1) q.m_Reader.output_pos q.m_Writer.input_pos)) q.m_Buffer).2 }) := by
  obtain ⟨hlen, hN, hwi, hwo, hro, hri, hd⟩ := h
  have hdist : ring_dist (N + 1) q.m_Reader.output_pos q.m_Writer.input_pos ≤ N + 1 := by
    unfold ring_dist; split_ifs <;> omega
  unfold consume_all detail.invoke_and_destroy
  simp only []
  rw [detail.apply_eq _ (by simp only []; omega) (by simp only []; omega)
    (by simp only []; omega)]
  simp only [hlen]
  rw [detail.invoke_and_destroy_each_handed _ _ (ring_slots_nodup hdist)]
  simp only [stored, hlen]

end ObjectQueueSCSP
end rb

namespace rb
namespace ObjectQueueSCSP
variable {Obj : Type}

theorem emplace_WF (N : Nat) (q : ObjectQueueSCSP Obj) (obj : Obj) (h : WF N q) :
    WF N (emplace q obj).2 := by
  rw [emplace_eq N q obj h]
  obtain ⟨hlen, hN, hwi, hwo, hro, hri, hd⟩ := h
  obtain ⟨e1, e2⟩ := ring_order_facts hwo hro hri hwi (by omega)
  have z := ring_dist_self (N + 1) q.m_Reader.output_pos
  by_cases hlt : ring_dist (N + 1) q.m_Reader.output_pos q.m_Writer.input_pos < N
  · rw [if_pos hlt]
    have w := ring_wrap_lt (S := N + 1) (k := 1) hwi (by omega)
    have a1 := ring_dist_wrap_add (S := N + 1) (k := 1) hri hwi (by omega)
    have f1 := ring_wrap_succ_eq (S := N + 1) hwo hwi
    unfold WF
    dsimp only
    rw [List.length_set, a1]
    by_cases h1 : ring_wrap (N + 1) (q.m_Writer.input_pos + 1) = q.m_Writer.output_pos
    · rw [if_pos h1, z]
      exact ⟨hlen, hN, w, hro, hro, hri, by omega⟩
    · rw [if_neg h1]
      have g1 := mt f1.mpr h1
      have l1 := ring_dist_lt hwo hwi
      exact ⟨hlen, hN, w, hwo, hro, hri, by omega⟩
  · rw [if_neg hlt]
    unfold WF
    dsimp only
    rw [z]
    exact ⟨hlen, hN, hwi, hro, hro, hri, by omega⟩

theorem consume_WF (N : Nat) (q : ObjectQueueSCSP Obj) (h : WF N q) :
    WF N (consume q).2.2 := by
  rw [consume_eq N q h]
  have h0 := h
  obtain ⟨hlen, hN, hwi, hwo, hro, hri, hd⟩ := h
  by_cases h1 : q.m_Reader.output_pos = q.m_Writer.input_pos
  · rw [if_pos h1]; exact h0
  · rw [if_neg h1]
    obtain ⟨e1, e2⟩ := ring_order_facts hwo hro hri hwi (by omega)
    have nz := mt (ring_dist_eq_zero hro hwi).mp h1
    have w := ring_wrap_lt (S := N + 1) (k := 1) hro (by omega)
    have a1 := ring_dist_wrap_add (S := N + 1) (k := 1) hwo hro (by omega)
    have z := ring_dist_self (N + 1) q.m_Writer.input_pos
    unfold WF
    dsimp only
    rw [List.length_set, a1]
    by_cases h2 : q.m_Reader.output_pos = q.m_Reader.input_pos
    · rw [if_pos h2, z]
      have s1 := ring_dist_wrap_sub (S := N + 1) (k := 1) hro hwi (by omega)
      rw [s1]
      exact ⟨hlen, hN, hwi, hwo, w, hwi, by omega⟩
    · rw [if_neg h2]
      have nz2 := mt (ring_dist_eq_zero hro hri).mp h2
      have s1 := ring_dist_wrap_sub (S := N + 1) (k := 1) hro hri (by omega)
      rw [s1]
      exact ⟨hlen, hN, hwi, hwo, w, hri, by omega⟩

theorem consume_all_WF (N : Nat) (q : ObjectQueueSCSP Obj) (h : WF N q) :
    WF N (consume_all q).2.2 := by
  rw [consume_all_eq N q h]
  obtain ⟨hlen, hN, hwi, hwo, hro, hri, hd⟩ := h
  obtain ⟨e1, e2⟩ := ring_order_facts hwo hro hri hwi (by omega)
  have z := ring_dist_self (N + 1) q.m_Writer.input_pos
  unfold WF
  dsimp only
  rw [detail.invoke_and_destroy_each_length, z]
  exact ⟨hlen, hN, hwi, hwo, hwi, hwi, by omega⟩

theorem stored_emplace (N : Nat) (q : ObjectQueueSCSP Obj) (obj : Obj) (h : WF N q)
    (hlt : ring_dist (N + 1) q.m_Reader.output_pos q.m_Writer.input_pos < N) :
    stored (emplace q obj).2 = stored q ++ [some obj] := by
  rw [emplace_eq N q obj h, if_pos hlt]
  obtain ⟨hlen, hN, hwi, hwo, hro, hri, hd⟩ := h
  unfold stored
  simp only [List.length_set, hlen]
  have hd2 := ring_dist_wrap_add (S := N + 1) (k := 1) hro hwi (by omega)
  have hw := ring_wrap_dist (S := N + 1) hro hwi
  rw [hd2, ring_slots_succ, List.map_append, List.map_singleton, hw,
    slot_at_set_eq _ _ (by omega)]
  congr 1
  apply List.map_congr_left
  intro i hi
  apply slot_at_set_ne
  obtain ⟨j, hj, rfl⟩ := mem_ring_slots.mp hi
  intro hcon
  have := ring_dist_wrap (S := N + 1) (k := j) hro (by omega)
  rw [← hcon] at this
  omega

theorem stored_consume (N : Nat) (q : ObjectQueueSCSP Obj) (h : WF N q)
    (hne : q.m_Reader.output_pos ≠ q.m_Writer.input_pos) :
    stored q = slot_at q.m_Buffer q.m_Reader.output_pos :: stored (consume q).2.2 := by
  rw [consume_eq N q h, if_neg hne]
  obtain ⟨hlen, hN, hwi, hwo, hro, hri, hd⟩ := h
  unfold stored
  simp only [List.length_set, hlen]
  have nz := mt (ring_dist_eq_zero hro hwi).mp hne
  have l1 := ring_dist_lt hro hwi
  have s1 := ring_dist_wrap_sub (S := N + 1) (k := 1) hro hwi (by omega)
  have hd2 : ring_dist (N + 1) q.m_Reader.output_pos q.m_Writer.input_pos =
      ring_dist (N + 1) (ring_wrap (N + 1) (q.m_Reader.output_pos + 1)) q.m_Writer.input_pos + 1 := by
    omega
  have hnd : (ring_slots (N + 1) q.m_Reader.output_pos
      (ring_dist (N + 1) q.m_Reader.output_pos q.m_Writer.input_pos)).Nodup :=
    ring_slots_nodup (by omega)
  rw [hd2, ring_slots_cons hro (by omega)] at hnd
  rw [hd2, ring_slots_cons hro (by omega), List.map_cons]
  congr 1
  apply List.map_congr_left
  intro i hi
  symm
  apply slot_at_set_ne
  rintro rfl
  exact (List.nodup_cons.mp hnd).1 hi

theorem stored_consume_all (N : Nat) (q : ObjectQueueSCSP Obj) (h : WF N q) :
    stored (consume_all q).2.2 = [] := by
  rw [consume_all_eq N q h]
  simp [stored, ring_dist, ring_slots]

end ObjectQueueSCSP
end rb

namespace rb
namespace ObjectQueueSCSP
variable {Obj : Type}

theorem mk_queue_WF (N : Nat) (hN : N + 1 < 2 ^ 64) : WF N (mk_queue N : ObjectQueueSCSP Obj) := by
  unfold WF mk_queue
  simp only [List.length_replicate, add_sz_of_lt hN, ring_dist]
  refine ⟨trivial, hN, ?_, ?_, ?_, ?_, ?_⟩ <;> simp

theorem mk_queue_stored (N : Nat) : stored (mk_queue N : ObjectQueueSCSP Obj) = [] := by
  simp [stored, mk_queue, ring_dist, ring_slots]

/-- The simulation relation between the ring buffer and the bounded FIFO queue. -/
theorem call_simulation (N : Nat) (q : ObjectQueueSCSP Obj) (f : BoundedFifo Obj)
    (c : Call Obj) (h : WF N q) (hc : f.capacity = N) (hs : stored q = f.items.map some) :
    (call q c).1 = (f.call c).1 ∧ WF N (call q c).2 ∧ (f.call c).2.capacity = N ∧
      stored (call q c).2 = (f.call c).2.items.map some := by
  have hlen : f.items.length =
      ring_dist (N + 1) q.m_Reader.output_pos q.m_Writer.input_pos := by
    have := congrArg List.length hs
    rw [stored_length, List.length_map, h.1] at this
    exact this.symm
  cases c with
  | push obj =>
    have hwf := emplace_WF N q obj h
    have hst := stored_emplace N q obj h
    have heq := emplace_eq N q obj h
    simp only [call, push, BoundedFifo.call]
    by_cases hlt : ring_dist (N + 1) q.m_Reader.output_pos q.m_Writer.input_pos < N
    · have hlt2 : f.items.length < f.capacity := by omega
      rw [if_pos hlt2]
      refine ⟨?_, hwf, hc, ?_⟩
      · rw [heq, if_pos hlt]
      · rw [hst hlt, hs]; simp
    · have hlt2 : ¬ f.items.length < f.capacity := by omega
      rw [if_neg hlt2]
      refine ⟨?_, hwf, hc, ?_⟩
      · rw [heq, if_neg hlt]
      · rw [heq, if_neg hlt]
        exact hs
  | consume =>
    have hwf := consume_WF N q h
    have hst := stored_consume N q h
    have heq := consume_eq N q h
    simp only [call, BoundedFifo.call]
    by_cases hne : q.m_Reader.output_pos = q.m_Writer.input_pos
    · have h0 : f.items = [] := by
        apply List.eq_nil_of_length_eq_zero
        rw [hlen, hne]; simp [ring_dist]
      rw [h0]
      refine ⟨?_, hwf, hc, ?_⟩
      · rw [heq, if_pos hne]
      · rw [heq, if_pos hne, hs, h0]
    · have hst2 := hst hne
      rw [hs] at hst2
      cases hit : f.items with
      | nil => rw [hit] at hst2; simp at hst2
      | cons x xs =>
        rw [hit] at hst2
        simp only [List.map_cons, List.cons.injEq] at hst2
        refine ⟨?_, hwf, hc, ?_⟩
        · rw [heq, if_neg hne]
          simp only [hst2.1]
        · exact hst2.2.symm
  | consume_all =>
    have hwf := consume_all_WF N q h
    have heq := consume_all_eq N q h
    simp only [call, BoundedFifo.call]
    refine ⟨?_, hwf, hc, ?_⟩
    · rw [heq]; simp only [hlen, hs]
    · rw [stored_consume_all N q h]; rfl

theorem run_simulation (N : Nat) (calls : List (Call Obj)) :
    ∀ (q : ObjectQueueSCSP Obj) (f : BoundedFifo Obj), WF N q → f.capacity = N →
      stored q = f.items.map some →
      (run q calls).1 = (f.run calls).1 ∧ WF N (run q calls).2 ∧
        stored (run q calls).2 = (f.run calls).2.items.map some := by
  induction calls with
  | nil => intro q f h _ hs; exact ⟨rfl, h, hs⟩
  | cons c cs ih =>
    intro q f h hc hs
    obtain ⟨h1, h2, h3, h4⟩ := call_simulation N q f c h hc hs
    obtain ⟨i1, i2, i3⟩ := ih _ _ h2 h3 h4
    simp only [run, BoundedFifo.run]
    exact ⟨by rw [h1, i1], i2, i3⟩

/-- On the bounded FIFO queue, what was handed out followed by what is still stored is what was
stored at the start followed by the successfully pushed values. -/
theorem BoundedFifo.run_preserves (calls : List (Call Obj)) :
    ∀ (f : BoundedFifo Obj),
      handed_values (f.run calls).1 ++ (f.run calls).2.items.map some =
        (f.items ++ pushed_values calls (f.run calls).1).map some := by
  induction calls with
  | nil => intro f; simp [BoundedFifo.run, handed_values, pushed_values]
  | cons c cs ih =>
    intro f
    simp only [BoundedFifo.run]
    cases c with
    | push obj =>
      simp only [BoundedFifo.call]
      by_cases hlt : f.items.length < f.capacity
      · simp only [if_pos hlt, handed_values, pushed_values]
        rw [ih]; simp
      · simp only [if_neg hlt, handed_values, pushed_values]
        rw [ih]
    | consume =>
      cases hit : f.items with
      | nil =>
        simp only [BoundedFifo.call, hit, handed_values, pushed_values]
        rw [List.nil_append, ih]
        simp [hit]
      | cons x xs =>
        simp only [BoundedFifo.call, hit, handed_values, pushed_values]
        rw [List.append_assoc, ih]
        simp
    | consume_all =>
      simp only [BoundedFifo.call, handed_values, pushed_values]
      rw [List.append_assoc, ih]
      simp

/-- C1: `ObjectQueueSCSP` refines a bounded FIFO queue. For every capacity `N` and every sequence
of `push`, `consume` and `consume_all` calls on a fresh queue, every call returns what the same
call returns on the bounded FIFO queue of capacity `N` and hands the consumer functor the same
arguments; the arguments handed to the functor, followed by the elements still stored, are the
successfully pushed values, in push order, each exactly once. -/
theorem ObjectQueueSCSP_refines_bounded_fifo (N : Nat) (hN : N + 1 < 2 ^ 64)
    (calls : List (Call Obj)) :
    (run (mk_queue N : ObjectQueueSCSP Obj) calls).1 =
        (BoundedFifo.run ⟨N, []⟩ calls).1 ∧
      handed_values (run (mk_queue N : ObjectQueueSCSP Obj) calls).1 ++
          stored (run (mk_queue N : ObjectQueueSCSP Obj) calls).2 =
        (pushed_values calls (run (mk_queue N : ObjectQueueSCSP Obj) calls).1).map some := by
  obtain ⟨h1, _, h3⟩ := run_simulation N calls (mk_queue N : ObjectQueueSCSP Obj) ⟨N, []⟩
    (mk_queue_WF N hN) rfl (by rw [mk_queue_stored]; rfl)
  refine ⟨h1, ?_⟩
  rw [h1, h3]
  have := BoundedFifo.run_preserves calls (⟨N, []⟩ : BoundedFifo Obj)
  simpa using this

theorem ObjectQueueSCSP_refines_bounded_fifo_witness :
    4 + 1 < 2 ^ 64 ∧
    (run (mk_queue 4 : ObjectQueueSCSP Nat)
        [.push 10, .push 20, .push 30, .consume, .push 40, .consume_all]).1 =
      [.push true, .push true, .push true, .consume true [some 10], .push true,
        .consume_all 3 [some 20, some 30, some 40]] ∧
    (run (mk_queue 4 : ObjectQueueSCSP Nat)
        [.push 10, .push 20, .push 30, .consume, .push 40, .consume_all]).1 =
      (BoundedFifo.run ⟨4, []⟩
        [.push 10, .push 20, .push 30, .consume, .push 40, .consume_all]).1 ∧
    handed_values (run (mk_queue 4 : ObjectQueueSCSP Nat)
        [.push 10, .push 20, .push 30, .consume, .push 40, .consume_all]).1 ++
      stored (run (mk_queue 4 : ObjectQueueSCSP Nat)
        [.push 10, .push 20, .push 30, .consume, .push 40, .consume_all]).2 =
      (pushed_values [.push 10, .push 20, .push 30, .consume, .push 40, .consume_all]
        (run (mk_queue 4 : ObjectQueueSCSP Nat)
          [.push 10, .push 20, .push 30, .consume, .push 40, .consume_all]).1).map some :=
  ⟨by decide, by decide,
    ObjectQueueSCSP_refines_bounded_fifo 4 (by decide)
      [.push 10, .push 20, .push 30, .consume, .push 40, .consume_all]⟩

end ObjectQueueSCSP
end rb

namespace rb
namespace ObjectQueueSCSP
variable {Obj : Type}

theorem BoundedFifo.run_append (a b : List (Call Obj)) :
    ∀ (f : BoundedFifo Obj),
      f.run (a ++ b) = ((f.run a).1 ++ ((f.run a).2.run b).1, ((f.run a).2.run b).2) := by
  induction a with
  | nil => intro f; simp [BoundedFifo.run]
  | cons c cs ih => intro f; simp [BoundedFifo.run, ih]

theorem BoundedFifo.run_pushes (vs : List Obj) :
    ∀ (f : BoundedFifo Obj), f.items.length + vs.length ≤ f.capacity →
      f.run (vs.map Call.push) =
        (List.replicate vs.length (Outcome.push true), { f with items := f.items ++ vs }) := by
  induction vs with
  | nil => intro f _; simp [BoundedFifo.run]
  | cons v vs ih =>
    intro f hle
    simp only [List.length_cons] at hle
    have hlt : f.items.length < f.capacity := by omega
    simp only [List.map_cons, BoundedFifo.run, BoundedFifo.call, if_pos hlt]
    rw [ih _ (by simp; omega)]
    simp [List.replicate_succ]

/-- C2: on a well-formed `ObjectQueueSCSP` of capacity `N`, `push`/`emplace` returns `true` iff
`count() < N` before the call, and a call that returns `false` leaves `count()`, the storage, the
stored elements and both shared cursors unchanged.  Starting from the empty queue, `N` pushes
succeed, the next one returns `false`, and after one `consume` the next push succeeds. -/
theorem emplace_true_iff_count_lt (N : Nat) (q : ObjectQueueSCSP Obj) (obj : Obj)
    (vs : List Obj) (x y : Obj) (h : WF N q) (hvs : vs.length = N) (hN : 1 ≤ N) :
    ((emplace q obj).1 = true ↔ count q < N) ∧
    ((push q obj).1 = true ↔ count q < N) ∧
    ((emplace q obj).1 = false →
      count (emplace q obj).2 = count q ∧ (emplace q obj).2.m_Buffer = q.m_Buffer ∧
        stored (emplace q obj).2 = stored q ∧
        (emplace q obj).2.m_Writer.input_pos = q.m_Writer.input_pos ∧
        (emplace q obj).2.m_Reader = q.m_Reader) ∧
    (run (mk_queue N : ObjectQueueSCSP Obj)
        (vs.map Call.push ++ [Call.push x, Call.consume, Call.push y])).1 =
      List.replicate N (Outcome.push true) ++
        [Outcome.push false, Outcome.consume true [vs.head?], Outcome.push true] := by
  have heq := emplace_eq N q obj h
  have hcnt := count_eq N q h
  have hiff : (emplace q obj).1 = true ↔ count q < N := by
    rw [heq, hcnt]
    by_cases hlt : ring_dist (N + 1) q.m_Reader.output_pos q.m_Writer.input_pos < N
    · simp [if_pos hlt, hlt]
    · simp [if_neg hlt, hlt]
  refine ⟨hiff, hiff, ?_, ?_⟩
  · intro hf
    have hlt : ¬ ring_dist (N + 1) q.m_Reader.output_pos q.m_Writer.input_pos < N := by
      intro hlt
      rw [heq, if_pos hlt] at hf
      simp at hf
    rw [heq, if_neg hlt]
    simp [count, stored]
  · obtain ⟨h1, _, _⟩ := run_simulation N
      (vs.map Call.push ++ [Call.push x, Call.consume, Call.push y])
      (mk_queue N : ObjectQueueSCSP Obj) ⟨N, []⟩ (mk_queue_WF N h.2.1) rfl
      (by rw [mk_queue_stored]; rfl)
    rw [h1, BoundedFifo.run_append, BoundedFifo.run_pushes vs _ (by simp [hvs])]
    cases vs with
    | nil => simp at hvs; omega
    | cons v vs =>
      simp only [List.length_cons] at hvs
      have hlt : vs.length < N := by omega
      simp [BoundedFifo.run, BoundedFifo.call, hvs, hlt]

theorem emplace_true_iff_count_lt_witness :
    WF 2 ((run (mk_queue 2 : ObjectQueueSCSP Nat) [.push 1, .push 2]).2) ∧
    (emplace ((run (mk_queue 2 : ObjectQueueSCSP Nat) [.push 1, .push 2]).2) 3).1 = false ∧
    (run (mk_queue 2 : ObjectQueueSCSP Nat)
        [.push 1, .push 2, .push 3, .consume, .push 4]).1 =
      [.push true, .push true, .push false, .consume true [some 1], .push true] :=
  ⟨by decide, by decide,
    (emplace_true_iff_count_lt 2 ((run (mk_queue 2 : ObjectQueueSCSP Nat) [.push 1, .push 2]).2)
      3 [1, 2] 3 4 (by decide) rfl (by decide)).2.2.2⟩

end ObjectQueueSCSP
end rb

namespace rb

theorem ring_slots_add {S a k1 k2 : Nat} (ha : a < S) (hk : k1 + k2 ≤ S) :
    ring_slots S a (k1 + k2) = ring_slots S a k1 ++ ring_slots S (ring_wrap S (a + k1)) k2 := by
  unfold ring_slots
  rw [List.range_add, List.map_append, List.map_map]
  congr 1
  apply List.map_congr_left
  intro j hj
  have := List.mem_range.mp hj
  simp only [ring_wrap, Function.comp]
  split_ifs <;> omega

/-- The ring slots from `a` up to `b` are the segment `[a, b)`, or `[a, S)` followed by `[0, b)`
when `a > b`. -/
theorem ring_slots_eq_segments {S a b : Nat} (ha : a < S) (hb : b < S) :
    ring_slots S a (ring_dist S a b) =
      if a ≤ b then List.range' a (b - a) else List.range' a (S - a) ++ List.range' 0 b := by
  by_cases h : a ≤ b
  · rw [if_pos h]
    unfold ring_dist ring_slots
    rw [if_pos h, List.range'_eq_map_range]
    apply List.map_congr_left
    intro j hj
    have := List.mem_range.mp hj
    simp only [ring_wrap]; split_ifs <;> omega
  · rw [if_neg h]
    have hd : ring_dist S a b = (S - a) + b := by
      unfold ring_dist; rw [if_neg h]; omega
    rw [hd]
    unfold ring_slots
    rw [List.range_add, List.map_append, List.map_map, List.range'_eq_map_range,
      List.range'_eq_map_range]
    congr 1
    · apply List.map_congr_left
      intro j hj
      have := List.mem_range.mp hj
      simp only [ring_wrap]; split_ifs <;> omega
    · apply List.map_congr_left
      intro j hj
      have := List.mem_range.mp hj
      simp only [ring_wrap, Function.comp]; split_ifs <;> omega

/-- Storage after `invoke_and_destroy`: the visited slots hold no object, the others are
untouched. -/
theorem detail.invoke_and_destroy_each_slot_at {Obj : Type} (l : List Nat) :
    ∀ (buffer : List (Option Obj)) (j : Nat),
      slot_at (detail.invoke_and_destroy_each l buffer).2 j =
        if j ∈ l then none else slot_at buffer j := by
  induction l with
  | nil => intro buffer j; simp [detail.invoke_and_destroy_each]
  | cons i rest ih =>
    intro buffer j
    simp only [detail.invoke_and_destroy_each, ih, List.mem_cons]
    by_cases h1 : j ∈ rest
    · simp [h1]
    · by_cases h2 : j = i
      · subst h2
        simp only [h1, if_false, true_or, if_true]
        unfold slot_at
        by_cases hl : j < buffer.length
        · simp [List.getElem?_set_self hl]
        · simp [List.getElem?_eq_none (by simpa using hl : (buffer.set j none).length ≤ j)]
      · simp only [h1, h2, or_self, if_false]
        exact slot_at_set_ne _ _ (Ne.symm h2)

/-- Without wrap-around of `output_pos + n`, `detail::next_pos` is `output_pos` advanced by
`min(n, count)` slots in ring order. -/
theorem detail.next_pos_eq_of_no_wrap {S out inp n : Nat} (hS : S < 2 ^ 64) (ho : out < S)
    (hi : inp < S) (hn : out + n < 2 ^ 64) :
    detail.next_pos out inp S n = ring_wrap S (out + min n (ring_dist S out inp)) := by
  unfold detail.next_pos
  simp only [add_sz_of_lt hn]
  by_cases h1 : out ≤ inp
  · rw [if_pos h1]
    simp only [ring_dist, if_pos h1, ring_wrap]
    split_ifs <;> omega
  · rw [if_neg h1]
    by_cases h2 : out + n < S
    · rw [if_pos h2]
      simp only [ring_dist, if_neg h1, ring_wrap]
      split_ifs <;> omega
    · rw [if_neg h2, sub_sz_of_le (by omega) hn]
      simp only [ring_dist, if_neg h1, ring_wrap]
      split_ifs <;> omega

namespace ObjectQueueSCSP
variable {Obj : Type}

theorem consume_n_eq (N : Nat) (q : ObjectQueueSCSP Obj) (n : Nat) (h : WF N q)
    (hn : q.m_Reader.output_pos + n < 2 ^ 64) :
    consume_n q n =
      (min n (count q), (stored q).take (min n (count q)),
        { m_Writer := q.m_Writer
          m_Reader := ⟨ring_wrap (N + 1) (q.m_Reader.output_pos + min n (count q)),
            q.m_Writer.input_pos⟩
          m_Buffer := (detail.invoke_and_destroy_each
            (ring_slots (N + 1) q.m_Reader.output_pos (min n (count q))) q.m_Buffer).2 }) := by
  have hcnt := count_eq N q h
  obtain ⟨hlen, hN, hwi, hwo, hro, hri, hd⟩ := h
  have hnp := detail.next_pos_eq_of_no_wrap (n := n) hN hro hwi hn
  have hdist := ring_dist_lt hro hwi
  have hnl := ring_wrap_lt (S := N + 1)
    (k := min n (ring_dist (N + 1) q.m_Reader.output_pos q.m_Writer.input_pos)) hro (by omega)
  have hd2 := ring_dist_wrap (S := N + 1)
    (k := min n (ring_dist (N + 1) q.m_Reader.output_pos q.m_Writer.input_pos)) hro (by omega)
  unfold consume_n detail.invoke_and_destroy
  simp only [hlen, hnp]
  rw [detail.apply_eq _ (by simp only []; omega) (by simp only [hlen]; exact hnl)
    (by simp only []; omega)]
  simp only [hlen, hd2, hcnt]
  rw [detail.invoke_and_destroy_each_handed _ _ (ring_slots_nodup (by omega))]
  refine Prod.ext rfl (Prod.ext ?_ rfl)
  simp only [stored, hlen]
  rw [← List.map_take]
  congr 1
  unfold ring_slots
  rw [← List.map_take, List.take_range]
  congr 2
  omega

end ObjectQueueSCSP
end rb

namespace rb
namespace ObjectQueueSCSP
variable {Obj : Type}

theorem consume_n_WF (N : Nat) (q : ObjectQueueSCSP Obj) (n : Nat) (h : WF N q)
    (hn : q.m_Reader.output_pos + n < 2 ^ 64) : WF N (consume_n q n).2.2 := by
  rw [consume_n_eq N q n h hn, count_eq N q h]
  obtain ⟨hlen, hN, hwi, hwo, hro, hri, hd⟩ := h
  obtain ⟨e1, e2⟩ := ring_order_facts hwo hro hri hwi (by omega)
  generalize hk : min n (ring_dist (N + 1) q.m_Reader.output_pos q.m_Writer.input_pos) = k
  have hkd : k ≤ ring_dist (N + 1) q.m_Reader.output_pos q.m_Writer.input_pos := by omega
  have hw := ring_wrap_lt (S := N + 1) (k := k) hro (by omega)
  have a1 := ring_dist_wrap_add (S := N + 1) (k := k) hwo hro (by omega)
  have s1 := ring_dist_wrap_sub (S := N + 1) (k := k) hro hwi hkd
  have z := ring_dist_self (N + 1) q.m_Writer.input_pos
  unfold WF
  dsimp only
  rw [detail.invoke_and_destroy_each_length, a1, s1, z]
  exact ⟨hlen, hN, hwi, hwo, hw, hwi, by omega⟩

theorem stored_consume_n (N : Nat) (q : ObjectQueueSCSP Obj) (n : Nat) (h : WF N q)
    (hn : q.m_Reader.output_pos + n < 2 ^ 64) :
    stored (consume_n q n).2.2 = (stored q).drop (min n (count q)) := by
  rw [consume_n_eq N q n h hn, count_eq N q h]
  obtain ⟨hlen, hN, hwi, hwo, hro, hri, hd⟩ := h
  have hdist := ring_dist_lt hro hwi
  generalize hk : min n (ring_dist (N + 1) q.m_Reader.output_pos q.m_Writer.input_pos) = k
  have hkd : k ≤ ring_dist (N + 1) q.m_Reader.output_pos q.m_Writer.input_pos := by omega
  have hd2 := ring_dist_wrap_sub (S := N + 1) (k := k) hro hwi hkd
  have hsplit : ring_slots (N + 1) q.m_Reader.output_pos
      (ring_dist (N + 1) q.m_Reader.output_pos q.m_Writer.input_pos) =
      ring_slots (N + 1) q.m_Reader.output_pos k ++
        ring_slots (N + 1) (ring_wrap (N + 1) (q.m_Reader.output_pos + k))
          (ring_dist (N + 1) q.m_Reader.output_pos q.m_Writer.input_pos - k) := by
    rw [← ring_slots_add hro (by omega)]
    congr 1; omega
  have hnd : (ring_slots (N + 1) q.m_Reader.output_pos
      (ring_dist (N + 1) q.m_Reader.output_pos q.m_Writer.input_pos)).Nodup :=
    ring_slots_nodup (by omega)
  rw [hsplit] at hnd
  unfold stored
  simp only [detail.invoke_and_destroy_each_length, hlen, hd2]
  rw [hsplit, List.map_append, List.drop_left' (by simp [ring_slots_length])]
  apply List.map_congr_left
  intro i hi
  rw [detail.invoke_and_destroy_each_slot_at, if_neg]
  intro hmem
  exact (List.nodup_append.mp hnd).2.2 hmem hi

/-- C5 (failing input): with `n = 2 ^ 64 - 1` the sum `output_pos + n` wraps, so
`next_pos(1, 3, 5, n)` is `0` and not `3`, and `consume_n(f, n)` on a queue of capacity 4 holding
the two elements `20, 30` invokes `f` on four slots, two of which hold no object, returns 4, and
leaves `count()` at 3 instead of 0; on the empty queue with `output_pos = 1` it invokes `f` on
dead slots and returns 4 instead of 0. -/
theorem consume_n_wraps_at_large_n :
    detail.next_pos 1 3 5 (2 ^ 64 - 1) = 0 ∧
    ring_wrap 5 (1 + min (2 ^ 64 - 1) (detail.count 1 3 5)) = 3 ∧
    count (run (mk_queue 4 : ObjectQueueSCSP Nat) [.push 10, .push 20, .push 30, .consume]).2 = 2 ∧
    stored (run (mk_queue 4 : ObjectQueueSCSP Nat) [.push 10, .push 20, .push 30, .consume]).2 =
      [some 20, some 30] ∧
    (consume_n (run (mk_queue 4 : ObjectQueueSCSP Nat)
        [.push 10, .push 20, .push 30, .consume]).2 (2 ^ 64 - 1)).1 = 4 ∧
    (consume_n (run (mk_queue 4 : ObjectQueueSCSP Nat)
        [.push 10, .push 20, .push 30, .consume]).2 (2 ^ 64 - 1)).2.1 =
      [some 20, some 30, none, none] ∧
    count (consume_n (run (mk_queue 4 : ObjectQueueSCSP Nat)
        [.push 10, .push 20, .push 30, .consume]).2 (2 ^ 64 - 1)).2.2 = 3 ∧
    count (run (mk_queue 4 : ObjectQueueSCSP Nat) [.push 10, .consume]).2 = 0 ∧
    (consume_n (run (mk_queue 4 : ObjectQueueSCSP Nat) [.push 10, .consume]).2 (2 ^ 64 - 1)).1 = 4 ∧
    (consume_n (run (mk_queue 4 : ObjectQueueSCSP Nat) [.push 10, .consume]).2 (2 ^ 64 - 1)).2.1 =
      [none, none, none, none] := by
  decide

end ObjectQueueSCSP
end rb

namespace rb
namespace ObjectQueueSCSP
variable {Obj : Type}

/-- C6: on a well-formed queue `consume_all` invokes the functor on the content of every slot of
the half-open ring range from `output_pos` to the snapshot of `input_pos` (the segment
`[output, size)` followed by `[0, input)` when `output > input`), these being exactly the stored
elements, oldest first; it returns the number of slots visited, which is `count()` before the
call; afterwards the queue is empty, `output_pos` equals the snapshot of `input_pos`, every
visited slot has been destroyed and the writer's fields are untouched. -/
theorem consume_all_visits_ring_range (N : Nat) (q : ObjectQueueSCSP Obj) (h : WF N q) :
    (consume_all q).2.1 =
      (if q.m_Reader.output_pos ≤ q.m_Writer.input_pos
        then List.range' q.m_Reader.output_pos (q.m_Writer.input_pos - q.m_Reader.output_pos)
        else List.range' q.m_Reader.output_pos (N + 1 - q.m_Reader.output_pos) ++
          List.range' 0 q.m_Writer.input_pos).map (slot_at q.m_Buffer) ∧
    (consume_all q).2.1 = stored q ∧
    (consume_all q).1 = (consume_all q).2.1.length ∧
    (consume_all q).1 = count q ∧
    count (consume_all q).2.2 = 0 ∧
    empty (consume_all q).2.2 = true ∧
    stored (consume_all q).2.2 = [] ∧
    (consume_all q).2.2.m_Reader.output_pos = q.m_Writer.input_pos ∧
    (consume_all q).2.2.m_Writer = q.m_Writer ∧
    (∀ j, slot_at (consume_all q).2.2.m_Buffer j =
      if j ∈ ring_slots (N + 1) q.m_Reader.output_pos (count q) then none
      else slot_at q.m_Buffer j) := by
  have hwf := consume_all_WF N q h
  have hst := stored_consume_all N q h
  have hc' := count_eq N _ hwf
  have heq := consume_all_eq N q h
  have hcnt := count_eq N q h
  have hslots : (stored q).length = count q := by
    rw [stored_length, hcnt, h.1]
  refine ⟨?_, ?_, ?_, ?_, ?_, ?_, hst, ?_, ?_, ?_⟩
  · rw [heq]
    simp only [stored, h.1]
    rw [ring_slots_eq_segments h.2.2.2.2.1 h.2.2.1]
  · rw [heq]
  · rw [heq]; simp only []; rw [hslots, hcnt]
  · rw [heq, hcnt]
  · rw [hc', heq]; simp [ring_dist]
  · rw [heq]; simp [empty]
  · rw [heq]
  · rw [heq]
  · intro j
    rw [heq, hcnt]
    exact detail.invoke_and_destroy_each_slot_at _ _ j

theorem consume_all_visits_ring_range_witness :
    WF 4 (run (mk_queue 4 : ObjectQueueSCSP Nat)
      [.push 1, .push 2, .push 3, .push 4, .consume, .consume, .consume, .push 5, .push 6]).2 ∧
    (consume_all (run (mk_queue 4 : ObjectQueueSCSP Nat)
      [.push 1, .push 2, .push 3, .push 4, .consume, .consume, .consume, .push 5,
        .push 6]).2).2.1 = [some 4, some 5, some 6] ∧
    (consume_all (run (mk_queue 4 : ObjectQueueSCSP Nat)
      [.push 1, .push 2, .push 3, .push 4, .consume, .consume, .consume, .push 5,
        .push 6]).2).2.1 =
      stored (run (mk_queue 4 : ObjectQueueSCSP Nat)
      [.push 1, .push 2, .push 3, .push 4, .consume, .consume, .consume, .push 5, .push 6]).2 :=
  ⟨by decide, by decide,
    (consume_all_visits_ring_range 4 (run (mk_queue 4 : ObjectQueueSCSP Nat)
      [.push 1, .push 2, .push 3, .push 4, .consume, .consume, .consume, .push 5, .push 6]).2
      (by decide)).2.1⟩

/-- C7: on a well-formed queue `consume` returns `false` iff the queue is empty
(`input_pos == output_pos`); then the functor is not invoked and the queue is unchanged.
Otherwise it returns `true`, invokes the functor exactly once, on the oldest stored element,
`count()` decreases by exactly one, the remaining stored elements are unchanged and `output_pos`
is advanced by one modulo `N + 1`. -/
theorem consume_false_iff_empty (N : Nat) (q : ObjectQueueSCSP Obj) (h : WF N q) :
    ((consume q).1 = false ↔ q.m_Writer.input_pos = q.m_Reader.output_pos) ∧
    ((consume q).1 = false ↔ empty q = true) ∧
    ((consume q).1 = false ↔ count q = 0) ∧
    ((consume q).1 = false → (consume q).2.1 = [] ∧ (consume q).2.2 = q) ∧
    ((consume q).1 = true →
      (consume q).2.1 = [slot_at q.m_Buffer q.m_Reader.output_pos] ∧
      stored q = (consume q).2.1 ++ stored (consume q).2.2 ∧
      count (consume q).2.2 + 1 = count q ∧
      (consume q).2.2.m_Reader.output_pos = (q.m_Reader.output_pos + 1) % (N + 1) ∧
      (consume q).2.2.m_Writer = q.m_Writer) := by
  have hwf := consume_WF N q h
  have hst := stored_consume N q h
  have hc' := count_eq N _ hwf
  have heq := consume_eq N q h
  have hcnt := count_eq N q h
  obtain ⟨hlen, hN, hwi, hwo, hro, hri, hd⟩ := h
  by_cases he : q.m_Reader.output_pos = q.m_Writer.input_pos
  · rw [if_pos he] at heq
    have hz : count q = 0 := by rw [hcnt, he]; simp [ring_dist]
    refine ⟨?_, ?_, ?_, ?_, ?_⟩
    · rw [heq]; simp [he]
    · rw [heq]; simp [empty, he]
    · rw [heq]; simp [hz]
    · intro _; rw [heq]; exact ⟨rfl, rfl⟩
    · rw [heq]; simp
  · rw [if_neg he] at heq
    have hnz : count q ≠ 0 := by
      rw [hcnt]; simp only [ring_dist]; split_ifs <;> omega
    refine ⟨?_, ?_, ?_, ?_, ?_⟩
    · rw [heq]; simp; omega
    · rw [heq]; simp [empty]; omega
    · rw [heq]; simp [hnz]
    · rw [heq]; simp
    · intro _
      have hst2 := hst he
      refine ⟨?_, ?_, ?_, ?_, ?_⟩
      · rw [heq]
      · rw [hst2, heq]; rfl
      · rw [hc', hcnt, heq]
        simp only [ring_dist, ring_wrap]
        split_ifs <;> omega
      · rw [heq]
        simp only [ring_wrap]
        split_ifs with hlt
        · exact (Nat.mod_eq_of_lt hlt).symm
        · have : q.m_Reader.output_pos + 1 = N + 1 := by omega
          rw [this]; simp
      · rw [heq]

theorem consume_false_iff_empty_witness :
    WF 2 (run (mk_queue 2 : ObjectQueueSCSP Nat) [.push 7, .push 8]).2 ∧
    (consume (run (mk_queue 2 : ObjectQueueSCSP Nat) [.push 7, .push 8]).2).1 = true ∧
    (consume (run (mk_queue 2 : ObjectQueueSCSP Nat) [.push 7, .push 8]).2).2.1 = [some 7] ∧
    ((consume (run (mk_queue 2 : ObjectQueueSCSP Nat) [.push 7, .push 8]).2).1 = false ↔
      count (run (mk_queue 2 : ObjectQueueSCSP Nat) [.push 7, .push 8]).2 = 0) :=
  ⟨by decide, by decide, by decide,
    (consume_false_iff_empty 2 (run (mk_queue 2 : ObjectQueueSCSP Nat) [.push 7, .push 8]).2
      (by decide)).2.2.1⟩

end ObjectQueueSCSP
end rb

namespace rb

theorem detail.count_avl_eq {S wo inp : Nat} (hS : S < 2 ^ 64) (hw : wo < S) (hi : inp < S) :
    detail.count_avl wo inp S =
      if inp < wo then wo - inp - 1 else S - inp - 1 + (if wo ≠ 0 then 1 else 0) := by
  unfold detail.count_avl
  by_cases h : inp < wo
  · have e1 : sub_sz wo inp = wo - inp := sub_sz_of_le (by omega) (by omega)
    rw [if_pos h, if_pos h, e1, sub_sz_of_le (by omega) (by omega)]
  · have e1 : sub_sz S inp = S - inp := sub_sz_of_le (by omega) (by omega)
    rw [if_neg h, if_neg h, e1, sub_sz_of_le (by omega) (by omega),
      add_sz_of_lt (by split_ifs <;> omega)]

/-- The span `count_avl` exposes ends inside the ring, stays clear of the slots between the
output position and the input position and of the one-slot guard, and is empty exactly when the
ring is full. -/
theorem detail.count_avl_facts {S wo inp : Nat} (hS : S < 2 ^ 64) (hw : wo < S) (hi : inp < S) :
    inp + detail.count_avl wo inp S ≤ S ∧
    ring_dist S wo inp + detail.count_avl wo inp S + 1 ≤ S ∧
    (detail.count_avl wo inp S = 0 ↔ ring_dist S wo inp + 1 = S) := by
  rw [detail.count_avl_eq hS hw hi]
  unfold ring_dist
  refine ⟨?_, ?_, ?_, ?_⟩
  · split_ifs <;> omega
  · split_ifs <;> omega
  · intro h0; split_ifs at h0 ⊢ <;> omega
  · intro h0; split_ifs at h0 ⊢ <;> omega

namespace ObjectQueueSCSP
variable {Obj : Type}

theorem construct_in_span_length (objs : List Obj) :
    ∀ (buffer : List (Option Obj)) (i : Nat),
      (construct_in_span buffer i objs).length = buffer.length := by
  induction objs with
  | nil => intro buffer i; rfl
  | cons o os ih => intro buffer i; simp [construct_in_span, ih]

theorem construct_in_span_outside (objs : List Obj) :
    ∀ (buffer : List (Option Obj)) (i j : Nat), (j < i ∨ i + objs.length ≤ j) →
      slot_at (construct_in_span buffer i objs) j = slot_at buffer j := by
  induction objs with
  | nil => intro buffer i j _; rfl
  | cons o os ih =>
    intro buffer i j hj
    simp only [construct_in_span, List.length_cons] at hj ⊢
    rw [ih _ _ _ (by omega)]
    exact slot_at_set_ne _ _ (by omega)

theorem construct_in_span_inside (objs : List Obj) :
    ∀ (buffer : List (Option Obj)) (i : Nat), i + objs.length ≤ buffer.length →
      (List.range' i objs.length).map (slot_at (construct_in_span buffer i objs)) =
        objs.map some := by
  induction objs with
  | nil => intro buffer i _; rfl
  | cons o os ih =>
    intro buffer i hle
    simp only [List.length_cons] at hle
    simp only [construct_in_span, List.length_cons, List.range'_succ, List.map_cons]
    rw [ih _ _ (by simp; omega), construct_in_span_outside _ _ _ _ (by omega),
      slot_at_set_eq _ _ (by omega)]

/-- The cached output position `emplace_n` works with: the cache, or the reader's position when
the cache leaves no room. -/
theorem emplace_n_eq (N : Nat) (q : ObjectQueueSCSP Obj) (functor : detail.Span → List Obj)
    (h : WF N q) (hf : ∀ s, (functor s).length ≤ s.size) :
    emplace_n q functor =
      if ring_dist (N + 1) q.m_Reader.output_pos q.m_Writer.input_pos = N then
        (0, none, { q with m_Writer := { q.m_Writer with output_pos := q.m_Reader.output_pos } })
      else
        (let wo := if detail.count_avl q.m_Writer.output_pos q.m_Writer.input_pos (N + 1) = 0
            then q.m_Reader.output_pos else q.m_Writer.output_pos
         let span : detail.Span :=
            ⟨q.m_Writer.input_pos, detail.count_avl wo q.m_Writer.input_pos (N + 1)⟩
         ((functor span).length, some span,
          { m_Buffer := construct_in_span q.m_Buffer q.m_Writer.input_pos (functor span)
            m_Reader := q.m_Reader
            m_Writer := ⟨ring_wrap (N + 1) (q.m_Writer.input_pos + (functor span).length), wo⟩ })) := by
  obtain ⟨hlen, hN, hwi, hwo, hro, hri, hd⟩ := h
  obtain ⟨a1, a2, a3⟩ := detail.count_avl_facts hN hwo hwi
  obtain ⟨b1, b2, b3⟩ := detail.count_avl_facts hN hro hwi
  obtain ⟨e1, e2⟩ := ring_order_facts hwo hro hri hwi (by omega)
  have l1 := ring_dist_lt hwo hwi
  unfold emplace_n
  simp only [hlen, detail.subspan]
  by_cases hfull : ring_dist (N + 1) q.m_Reader.output_pos q.m_Writer.input_pos = N
  · have h1 : detail.count_avl q.m_Writer.output_pos q.m_Writer.input_pos (N + 1) = 0 :=
      a3.mpr (by omega)
    have h2 : detail.count_avl q.m_Reader.output_pos q.m_Writer.input_pos (N + 1) = 0 :=
      b3.mpr (by omega)
    simp only [h1, h2, if_pos hfull, if_true]
  · have h2 : detail.count_avl q.m_Reader.output_pos q.m_Writer.input_pos (N + 1) ≠ 0 := by
      intro hz; exact hfull (by have := b3.mp hz; omega)
    rw [if_neg hfull]
    by_cases h1 : detail.count_avl q.m_Writer.output_pos q.m_Writer.input_pos (N + 1) = 0
    · simp only [h1, if_true, if_neg h2]
      have hk := hf ⟨q.m_Writer.input_pos,
        detail.count_avl q.m_Reader.output_pos q.m_Writer.input_pos (N + 1)⟩
      simp only [] at hk
      generalize (functor ⟨q.m_Writer.input_pos,
        detail.count_avl q.m_Reader.output_pos q.m_Writer.input_pos (N + 1)⟩) = objs at hk ⊢
      have hkS : q.m_Writer.input_pos + objs.length ≤ N + 1 := by omega
      rw [Nat.mod_eq_of_lt (by omega), add_sz_of_lt (by omega)]
      refine Prod.ext rfl (Prod.ext rfl ?_)
      simp only [ring_wrap]
      split_ifs <;> first | rfl | omega | (congr 2; omega)
    · simp only [if_neg h1]
      have hk := hf ⟨q.m_Writer.input_pos,
        detail.count_avl q.m_Writer.output_pos q.m_Writer.input_pos (N + 1)⟩
      simp only [] at hk
      generalize (functor ⟨q.m_Writer.input_pos,
        detail.count_avl q.m_Writer.output_pos q.m_Writer.input_pos (N + 1)⟩) = objs at hk ⊢
      have hkS : q.m_Writer.input_pos + objs.length ≤ N + 1 := by omega
      rw [Nat.mod_eq_of_lt (by omega), add_sz_of_lt (by omega)]
      refine Prod.ext rfl (Prod.ext rfl ?_)
      simp only [ring_wrap]
      split_ifs <;> first | rfl | omega | (congr 2; omega)

end ObjectQueueSCSP
end rb

namespace rb

theorem ring_slots_eq_range {S a k : Nat} (h : a + k ≤ S) :
    ring_slots S a k = List.range' a k := by
  unfold ring_slots
  rw [List.range'_eq_map_range]
  apply List.map_congr_left
  intro j hj
  have := List.mem_range.mp hj
  simp only [ring_wrap]; split_ifs <;> omega

namespace ObjectQueueSCSP
variable {Obj : Type}

/-- What a successful `emplace_n` does to a well-formed queue, given the span size `n` it worked
with and the objects `objs` the functor constructed. -/
theorem emplace_n_step (N : Nat) (q : ObjectQueueSCSP Obj) (wo n : Nat) (objs : List Obj)
    (h : WF N q) (hwo : wo = q.m_Writer.output_pos ∨ wo = q.m_Reader.output_pos)
    (hn : n = detail.count_avl wo q.m_Writer.input_pos (N + 1)) (hk : objs.length ≤ n) :
    let q1 : ObjectQueueSCSP Obj :=
      { m_Buffer := construct_in_span q.m_Buffer q.m_Writer.input_pos objs
        m_Reader := q.m_Reader
        m_Writer := ⟨ring_wrap (N + 1) (q.m_Writer.input_pos + objs.length), wo⟩ }
    q.m_Writer.input_pos + n ≤ N + 1 ∧ count q + n ≤ N ∧ WF N q1 ∧
      count q1 = count q + objs.length ∧ stored q1 = stored q ++ objs.map some := by
  intro q1
  have hcnt := count_eq N q h
  obtain ⟨hlen, hN, hwi, hwo', hro, hri, hd⟩ := h
  have hwlt : wo < N + 1 := by rcases hwo with e | e <;> omega
  obtain ⟨c1, c2, c3⟩ := detail.count_avl_facts hN hwlt hwi
  rw [← hn] at c1 c2 c3
  have hsum : ring_dist (N + 1) wo q.m_Reader.output_pos +
      ring_dist (N + 1) q.m_Reader.output_pos q.m_Reader.input_pos +
      ring_dist (N + 1) q.m_Reader.input_pos q.m_Writer.input_pos ≤ N := by
    rcases hwo with e | e
    · rw [e]; exact hd
    · rw [e, ring_dist_self]; omega
  clear hd hwo hwo'
  obtain ⟨e1, e2⟩ := ring_order_facts hwlt hro hri hwi (by omega)
  have hA : q.m_Writer.input_pos + n ≤ N + 1 := c1
  have hB : ring_dist (N + 1) q.m_Reader.output_pos q.m_Writer.input_pos + n ≤ N := by omega
  have hw := ring_wrap_lt (S := N + 1) (k := objs.length) hwi (by omega)
  have hd3 := ring_dist_wrap_add (S := N + 1) (k := objs.length) hri hwi (by omega)
  have hwf : WF N q1 := by
    unfold WF
    simp only [q1, construct_in_span_length]
    rw [hd3]
    exact ⟨hlen, hN, hw, hwlt, hro, hri, by omega⟩
  have hd2 := ring_dist_wrap_add (S := N + 1) (k := objs.length) hro hwi (by omega)
  have hcnt1 : count q1 = count q + objs.length := by
    rw [count_eq N q1 hwf, hcnt]; exact hd2
  refine ⟨hA, by rw [hcnt]; exact hB, hwf, hcnt1, ?_⟩
  unfold stored
  simp only [q1, construct_in_span_length, hlen, hd2]
  have hw := ring_wrap_dist (S := N + 1) hro hwi
  have hnd : (ring_slots (N + 1) q.m_Reader.output_pos
      (ring_dist (N + 1) q.m_Reader.output_pos q.m_Writer.input_pos + objs.length)).Nodup :=
    ring_slots_nodup (by omega)
  rw [ring_slots_add hro (by omega), hw,
    ring_slots_eq_range (by omega : q.m_Writer.input_pos + objs.length ≤ N + 1)] at hnd ⊢
  rw [List.map_append, construct_in_span_inside _ _ _ (by omega)]
  congr 1
  apply List.map_congr_left
  intro i hi
  apply construct_in_span_outside
  by_contra hcon
  have hmem : i ∈ List.range' q.m_Writer.input_pos objs.length := by
    rw [List.mem_range'_1]; omega
  exact (List.nodup_append.mp hnd).2.2 hi hmem

end ObjectQueueSCSP
end rb

namespace rb
namespace ObjectQueueSCSP
variable {Obj : Type}

theorem count_le (N : Nat) (q : ObjectQueueSCSP Obj) (h : WF N q) : count q ≤ N := by
  rw [count_eq N q h]
  have := ring_dist_lt h.2.2.2.2.1 h.2.2.1
  omega

/-- C8: on a well-formed queue of capacity `N`, with a functor that constructs objects at the
front of the span it is given and returns their number `k <= n_avl`:
when the queue is full, `emplace_n` returns 0 without invoking the functor and leaves the
storage, the stored elements, `count()` and both shared cursors unchanged;
otherwise it invokes the functor on the contiguous span `[input, input + n_avl)` with
`n_avl >= 1`, which lies inside the storage and whose slots fit next to the stored elements,
returns `k`, `count()` increases by exactly `k`, and the `k` objects are stored after all earlier
elements in index order, so that a following `consume_all` hands out the earlier elements and
then the new objects in index order. -/
theorem emplace_n_contract (N : Nat) (q : ObjectQueueSCSP Obj)
    (functor : detail.Span → List Obj) (h : WF N q) (hf : ∀ s, (functor s).length ≤ s.size) :
    (count q = N →
      (emplace_n q functor).1 = 0 ∧ (emplace_n q functor).2.1 = none ∧
      (emplace_n q functor).2.2.m_Buffer = q.m_Buffer ∧
      (emplace_n q functor).2.2.m_Writer.input_pos = q.m_Writer.input_pos ∧
      (emplace_n q functor).2.2.m_Reader = q.m_Reader ∧
      stored (emplace_n q functor).2.2 = stored q ∧
      count (emplace_n q functor).2.2 = count q) ∧
    (count q ≠ N →
      ∃ n_avl, 1 ≤ n_avl ∧ q.m_Writer.input_pos + n_avl ≤ N + 1 ∧ count q + n_avl ≤ N ∧
        (emplace_n q functor).2.1 = some ⟨q.m_Writer.input_pos, n_avl⟩ ∧
        (emplace_n q functor).1 = (functor ⟨q.m_Writer.input_pos, n_avl⟩).length ∧
        count (emplace_n q functor).2.2 =
          count q + (functor ⟨q.m_Writer.input_pos, n_avl⟩).length ∧
        stored (emplace_n q functor).2.2 =
          stored q ++ (functor ⟨q.m_Writer.input_pos, n_avl⟩).map some ∧
        (consume_all (emplace_n q functor).2.2).2.1 =
          stored q ++ (functor ⟨q.m_Writer.input_pos, n_avl⟩).map some ∧
        (emplace_n q functor).2.2.m_Reader = q.m_Reader ∧
        WF N (emplace_n q functor).2.2) := by
  have heq := emplace_n_eq N q functor h hf
  have hcnt := count_eq N q h
  constructor
  · intro hfull
    rw [hcnt] at hfull
    rw [heq, if_pos hfull]
    simp [stored, count]
  · intro hnf
    rw [hcnt] at hnf
    rw [if_neg hnf] at heq
    generalize hwo : (if detail.count_avl q.m_Writer.output_pos q.m_Writer.input_pos (N + 1) = 0
      then q.m_Reader.output_pos else q.m_Writer.output_pos) = wo at heq
    have hwo2 : wo = q.m_Writer.output_pos ∨ wo = q.m_Reader.output_pos := by
      rw [← hwo]; split_ifs <;> simp
    have hn1 : 1 ≤ detail.count_avl wo q.m_Writer.input_pos (N + 1) := by
      obtain ⟨hlen, hN, hwi, hwo', hro, hri, hd⟩ := h
      rw [← hwo]
      by_cases h1 : detail.count_avl q.m_Writer.output_pos q.m_Writer.input_pos (N + 1) = 0
      · rw [if_pos h1]
        have b3 := (detail.count_avl_facts hN hro hwi).2.2
        have : detail.count_avl q.m_Reader.output_pos q.m_Writer.input_pos (N + 1) ≠ 0 := by
          intro hz; exact hnf (by have := b3.mp hz; omega)
        omega
      · rw [if_neg h1]; omega
    have hstep := emplace_n_step N q wo _
      (functor ⟨q.m_Writer.input_pos, detail.count_avl wo q.m_Writer.input_pos (N + 1)⟩)
      h hwo2 rfl (hf _)
    simp only [] at hstep heq
    obtain ⟨s1, s2, s3, s4, s5⟩ := hstep
    refine ⟨detail.count_avl wo q.m_Writer.input_pos (N + 1), hn1, s1, s2, ?_⟩
    rw [heq]
    refine ⟨rfl, rfl, s4, s5, ?_, rfl, s3⟩
    rw [consume_all_eq N _ s3]
    exact s5

theorem emplace_n_contract_witness :
    WF 4 (run (mk_queue 4 : ObjectQueueSCSP Nat) [.push 1, .push 2, .consume]).2 ∧
    (emplace_n (run (mk_queue 4 : ObjectQueueSCSP Nat) [.push 1, .push 2, .consume]).2
      (fun s => List.take s.size [7, 8])) =
      (2, some ⟨2, 2⟩, ⟨⟨4, 0⟩, ⟨1, 2⟩, [none, some 2, some 7, some 8, none]⟩) ∧
    (count (run (mk_queue 4 : ObjectQueueSCSP Nat) [.push 1, .push 2, .consume]).2 = 4 →
      (emplace_n (run (mk_queue 4 : ObjectQueueSCSP Nat) [.push 1, .push 2, .consume]).2
        (fun s => List.take s.size [7, 8])).1 = 0) :=
  ⟨by decide, by decide, fun hfull =>
    ((emplace_n_contract 4 (run (mk_queue 4 : ObjectQueueSCSP Nat) [.push 1, .push 2, .consume]).2
      (fun s => List.take s.size [7, 8]) (by decide)
      (fun s => by simp [List.length_take])).1 hfull).1⟩

end ObjectQueueSCSP
end rb

namespace rb
namespace ObjectQueueMCSP

/-- C3 (failing input): capacity 8, readers 0 and 1 registered, values 1, 2, 3 pushed, reader 0
consumes one element; then `consume_n(f, 2 ^ 64 - 1)` of reader 1 finds `output_pos + n` wrapped
to 0 in `next_pos`, reserves the ring range from slot 1 round to slot 0, and its functor is
invoked on eight slots: the two stored elements 2 and 3 and six slots that were never pushed.
A following `consume` of reader 0 is handed slot 0 again, which holds no object any more. -/
theorem mcsp_consume_n_hands_out_unpushed_slots :
    (run (mk_queue 8 2 : ObjectQueueMCSP Nat)
      [.get_reader 0, .get_reader 1, .push 1, .push 2, .push 3, .consume 0 true true,
        .consume_n 1 (2 ^ 64 - 1) true true, .consume 0 true true]).1 =
      [.done, .done, .push true, .push true, .push true, .consumed 0 1 [some 1],
        .consumed 1 8 [some 2, some 3, none, none, none, none, none, none],
        .consumed 0 1 [none]] := by
  decide

/-- C4 (failing input): capacity 8, readers 0 and 1 registered, values 1, 2, 3 pushed, reader 1
consumes one element and announces position 1.  The ring order holds there.  After
`consume_n(f, 2 ^ 64 - 1)` of reader 0, `value(output_pos)` has gone back to 0, behind the
position 1 announced by reader 1, and the ring order no longer holds. -/
theorem mcsp_ring_order_broken_by_consume_n :
    ring_order (run (mk_queue 8 2 : ObjectQueueMCSP Nat)
      [.get_reader 0, .get_reader 1, .push 1, .push 2, .push 3, .consume 1 true true]).2 ∧
    ¬ ring_order (run (mk_queue 8 2 : ObjectQueueMCSP Nat)
      [.get_reader 0, .get_reader 1, .push 1, .push 2, .push 3, .consume 1 true true,
        .consume_n 0 (2 ^ 64 - 1) true true]).2 ∧
    (run (mk_queue 8 2 : ObjectQueueMCSP Nat)
      [.get_reader 0, .get_reader 1, .push 1, .push 2, .push 3, .consume 1 true true,
        .consume_n 0 (2 ^ 64 - 1) true true]).2 =
      { m_Writer := ⟨3 * 2 ^ 16 + 3, 0⟩, m_OutputPos := 0 * 2 ^ 16 + 3,
        m_Buffer := [none, none, none, none, none, none, none, none, none],
        m_PositionArray := [0, 1] } := by
  decide

end ObjectQueueMCSP
end rb

namespace rb
namespace BufferQueueSCSP

theorem bq_count_eq (M : Nat) (q : BufferQueueSCSP) (h : WF M q) :
    count q = ring_dist (M + 1) q.m_Reader.output_pos q.m_Writer.input_pos := by
  obtain ⟨hlen, hN, hwi, hwo, hro, hri, hd⟩ := h
  unfold count detail.count ring_dist
  rw [hlen]
  by_cases h1 : q.m_Reader.output_pos ≤ q.m_Writer.input_pos
  · rw [if_neg (by omega), if_pos h1, sub_sz_of_le h1 (by omega)]
  · rw [if_pos (by omega), if_neg h1]
    unfold sub_sz add_sz
    have : q.m_Reader.output_pos % 2 ^ 64 = q.m_Reader.output_pos := Nat.mod_eq_of_lt (by omega)
    rw [this]
    omega

theorem bq_splice_at_set_ne (q : BufferQueueSCSP) (l : List Buffer) {i j : Nat} (v : Buffer)
    (hl : l = q.m_SpliceArray.set i v) (w : WriterBQ) (r : ReaderSCSP) (h : i ≠ j) :
    splice_at ⟨w, r, l⟩ j = splice_at q j := by
  subst hl
  simp [splice_at, List.getElem?_set_ne h]

theorem bq_sync_WF (M : Nat) (q : BufferQueueSCSP) (h : WF M q) : WF M (sync q) := by
  obtain ⟨hlen, hN, hwi, hwo, hro, hri, hd⟩ := h
  have z := ring_dist_self (M + 1) q.m_Reader.output_pos
  unfold WF sync
  dsimp only
  rw [z]
  exact ⟨hlen, hN, hwi, hro, hro, hri, by omega⟩

theorem bq_sync_stored (q : BufferQueueSCSP) : stored (sync q) = stored q := rfl

theorem bq_sync_count (q : BufferQueueSCSP) : count (sync q) = count q := rfl

/-- The slot-ring part of a failed or successful `carve`: the queue afterwards is the queue
itself or its `sync`. -/
theorem carve_queue (q : BufferQueueSCSP) (s a : Nat) :
    (carve q s a).2 = q ∨ (carve q s a).2 = sync q := by
  unfold carve
  simp only []
  split_ifs <;> simp

theorem carve_WF (M : Nat) (q : BufferQueueSCSP) (s a : Nat) (h : WF M q) :
    WF M (carve q s a).2 := by
  rcases carve_queue q s a with e | e <;> rw [e]
  · exact h
  · exact bq_sync_WF M q h

theorem carve_stored (q : BufferQueueSCSP) (s a : Nat) : stored (carve q s a).2 = stored q := by
  rcases carve_queue q s a with e | e <;> rw [e]
  rfl

theorem carve_count (q : BufferQueueSCSP) (s a : Nat) : count (carve q s a).2 = count q := by
  rcases carve_queue q s a with e | e <;> rw [e]
  rfl

theorem carve_input_pos (q : BufferQueueSCSP) (s a : Nat) :
    (carve q s a).2.m_Writer.input_pos = q.m_Writer.input_pos := by
  rcases carve_queue q s a with e | e <;> rw [e]
  rfl

theorem carve_buffer (q : BufferQueueSCSP) (s a : Nat) :
    (carve q s a).2.m_Writer.byte_rb.buffer = q.m_Writer.byte_rb.buffer := by
  rcases carve_queue q s a with e | e <;> rw [e]
  rfl

theorem carve_reader (q : BufferQueueSCSP) (s a : Nat) :
    (carve q s a).2.m_Reader = q.m_Reader := by
  rcases carve_queue q s a with e | e <;> rw [e]
  rfl

theorem carve_splice (q : BufferQueueSCSP) (s a : Nat) :
    (carve q s a).2.m_SpliceArray = q.m_SpliceArray := by
  rcases carve_queue q s a with e | e <;> rw [e]
  rfl

/-- A successful `carve` leaves room in the slot ring: the slot after `input_pos` is not the
writer's cached output position. -/
theorem carve_room (q : BufferQueueSCSP) (s a : Nat) (hne : (carve q s a).1.size ≠ 0) :
    (if add_sz q.m_Writer.input_pos 1 ≠ q.m_SpliceArray.length
      then add_sz q.m_Writer.input_pos 1 else 0) ≠ (carve q s a).2.m_Writer.output_pos := by
  unfold carve at hne ⊢
  simp only [] at hne ⊢
  split_ifs at hne ⊢ with h1 h2 <;> simp_all [Buffer.nil]

/-- `allocate_and_release` is `carve` followed, on success, by the builder and `release`. -/
theorem allocate_and_release_eq (q : BufferQueueSCSP) (s a : Nat) (functor : Buffer → Buffer) :
    allocate_and_release q s a functor =
      if (carve q s a).1.size = 0 then (none, none, (carve q s a).2)
      else (some (release (carve q s a).2 (functor (carve q s a).1)).1, some (carve q s a).1,
        (release (carve q s a).2 (functor (carve q s a).1)).2) := by
  unfold allocate_and_release carve release
  simp only [Buffer.empty, beq_iff_eq]
  split_ifs <;> simp_all [Buffer.nil, sync]

end BufferQueueSCSP
end rb

namespace rb
namespace BufferQueueSCSP

theorem bq_next_eq (M : Nat) (q : BufferQueueSCSP) (h : WF M q) :
    (if add_sz q.m_Writer.input_pos 1 ≠ q.m_SpliceArray.length
      then add_sz q.m_Writer.input_pos 1 else 0) = ring_wrap (M + 1) (q.m_Writer.input_pos + 1) := by
  obtain ⟨hlen, hN, hwi, hwo, hro, hri, hd⟩ := h
  rw [add_sz_of_lt (by omega), hlen]
  simp only [ring_wrap]
  split_ifs <;> omega

/-- With room in the slot ring the queue is not full. -/
theorem bq_room_not_full (M : Nat) (q : BufferQueueSCSP) (h : WF M q)
    (hroom : ring_wrap (M + 1) (q.m_Writer.input_pos + 1) ≠ q.m_Writer.output_pos) :
    ring_dist (M + 1) q.m_Reader.output_pos q.m_Writer.input_pos < M := by
  obtain ⟨hlen, hN, hwi, hwo, hro, hri, hd⟩ := h
  obtain ⟨e1, e2⟩ := ring_order_facts hwo hro hri hwi (by omega)
  have g1 := mt (ring_wrap_succ_eq (S := M + 1) hwo hwi).mpr hroom
  have l1 := ring_dist_lt hwo hwi
  omega

/-- With room in the slot ring the writer's cache is less than a lap less one behind. -/
theorem bq_room_window (M : Nat) (q : BufferQueueSCSP) (h : WF M q)
    (hroom : ring_wrap (M + 1) (q.m_Writer.input_pos + 1) ≠ q.m_Writer.output_pos) :
    ring_dist (M + 1) q.m_Writer.output_pos q.m_Writer.input_pos < M := by
  obtain ⟨hlen, hN, hwi, hwo, hro, hri, hd⟩ := h
  have g1 := mt (ring_wrap_succ_eq (S := M + 1) hwo hwi).mpr hroom
  have l1 := ring_dist_lt hwo hwi
  omega

theorem release_WF (M : Nat) (q : BufferQueueSCSP) (r : Buffer) (h : WF M q)
    (hroom : ring_wrap (M + 1) (q.m_Writer.input_pos + 1) ≠ q.m_Writer.output_pos) :
    WF M (release q r).2 := by
  have hnext := bq_next_eq M q h
  have hlt := bq_room_window M q h hroom
  obtain ⟨hlen, hN, hwi, hwo, hro, hri, hd⟩ := h
  obtain ⟨e1, e2⟩ := ring_order_facts hwo hro hri hwi (by omega)
  have w := ring_wrap_lt (S := M + 1) (k := 1) hwi (by omega)
  have a1 := ring_dist_wrap_add (S := M + 1) (k := 1) hri hwi (by omega)
  unfold release WF
  simp only [hnext, List.length_set]
  rw [a1]
  exact ⟨hlen, hN, w, hwo, hro, hri, by omega⟩

/-- Appending a descriptor at `input_pos`: the descriptors from slot `a` up to the new
`input_pos` are those up to the old one followed by the new descriptor. -/
theorem bq_release_slots (M : Nat) (q : BufferQueueSCSP) (r : Buffer) (a : Nat) (h : WF M q)
    (ha : a < M + 1) (hlt : ring_dist (M + 1) a q.m_Writer.input_pos < M) :
    (ring_slots (M + 1) a (ring_dist (M + 1) a (release q r).2.m_Writer.input_pos)).map
        (release q r).2.splice_at =
      (ring_slots (M + 1) a (ring_dist (M + 1) a q.m_Writer.input_pos)).map q.splice_at ++ [r] := by
  have hnext := bq_next_eq M q h
  obtain ⟨hlen, hN, hwi, hwo, hro, hri, hd⟩ := h
  rw [hlen] at hnext
  have hd2 := ring_dist_wrap_add (S := M + 1) (k := 1) ha hwi (by omega)
  have hw := ring_wrap_dist (S := M + 1) ha hwi
  have hin : (release q r).2.m_Writer.input_pos =
      ring_wrap (M + 1) (q.m_Writer.input_pos + 1) := by
    simp only [release, hlen, hnext]
  rw [hin, hd2, ring_slots_succ, List.map_append, List.map_singleton, hw]
  congr 1
  · apply List.map_congr_left
    intro i hi
    apply bq_splice_at_set_ne q _ r rfl
    obtain ⟨j, hj, rfl⟩ := mem_ring_slots.mp hi
    intro hcon
    have := ring_dist_wrap (S := M + 1) (k := j) ha (by omega)
    rw [← hcon] at this
    omega
  · simp [release, splice_at,
      List.getElem?_set_self (by omega : q.m_Writer.input_pos < q.m_SpliceArray.length)]

theorem release_stored (M : Nat) (q : BufferQueueSCSP) (r : Buffer) (h : WF M q)
    (hlt : ring_dist (M + 1) q.m_Reader.output_pos q.m_Writer.input_pos < M) :
    stored (release q r).2 = stored q ++ [r] := by
  have key := bq_release_slots M q r q.m_Reader.output_pos h h.2.2.2.2.1 hlt
  have hlen := h.1
  unfold stored
  have e : (release q r).2.m_SpliceArray.length = M + 1 := by
    simp [release, hlen]
  rw [e, hlen]
  exact key

theorem bq_consume_all_eq (M : Nat) (q : BufferQueueSCSP) (h : WF M q) :
    consume_all q =
      (ring_dist (M + 1) q.m_Reader.output_pos q.m_Writer.input_pos, stored q,
        { q with m_Reader := ⟨q.m_Writer.input_pos, q.m_Writer.input_pos⟩ }) := by
  obtain ⟨hlen, hN, hwi, hwo, hro, hri, hd⟩ := h
  unfold consume_all
  simp only []
  rw [detail.apply_eq _ (by simp only []; omega) (by simp only []; omega)
    (by simp only []; omega)]
  simp only [hlen, stored]

/-- C9: `allocate_and_release(s, a, builder)` on a buffer queue with a well-formed slot ring.
On failure (nothing could be carved) it returns an absent value, the builder is not invoked, and
the stored buffers and `count()` are unchanged.  On success the builder is invoked once, on the
carved range; the range `committed` it returns becomes the descriptor of the input slot,
`count()` increases by one, the arena cursor `in` becomes
`(committed.ptr - arena base) + committed.len` (and not the end of the carved range), the
call returns `committed.len`, and the descriptor is stored after all earlier ones, so that the
consumer receives exactly it, after the buffers released before. -/
theorem allocate_and_release_contract (M : Nat) (q : BufferQueueSCSP) (s a : Nat)
    (builder : Buffer → Buffer) (h : WF M q) :
    ((allocate q s a).1.size = 0 →
      (allocate_and_release q s a builder).1 = none ∧
      (allocate_and_release q s a builder).2.1 = none ∧
      stored (allocate_and_release q s a builder).2.2 = stored q ∧
      count (allocate_and_release q s a builder).2.2 = count q) ∧
    ((allocate q s a).1.size ≠ 0 →
      (allocate_and_release q s a builder).2.1 = some (allocate q s a).1 ∧
      (allocate_and_release q s a builder).1 = some (builder (allocate q s a).1).size ∧
      splice_at (allocate_and_release q s a builder).2.2 q.m_Writer.input_pos =
        builder (allocate q s a).1 ∧
      count (allocate_and_release q s a builder).2.2 = count q + 1 ∧
      (allocate_and_release q s a builder).2.2.m_Writer.byte_rb.input_pos =
        add_sz (sub_sz (builder (allocate q s a).1).data q.m_Writer.byte_rb.buffer.data)
          (builder (allocate q s a).1).size ∧
      (q.m_Writer.byte_rb.buffer.data ≤ (builder (allocate q s a).1).data →
        (builder (allocate q s a).1).data + (builder (allocate q s a).1).size < 2 ^ 64 →
        (allocate_and_release q s a builder).2.2.m_Writer.byte_rb.input_pos =
          ((builder (allocate q s a).1).data - q.m_Writer.byte_rb.buffer.data) +
            (builder (allocate q s a).1).size) ∧
      stored (allocate_and_release q s a builder).2.2 = stored q ++ [builder (allocate q s a).1] ∧
      (consume_all (allocate_and_release q s a builder).2.2).2.1 =
        stored q ++ [builder (allocate q s a).1] ∧
      WF M (allocate_and_release q s a builder).2.2) := by
  have heq := allocate_and_release_eq q s a builder
  unfold allocate
  constructor
  · intro hfail
    rw [heq, if_pos hfail]
    exact ⟨rfl, rfl, carve_stored q s a, carve_count q s a⟩
  · intro hok
    rw [heq, if_neg hok]
    have hwf1 := carve_WF M q s a h
    have hroom := carve_room q s a hok
    have hnext := bq_next_eq M q h
    rw [hnext, ← carve_input_pos q s a] at hroom
    have hlt := bq_room_not_full M _ hwf1 hroom
    have hwf2 := release_WF M _ (builder (carve q s a).1) hwf1 hroom
    have hst := release_stored M _ (builder (carve q s a).1) hwf1 hlt
    rw [carve_stored] at hst
    have hcnt : count (release (carve q s a).2 (builder (carve q s a).1)).2 = count q + 1 := by
      have e1 := congrArg List.length hst
      have e2 : ∀ q' : BufferQueueSCSP, WF M q' → (stored q').length = count q' := by
        intro q' hq'
        rw [bq_count_eq M q' hq']
        simp [stored, ring_slots_length, hq'.1]
      rw [e2 _ hwf2, List.length_append, e2 _ h] at e1
      simpa using e1
    have hin : (release (carve q s a).2 (builder (carve q s a).1)).2.m_Writer.byte_rb.input_pos =
        add_sz (sub_sz (builder (carve q s a).1).data q.m_Writer.byte_rb.buffer.data)
          (builder (carve q s a).1).size := by
      rw [← carve_buffer q s a]; rfl
    refine ⟨rfl, rfl, ?_, hcnt, hin, ?_, hst, ?_, hwf2⟩
    · have hi := hwf1.2.2.1
      have hl := hwf1.1
      rw [← carve_input_pos q s a]
      simp [release, splice_at, List.getElem?_set_self (by omega :
        (carve q s a).2.m_Writer.input_pos < (carve q s a).2.m_SpliceArray.length)]
    · intro hb hlt2
      rw [hin, sub_sz_of_le hb (by omega), add_sz_of_lt (by omega)]
    · rw [bq_consume_all_eq M _ hwf2]
      exact hst

theorem allocate_and_release_contract_witness :
    WF 4 (mk_queue 4096 64 4) ∧
    allocate_and_release (mk_queue 4096 64 4) 20 16 (fun b => ⟨b.data, 20⟩) =
      (some 20, some ⟨4096, 64⟩,
        { m_Writer := { input_pos := 1, output_pos := 0,
                        byte_rb := { buffer := ⟨4096, 64⟩, input_pos := 20, output_pos := 0 } }
          m_Reader := ⟨0, 0⟩
          m_SpliceArray := [⟨4096, 20⟩, ⟨0, 0⟩, ⟨0, 0⟩, ⟨0, 0⟩, ⟨0, 0⟩] }) ∧
    ((allocate (mk_queue 4096 64 4) 20 16).1.size = 0 →
      (allocate_and_release (mk_queue 4096 64 4) 20 16 (fun b => ⟨b.data, 20⟩)).1 = none) :=
  ⟨by decide, by decide, fun hfail =>
    ((allocate_and_release_contract 4 (mk_queue 4096 64 4) 20 16 (fun b => ⟨b.data, 20⟩)
      (by decide)).1 hfail).1⟩

end BufferQueueSCSP
end rb

namespace rb
namespace BufferQueueSCSP

theorem chain_le {lo hi : Nat} : ∀ {ds : List Buffer}, chain lo hi ds → lo ≤ hi
  | [], h => h
  | d :: ds, h => by
    have := chain_le h.2
    have := h.1
    omega

theorem chain_mono {lo lo1 hi hi1 : Nat} (hlo : lo1 ≤ lo) (hhi : hi ≤ hi1) :
    ∀ {ds : List Buffer}, chain lo hi ds → chain lo1 hi1 ds
  | [], h => by unfold chain at h ⊢; omega
  | d :: ds, h => ⟨by have := h.1; omega, chain_mono (Nat.le_refl _) hhi h.2⟩

theorem chain_snoc {lo hi : Nat} (r : Buffer) (hr : hi ≤ r.data) :
    ∀ {ds : List Buffer}, chain lo hi ds → chain lo (r.data + r.size) (ds ++ [r])
  | [], h => by
    unfold chain at h
    exact ⟨by omega, by unfold chain; omega⟩
  | d :: ds, h => ⟨h.1, chain_snoc r hr h.2⟩

/-- Every buffer of a chain lies between its bounds. -/
theorem chain_mem {lo hi : Nat} :
    ∀ {ds : List Buffer}, chain lo hi ds → ∀ d ∈ ds, lo ≤ d.data ∧ d.data + d.size ≤ hi
  | [], _, d, hd => by simp at hd
  | x :: xs, h, d, hd => by
    rcases List.mem_cons.mp hd with e | e
    · subst e
      exact ⟨h.1, chain_le h.2⟩
    · have := chain_mem h.2 d e
      have := h.1
      omega

/-- A chain restarted at a later buffer. -/
theorem chain_suffix {hi : Nat} (ps : List Buffer) (d : Buffer) (ds : List Buffer) :
    ∀ {lo : Nat}, chain lo hi (ps ++ d :: ds) → lo ≤ d.data ∧ chain d.data hi (d :: ds) := by
  induction ps with
  | nil => intro lo h; exact ⟨h.1, Nat.le_refl _, h.2⟩
  | cons p ps ih =>
    intro lo h
    have h1 : lo ≤ p.data := h.1
    have h2 := ih h.2
    exact ⟨by omega, h2.2⟩

theorem chain_append_left {hi : Nat} (ps ds : List Buffer) :
    ∀ {lo : Nat}, chain lo hi (ps ++ ds) → chain lo hi ps := by
  induction ps with
  | nil => intro lo h; exact chain_le h
  | cons p ps ih => intro lo h; exact ⟨h.1, ih h.2⟩

/-- The end of a chain that comes before the rest of a longer chain. -/
theorem chain_append_right {hi : Nat} (ps ds : List Buffer) :
    ∀ {lo : Nat}, chain lo hi (ps ++ ds) → ∃ mid, lo ≤ mid ∧ chain mid hi ds := by
  induction ps with
  | nil => intro lo h; exact ⟨lo, Nat.le_refl _, h⟩
  | cons p ps ih =>
    intro lo h
    obtain ⟨mid, hm, hc⟩ := ih h.2
    have h1 : lo ≤ p.data := h.1
    exact ⟨mid, by omega, hc⟩

/-- What `getAlignedStorage` returns when it succeeds: a range that starts inside the region it
was given and ends where the region ends. -/
theorem detail.getAlignedStorage_spec (bytes alignment : Nat) (buffer : Buffer)
    (hfit : buffer.data + buffer.size < 2 ^ 64)
    (hne : (detail.getAlignedStorage bytes alignment buffer).size ≠ 0) :
    buffer.data ≤ (detail.getAlignedStorage bytes alignment buffer).data ∧
    (detail.getAlignedStorage bytes alignment buffer).data +
      (detail.getAlignedStorage bytes alignment buffer).size = buffer.data + buffer.size ∧
    bytes ≤ (detail.getAlignedStorage bytes alignment buffer).size := by
  unfold detail.getAlignedStorage at hne ⊢
  simp only [] at hne ⊢
  have hal : Nat.land (add_sz (sub_sz buffer.data 1) alignment) (sub_sz 0 alignment) < 2 ^ 64 := by
    have h1 : Nat.land (add_sz (sub_sz buffer.data 1) alignment) (sub_sz 0 alignment) ≤
        add_sz (sub_sz buffer.data 1) alignment := Nat.and_le_left
    have h2 : add_sz (sub_sz buffer.data 1) alignment < 2 ^ 64 := Nat.mod_lt _ (by norm_num)
    omega
  generalize Nat.land (add_sz (sub_sz buffer.data 1) alignment) (sub_sz 0 alignment) = al
    at hne hal ⊢
  by_cases h1 : buffer.size < bytes
  · simp [h1, Buffer.nil] at hne
  · rw [if_neg h1] at hne ⊢
    have e1 : sub_sz buffer.size bytes = buffer.size - bytes :=
      sub_sz_of_le (by omega) (by omega)
    rw [e1] at hne ⊢
    by_cases h2 : sub_sz al buffer.data > buffer.size - bytes
    · simp [h2, Buffer.nil] at hne
    · rw [if_neg h2] at hne ⊢
      simp only [] at hne ⊢
      have hge : buffer.data ≤ al := by
        by_contra hlt
        unfold sub_sz at h2
        have : buffer.data % 2 ^ 64 = buffer.data := Nat.mod_eq_of_lt (by omega)
        rw [this] at h2
        omega
      have e2 : sub_sz al buffer.data = al - buffer.data := sub_sz_of_le hge hal
      rw [e2] at h2 hne ⊢
      have e3 : sub_sz buffer.size (al - buffer.data) = buffer.size - (al - buffer.data) :=
        sub_sz_of_le (by omega) (by omega)
      rw [e3] at hne ⊢
      omega

end BufferQueueSCSP
end rb

namespace rb
namespace BufferQueueSCSP

/-- The unreclaimed descriptors are those the reader has consumed since the last `sync`,
followed by the stored ones. -/
theorem window_eq (M : Nat) (q : BufferQueueSCSP) (h : WF M q) :
    ∃ ps, window q = ps ++ stored q := by
  obtain ⟨hlen, hN, hwi, hwo, hro, hri, hd⟩ := h
  refine ⟨(ring_slots (M + 1) q.m_Writer.output_pos
    (ring_dist (M + 1) q.m_Writer.output_pos q.m_Reader.output_pos)).map q.splice_at, ?_⟩
  unfold window stored
  rw [hlen, ← List.map_append]
  congr 1
  obtain ⟨e0, e1⟩ := ring_order_facts hwo hro hri hwi (by omega)
  have e2 := ring_wrap_dist (S := M + 1) hwo hro
  have l1 := ring_dist_lt hwo hwi
  have e3 : ring_dist (M + 1) q.m_Writer.output_pos q.m_Reader.output_pos +
        ring_dist (M + 1) q.m_Reader.output_pos q.m_Writer.input_pos ≤ M + 1 := by omega
  rw [e1, ring_slots_add hwo e3, e2]

theorem stored_eq_nil (q : BufferQueueSCSP)
    (he : q.m_Reader.output_pos = q.m_Writer.input_pos) : stored q = [] := by
  unfold stored
  rw [he]
  simp [ring_dist, ring_slots]

theorem stored_eq_cons (M : Nat) (q : BufferQueueSCSP) (h : WF M q)
    (hne : q.m_Reader.output_pos ≠ q.m_Writer.input_pos) :
    ∃ ds, stored q = q.splice_at q.m_Reader.output_pos :: ds := by
  obtain ⟨hlen, hN, hwi, hwo, hro, hri, hd⟩ := h
  unfold stored
  rw [hlen]
  have nz := mt (ring_dist_eq_zero hro hwi).mp hne
  have l1 := ring_dist_lt hro hwi
  have e1 : ring_dist (M + 1) q.m_Reader.output_pos q.m_Writer.input_pos =
      (ring_dist (M + 1) q.m_Reader.output_pos q.m_Writer.input_pos - 1) + 1 := by omega
  have e2 : ring_dist (M + 1) q.m_Reader.output_pos q.m_Writer.input_pos - 1 + 1 ≤ M + 1 := by
    omega
  rw [e1, ring_slots_cons hro e2]
  exact ⟨_, rfl⟩

theorem window_sync (q : BufferQueueSCSP) : window (sync q) = stored q := rfl

theorem sync_arena_inv (M : Nat) (q : BufferQueueSCSP) (h : WF M q) (ha : arena_inv q) :
    arena_inv (sync q) := by
  obtain ⟨ps, hps⟩ := window_eq M q h
  obtain ⟨hfit, hin, hout, hlay⟩ := ha
  unfold arena_inv
  rw [window_sync]
  by_cases he : q.m_Reader.output_pos = q.m_Writer.input_pos
  · have hnil := stored_eq_nil q he
    have e : (sync q).m_Writer.byte_rb.output_pos = q.m_Writer.byte_rb.input_pos := by
      simp [sync, he]
    refine ⟨hfit, hin, ?_, Or.inl ⟨?_, ?_⟩⟩
    · rw [e]; exact hin
    · rw [e]; exact Nat.le_refl _
    · rw [e, hnil]; exact Nat.le_refl _
  · obtain ⟨ds, hds⟩ := stored_eq_cons M q h he
    have e : (sync q).m_Writer.byte_rb.output_pos =
        sub_sz (q.splice_at q.m_Reader.output_pos).data q.m_Writer.byte_rb.buffer.data := by
      simp [sync, he]
    generalize q.splice_at q.m_Reader.output_pos = d at hds e
    have hb : (sync q).m_Writer.byte_rb.buffer = q.m_Writer.byte_rb.buffer := rfl
    have hi : (sync q).m_Writer.byte_rb.input_pos = q.m_Writer.byte_rb.input_pos := rfl
    rw [hb, hi, e, hds]
    rw [hds] at hps
    rcases hlay with ⟨hle, hch⟩ | ⟨hlt, d1, d2, hsplit, hc1, hc2⟩
    · rw [hps] at hch
      obtain ⟨s1, s2⟩ := chain_suffix ps d ds hch
      have s3 := chain_le s2
      have e2 : sub_sz d.data q.m_Writer.byte_rb.buffer.data =
          d.data - q.m_Writer.byte_rb.buffer.data := sub_sz_of_le (by omega) (by omega)
      rw [e2]
      refine ⟨hfit, hin, by omega, Or.inl ⟨by omega, ?_⟩⟩
      have e3 : q.m_Writer.byte_rb.buffer.data + (d.data - q.m_Writer.byte_rb.buffer.data) =
          d.data := by omega
      rw [e3]; exact s2
    · rw [hps] at hsplit
      rcases List.append_eq_append_iff.mp hsplit with ⟨a', h1, h2⟩ | ⟨c', h1, h2⟩
      · -- the stored buffers begin in the first part
        cases c1 : a' with
        | nil =>
          -- `d` is the first buffer of the second part
          rw [c1] at h1 h2
          simp only [List.nil_append] at h2
          simp only [List.append_nil] at h1
          rw [← h2] at hc2
          have s2 : chain d.data
              (q.m_Writer.byte_rb.buffer.data + q.m_Writer.byte_rb.input_pos) (d :: ds) :=
            ⟨Nat.le_refl _, hc2.2⟩
          have s1 : q.m_Writer.byte_rb.buffer.data ≤ d.data := hc2.1
          have s3 := chain_le s2
          have e2 : sub_sz d.data q.m_Writer.byte_rb.buffer.data =
              d.data - q.m_Writer.byte_rb.buffer.data := sub_sz_of_le (by omega) (by omega)
          rw [e2]
          refine ⟨hfit, hin, by omega, Or.inl ⟨by omega, ?_⟩⟩
          have e3 : q.m_Writer.byte_rb.buffer.data + (d.data - q.m_Writer.byte_rb.buffer.data) =
              d.data := by omega
          rw [e3]; exact s2
        | cons x xs =>
          rw [c1] at h1 h2
          simp only [List.cons_append, List.cons.injEq] at h2
          obtain ⟨hx, hxs⟩ := h2
          subst hx
          rw [h1] at hc1
          obtain ⟨s1, s2⟩ := chain_suffix ps d xs hc1
          have s3 := chain_le s2
          have e2 : sub_sz d.data q.m_Writer.byte_rb.buffer.data =
              d.data - q.m_Writer.byte_rb.buffer.data := sub_sz_of_le (by omega) (by omega)
          rw [e2]
          refine ⟨hfit, hin, by omega, Or.inr ⟨by omega, d :: xs, d2, ?_, ?_, hc2⟩⟩
          · rw [hxs]; rfl
          · have e3 : q.m_Writer.byte_rb.buffer.data +
                (d.data - q.m_Writer.byte_rb.buffer.data) = d.data := by omega
            rw [e3]; exact s2
      · -- the stored buffers begin in the second part
        rw [h2] at hc2
        obtain ⟨s1, s2⟩ := chain_suffix c' d ds hc2
        have s3 := chain_le s2
        have e2 : sub_sz d.data q.m_Writer.byte_rb.buffer.data =
            d.data - q.m_Writer.byte_rb.buffer.data := sub_sz_of_le (by omega) (by omega)
        rw [e2]
        refine ⟨hfit, hin, by omega, Or.inl ⟨by omega, ?_⟩⟩
        have e3 : q.m_Writer.byte_rb.buffer.data + (d.data - q.m_Writer.byte_rb.buffer.data) =
            d.data := by omega
        rw [e3]; exact s2

end BufferQueueSCSP
end rb

namespace rb
namespace BufferQueueSCSP

/-- A range `get_storage` returns lies in the free part of the arena. -/
theorem get_storage_free (q : BufferQueueSCSP) (s a : Nat)
    (hfit : q.m_Writer.byte_rb.buffer.data + q.m_Writer.byte_rb.buffer.size < 2 ^ 64)
    (hin : q.m_Writer.byte_rb.input_pos ≤ q.m_Writer.byte_rb.buffer.size)
    (hout : q.m_Writer.byte_rb.output_pos ≤ q.m_Writer.byte_rb.buffer.size)
    (hne : (detail.get_storage q.m_Writer.byte_rb s a).size ≠ 0) :
    in_free_region q (detail.get_storage q.m_Writer.byte_rb s a) ∧
      s ≤ (detail.get_storage q.m_Writer.byte_rb s a).size := by
  unfold detail.get_storage at hne ⊢
  unfold in_free_region
  by_cases h1 : q.m_Writer.byte_rb.input_pos ≥ q.m_Writer.byte_rb.output_pos
  · rw [if_pos h1] at hne ⊢
    simp only [] at hne ⊢
    by_cases h2 : (detail.getAlignedStorage s a
        (q.m_Writer.byte_rb.buffer.subspan_from q.m_Writer.byte_rb.input_pos)).empty = true
    · simp only [h2, not_true_eq_false, if_false] at hne ⊢
      by_cases h3 : q.m_Writer.byte_rb.output_pos ≠ 0
      · rw [if_pos h3] at hne ⊢
        have e : sub_sz q.m_Writer.byte_rb.output_pos 1 = q.m_Writer.byte_rb.output_pos - 1 :=
          sub_sz_of_le (by omega) (by omega)
        rw [e] at hne ⊢
        have sp := detail.getAlignedStorage_spec s a
          (q.m_Writer.byte_rb.buffer.first (q.m_Writer.byte_rb.output_pos - 1))
          (by simp only [Buffer.first]; omega) hne
        simp only [Buffer.first] at sp ⊢
        exact ⟨Or.inr (Or.inl ⟨h1, sp.1, by omega⟩), sp.2.2⟩
      · rw [if_neg h3] at hne
        simp [Buffer.nil] at hne
    · simp only [h2, Bool.false_eq_true, not_false_eq_true, if_true] at hne ⊢
      have sp := detail.getAlignedStorage_spec s a
        (q.m_Writer.byte_rb.buffer.subspan_from q.m_Writer.byte_rb.input_pos)
        (by simp only [Buffer.subspan_from]; omega) hne
      simp only [Buffer.subspan_from] at sp ⊢
      exact ⟨Or.inl ⟨h1, by omega, by omega⟩, sp.2.2⟩
  · rw [if_neg h1] at hne ⊢
    have e1 : sub_sz q.m_Writer.byte_rb.output_pos q.m_Writer.byte_rb.input_pos =
        q.m_Writer.byte_rb.output_pos - q.m_Writer.byte_rb.input_pos :=
      sub_sz_of_le (by omega) (by omega)
    have e2 : sub_sz (q.m_Writer.byte_rb.output_pos - q.m_Writer.byte_rb.input_pos) 1 =
        q.m_Writer.byte_rb.output_pos - q.m_Writer.byte_rb.input_pos - 1 :=
      sub_sz_of_le (by omega) (by omega)
    rw [e1, e2] at hne ⊢
    have sp := detail.getAlignedStorage_spec s a
      (q.m_Writer.byte_rb.buffer.subspan q.m_Writer.byte_rb.input_pos
        (q.m_Writer.byte_rb.output_pos - q.m_Writer.byte_rb.input_pos - 1))
      (by simp only [Buffer.subspan]; omega) hne
    simp only [Buffer.subspan] at sp ⊢
    exact ⟨Or.inr (Or.inr ⟨by omega, by omega, by omega⟩), sp.2.2⟩

/-- A range in the free part of the arena lies inside the arena and overlaps no unreclaimed
buffer. -/
theorem free_region_disjoint (q : BufferQueueSCSP) (c : Buffer) (ha : arena_inv q)
    (hc : in_free_region q c) :
    c.within q.m_Writer.byte_rb.buffer ∧ ∀ d ∈ window q, c.disjoint d := by
  obtain ⟨hfit, hin, hout, hlay⟩ := ha
  unfold in_free_region at hc
  unfold Buffer.within Buffer.disjoint
  constructor
  · rcases hc with ⟨_, h1, h2⟩ | ⟨_, h1, h2⟩ | ⟨_, h1, h2⟩ <;> omega
  · intro d hd
    rcases hlay with ⟨hle, hch⟩ | ⟨hlt, d1, d2, hsplit, hc1, hc2⟩
    · have hm := chain_mem hch d hd
      rcases hc with ⟨_, h1, h2⟩ | ⟨_, h1, h2⟩ | ⟨_, h1, h2⟩ <;> omega
    · rw [hsplit] at hd
      rcases List.mem_append.mp hd with hd1 | hd2
      · have hm := chain_mem hc1 d hd1
        rcases hc with ⟨_, h1, h2⟩ | ⟨_, h1, h2⟩ | ⟨_, h1, h2⟩ <;> omega
      · have hm := chain_mem hc2 d hd2
        rcases hc with ⟨_, h1, h2⟩ | ⟨_, h1, h2⟩ | ⟨_, h1, h2⟩ <;> omega

theorem window_release (M : Nat) (q : BufferQueueSCSP) (r : Buffer) (h : WF M q)
    (hroom : ring_wrap (M + 1) (q.m_Writer.input_pos + 1) ≠ q.m_Writer.output_pos) :
    window (release q r).2 = window q ++ [r] := by
  have key := bq_release_slots M q r q.m_Writer.output_pos h h.2.2.2.1
    (bq_room_window M q h hroom)
  have hlen := h.1
  unfold window
  have e : (release q r).2.m_SpliceArray.length = M + 1 := by
    simp [release, hlen]
  rw [e, hlen]
  exact key

theorem release_arena_inv (M : Nat) (q : BufferQueueSCSP) (c r : Buffer) (h : WF M q)
    (ha : arena_inv q) (hc : in_free_region q c) (hr : r.within c)
    (hroom : ring_wrap (M + 1) (q.m_Writer.input_pos + 1) ≠ q.m_Writer.output_pos) :
    arena_inv (release q r).2 := by
  have hw := window_release M q r h hroom
  obtain ⟨hfit, hin, hout, hlay⟩ := ha
  unfold arena_inv
  rw [hw]
  have hb : (release q r).2.m_Writer.byte_rb.buffer = q.m_Writer.byte_rb.buffer := rfl
  have ho : (release q r).2.m_Writer.byte_rb.output_pos = q.m_Writer.byte_rb.output_pos := rfl
  have hi : (release q r).2.m_Writer.byte_rb.input_pos =
      add_sz (sub_sz r.data q.m_Writer.byte_rb.buffer.data) r.size := rfl
  unfold Buffer.within at hr
  unfold in_free_region at hc
  have hbase : q.m_Writer.byte_rb.buffer.data ≤ r.data ∧
      r.data + r.size ≤ q.m_Writer.byte_rb.buffer.data + q.m_Writer.byte_rb.buffer.size := by
    rcases hc with ⟨_, h1, h2⟩ | ⟨_, h1, h2⟩ | ⟨_, h1, h2⟩ <;> omega
  have e1 : add_sz (sub_sz r.data q.m_Writer.byte_rb.buffer.data) r.size =
      r.data - q.m_Writer.byte_rb.buffer.data + r.size := by
    rw [sub_sz_of_le hbase.1 (by omega), add_sz_of_lt (by omega)]
  rw [hb, ho, hi, e1]
  have e2 : q.m_Writer.byte_rb.buffer.data + (r.data - q.m_Writer.byte_rb.buffer.data + r.size) =
      r.data + r.size := by omega
  rw [e2]
  refine ⟨hfit, by omega, hout, ?_⟩
  rcases hc with ⟨hle, h1, h2⟩ | ⟨hle, h1, h2⟩ | ⟨hlt, h1, h2⟩
  · -- forward region
    rcases hlay with ⟨_, hch⟩ | ⟨hlt, _⟩
    · exact Or.inl ⟨by omega, chain_snoc r (by omega) hch⟩
    · omega
  · -- wrap region
    rcases hlay with ⟨_, hch⟩ | ⟨hlt, _⟩
    · refine Or.inr ⟨by omega, window q, [r], rfl, chain_mono (Nat.le_refl _) (by omega) hch, ?_⟩
      exact ⟨by omega, by unfold chain; omega⟩
    · omega
  · -- the arena has wrapped already
    rcases hlay with ⟨hle, _⟩ | ⟨_, d1, d2, hsplit, hc1, hc2⟩
    · omega
    · refine Or.inr ⟨by omega, d1, d2 ++ [r], ?_, hc1, chain_snoc r (by omega) hc2⟩
      rw [hsplit, List.append_assoc]

end BufferQueueSCSP
end rb

namespace rb
namespace BufferQueueSCSP

theorem bq_consume_eq (M : Nat) (q : BufferQueueSCSP) (h : WF M q) :
    consume q =
      if q.m_Reader.output_pos = q.m_Writer.input_pos then (false, [], q)
      else
        (true, [q.splice_at q.m_Reader.output_pos],
          { q with
            m_Reader :=
              { output_pos := ring_wrap (M + 1) (q.m_Reader.output_pos + 1)
                input_pos :=
                  if q.m_Reader.output_pos = q.m_Reader.input_pos
                  then q.m_Writer.input_pos else q.m_Reader.input_pos } }) := by
  obtain ⟨hlen, hN, hwi, hwo, hro, hri, hd⟩ := h
  have hnext : (if add_sz q.m_Reader.output_pos 1 ≠ q.m_SpliceArray.length
      then add_sz q.m_Reader.output_pos 1 else 0) = ring_wrap (M + 1) (q.m_Reader.output_pos + 1) := by
    rw [add_sz_of_lt (by omega), hlen]
    simp only [ring_wrap]
    split_ifs <;> omega
  unfold consume
  simp only [hnext]
  by_cases h1 : q.m_Reader.output_pos = q.m_Reader.input_pos
  · by_cases h2 : q.m_Reader.output_pos = q.m_Writer.input_pos
    · simp only [if_pos h1, if_pos h2]
      have : q.m_Reader.input_pos = q.m_Writer.input_pos := by omega
      cases q with
      | mk w r b =>
        cases r with
        | mk ro ri => simp_all
    · simp only [if_pos h1, if_neg h2]
      rfl
  · have h2 : q.m_Reader.output_pos ≠ q.m_Writer.input_pos := by
      simp only [ring_dist] at hd
      split_ifs at hd <;> omega
    simp only [if_neg h1, if_neg h2]

theorem bq_consume_n_eq (M : Nat) (q : BufferQueueSCSP) (n : Nat) (h : WF M q)
    (hn : q.m_Reader.output_pos + n < 2 ^ 64) :
    consume_n q n =
      (min n (count q), (stored q).take (min n (count q)),
        { q with
          m_Reader := ⟨ring_wrap (M + 1) (q.m_Reader.output_pos + min n (count q)),
            q.m_Writer.input_pos⟩ }) := by
  have hcnt := bq_count_eq M q h
  obtain ⟨hlen, hN, hwi, hwo, hro, hri, hd⟩ := h
  have hnp := detail.next_pos_eq_of_no_wrap (n := n) hN hro hwi hn
  have hdist := ring_dist_lt hro hwi
  have hnl := ring_wrap_lt (S := M + 1)
    (k := min n (ring_dist (M + 1) q.m_Reader.output_pos q.m_Writer.input_pos)) hro (by omega)
  have hd2 := ring_dist_wrap (S := M + 1)
    (k := min n (ring_dist (M + 1) q.m_Reader.output_pos q.m_Writer.input_pos)) hro (by omega)
  unfold consume_n
  simp only [hlen, hnp]
  rw [detail.apply_eq _ (by simp only []; omega) (by simp only [hlen]; exact hnl)
    (by simp only []; omega)]
  simp only [hlen, hd2, hcnt]
  refine Prod.ext rfl (Prod.ext ?_ rfl)
  simp only [stored, hlen]
  rw [← List.map_take]
  congr 1
  unfold ring_slots
  rw [← List.map_take, List.take_range]
  congr 2
  omega

/-- The consumer calls keep the slot ring well formed and touch neither the writer's fields nor
the splice array. -/
theorem bq_consume_inv (M : Nat) (q : BufferQueueSCSP) (h : WF M q) :
    WF M (consume q).2.2 ∧ (consume q).2.2.m_Writer = q.m_Writer ∧
      (consume q).2.2.m_SpliceArray = q.m_SpliceArray := by
  rw [bq_consume_eq M q h]
  have h0 := h
  obtain ⟨hlen, hN, hwi, hwo, hro, hri, hd⟩ := h
  by_cases h1 : q.m_Reader.output_pos = q.m_Writer.input_pos
  · rw [if_pos h1]; exact ⟨h0, rfl, rfl⟩
  · rw [if_neg h1]
    refine ⟨?_, rfl, rfl⟩
    obtain ⟨e1, e2⟩ := ring_order_facts hwo hro hri hwi (by omega)
    have nz := mt (ring_dist_eq_zero hro hwi).mp h1
    have w := ring_wrap_lt (S := M + 1) (k := 1) hro (by omega)
    have a1 := ring_dist_wrap_add (S := M + 1) (k := 1) hwo hro (by omega)
    have z := ring_dist_self (M + 1) q.m_Writer.input_pos
    unfold WF
    dsimp only
    rw [a1]
    by_cases h2 : q.m_Reader.output_pos = q.m_Reader.input_pos
    · rw [if_pos h2, z]
      have s1 := ring_dist_wrap_sub (S := M + 1) (k := 1) hro hwi (by omega)
      rw [s1]
      exact ⟨hlen, hN, hwi, hwo, w, hwi, by omega⟩
    · rw [if_neg h2]
      have nz2 := mt (ring_dist_eq_zero hro hri).mp h2
      have s1 := ring_dist_wrap_sub (S := M + 1) (k := 1) hro hri (by omega)
      rw [s1]
      exact ⟨hlen, hN, hwi, hwo, w, hri, by omega⟩

theorem bq_consume_all_inv (M : Nat) (q : BufferQueueSCSP) (h : WF M q) :
    WF M (consume_all q).2.2 ∧ (consume_all q).2.2.m_Writer = q.m_Writer ∧
      (consume_all q).2.2.m_SpliceArray = q.m_SpliceArray := by
  rw [bq_consume_all_eq M q h]
  obtain ⟨hlen, hN, hwi, hwo, hro, hri, hd⟩ := h
  refine ⟨?_, rfl, rfl⟩
  obtain ⟨e1, e2⟩ := ring_order_facts hwo hro hri hwi (by omega)
  have z := ring_dist_self (M + 1) q.m_Writer.input_pos
  unfold WF
  dsimp only
  rw [z]
  exact ⟨hlen, hN, hwi, hwo, hwi, hwi, by omega⟩

theorem bq_consume_n_inv (M : Nat) (q : BufferQueueSCSP) (n : Nat) (h : WF M q)
    (hn : q.m_Reader.output_pos + n < 2 ^ 64) :
    WF M (consume_n q n).2.2 ∧ (consume_n q n).2.2.m_Writer = q.m_Writer ∧
      (consume_n q n).2.2.m_SpliceArray = q.m_SpliceArray := by
  rw [bq_consume_n_eq M q n h hn, bq_count_eq M q h]
  obtain ⟨hlen, hN, hwi, hwo, hro, hri, hd⟩ := h
  refine ⟨?_, rfl, rfl⟩
  obtain ⟨e1, e2⟩ := ring_order_facts hwo hro hri hwi (by omega)
  generalize hk : min n (ring_dist (M + 1) q.m_Reader.output_pos q.m_Writer.input_pos) = k
  have hkd : k ≤ ring_dist (M + 1) q.m_Reader.output_pos q.m_Writer.input_pos := by omega
  have hw := ring_wrap_lt (S := M + 1) (k := k) hro (by omega)
  have a1 := ring_dist_wrap_add (S := M + 1) (k := k) hwo hro (by omega)
  have s1 := ring_dist_wrap_sub (S := M + 1) (k := k) hro hwi hkd
  have z := ring_dist_self (M + 1) q.m_Writer.input_pos
  unfold WF
  dsimp only
  rw [a1, s1, z]
  exact ⟨hlen, hN, hwi, hwo, hw, hwi, by omega⟩

/-- The arena invariant, the free region and the unreclaimed window depend on the writer's
fields and the splice array only. -/
theorem writer_view (q q1 : BufferQueueSCSP) (hw : q1.m_Writer = q.m_Writer)
    (hs : q1.m_SpliceArray = q.m_SpliceArray) :
    (arena_inv q → arena_inv q1) ∧ (∀ c, in_free_region q c → in_free_region q1 c) := by
  cases q with
  | mk w r l =>
    cases q1 with
    | mk w1 r1 l1 =>
      simp only at hw hs
      subst hw hs
      exact ⟨fun h => h, fun c h => h⟩

end BufferQueueSCSP
end rb

namespace rb
namespace BufferQueueSCSP

theorem carve_eq_get_storage (q : BufferQueueSCSP) (s a : Nat)
    (hne : (carve q s a).1.size ≠ 0) :
    (carve q s a).1 = detail.get_storage (carve q s a).2.m_Writer.byte_rb s a := by
  unfold carve at hne ⊢
  simp only [] at hne ⊢
  split_ifs at hne ⊢ <;> simp_all [Buffer.nil]

theorem carve_arena_inv (M : Nat) (q : BufferQueueSCSP) (s a : Nat) (h : WF M q)
    (ha : arena_inv q) : arena_inv (carve q s a).2 := by
  rcases carve_queue q s a with e | e <;> rw [e]
  · exact ha
  · exact sync_arena_inv M q h ha

/-- A successful `carve` returns a range of at least the requested size in the free part of the
arena, with a free slot in the ring. -/
theorem carve_free (M : Nat) (q : BufferQueueSCSP) (s a : Nat) (h : WF M q) (ha : arena_inv q)
    (hne : (carve q s a).1.size ≠ 0) :
    in_free_region (carve q s a).2 (carve q s a).1 ∧ s ≤ (carve q s a).1.size ∧
      ring_wrap (M + 1) ((carve q s a).2.m_Writer.input_pos + 1) ≠
        (carve q s a).2.m_Writer.output_pos := by
  have ha1 := carve_arena_inv M q s a h ha
  have he := carve_eq_get_storage q s a hne
  have hroom := carve_room q s a hne
  rw [bq_next_eq M q h, ← carve_input_pos q s a] at hroom
  rw [he] at hne
  have hf := get_storage_free (carve q s a).2 s a ha1.1 ha1.2.1 ha1.2.2.1 hne
  rw [← he] at hf
  exact ⟨hf.1, hf.2, hroom⟩

theorem mk_queue_reach_inv (arena B M : Nat) (hA : arena + B < 2 ^ 64) (hM : M + 1 < 2 ^ 64) :
    reach_inv arena B M (mk_queue arena B M) none := by
  refine ⟨?_, ?_, rfl, ?_⟩
  · unfold WF mk_queue
    simp only [List.length_replicate, add_sz_of_lt hM, ring_dist]
    refine ⟨trivial, hM, ?_, ?_, ?_, ?_, ?_⟩ <;> simp
  · unfold arena_inv
    refine ⟨hA, Nat.zero_le _, Nat.zero_le _, Or.inl ⟨Nat.le_refl _, ?_⟩⟩
    simp [window, mk_queue, ring_dist, ring_slots, chain]
  · intro c hc; simp at hc

/-- Every reachable state satisfies the invariant. -/
theorem reachable_inv (arena B M : Nat) (hA : arena + B < 2 ^ 64) (hM : M + 1 < 2 ^ 64)
    (q : BufferQueueSCSP) (g : Option Buffer) (hr : Reachable arena B M q g) :
    reach_inv arena B M q g := by
  induction hr with
  | init => exact mk_queue_reach_inv arena B M hA hM
  | @consume q g _ ih =>
    obtain ⟨hwf, hai, hb, hg⟩ := ih
    obtain ⟨c1, c2, c3⟩ := bq_consume_inv M q hwf
    obtain ⟨v1, v2⟩ := writer_view q _ c2 c3
    refine ⟨c1, v1 hai, by rw [c2]; exact hb, ?_⟩
    intro c hc
    obtain ⟨g1, g2, g3⟩ := hg c hc
    exact ⟨g1, v2 c g2, by rw [c2]; exact g3⟩
  | @consume_all q g _ ih =>
    obtain ⟨hwf, hai, hb, hg⟩ := ih
    obtain ⟨c1, c2, c3⟩ := bq_consume_all_inv M q hwf
    obtain ⟨v1, v2⟩ := writer_view q _ c2 c3
    refine ⟨c1, v1 hai, by rw [c2]; exact hb, ?_⟩
    intro c hc
    obtain ⟨g1, g2, g3⟩ := hg c hc
    exact ⟨g1, v2 c g2, by rw [c2]; exact g3⟩
  | @consume_n q g n _ hn ih =>
    obtain ⟨hwf, hai, hb, hg⟩ := ih
    obtain ⟨c1, c2, c3⟩ := bq_consume_n_inv M q n hwf hn
    obtain ⟨v1, v2⟩ := writer_view q _ c2 c3
    refine ⟨c1, v1 hai, by rw [c2]; exact hb, ?_⟩
    intro c hc
    obtain ⟨g1, g2, g3⟩ := hg c hc
    exact ⟨g1, v2 c g2, by rw [c2]; exact g3⟩
  | @allocate q g s a _ ih =>
    obtain ⟨hwf, hai, hb, _⟩ := ih
    unfold allocate
    refine ⟨carve_WF M q s a hwf, carve_arena_inv M q s a hwf hai,
      by rw [carve_buffer]; exact hb, ?_⟩
    intro c hc
    by_cases hz : (carve q s a).1.size = 0
    · simp [hz] at hc
    · rw [if_neg hz] at hc
      have hc2 : (carve q s a).1 = c := by simpa using hc
      have hf := carve_free M q s a hwf hai hz
      rw [hc2] at hf hz
      exact ⟨hz, hf.1, hf.2.2⟩
  | @release q c r _ hsub ih =>
    obtain ⟨hwf, hai, hb, hg⟩ := ih
    obtain ⟨g1, g2, g3⟩ := hg c rfl
    refine ⟨release_WF M q r hwf g3, release_arena_inv M q c r hwf hai g2 hsub g3, hb, ?_⟩
    intro c' hc'; simp at hc'
  | @allocate_and_release q g s a f _ hsub ih =>
    obtain ⟨hwf, hai, hb, _⟩ := ih
    unfold allocate at hsub
    rw [allocate_and_release_eq]
    have hwf1 := carve_WF M q s a hwf
    have hai1 := carve_arena_inv M q s a hwf hai
    have hb1 : (carve q s a).2.m_Writer.byte_rb.buffer = ⟨arena, B⟩ := by
      rw [carve_buffer]; exact hb
    by_cases hz : (carve q s a).1.size = 0
    · rw [if_pos hz]
      refine ⟨hwf1, hai1, hb1, ?_⟩
      intro c' hc'; simp at hc'
    · rw [if_neg hz]
      have hf := carve_free M q s a hwf hai hz
      refine ⟨release_WF M _ _ hwf1 hf.2.2,
        release_arena_inv M _ _ _ hwf1 hai1 hf.1 (hsub hz) hf.2.2, hb1, ?_⟩
      intro c' hc'; simp at hc'

end BufferQueueSCSP
end rb

namespace rb
namespace BufferQueueSCSP

theorem stored_subset_window (M : Nat) (q : BufferQueueSCSP) (h : WF M q) :
    ∀ d ∈ stored q, d ∈ window q := by
  obtain ⟨ps, hps⟩ := window_eq M q h
  intro d hd
  rw [hps]
  exact List.mem_append.mpr (Or.inr hd)

end BufferQueueSCSP
end rb

namespace rb

theorem detail.value_tagged_size {v t : Nat} (hv : v < 2 ^ 48) :
    detail.value 16 (detail.tagged_size 16 v t) = v := by
  unfold detail.value detail.tagged_size
  omega

theorem detail.tag_tagged_size (v t : Nat) :
    detail.tag 16 (detail.tagged_size 16 v t) = t % 2 ^ 16 := by
  unfold detail.tag detail.tagged_size
  omega

theorem detail.tag_lt (x : Nat) : detail.tag 16 x < 2 ^ 16 := by
  unfold detail.tag; omega

/-- Without another thread between the load and the compare-exchange, the retry loop ends
after its first pass. -/
theorem detail.retry_eq (attempt : Nat → Option detail.ReserveResult × Nat × Bool) (fuel op : Nat)
    (h : (attempt op).2.2 = false) :
    detail.retry attempt fuel op = ((attempt op).1, (attempt op).2.1) := by
  cases fuel with
  | zero => rfl
  | succ k => simp [detail.retry, h]

theorem detail.reserve_one_eq (check_once : Bool) (ow iw S : Nat) :
    detail.reserve_one check_once 16 ow iw S =
      if detail.empty 16 ow iw then (none, ow)
      else (some ⟨detail.value 16 ow,
          if add_sz (detail.value 16 ow) 1 = S then 0 else add_sz (detail.value 16 ow) 1⟩,
        detail.same_tagged 16 iw
          (if add_sz (detail.value 16 ow) 1 = S then 0 else add_sz (detail.value 16 ow) 1)) := by
  have hatt : detail.reserve_one_attempt 16 ow iw S =
      if detail.empty 16 ow iw then (none, ow, false)
      else (some ⟨detail.value 16 ow,
          if add_sz (detail.value 16 ow) 1 = S then 0 else add_sz (detail.value 16 ow) 1⟩,
        detail.same_tagged 16 iw
          (if add_sz (detail.value 16 ow) 1 = S then 0 else add_sz (detail.value 16 ow) 1),
        false) := by
    unfold detail.reserve_one_attempt detail.compare_exchange
    simp
  unfold detail.reserve_one
  cases check_once with
  | true => simp only [if_true, hatt]; split_ifs <;> rfl
  | false =>
    simp only [Bool.false_eq_true, if_false]
    rw [detail.retry_eq _ _ _ (by simp only [hatt]; split_ifs <;> rfl)]
    simp only [hatt]; split_ifs <;> rfl

theorem detail.reserve_all_eq (check_once : Bool) (ow iw : Nat) :
    detail.reserve_all check_once 16 ow iw =
      if detail.empty 16 ow iw then (none, ow)
      else (some ⟨detail.value 16 ow, detail.value 16 iw⟩, iw) := by
  have hatt : detail.reserve_all_attempt 16 ow iw =
      if detail.empty 16 ow iw then (none, ow, false)
      else (some ⟨detail.value 16 ow, detail.value 16 iw⟩, iw, false) := by
    unfold detail.reserve_all_attempt detail.compare_exchange
    simp
  unfold detail.reserve_all
  cases check_once with
  | true => simp only [if_true, hatt]; split_ifs <;> rfl
  | false =>
    simp only [Bool.false_eq_true, if_false]
    rw [detail.retry_eq _ _ _ (by simp only [hatt]; split_ifs <;> rfl)]
    simp only [hatt]; split_ifs <;> rfl

theorem detail.reserve_n_eq (check_once : Bool) (ow iw S n : Nat) :
    detail.reserve_n check_once 16 ow iw S n =
      if detail.empty 16 ow iw then (none, ow)
      else (some ⟨detail.value 16 ow,
          detail.next_pos (detail.value 16 ow) (detail.value 16 iw) S n⟩,
        detail.same_tagged 16 iw
          (detail.next_pos (detail.value 16 ow) (detail.value 16 iw) S n)) := by
  have hatt : detail.reserve_n_attempt 16 ow iw S n =
      if detail.empty 16 ow iw then (none, ow, false)
      else (some ⟨detail.value 16 ow,
          detail.next_pos (detail.value 16 ow) (detail.value 16 iw) S n⟩,
        detail.same_tagged 16 iw
          (detail.next_pos (detail.value 16 ow) (detail.value 16 iw) S n), false) := by
    unfold detail.reserve_n_attempt detail.compare_exchange
    simp
  unfold detail.reserve_n
  cases check_once with
  | true => simp only [if_true, hatt]; split_ifs <;> rfl
  | false =>
    simp only [Bool.false_eq_true, if_false]
    rw [detail.retry_eq _ _ _ (by simp only [hatt]; split_ifs <;> rfl)]
    simp only [hatt]; split_ifs <;> rfl

/-- With the tag of `output_pos` not above the tag of `input_pos`, `empty` compares the cursor
values. -/
theorem detail.empty_iff {ow iw : Nat} (ht : detail.tag 16 ow ≤ detail.tag 16 iw) :
    detail.empty 16 ow iw = true ↔ detail.value 16 ow = detail.value 16 iw := by
  unfold detail.empty
  simp only [Bool.or_eq_true, decide_eq_true_eq]
  constructor
  · rintro (h | h)
    · omega
    · exact h
  · intro h; exact Or.inr h

end rb

namespace rb

/-- What the loop of `sync` computes: it stops early iff some entry equals `prev_pos`; otherwise
`gpos` is the least of its start value and the entries above `prev_pos`, and `lpos` the least of
its start value and the entries below `prev_pos`. -/
theorem detail.sync_loop_spec (c : Nat) (l : List Nat) :
    ∀ (g l0 : Nat),
      (c ∈ l → detail.sync_loop c l (g, l0) = none) ∧
      (c ∉ l → ∃ g1 l1, detail.sync_loop c l (g, l0) = some (g1, l1) ∧
        g1 ≤ g ∧ (∀ a ∈ l, c < a → g1 ≤ a) ∧ (g1 = g ∨ (g1 ∈ l ∧ c < g1)) ∧
        l1 ≤ l0 ∧ (∀ a ∈ l, a < c → l1 ≤ a) ∧ (l1 = l0 ∨ (l1 ∈ l ∧ l1 < c))) := by
  induction l with
  | nil =>
    intro g l0
    refine ⟨fun h => by simp at h, fun _ => ⟨g, l0, rfl, Nat.le_refl _, ?_, Or.inl rfl,
      Nat.le_refl _, ?_, Or.inl rfl⟩⟩ <;> intro a ha <;> simp at ha
  | cons x xs ih =>
    intro g l0
    by_cases hx : x = c
    · subst hx
      refine ⟨fun _ => by simp [detail.sync_loop], fun h => by simp at h⟩
    · by_cases hgt : x > c
      · obtain ⟨i1, i2⟩ := ih (min g x) l0
        have hstep : detail.sync_loop c (x :: xs) (g, l0) =
            detail.sync_loop c xs (min g x, l0) := by
          simp [detail.sync_loop, hx, hgt]
        rw [hstep]
        constructor
        · intro hmem
          rcases List.mem_cons.mp hmem with e | e
          · exact absurd e.symm hx
          · exact i1 e
        · intro hnm
          have hnm2 : c ∉ xs := fun h => hnm (List.mem_cons_of_mem _ h)
          obtain ⟨g1, l1, e, p1, p2, p3, p4, p5, p6⟩ := i2 hnm2
          refine ⟨g1, l1, e, by omega, ?_, ?_, p4, ?_, ?_⟩
          · intro a ha hca
            rcases List.mem_cons.mp ha with e | e
            · subst e; omega
            · exact p2 a e hca
          · rcases p3 with e | ⟨e1, e2⟩
            · by_cases hm : g ≤ x
              · left; omega
              · right; exact ⟨by rw [e]; simp; omega, by omega⟩
            · right; exact ⟨List.mem_cons_of_mem _ e1, e2⟩
          · intro a ha hac
            rcases List.mem_cons.mp ha with e | e
            · subst e; omega
            · exact p5 a e hac
          · rcases p6 with e | ⟨e1, e2⟩
            · left; exact e
            · right; exact ⟨List.mem_cons_of_mem _ e1, e2⟩
      · obtain ⟨i1, i2⟩ := ih g (min l0 x)
        have hstep : detail.sync_loop c (x :: xs) (g, l0) =
            detail.sync_loop c xs (g, min l0 x) := by
          simp [detail.sync_loop, hx, hgt]
        rw [hstep]
        constructor
        · intro hmem
          rcases List.mem_cons.mp hmem with e | e
          · exact absurd e.symm hx
          · exact i1 e
        · intro hnm
          have hnm2 : c ∉ xs := fun h => hnm (List.mem_cons_of_mem _ h)
          obtain ⟨g1, l1, e, p1, p2, p3, p4, p5, p6⟩ := i2 hnm2
          refine ⟨g1, l1, e, p1, ?_, ?_, by omega, ?_, ?_⟩
          · intro a ha hca
            rcases List.mem_cons.mp ha with e | e
            · subst e; omega
            · exact p2 a e hca
          · rcases p3 with e | ⟨e1, e2⟩
            · left; exact e
            · right; exact ⟨List.mem_cons_of_mem _ e1, e2⟩
          · intro a ha hac
            rcases List.mem_cons.mp ha with e | e
            · subst e; omega
            · exact p5 a e hac
          · rcases p6 with e | ⟨e1, e2⟩
            · by_cases hm : l0 ≤ x
              · left; omega
              · right; exact ⟨by rw [e]; simp; omega, by omega⟩
            · right; exact ⟨List.mem_cons_of_mem _ e1, e2⟩

end rb

namespace rb

/-- The position `sync` returns lies, going round the ring from the previous cache, not after
`value(output_pos)` and not after any announced position. -/
theorem detail.sync_between (S c ow : Nat) (pos : List Nat) (hS : S ≤ 2 ^ 48) (hc : c < S)
    (ho : detail.value 16 ow < S) (hpos : ∀ a ∈ pos, a = detail.max_pos ∨ a < S)
    (hord : ∀ a ∈ pos, a ≠ detail.max_pos →
      ring_dist S c a ≤ ring_dist S c (detail.value 16 ow)) :
    detail.sync 16 c pos ow < S ∧
    ring_dist S c (detail.sync 16 c pos ow) ≤ ring_dist S c (detail.value 16 ow) ∧
    ∀ a ∈ pos, a ≠ detail.max_pos →
      ring_dist S c (detail.sync 16 c pos ow) ≤ ring_dist S c a := by
  have hzero : ring_dist S c c = 0 := by simp [ring_dist]
  unfold detail.sync
  simp only []
  generalize detail.value 16 ow = o at ho hord ⊢
  by_cases h1 : o = c
  · rw [if_pos h1, hzero]
    exact ⟨hc, Nat.zero_le _, fun _ _ _ => Nat.zero_le _⟩
  · rw [if_neg h1]
    obtain ⟨s1, s2⟩ := detail.sync_loop_spec c pos (if o > c then o else detail.max_pos) o
    by_cases hmem : c ∈ pos
    · rw [s1 hmem]
      simp only [hzero]
      exact ⟨hc, Nat.zero_le _, fun _ _ _ => Nat.zero_le _⟩
    · obtain ⟨g1, l1, e, p1, p2, p3, p4, p5, p6⟩ := s2 hmem
      rw [e]
      simp only []
      have hreal : ∀ a ∈ pos, a ≠ detail.max_pos → a < S ∧ a ≠ c ∧
          ring_dist S c a ≤ ring_dist S c o := by
        intro a ha hne
        refine ⟨?_, ?_, hord a ha hne⟩
        · rcases hpos a ha with e | e
          · exact absurd e hne
          · exact e
        · rintro rfl; exact hmem ha
      by_cases hgt : o > c
      · rw [if_pos hgt] at p1 p3 ⊢
        have hg1 : c < g1 ∧ g1 ≤ o := by
          rcases p3 with e | ⟨_, e2⟩ <;> omega
        refine ⟨by omega, ?_, ?_⟩
        · simp only [ring_dist]; split_ifs <;> omega
        · intro a ha hne
          obtain ⟨r1, r2, r3⟩ := hreal a ha hne
          have := p2 a ha
          simp only [ring_dist] at r3 ⊢
          split_ifs at r3 ⊢ <;> omega
      · rw [if_neg hgt] at p1 p3 ⊢
        by_cases hgm : g1 ≠ detail.max_pos
        · rw [if_pos hgm]
          have hg1 : g1 ∈ pos ∧ c < g1 := by
            rcases p3 with e | e
            · exact absurd e hgm
            · exact e
          obtain ⟨r1, r2, r3⟩ := hreal g1 hg1.1 hgm
          refine ⟨r1, r3, ?_⟩
          intro a ha hne
          obtain ⟨q1, q2, q3⟩ := hreal a ha hne
          have := p2 a ha
          simp only [ring_dist]
          split_ifs <;> omega
        · rw [if_neg hgm]
          have hgm2 : g1 = detail.max_pos := by
            by_contra hh; exact hgm hh
          have hl1 : l1 ≤ o ∧ l1 < c := by
            rcases p6 with e | ⟨_, e2⟩ <;> omega
          refine ⟨by omega, ?_, ?_⟩
          · simp only [ring_dist]; split_ifs <;> omega
          · intro a ha hne
            obtain ⟨q1, q2, q3⟩ := hreal a ha hne
            have hp2 := p2 a ha
            have hp5 := p5 a ha
            have hmax : S ≤ detail.max_pos := by unfold detail.max_pos; omega
            have halt : a < c := by
              by_contra hh
              have : c < a := by omega
              have := hp2 this
              omega
            have := hp5 halt
            simp only [ring_dist]
            split_ifs <;> omega

end rb

namespace rb
namespace ObjectQueueMCSP
variable {Obj : Type}

/-- A reservation of the `k` oldest slots by a reader: what it does to the invariant and to the
stored elements. -/
theorem advance_spec (N : Nat) (q q1 : ObjectQueueMCSP Obj) (k : Nat) (h : WF N q)
    (hk : k ≤ ring_dist (N + 1) (detail.value tb q.m_OutputPos)
      (detail.value tb q.m_Writer.input_pos))
    (hw : q1.m_Writer = q.m_Writer)
    (hv : detail.value tb q1.m_OutputPos =
      ring_wrap (N + 1) (detail.value tb q.m_OutputPos + k))
    (ht : detail.tag tb q1.m_OutputPos ≤ detail.tag tb q.m_Writer.input_pos)
    (hb : q1.m_Buffer = (detail.invoke_and_destroy_each
      (ring_slots (N + 1) (detail.value tb q.m_OutputPos) k) q.m_Buffer).2)
    (hp : q1.m_PositionArray = q.m_PositionArray ∨ ∃ idx, q1.m_PositionArray =
      q.m_PositionArray.set idx (ring_wrap (N + 1) (detail.value tb q.m_OutputPos + k))) :
    WF N q1 ∧ stored q1 = (stored q).drop k ∧
      (detail.invoke_and_destroy_each
        (ring_slots (N + 1) (detail.value tb q.m_OutputPos) k) q.m_Buffer).1 =
        (stored q).take k := by
  obtain ⟨hlen, hN, hi, ho, hc, htag, hpos, hord1, hord2⟩ := h
  rw [hlen] at hord1 hord2
  generalize hoe : detail.value tb q.m_OutputPos = o at *
  generalize hie : detail.value tb q.m_Writer.input_pos = i at *
  generalize hce : q.m_Writer.output_pos = c at *
  have hd := ring_dist_lt ho hi
  have hw1 := ring_wrap_lt (S := N + 1) (k := k) ho (by omega)
  have hsp := ring_dist_split hc ho hi hord2
  have hl := ring_dist_lt hc hi
  have hco1 := ring_dist_wrap_add (S := N + 1) (k := k) hc ho (by omega)
  have hco : ring_dist (N + 1) c o ≤ ring_dist (N + 1) c (ring_wrap (N + 1) (o + k)) ∧
      ring_dist (N + 1) c (ring_wrap (N + 1) (o + k)) ≤ ring_dist (N + 1) c i := by
    omega
  have hlen1 : q1.m_Buffer.length = N + 1 := by
    rw [hb, detail.invoke_and_destroy_each_length, hlen]
  have hwf : WF N q1 := by
    refine ⟨hlen1, hN, ?_, ?_, ?_, ?_, ?_, ?_, ?_⟩
    · rw [hw, hie]; exact hi
    · rw [hv]; exact hw1
    · rw [hw, hce]; exact hc
    · rw [hw]; exact ht
    · intro a ha
      rcases hp with e | ⟨idx, e⟩
      · rw [e] at ha; exact hpos a ha
      · rw [e] at ha
        rcases List.mem_or_eq_of_mem_set ha with e2 | e2
        · exact hpos a e2
        · right; rw [e2]; exact hw1
    · intro a ha hne
      rw [hlen1, hw, hce, hv]
      rcases hp with e | ⟨idx, e⟩
      · rw [e] at ha
        exact Nat.le_trans (hord1 a ha hne) hco.1
      · rw [e] at ha
        rcases List.mem_or_eq_of_mem_set ha with e2 | e2
        · exact Nat.le_trans (hord1 a e2 hne) hco.1
        · rw [e2]
    · rw [hlen1, hw, hce, hv, hie]; exact hco.2
  have hd2 := ring_dist_wrap_sub (S := N + 1) (k := k) ho hi hk
  have hsplit : ring_slots (N + 1) o (ring_dist (N + 1) o i) =
      ring_slots (N + 1) o k ++
        ring_slots (N + 1) (ring_wrap (N + 1) (o + k)) (ring_dist (N + 1) o i - k) := by
    rw [← ring_slots_add ho (by omega)]
    congr 1; omega
  have hnd : (ring_slots (N + 1) o (ring_dist (N + 1) o i)).Nodup :=
    ring_slots_nodup (by omega)
  refine ⟨hwf, ?_, ?_⟩
  · unfold stored
    rw [hlen1, hlen, hv, hw, hoe, hie, hd2, hsplit, List.map_append,
      List.drop_left' (by simp [ring_slots_length]), hb]
    rw [hsplit] at hnd
    apply List.map_congr_left
    intro j hj
    rw [detail.invoke_and_destroy_each_slot_at, if_neg]
    intro hmem
    exact (List.nodup_append.mp hnd).2.2 hmem hj
  · rw [detail.invoke_and_destroy_each_handed _ _ (ring_slots_nodup (by omega))]
    unfold stored
    rw [hlen, hoe, hie, hsplit, List.map_append,
      List.take_left' (by simp [ring_slots_length])]

end ObjectQueueMCSP
end rb

namespace rb
namespace ObjectQueueMCSP
variable {Obj : Type}

theorem same_tagged_value_tag {iw v : Nat} (hv : v < 2 ^ 48) :
    detail.value tb (detail.same_tagged tb iw v) = v ∧
      detail.tag tb (detail.same_tagged tb iw v) = detail.tag tb iw := by
  unfold detail.same_tagged tb
  rw [detail.value_tagged_size hv, detail.tag_tagged_size]
  refine ⟨rfl, ?_⟩
  unfold detail.tag
  omega

theorem ring_dist_pos_of_ne {S o i : Nat} (ho : o < S) (hi : i < S) (hne : o ≠ i) :
    1 ≤ ring_dist S o i ∧ ring_dist S o i < S := by
  simp only [ring_dist]; split_ifs <;> omega

/-- `Reader::consume` on a well-formed queue keeps it well formed and hands out the oldest
stored element, if there is one. -/
theorem mcsp_consume_spec (N : Nat) (q : ObjectQueueMCSP Obj) (idx : Nat)
    (check_once release : Bool) (h : WF N q) :
    WF N (consume q idx check_once release).2.2 ∧
    (consume q idx check_once release).2.1 ++ stored (consume q idx check_once release).2.2 =
      stored q ∧
    (consume q idx check_once release).2.1.length =
      (if (consume q idx check_once release).1 then 1 else 0) := by
  have h0 := h
  obtain ⟨hlen, hN, hi, ho, hc, htag, hpos, hord⟩ := h
  unfold consume
  simp only [tb, detail.reserve_one_eq]
  by_cases he : detail.empty 16 q.m_OutputPos q.m_Writer.input_pos = true
  · simp only [he, if_true]
    exact ⟨h0, rfl, rfl⟩
  · simp only [he, Bool.false_eq_true, if_false]
    have hne : detail.value tb q.m_OutputPos ≠ detail.value tb q.m_Writer.input_pos := by
      intro hh; exact he ((detail.empty_iff htag).mpr hh)
    have hd := ring_dist_pos_of_ne ho hi hne
    have hnext : (if add_sz (detail.value 16 q.m_OutputPos) 1 = q.m_Buffer.length then 0
        else add_sz (detail.value 16 q.m_OutputPos) 1) =
        ring_wrap (N + 1) (detail.value tb q.m_OutputPos + 1) := by
      unfold tb at ho ⊢
      rw [add_sz_of_lt (by omega), hlen]
      simp only [ring_wrap]
      split_ifs <;> omega
    simp only [hnext]
    have hw1 : ring_wrap (N + 1) (detail.value tb q.m_OutputPos + 1) < 2 ^ 48 := by
      simp only [ring_wrap]; split_ifs <;> omega
    obtain ⟨t1, t2⟩ := @same_tagged_value_tag q.m_Writer.input_pos _ hw1
    have hslots : ring_slots (N + 1) (detail.value tb q.m_OutputPos) 1 =
        [detail.value tb q.m_OutputPos] := by
      simp [ring_slots, ring_wrap, ho, List.range_succ]
    have adv := advance_spec N q
      { q with
        m_OutputPos := detail.same_tagged 16 q.m_Writer.input_pos
          (ring_wrap (N + 1) (detail.value tb q.m_OutputPos + 1))
        m_Buffer := q.m_Buffer.set (detail.value 16 q.m_OutputPos) none
        m_PositionArray :=
          if release then q.m_PositionArray.set idx
            (ring_wrap (N + 1) (detail.value tb q.m_OutputPos + 1))
          else q.m_PositionArray } 1 h0 hd.1 rfl t1 (by rw [t2])
      (by rw [hslots]; rfl)
      (by cases release; exact Or.inl rfl; exact Or.inr ⟨idx, rfl⟩)
    obtain ⟨a1, a2, a3⟩ := adv
    rw [hslots] at a3
    refine ⟨a1, ?_, rfl⟩
    rw [a2]
    have a4 : [(q.m_Buffer.get? (detail.value 16 q.m_OutputPos)).getD none] =
        List.take 1 (stored q) := a3
    rw [a4]
    exact List.take_append_drop 1 (stored q)

/-- `Reader::consume_all` on a well-formed queue keeps it well formed and hands out all stored
elements, oldest first. -/
theorem mcsp_consume_all_spec (N : Nat) (q : ObjectQueueMCSP Obj) (idx : Nat)
    (check_once : Bool) (h : WF N q) :
    WF N (consume_all q idx check_once).2.2 ∧
    (consume_all q idx check_once).2.1 ++ stored (consume_all q idx check_once).2.2 =
      stored q ∧
    (consume_all q idx check_once).2.1.length = (consume_all q idx check_once).1 := by
  have h0 := h
  obtain ⟨hlen, hN, hi, ho, hc, htag, hpos, hord⟩ := h
  unfold consume_all
  simp only [tb, detail.reserve_all_eq]
  by_cases he : detail.empty 16 q.m_OutputPos q.m_Writer.input_pos = true
  · simp only [he, if_true]
    exact ⟨h0, rfl, rfl⟩
  · simp only [he, Bool.false_eq_true, if_false]
    have hne : detail.value tb q.m_OutputPos ≠ detail.value tb q.m_Writer.input_pos := by
      intro hh; exact he ((detail.empty_iff htag).mpr hh)
    have hd := ring_dist_pos_of_ne ho hi hne
    unfold detail.invoke_and_destroy
    simp only []
    rw [detail.apply_eq _ (by simp only []; omega) (by simp only [hlen]; exact hi)
      (by simp only [hlen]; exact ho)]
    simp only [hlen]
    have hw := ring_wrap_dist (S := N + 1) ho hi
    have adv := advance_spec N q
      { q with
        m_OutputPos := q.m_Writer.input_pos
        m_Buffer := (detail.invoke_and_destroy_each
          (ring_slots (N + 1) (detail.value 16 q.m_OutputPos)
            (ring_dist (N + 1) (detail.value 16 q.m_OutputPos)
              (detail.value 16 q.m_Writer.input_pos))) q.m_Buffer).2 }
      (ring_dist (N + 1) (detail.value tb q.m_OutputPos) (detail.value tb q.m_Writer.input_pos))
      h0 (Nat.le_refl _) rfl (by rw [hw]) (Nat.le_refl _) rfl (Or.inl rfl)
    obtain ⟨a1, a2, a3⟩ := adv
    refine ⟨a1, ?_, ?_⟩
    · rw [a2]
      have a4 : (detail.invoke_and_destroy_each
          (ring_slots (N + 1) (detail.value 16 q.m_OutputPos)
            (ring_dist (N + 1) (detail.value 16 q.m_OutputPos)
              (detail.value 16 q.m_Writer.input_pos))) q.m_Buffer).1 = _ := a3
      rw [a4]
      exact List.take_append_drop _ (stored q)
    · have a4 : (detail.invoke_and_destroy_each
          (ring_slots (N + 1) (detail.value 16 q.m_OutputPos)
            (ring_dist (N + 1) (detail.value 16 q.m_OutputPos)
              (detail.value 16 q.m_Writer.input_pos))) q.m_Buffer).1 = _ := a3
      rw [a4, List.length_take]
      simp [stored, ring_slots_length, hlen, tb]

/-- `Reader::consume_n` with an `n` that does not wrap `output_pos + n`, on a well-formed queue,
keeps it well formed and hands out the `min(n, count)` oldest stored elements, oldest first. -/
theorem mcsp_consume_n_spec (N : Nat) (q : ObjectQueueMCSP Obj) (idx n : Nat)
    (check_once release : Bool) (h : WF N q) (hn : n ≤ 2 ^ 63) :
    WF N (consume_n q idx n check_once release).2.2 ∧
    (consume_n q idx n check_once release).2.1 ++
      stored (consume_n q idx n check_once release).2.2 = stored q ∧
    (consume_n q idx n check_once release).2.1.length =
      (consume_n q idx n check_once release).1 := by
  have h0 := h
  obtain ⟨hlen, hN, hi, ho, hc, htag, hpos, hord⟩ := h
  unfold consume_n
  simp only [tb, detail.reserve_n_eq]
  by_cases he : detail.empty 16 q.m_OutputPos q.m_Writer.input_pos = true
  · simp only [he, if_true]
    exact ⟨h0, rfl, rfl⟩
  · simp only [he, Bool.false_eq_true, if_false]
    have hne : detail.value tb q.m_OutputPos ≠ detail.value tb q.m_Writer.input_pos := by
      intro hh; exact he ((detail.empty_iff htag).mpr hh)
    have hd := ring_dist_pos_of_ne ho hi hne
    have hnp := @detail.next_pos_eq_of_no_wrap (N + 1) (detail.value tb q.m_OutputPos)
      (detail.value tb q.m_Writer.input_pos) n (by omega) ho hi (by omega)
    unfold tb at hnp
    simp only [hlen, hnp]
    generalize hk : min n (ring_dist (N + 1) (detail.value 16 q.m_OutputPos)
      (detail.value 16 q.m_Writer.input_pos)) = k
    have hkd : k ≤ ring_dist (N + 1) (detail.value tb q.m_OutputPos)
        (detail.value tb q.m_Writer.input_pos) := by unfold tb; omega
    have hw1 := ring_wrap_lt (S := N + 1) (k := k) ho (by omega)
    have hd2 := ring_dist_wrap (S := N + 1) (k := k) ho (by omega)
    obtain ⟨t1, t2⟩ := @same_tagged_value_tag q.m_Writer.input_pos _
      (by omega : ring_wrap (N + 1) (detail.value tb q.m_OutputPos + k) < 2 ^ 48)
    unfold detail.invoke_and_destroy
    simp only []
    rw [detail.apply_eq _ (by simp only []; omega) (by simp only [hlen]; exact hw1)
      (by simp only [hlen]; exact ho)]
    simp only [hlen]
    unfold tb at hd2 hw1 t1 t2
    rw [hd2]
    have adv := advance_spec N q
      { q with
        m_OutputPos := detail.same_tagged 16 q.m_Writer.input_pos
          (ring_wrap (N + 1) (detail.value 16 q.m_OutputPos + k))
        m_Buffer := (detail.invoke_and_destroy_each
          (ring_slots (N + 1) (detail.value 16 q.m_OutputPos) k) q.m_Buffer).2
        m_PositionArray :=
          if release then q.m_PositionArray.set idx
            (ring_wrap (N + 1) (detail.value 16 q.m_OutputPos + k))
          else q.m_PositionArray } k h0 hkd rfl t1 (by unfold tb; rw [t2]) rfl
      (by cases release; exact Or.inl rfl; exact Or.inr ⟨idx, rfl⟩)
    obtain ⟨a1, a2, a3⟩ := adv
    have a4 : (detail.invoke_and_destroy_each
        (ring_slots (N + 1) (detail.value 16 q.m_OutputPos) k) q.m_Buffer).1 = _ := a3
    refine ⟨a1, ?_, ?_⟩
    · rw [a2, a4]
      exact List.take_append_drop _ (stored q)
    · rw [a4, List.length_take]
      have : (stored q).length = ring_dist (N + 1) (detail.value tb q.m_OutputPos)
          (detail.value tb q.m_Writer.input_pos) := by
        simp [stored, ring_slots_length, hlen]
      rw [this]
      omega

end ObjectQueueMCSP
end rb

namespace rb
namespace ObjectQueueMCSP
variable {Obj : Type}

/-- Refreshing the producer's cache with `sync` keeps the queue well formed. -/
theorem mcsp_sync_WF (N : Nat) (q : ObjectQueueMCSP Obj) (h : WF N q) :
    WF N { q with m_Writer := { q.m_Writer with
      output_pos := detail.sync tb q.m_Writer.output_pos q.m_PositionArray q.m_OutputPos } } := by
  unfold WF ring_order at h ⊢
  dsimp only at h ⊢
  simp only [tb] at h ⊢
  obtain ⟨hlen, hN, hi, ho, hc, htag, hpos, hord1, hord2⟩ := h
  rw [hlen] at hord1 hord2 ⊢
  obtain ⟨s1, s2, s3⟩ := detail.sync_between (N + 1) q.m_Writer.output_pos q.m_OutputPos
    q.m_PositionArray hN hc ho hpos hord1
  generalize detail.sync 16 q.m_Writer.output_pos q.m_PositionArray q.m_OutputPos = c1 at *
  generalize detail.value 16 q.m_OutputPos = o at *
  generalize detail.value 16 q.m_Writer.input_pos = i at *
  generalize q.m_Writer.output_pos = c at *
  have t0 := ring_dist_split hc s1 ho s2
  have t1 := ring_dist_split hc ho hi hord2
  have t2 := ring_dist_split hc s1 hi (by omega)
  refine ⟨rfl, hN, hi, ho, s1, htag, hpos, ?_, ?_⟩
  · intro a ha hne
    have r1 : a < N + 1 := by
      rcases hpos a ha with e | e
      · exact absurd e hne
      · exact e
    have r2 := hord1 a ha hne
    have r3 := s3 a ha hne
    have t3 := ring_dist_split hc s1 r1 r3
    omega
  · omega

theorem detail.publish_spec {iw ow next : Nat} (hnext : next < 2 ^ 48)
    (htag : detail.tag 16 ow ≤ detail.tag 16 iw) :
    detail.value 16 (detail.publish 16 iw next ow).1 = next ∧
    detail.value 16 (detail.publish 16 iw next ow).2 = detail.value 16 ow ∧
    detail.tag 16 (detail.publish 16 iw next ow).2 ≤
      detail.tag 16 (detail.publish 16 iw next ow).1 := by
  unfold detail.publish detail.incr_tagged
  simp only []
  have hv := detail.value_tagged_size (v := next) (t := add_sz (detail.tag 16 iw) 1) hnext
  have ht := detail.tag_tagged_size next (add_sz (detail.tag 16 iw) 1)
  have hlt := detail.tag_lt iw
  have hlt2 := detail.tag_lt ow
  have e : add_sz (detail.tag 16 iw) 1 = detail.tag 16 iw + 1 := add_sz_of_lt (by omega)
  rw [e] at hv ht ⊢
  rw [ht]
  refine ⟨hv, ?_, ?_⟩
  · split_ifs
    · unfold detail.value; omega
    · rfl
  · split_ifs with h0
    · unfold detail.tag; omega
    · omega

/-- The construct-and-publish part of `emplace`, when the slot after `input_pos` is not the
producer's cached output position. -/
theorem mcsp_publish_WF (N : Nat) (q : ObjectQueueMCSP Obj) (obj : Obj) (h : WF N q)
    (hroom : ring_wrap (N + 1) (detail.value tb q.m_Writer.input_pos + 1) ≠
      q.m_Writer.output_pos) :
    WF N { q with
        m_Buffer := q.m_Buffer.set (detail.value tb q.m_Writer.input_pos) (some obj)
        m_Writer := { q.m_Writer with input_pos := (detail.publish tb q.m_Writer.input_pos
          (ring_wrap (N + 1) (detail.value tb q.m_Writer.input_pos + 1)) q.m_OutputPos).1 }
        m_OutputPos := (detail.publish tb q.m_Writer.input_pos
          (ring_wrap (N + 1) (detail.value tb q.m_Writer.input_pos + 1)) q.m_OutputPos).2 } ∧
    stored { q with
        m_Buffer := q.m_Buffer.set (detail.value tb q.m_Writer.input_pos) (some obj)
        m_Writer := { q.m_Writer with input_pos := (detail.publish tb q.m_Writer.input_pos
          (ring_wrap (N + 1) (detail.value tb q.m_Writer.input_pos + 1)) q.m_OutputPos).1 }
        m_OutputPos := (detail.publish tb q.m_Writer.input_pos
          (ring_wrap (N + 1) (detail.value tb q.m_Writer.input_pos + 1)) q.m_OutputPos).2 } =
      stored q ++ [some obj] := by
  unfold WF ring_order stored at *
  dsimp only at h ⊢
  simp only [tb, List.length_set] at h hroom ⊢
  obtain ⟨hlen, hN, hi, ho, hc, htag, hpos, hord1, hord2⟩ := h
  rw [hlen] at hord1 hord2 ⊢
  have hw1 := ring_wrap_lt (S := N + 1) (k := 1) hi (by omega)
  obtain ⟨p1, p2, p3⟩ := @detail.publish_spec q.m_Writer.input_pos q.m_OutputPos
    (ring_wrap (N + 1) (detail.value 16 q.m_Writer.input_pos + 1)) (by omega) htag
  rw [p1, p2]
  generalize detail.value 16 q.m_OutputPos = o at *
  generalize detail.value 16 q.m_Writer.input_pos = i at *
  generalize q.m_Writer.output_pos = c at *
  have g1 := mt (ring_wrap_succ_eq (S := N + 1) hc hi).mpr hroom
  have l1 := ring_dist_lt hc hi
  have hci := ring_dist_wrap_add (S := N + 1) (k := 1) hc hi (by omega)
  have t1 := ring_dist_split hc ho hi hord2
  have hlt : ring_dist (N + 1) o i < N := by omega
  constructor
  · exact ⟨rfl, hN, hw1, ho, hc, p3, hpos, hord1, by omega⟩
  · have hd2 := ring_dist_wrap_add (S := N + 1) (k := 1) ho hi (by omega)
    have hw := ring_wrap_dist (S := N + 1) ho hi
    rw [hd2, ring_slots_succ, List.map_append, List.map_singleton, hw,
      slot_at_set_eq _ _ (by omega)]
    congr 1
    apply List.map_congr_left
    intro j hj
    apply slot_at_set_ne
    obtain ⟨t, ht, rfl⟩ := mem_ring_slots.mp hj
    intro hcon
    have := ring_dist_wrap (S := N + 1) (k := t) ho (by omega)
    rw [← hcon] at this
    omega

end ObjectQueueMCSP
end rb

namespace rb
namespace ObjectQueueMCSP
variable {Obj : Type}

/-- `emplace` on a well-formed queue keeps it well formed; the object is stored after all
earlier elements when the call returns `true`, and nothing is stored when it returns `false`. -/
theorem mcsp_emplace_spec (N : Nat) (q : ObjectQueueMCSP Obj) (obj : Obj) (h : WF N q) :
    WF N (emplace q obj).2 ∧
      stored (emplace q obj).2 = stored q ++ (if (emplace q obj).1 then [some obj] else []) := by
  have hnext : (if add_sz (detail.value tb q.m_Writer.input_pos) 1 ≠ q.m_Buffer.length
      then add_sz (detail.value tb q.m_Writer.input_pos) 1 else 0) =
      ring_wrap (N + 1) (detail.value tb q.m_Writer.input_pos + 1) := by
    obtain ⟨hlen, hN, hi, _⟩ := h
    rw [add_sz_of_lt (by omega), hlen]
    simp only [ring_wrap]
    split_ifs <;> omega
  unfold emplace
  simp only [hnext]
  by_cases h1 : ring_wrap (N + 1) (detail.value tb q.m_Writer.input_pos + 1) =
      q.m_Writer.output_pos
  · rw [if_pos h1]
    have hwf1 := mcsp_sync_WF N q h
    by_cases h2 : ring_wrap (N + 1) (detail.value tb q.m_Writer.input_pos + 1) =
        detail.sync tb q.m_Writer.output_pos q.m_PositionArray q.m_OutputPos
    · rw [if_pos h2]
      refine ⟨hwf1, ?_⟩
      simp [stored]
    · rw [if_neg h2]
      have hp := mcsp_publish_WF N _ obj hwf1 h2
      refine ⟨hp.1, ?_⟩
      simp only [if_true]
      exact hp.2
  · rw [if_neg h1]
    have hp := mcsp_publish_WF N q obj h h1
    refine ⟨hp.1, ?_⟩
    simp only [if_true]
    exact hp.2

theorem mcsp_get_reader_WF (N : Nat) (q : ObjectQueueMCSP Obj) (idx : Nat) (h : WF N q) :
    WF N (get_reader q idx) ∧ stored (get_reader q idx) = stored q := by
  refine ⟨?_, rfl⟩
  unfold WF ring_order get_reader at *
  dsimp only at h ⊢
  obtain ⟨hlen, hN, hi, ho, hc, htag, hpos, hord1, hord2⟩ := h
  refine ⟨hlen, hN, hi, ho, hc, htag, ?_, ?_, hord2⟩
  · intro a ha
    rcases List.mem_or_eq_of_mem_set ha with e | e
    · exact hpos a e
    · right; rw [e]; exact ho
  · intro a ha hne
    rcases List.mem_or_eq_of_mem_set ha with e | e
    · exact hord1 a e hne
    · rw [e]

theorem mcsp_drop_reader_WF (N : Nat) (q : ObjectQueueMCSP Obj) (idx : Nat) (h : WF N q) :
    WF N (drop_reader q idx) ∧ stored (drop_reader q idx) = stored q := by
  refine ⟨?_, rfl⟩
  unfold WF ring_order drop_reader at *
  dsimp only at h ⊢
  obtain ⟨hlen, hN, hi, ho, hc, htag, hpos, hord1, hord2⟩ := h
  refine ⟨hlen, hN, hi, ho, hc, htag, ?_, ?_, hord2⟩
  · intro a ha
    rcases List.mem_or_eq_of_mem_set ha with e | e
    · exact hpos a e
    · left; exact e
  · intro a ha hne
    rcases List.mem_or_eq_of_mem_set ha with e | e
    · exact hord1 a e hne
    · exact absurd e hne

theorem mcsp_mk_queue_WF (N R : Nat) (hN : N + 1 ≤ 2 ^ 48) :
    WF N (mk_queue N R : ObjectQueueMCSP Obj) ∧
      stored (mk_queue N R : ObjectQueueMCSP Obj) = [] := by
  constructor
  · unfold WF ring_order mk_queue
    dsimp only
    rw [add_sz_of_lt (by omega)]
    simp only [List.length_replicate, detail.value, detail.tag, tb, ring_dist]
    refine ⟨trivial, hN, by simp, by simp, by simp, by simp, ?_, ?_, by simp⟩
    · intro a ha
      left; exact (List.mem_replicate.mp ha).2
    · intro a ha hne
      exact absurd (List.mem_replicate.mp ha).2 hne
  · simp [stored, mk_queue, detail.value, ring_dist, ring_slots]

/-- One atomic step on a well-formed queue: the queue stays well formed (in particular the
reclaim order of the ring holds), and what the step hands to a reader followed by what is stored
afterwards is what was stored before followed by what the step pushed. -/
theorem mcsp_step_spec (N : Nat) (q : ObjectQueueMCSP Obj) (s : Step Obj) (h : WF N q)
    (hs : s.in_range) :
    WF N (step q s).2 ∧
      (handed_of (step q s).1).map Prod.snd ++ stored (step q s).2 =
        stored q ++ (pushed_of s (step q s).1).map some := by
  cases s with
  | get_reader i =>
    obtain ⟨a, b⟩ := mcsp_get_reader_WF N q i h
    exact ⟨a, by simp [step, handed_of, pushed_of, b]⟩
  | drop_reader i =>
    obtain ⟨a, b⟩ := mcsp_drop_reader_WF N q i h
    exact ⟨a, by simp [step, handed_of, pushed_of, b]⟩
  | push obj =>
    obtain ⟨a, b⟩ := mcsp_emplace_spec N q obj h
    refine ⟨a, ?_⟩
    simp only [step, push, handed_of, List.map_nil, List.nil_append]
    rw [b]
    cases hr : (emplace q obj).1 <;> simp [pushed_of]
  | consume i c rel =>
    obtain ⟨a, b, _⟩ := mcsp_consume_spec N q i c rel h
    refine ⟨a, ?_⟩
    simp only [step, handed_of, pushed_of, List.map_nil, List.append_nil, List.map_map]
    rw [← b]
    simp [Function.comp]
  | consume_all i c =>
    obtain ⟨a, b, _⟩ := mcsp_consume_all_spec N q i c h
    refine ⟨a, ?_⟩
    simp only [step, handed_of, pushed_of, List.map_nil, List.append_nil, List.map_map]
    rw [← b]
    simp [Function.comp]
  | consume_n i n c rel =>
    obtain ⟨a, b, _⟩ := mcsp_consume_n_spec N q i n c rel h hs
    refine ⟨a, ?_⟩
    simp only [step, handed_of, pushed_of, List.map_nil, List.append_nil, List.map_map]
    rw [← b]
    simp [Function.comp]

end ObjectQueueMCSP
end rb

namespace rb
namespace ObjectQueueMCSP
variable {Obj : Type}

/-- Every sequence of atomic steps whose `consume_n` arguments are in range keeps the queue well
formed, and what the readers were handed, in the order of the calls, followed by what is still
stored, is what was stored at the start followed by the successfully pushed values. -/
theorem mcsp_run_spec (N : Nat) (steps : List (Step Obj)) :
    ∀ (q : ObjectQueueMCSP Obj), WF N q → (∀ s ∈ steps, s.in_range) →
      WF N (run q steps).2 ∧
        (handed_log (run q steps).1).map Prod.snd ++ stored (run q steps).2 =
          stored q ++ (pushed_log steps (run q steps).1).map some := by
  induction steps with
  | nil => intro q h _; exact ⟨h, by simp [run, handed_log, pushed_log]⟩
  | cons s ss ih =>
    intro q h hr
    obtain ⟨a1, a2⟩ := mcsp_step_spec N q s h (hr s (List.mem_cons_self _ _))
    obtain ⟨b1, b2⟩ := ih (step q s).2 a1 (fun t ht => hr t (List.mem_cons_of_mem _ ht))
    refine ⟨b1, ?_⟩
    simp only [run, handed_log, pushed_log]
    rw [List.map_append, List.map_append, List.append_assoc,
      b2, ← List.append_assoc, a2, List.append_assoc]

/-- The reclaim order of the ring holds in every state reached from a fresh queue by atomic
steps (`get_reader`, reader drop, `push`, `consume`, `consume_all`, `consume_n` with or without
announcement) whose `consume_n` arguments do not exceed `2 ^ 63`. -/
theorem mcsp_ring_order_of_in_range_steps (N R : Nat) (steps : List (Step Obj))
    (hN : N + 1 ≤ 2 ^ 48) (hr : ∀ s ∈ steps, s.in_range) :
    WF N (run (mk_queue N R : ObjectQueueMCSP Obj) steps).2 ∧
      ring_order (run (mk_queue N R : ObjectQueueMCSP Obj) steps).2 := by
  obtain ⟨w, _⟩ := @mcsp_mk_queue_WF Obj N R hN
  obtain ⟨a, _⟩ := mcsp_run_spec N steps _ w hr
  exact ⟨a, a.2.2.2.2.2.2.2⟩

/-- Total preservation for sequences of atomic steps whose `consume_n` arguments do not exceed
`2 ^ 63`: the values handed to the readers, in the order of the calls, followed by the values
still stored, are exactly the successfully pushed values in push order, so every drained value
was handed out exactly once, to one reader, nothing else was handed out, and each reader
received its values in push order. -/
theorem mcsp_total_preservation_of_in_range_steps (N R : Nat) (steps : List (Step Obj))
    (hN : N + 1 ≤ 2 ^ 48) (hr : ∀ s ∈ steps, s.in_range) :
    (handed_log (run (mk_queue N R : ObjectQueueMCSP Obj) steps).1).map Prod.snd ++
        stored (run (mk_queue N R : ObjectQueueMCSP Obj) steps).2 =
      (pushed_log steps (run (mk_queue N R : ObjectQueueMCSP Obj) steps).1).map some ∧
    ∀ i : Nat,
      (((handed_log (run (mk_queue N R : ObjectQueueMCSP Obj) steps).1).filter
        (fun e => e.1 == i)).map Prod.snd).Sublist
        ((pushed_log steps (run (mk_queue N R : ObjectQueueMCSP Obj) steps).1).map some) := by
  obtain ⟨w, e⟩ := @mcsp_mk_queue_WF Obj N R hN
  obtain ⟨_, b⟩ := mcsp_run_spec N steps _ w hr
  rw [e, List.nil_append] at b
  refine ⟨b, ?_⟩
  intro i
  rw [← b]
  exact (List.Sublist.map _ (List.filter_sublist _)).trans (List.sublist_append_left _ _)

end ObjectQueueMCSP
end rb

namespace rb
namespace ObjectQueueSCSP
variable {Obj : Type}

theorem emplace_n_WF (N : Nat) (q : ObjectQueueSCSP Obj) (functor : detail.Span → List Obj)
    (h : WF N q) (hf : ∀ s, (functor s).length ≤ s.size) : WF N (emplace_n q functor).2.2 := by
  rw [emplace_n_eq N q functor h hf]
  by_cases hfull : ring_dist (N + 1) q.m_Reader.output_pos q.m_Writer.input_pos = N
  · rw [if_pos hfull]
    obtain ⟨hlen, hN, hwi, hwo, hro, hri, hd⟩ := h
    unfold WF
    simp only [ring_dist] at hd hfull ⊢
    refine ⟨hlen, hN, hwi, hro, hro, hri, ?_⟩
    split_ifs at hd hfull ⊢ <;> omega
  · rw [if_neg hfull]
    generalize hwo : (if detail.count_avl q.m_Writer.output_pos q.m_Writer.input_pos (N + 1) = 0
      then q.m_Reader.output_pos else q.m_Writer.output_pos) = wo
    have hwo2 : wo = q.m_Writer.output_pos ∨ wo = q.m_Reader.output_pos := by
      rw [← hwo]; split_ifs <;> simp
    exact (emplace_n_step N q wo _
      (functor ⟨q.m_Writer.input_pos, detail.count_avl wo q.m_Writer.input_pos (N + 1)⟩)
      h hwo2 rfl (hf _)).2.2.1

/-- Every state reached by calls within their contracts is well formed. -/
theorem reachable_WF (N : Nat) (hN : N + 1 < 2 ^ 64) (q : ObjectQueueSCSP Obj)
    (hr : Reachable N q) : WF N q := by
  induction hr with
  | init => exact mk_queue_WF N hN
  | emplace obj _ ih => exact emplace_WF N _ obj ih
  | emplace_n functor _ hf ih => exact emplace_n_WF N _ functor ih hf
  | consume _ ih => exact consume_WF N _ ih
  | consume_all _ ih => exact consume_all_WF N _ ih
  | consume_n n _ hn ih => exact consume_n_WF N _ n ih hn

end ObjectQueueSCSP
end rb

namespace rb

/-- Masking with `-alignment`, for a power of two, rounds down to a multiple of it. -/
theorem detail.land_neg_two_pow (y k : Nat) (hy : y < 2 ^ 64) (hk : k ≤ 64) :
    Nat.land y (2 ^ 64 - 2 ^ k) = y / 2 ^ k * 2 ^ k := by
  show y &&& (2 ^ 64 - 2 ^ k) = y / 2 ^ k * 2 ^ k
  apply Nat.eq_of_testBit_eq
  intro i
  have e1 : 2 ^ 64 - 2 ^ k = 2 ^ 64 - ((2 ^ k - 1) + 1) := by
    have := Nat.two_pow_pos k
    omega
  have hlt : 2 ^ k - 1 < 2 ^ 64 := by
    have := Nat.pow_le_pow_right (n := 2) (by norm_num) hk
    have := Nat.two_pow_pos k
    omega
  rw [Nat.testBit_and, e1, Nat.testBit_two_pow_sub_succ hlt, Nat.testBit_two_pow_sub_one,
    Nat.mul_comm, Nat.testBit_mul_pow_two, ← Nat.shiftRight_eq_div_pow, Nat.testBit_shiftRight]
  by_cases h1 : i < k
  · simp [h1, Nat.not_le_of_lt h1]
  · have h2 : k ≤ i := Nat.le_of_not_lt h1
    have e2 : k + (i - k) = i := by omega
    rw [e2]
    by_cases h3 : i < 64
    · simp [h1, h2, h3]
    · have : y < 2 ^ i := by
        have := Nat.pow_le_pow_right (n := 2) (by norm_num) (Nat.le_of_not_lt h3)
        omega
      simp [Nat.testBit_lt_two_pow this]

/-- The pointer `(ptr - 1 + alignment) & -alignment` of `getAlignedStorage`, for an alignment
that is a power of two: `ptr` rounded up to a multiple of the alignment, modulo `2 ^ 64`. -/
theorem detail.aligned_ptr_eq (ptr k : Nat) (hp : ptr < 2 ^ 64) (hk : k < 64) :
    Nat.land (add_sz (sub_sz ptr 1) (2 ^ k)) (sub_sz 0 (2 ^ k)) =
      (ptr + 2 ^ k - 1) % 2 ^ 64 / 2 ^ k * 2 ^ k := by
  have hpos := Nat.two_pow_pos k
  have hlt : 2 ^ k < 2 ^ 64 := Nat.pow_lt_pow_right (by norm_num) hk
  have e1 : sub_sz 0 (2 ^ k) = 2 ^ 64 - 2 ^ k := by
    unfold sub_sz
    rw [Nat.mod_eq_of_lt hlt, Nat.zero_add, Nat.mod_eq_of_lt (by omega)]
  have e2 : add_sz (sub_sz ptr 1) (2 ^ k) = (ptr + 2 ^ k - 1) % 2 ^ 64 := by
    unfold add_sz sub_sz
    generalize 2 ^ k = a at hpos hlt
    omega
  rw [e1, e2]
  exact detail.land_neg_two_pow _ k (Nat.mod_lt _ (by norm_num)) (by omega)

/-- The result of `getAlignedStorage` for a power-of-two alignment, in closed form: the region
from the first aligned address on, when the request fits behind that address. -/
theorem detail.getAlignedStorage_eq (bytes k : Nat) (buffer : Buffer) (hk : k < 64)
    (hfit : buffer.data + buffer.size < 2 ^ 64) :
    detail.getAlignedStorage bytes (2 ^ k) buffer =
      if (buffer.data + 2 ^ k - 1) / 2 ^ k * 2 ^ k + bytes ≤ buffer.data + buffer.size then
        ⟨(buffer.data + 2 ^ k - 1) / 2 ^ k * 2 ^ k,
          buffer.data + buffer.size - (buffer.data + 2 ^ k - 1) / 2 ^ k * 2 ^ k⟩
      else Buffer.nil := by
  have hpos := Nat.two_pow_pos k
  have hlt : 2 ^ k < 2 ^ 64 := Nat.pow_lt_pow_right (by norm_num) hk
  have hdvd : 2 ^ 64 = 2 ^ (64 - k) * 2 ^ k := by
    rw [← Nat.pow_add]; congr 1; omega
  unfold detail.getAlignedStorage
  simp only []
  rw [detail.aligned_ptr_eq buffer.data k (by omega) hk]
  generalize hq : 2 ^ (64 - k) = c at hdvd
  generalize 2 ^ k = a at hpos hlt hdvd ⊢
  obtain ⟨x, n⟩ := buffer
  simp only at hfit ⊢
  -- the rounded-up address, without wrap-around
  have hup1 : x ≤ (x + a - 1) / a * a := by
    have h1 := Nat.div_add_mod (x + a - 1) a
    have h2 := Nat.mod_lt (x + a - 1) hpos
    rw [Nat.mul_comm] at h1
    omega
  have hup2 : (x + a - 1) / a * a ≤ x + a - 1 := Nat.div_mul_le_self _ _
  by_cases hw : x + a - 1 < 2 ^ 64
  · rw [Nat.mod_eq_of_lt hw]
    generalize (x + a - 1) / a * a = al at hup1 hup2 ⊢
    by_cases h1 : n < bytes
    · rw [if_pos h1, if_neg (by omega)]
    · have e1 : sub_sz n bytes = n - bytes := sub_sz_of_le (by omega) (by omega)
      have e2 : sub_sz al x = al - x := sub_sz_of_le hup1 (by omega)
      rw [if_neg h1, e1, e2]
      by_cases h2 : al - x > n - bytes
      · rw [if_pos h2, if_neg (by omega)]
      · have e3 : sub_sz n (al - x) = n - (al - x) := sub_sz_of_le (by omega) (by omega)
        rw [if_neg h2, if_pos (by omega), e3]
        congr 1
        omega
  · -- the rounded-up address does not fit the address space
    have hbig : 2 ^ 64 ≤ (x + a - 1) / a * a := by
      have h1 : c ≤ (x + a - 1) / a := by
        rw [Nat.le_div_iff_mul_le hpos, ← hdvd]; omega
      calc 2 ^ 64 = c * a := hdvd
        _ ≤ (x + a - 1) / a * a := Nat.mul_le_mul_right a h1
    rw [if_neg (show ¬ ((x + a - 1) / a * a + bytes ≤ x + n) by omega)]
    have hsmall : (x + a - 1) % 2 ^ 64 / a * a = 0 := by
      have e : (x + a - 1) % 2 ^ 64 = x + a - 1 - 2 ^ 64 := by omega
      rw [e, Nat.div_eq_of_lt (by omega), Nat.zero_mul]
    rw [hsmall]
    by_cases h1 : n < bytes
    · rw [if_pos h1]
    · have e1 : sub_sz n bytes = n - bytes := sub_sz_of_le (by omega) (by omega)
      have e : sub_sz 0 x = 2 ^ 64 - x := by
        unfold sub_sz
        rw [Nat.mod_eq_of_lt (show x < 2 ^ 64 by omega), Nat.zero_add,
          Nat.mod_eq_of_lt (by omega)]
      rw [if_neg h1, e1, e, if_pos (by omega)]

end rb

namespace rb
namespace BufferQueueSCSP

/-- The closed form of `getAlignedStorage` for the alignment 16. -/
theorem detail.getAlignedStorage_16 (bytes : Nat) (buffer : Buffer)
    (hfit : buffer.data + buffer.size < 2 ^ 64) :
    detail.getAlignedStorage bytes 16 buffer =
      if (buffer.data + 15) / 16 * 16 + bytes ≤ buffer.data + buffer.size then
        ⟨(buffer.data + 15) / 16 * 16, buffer.data + buffer.size - (buffer.data + 15) / 16 * 16⟩
      else Buffer.nil := by
  have h := detail.getAlignedStorage_eq bytes 4 buffer (by norm_num) hfit
  norm_num at h
  exact h

/-- First request of the alignment scenario: the whole arena is handed out. -/
theorem scenario_allocate_1 (arena M : Nat) (hb : arena % 16 = 0) (hA : arena + 64 < 2 ^ 64)
    (hM : 2 ≤ M) (hM2 : M + 1 < 2 ^ 64) :
    allocate (mk_queue arena 64 M) 20 16 = (⟨arena, 64⟩, mk_queue arena 64 M) := by
  have e1 : add_sz M 1 = M + 1 := add_sz_of_lt hM2
  have e2 : add_sz 0 1 = 1 := by decide
  have g := detail.getAlignedStorage_16 20 ⟨arena + 0, 64 - 0⟩ (by simp only; omega)
  have e3 : (arena + 0 + 15) / 16 * 16 = arena := by omega
  simp only [e3] at g
  rw [if_pos (by omega)] at g
  have e4 : arena + 0 + (64 - 0) - arena = 64 := by omega
  rw [e4] at g
  unfold allocate carve mk_queue detail.get_storage
  simp only [e1, e2, List.length_replicate, Buffer.subspan_from, g, Buffer.empty]
  simp
  omega

/-- First release of the alignment scenario. -/
theorem scenario_release_1 (arena M : Nat) (hA : arena + 64 < 2 ^ 64) (hM : 2 ≤ M)
    (hM2 : M + 1 < 2 ^ 64) :
    release (mk_queue arena 64 M) ⟨arena, 20⟩ =
      (20, { m_Writer := { input_pos := 1, output_pos := 0,
                           byte_rb := { buffer := ⟨arena, 64⟩, input_pos := 20, output_pos := 0 } }
             m_Reader := ⟨0, 0⟩
             m_SpliceArray := (List.replicate (M + 1) Buffer.nil).set 0 ⟨arena, 20⟩ }) := by
  have e1 : add_sz M 1 = M + 1 := add_sz_of_lt hM2
  have e2 : add_sz 0 1 = 1 := by decide
  have e5 : sub_sz arena arena = 0 := by rw [sub_sz_of_le (Nat.le_refl _) (by omega)]; omega
  have e6 : add_sz 0 20 = 20 := by decide
  unfold release mk_queue
  simp only [e1, e2, e5, e6, List.length_replicate]
  rw [if_pos (by omega)]

/-- Second request of the alignment scenario: the range behind the next aligned address. -/
theorem scenario_allocate_2 (arena M : Nat) (hb : arena % 16 = 0) (hA : arena + 64 < 2 ^ 64)
    (hM : 2 ≤ M) (l : List Buffer) (hl : l.length = M + 1) (r : ReaderSCSP) :
    allocate { m_Writer := { input_pos := 1, output_pos := 0,
                             byte_rb := { buffer := ⟨arena, 64⟩, input_pos := 20,
                                          output_pos := 0 } }
               m_Reader := r, m_SpliceArray := l } 20 16 =
      (⟨arena + 32, 32⟩,
        { m_Writer := { input_pos := 1, output_pos := 0,
                        byte_rb := { buffer := ⟨arena, 64⟩, input_pos := 20, output_pos := 0 } }
          m_Reader := r, m_SpliceArray := l }) := by
  have e2 : add_sz 1 1 = 2 := by decide
  have g := detail.getAlignedStorage_16 20 ⟨arena + 20, 64 - 20⟩ (by simp only; omega)
  have e3 : (arena + 20 + 15) / 16 * 16 = arena + 32 := by omega
  simp only [e3] at g
  rw [if_pos (by omega)] at g
  have e4 : arena + 20 + (64 - 20) - (arena + 32) = 32 := by omega
  rw [e4] at g
  unfold allocate carve detail.get_storage
  simp only [e2, hl, Buffer.subspan_from, g, Buffer.empty]
  simp
  omega

/-- Second release of the alignment scenario. -/
theorem scenario_release_2 (arena M : Nat) (hA : arena + 64 < 2 ^ 64) (hM : 2 ≤ M)
    (l : List Buffer) (hl : l.length = M + 1) (r : ReaderSCSP) :
    release { m_Writer := { input_pos := 1, output_pos := 0,
                            byte_rb := { buffer := ⟨arena, 64⟩, input_pos := 20,
                                         output_pos := 0 } }
              m_Reader := r, m_SpliceArray := l } ⟨arena + 32, 20⟩ =
      (20, { m_Writer := { input_pos := 2, output_pos := 0,
                           byte_rb := { buffer := ⟨arena, 64⟩, input_pos := 52, output_pos := 0 } }
             m_Reader := r
             m_SpliceArray := l.set 1 ⟨arena + 32, 20⟩ }) := by
  have e2 : add_sz 1 1 = 2 := by decide
  have e5 : sub_sz (arena + 32) arena = 32 := by
    rw [sub_sz_of_le (by omega) (by omega)]; omega
  have e6 : add_sz 32 20 = 52 := by decide
  unfold release
  simp only [e2, e5, e6, hl]
  rw [if_pos (by omega)]

/-- Third request of the alignment scenario, nothing consumed: neither the 12 bytes left at the
end of the arena nor the start of the arena, still occupied, can hold it. -/
theorem scenario_allocate_3 (arena M : Nat) (hA : arena + 64 < 2 ^ 64) (l : List Buffer)
    (hl : l.length = M + 1) (h0 : l.get? 0 = some ⟨arena, 20⟩) (ri : Nat) :
    allocate { m_Writer := { input_pos := 2, output_pos := 0,
                             byte_rb := { buffer := ⟨arena, 64⟩, input_pos := 52,
                                          output_pos := 0 } }
               m_Reader := ⟨0, ri⟩, m_SpliceArray := l } 20 16 =
      (Buffer.nil,
        { m_Writer := { input_pos := 2, output_pos := 0,
                        byte_rb := { buffer := ⟨arena, 64⟩, input_pos := 52, output_pos := 0 } }
          m_Reader := ⟨0, ri⟩, m_SpliceArray := l }) := by
  have e2 : add_sz 2 1 = 3 := by decide
  have g := detail.getAlignedStorage_16 20 ⟨arena + 52, 64 - 52⟩ (by simp only; omega)
  rw [if_neg (by simp only; omega)] at g
  have e5 : sub_sz arena arena = 0 := by rw [sub_sz_of_le (Nat.le_refl _) (by omega)]; omega
  unfold allocate carve sync detail.get_storage
  simp only [e2, hl, Buffer.subspan_from, g, Buffer.empty, splice_at, h0, Option.getD, e5]
  simp [Buffer.nil]

/-- The consume of the alignment scenario hands out the first released range. -/
theorem scenario_consume (arena M : Nat) (hM : 2 ≤ M) (l : List Buffer) (hl : l.length = M + 1)
    (h0 : l.get? 0 = some ⟨arena, 20⟩) (w : WriterBQ) (hw : w.input_pos = 2) :
    consume { m_Writer := w, m_Reader := ⟨0, 0⟩, m_SpliceArray := l } =
      (true, [⟨arena, 20⟩], { m_Writer := w, m_Reader := ⟨1, 2⟩, m_SpliceArray := l }) := by
  have e2 : add_sz 0 1 = 1 := by decide
  unfold consume
  simp only [hw, e2, hl, splice_at, h0, Option.getD]
  simp
  omega

/-- Third request of the alignment scenario after one consume: the start of the arena, up to the
guard byte before the second range, is handed out. -/
theorem scenario_allocate_4 (arena M : Nat) (hb : arena % 16 = 0) (hA : arena + 64 < 2 ^ 64)
    (l : List Buffer) (hl : l.length = M + 1) (h1 : l.get? 1 = some ⟨arena + 32, 20⟩) :
    allocate { m_Writer := { input_pos := 2, output_pos := 0,
                             byte_rb := { buffer := ⟨arena, 64⟩, input_pos := 52,
                                          output_pos := 0 } }
               m_Reader := ⟨1, 2⟩, m_SpliceArray := l } 20 16 =
      (⟨arena, 31⟩,
        { m_Writer := { input_pos := 2, output_pos := 1,
                        byte_rb := { buffer := ⟨arena, 64⟩, input_pos := 52, output_pos := 32 } }
          m_Reader := ⟨1, 2⟩, m_SpliceArray := l }) := by
  have e2 : add_sz 2 1 = 3 := by decide
  have g := detail.getAlignedStorage_16 20 ⟨arena + 52, 64 - 52⟩ (by simp only; omega)
  rw [if_neg (by simp only; omega)] at g
  have e5 : sub_sz (arena + 32) arena = 32 := by
    rw [sub_sz_of_le (by omega) (by omega)]; omega
  have e6 : sub_sz 32 1 = 31 := by decide
  have g2 := detail.getAlignedStorage_16 20 ⟨arena, 31⟩ (by simp only; omega)
  have e3 : (arena + 15) / 16 * 16 = arena := by omega
  simp only [e3] at g2
  rw [if_pos (by omega)] at g2
  have e4 : arena + 31 - arena = 31 := by omega
  rw [e4] at g2
  unfold allocate carve sync detail.get_storage
  simp only [e2, hl, Buffer.subspan_from, g, Buffer.empty, splice_at, h1, Option.getD, e5, e6,
    Buffer.first, g2]
  simp [Buffer.nil, e6, g2]
  by_cases hm : M = 2 <;> simp [hm]

/-- Claim C11: in a buffer queue with a 64-byte arena at a 16-aligned address and a slot ring
that holds at least two buffers, two successive requests (size 20, alignment 16), each released
with its first 20 bytes, succeed and the released ranges are 16-aligned, 20 bytes long and
disjoint; a third such request returns the empty range while nothing has been consumed, and
succeeds after one `consume`. -/
theorem buffer_alignment_scenario (arena M : Nat) (hb : arena % 16 = 0)
    (hA : arena + 64 < 2 ^ 64) (hM : 2 ≤ M) (hM2 : M + 1 < 2 ^ 64) :
    (let a1 := allocate (mk_queue arena 64 M) 20 16
     let r1 := release a1.2 (a1.1.first 20)
     let a2 := allocate r1.2 20 16
     let r2 := release a2.2 (a2.1.first 20)
     let a3 := allocate r2.2 20 16
     let c := consume a3.2
     let a4 := allocate c.2.2 20 16
     (a1.1.empty = false ∧ a2.1.empty = false) ∧
     (a1.1.data % 16 = 0 ∧ a2.1.data % 16 = 0) ∧
     (a1.1.first 20 = ⟨arena, 20⟩ ∧ a2.1.first 20 = ⟨arena + 32, 20⟩) ∧
     (a1.1.first 20).disjoint (a2.1.first 20) ∧
     (a1.1.first 20).within ⟨arena, 64⟩ ∧ (a2.1.first 20).within ⟨arena, 64⟩ ∧
     a3.1 = Buffer.nil ∧ (allocate a3.2 20 16).1 = Buffer.nil ∧
     c.1 = true ∧ c.2.1 = [⟨arena, 20⟩] ∧
     a4.1.empty = false ∧ a4.1 = ⟨arena, 31⟩ ∧ a4.1.data % 16 = 0 ∧ 20 ≤ a4.1.size ∧
     a4.1.disjoint (a2.1.first 20)) := by
  intro a1 r1 a2 r2 a3 c a4
  have hl0 : (List.replicate (M + 1) Buffer.nil).length = M + 1 := List.length_replicate _ _
  have hl1 : ((List.replicate (M + 1) Buffer.nil).set 0 ⟨arena, 20⟩).length = M + 1 := by
    rw [List.length_set, hl0]
  have hl2 : (((List.replicate (M + 1) Buffer.nil).set 0 ⟨arena, 20⟩).set 1
      ⟨arena + 32, 20⟩).length = M + 1 := by rw [List.length_set, hl1]
  have g0 : (((List.replicate (M + 1) Buffer.nil).set 0 ⟨arena, 20⟩).set 1
      ⟨arena + 32, 20⟩).get? 0 = some ⟨arena, 20⟩ := by
    simp [List.getElem?_set]
  have g1 : (((List.replicate (M + 1) Buffer.nil).set 0 ⟨arena, 20⟩).set 1
      ⟨arena + 32, 20⟩).get? 1 = some ⟨arena + 32, 20⟩ := by
    simp [List.getElem?_set]
    omega
  have ha1 : a1 = (⟨arena, 64⟩, mk_queue arena 64 M) := scenario_allocate_1 arena M hb hA hM hM2
  have hr1 := Eq.trans (show r1 = release (mk_queue arena 64 M) ⟨arena, 20⟩ by
    show release a1.2 (a1.1.first 20) = _
    rw [ha1]; rfl) (scenario_release_1 arena M hA hM hM2)
  have ha2 := Eq.trans (show a2 = allocate _ 20 16 by
    show allocate r1.2 20 16 = _
    rw [hr1]) (scenario_allocate_2 arena M hb hA hM _ hl1 _)
  have hr2 := Eq.trans (show r2 = release _ ⟨arena + 32, 20⟩ by
    show release a2.2 (a2.1.first 20) = _
    rw [ha2]; rfl) (scenario_release_2 arena M hA hM _ hl1 _)
  have ha3 := Eq.trans (show a3 = allocate _ 20 16 by
    show allocate r2.2 20 16 = _
    rw [hr2]) (scenario_allocate_3 arena M hA _ hl2 g0 0)
  have ha3b := Eq.trans (show allocate a3.2 20 16 = allocate _ 20 16 by
    rw [ha3]) (scenario_allocate_3 arena M hA _ hl2 g0 0)
  have hc := Eq.trans (show c = consume _ by
    show consume a3.2 = _
    rw [ha3]) (scenario_consume arena M hM _ hl2 g0 _ rfl)
  have ha4 := Eq.trans (show a4 = allocate _ 20 16 by
    show allocate c.2.2 20 16 = _
    rw [hc]) (scenario_allocate_4 arena M hb hA _ hl2 g1)
  rw [ha3b, ha4, hc, ha3, ha2, ha1]
  simp only [Buffer.first, Buffer.empty, Buffer.disjoint, Buffer.within]
  refine ⟨⟨by decide, by decide⟩, ⟨hb, by omega⟩, ⟨trivial, trivial⟩, by omega, by omega,
    by omega, trivial, trivial, trivial, trivial, by decide, trivial, hb, by omega, by omega⟩

/-- The alignment scenario at arena address 4096 with room for three buffers. -/
theorem buffer_alignment_scenario_witness :
    (allocate (mk_queue 4096 64 3) 20 16).1 = ⟨4096, 64⟩ ∧
    (allocate (release (mk_queue 4096 64 3) ⟨4096, 20⟩).2 20 16).1 = ⟨4128, 32⟩ ∧
    ((allocate (mk_queue 4096 64 3) 20 16).1.first 20 = ⟨4096, 20⟩ ∧
      (allocate (release (allocate (mk_queue 4096 64 3) 20 16).2
        ((allocate (mk_queue 4096 64 3) 20 16).1.first 20)).2 20 16).1.first 20 =
          ⟨4096 + 32, 20⟩) :=
  ⟨by decide, by decide, (buffer_alignment_scenario 4096 3 (by decide) (by decide) (by decide)
    (by decide)).2.2.1⟩

end BufferQueueSCSP
end rb

namespace rb
namespace BufferQueueSCSP

theorem align_up_ge (a x : Nat) (ha : 0 < a) : x ≤ align_up a x := by
  unfold align_up
  have h1 := Nat.div_add_mod (x + a - 1) a
  have h2 := Nat.mod_lt (x + a - 1) ha
  rw [Nat.mul_comm] at h1
  omega

theorem align_up_lt (a x : Nat) (ha : 0 < a) : align_up a x < x + a := by
  unfold align_up
  have := Nat.div_mul_le_self (x + a - 1) a
  omega

/-- Rounding up an address inside an aligned arena is rounding up its offset. -/
theorem align_up_add (a base x : Nat) (ha : 0 < a) (hb : base % a = 0) :
    align_up a (base + x) = base + align_up a x := by
  unfold align_up
  obtain ⟨t, ht⟩ := Nat.dvd_of_mod_eq_zero hb
  subst ht
  have e : a * t + x + a - 1 = x + a - 1 + a * t := by omega
  rw [e, Nat.add_mul_div_left _ _ ha, Nat.add_mul, Nat.mul_comm t a]
  omega

/-- An address aligned for `2 ^ j` is aligned for every smaller power of two. -/
theorem mod_two_pow_of_le (base j k : Nat) (hb : base % 2 ^ j = 0) (hk : k ≤ j) :
    base % 2 ^ k = 0 := by
  obtain ⟨t, ht⟩ := Nat.dvd_of_mod_eq_zero hb
  have e : (2 : Nat) ^ j = 2 ^ k * 2 ^ (j - k) := by
    rw [← Nat.pow_add]; congr 1; omega
  rw [ht, e, Nat.mul_assoc]
  exact Nat.mul_mod_right _ _

/-- When `getAlignedStorage`, asked for at least one byte with a power-of-two alignment, finds
room in a region of an aligned arena. -/
theorem detail.getAlignedStorage_ne_iff (bytes k base x n : Nat) (hk : k < 64)
    (hfit : base + x + n < 2 ^ 64) (hb : base % 2 ^ k = 0) (hs : 1 ≤ bytes) :
    (detail.getAlignedStorage bytes (2 ^ k) ⟨base + x, n⟩).size ≠ 0 ↔
      align_up (2 ^ k) x + bytes ≤ x + n := by
  have hpos := Nat.two_pow_pos k
  rw [detail.getAlignedStorage_eq bytes k _ hk (by simpa using hfit)]
  have e := align_up_add (2 ^ k) base x hpos hb
  have hge := align_up_ge (2 ^ k) x hpos
  unfold align_up at e hge ⊢
  simp only []
  rw [e]
  generalize (x + 2 ^ k - 1) / 2 ^ k * 2 ^ k = u at hge ⊢
  by_cases h : base + u + bytes ≤ base + x + n
  · rw [if_pos h]
    simp only []
    omega
  · rw [if_neg h]
    simp only [Buffer.nil]
    omega

/-- When `get_storage`, asked for at least one byte with a power-of-two alignment, finds room in
an aligned arena: behind the aligned cursor `in`, or at the start of the arena before the guard
byte in front of `out`. -/
theorem detail.get_storage_ne_iff (bytes k base B inp out : Nat) (hk : k < 64)
    (hfit : base + B < 2 ^ 64) (hb : base % 2 ^ k = 0) (hs : 1 ≤ bytes) (hin : inp ≤ B)
    (hout : out ≤ B) :
    (detail.get_storage ⟨⟨base, B⟩, inp, out⟩ bytes (2 ^ k)).size ≠ 0 ↔
      if inp ≥ out then align_up (2 ^ k) inp + bytes ≤ B ∨ bytes + 1 ≤ out
      else align_up (2 ^ k) inp + bytes + 1 ≤ out := by
  have hpos := Nat.two_pow_pos k
  have hge := align_up_ge (2 ^ k) inp hpos
  unfold detail.get_storage
  simp only [Buffer.subspan_from, Buffer.subspan, Buffer.first, Buffer.empty, beq_iff_eq]
  by_cases h1 : inp ≥ out
  · rw [if_pos h1, if_pos h1]
    have f1 := detail.getAlignedStorage_ne_iff bytes k base inp (B - inp) hk (by omega) hb hs
    by_cases h2 : (detail.getAlignedStorage bytes (2 ^ k) ⟨base + inp, B - inp⟩).size = 0
    · rw [if_neg (by simpa using h2)]
      have n1 : ¬ (align_up (2 ^ k) inp + bytes ≤ inp + (B - inp)) := by
        intro h; exact (f1.mpr h) h2
      by_cases h3 : out ≠ 0
      · rw [if_pos h3, sub_sz_of_le (by omega) (by omega)]
        have f2 := detail.getAlignedStorage_ne_iff bytes k base 0 (out - 1) hk (by omega) hb hs
        have z : align_up (2 ^ k) 0 = 0 := by
          unfold align_up
          rw [Nat.zero_add, Nat.div_eq_of_lt (by omega), Nat.zero_mul]
        rw [z] at f2
        simp only [Nat.add_zero] at f2
        rw [f2]
        omega
      · rw [if_neg h3]
        simp only [Buffer.nil]
        omega
    · rw [if_pos (by simpa using h2)]
      have p1 := f1.mp h2
      constructor
      · intro _; left; omega
      · intro _; exact h2
  · have e1 : sub_sz out inp = out - inp := sub_sz_of_le (by omega) (by omega)
    have e2 : sub_sz (out - inp) 1 = out - inp - 1 := sub_sz_of_le (by omega) (by omega)
    rw [if_neg h1, if_neg h1, e1, e2]
    rw [detail.getAlignedStorage_ne_iff bytes k base inp (out - inp - 1) hk (by omega) hb hs]
    omega

end BufferQueueSCSP
end rb

namespace rb
namespace BufferQueueSCSP

/-- With every released buffer consumed, `sync` brings the writer's cached cursor to
`input_pos` and the arena cursor `out` to `in`. -/
theorem sync_of_empty (q : BufferQueueSCSP) (he : q.empty = true) :
    (sync q).m_Writer.output_pos = q.m_Writer.input_pos ∧
    (sync q).m_Writer.byte_rb =
      ⟨q.m_Writer.byte_rb.buffer, q.m_Writer.byte_rb.input_pos, q.m_Writer.byte_rb.input_pos⟩ := by
  have e : q.m_Reader.output_pos = q.m_Writer.input_pos := by
    have := he
    unfold empty at this
    exact (beq_iff_eq.mp this).symm
  unfold sync
  simp [e]

/-- The slot after `input_pos` is another slot when the ring has at least two slots. -/
theorem next_pos_ne_self (M i : Nat) (hM : M + 1 < 2 ^ 64) (hM1 : 1 ≤ M) (hi : i < M + 1) :
    (if add_sz i 1 ≠ M + 1 then add_sz i 1 else 0) ≠ i := by
  rw [add_sz_of_lt (by omega)]
  split_ifs <;> omega

/-- Claim C12 (amended): in a reachable state of a buffer queue with an arena of `B` bytes at
an address aligned for `2 ^ j` and at least one slot, in which every released buffer has been
consumed, `allocate(s, 2 ^ k)` with `1 ≤ s` and `k ≤ j` returns a non-empty range exactly when
the request fits at the arena cursor `in`, which consuming does not reset: behind the aligned
cursor (`align_up in + s ≤ B`) or in front of it (`s < in`).  In particular it succeeds for
every request with `2 * s + 2 ^ k ≤ B + 1`. -/
theorem arena_reclaim (arena B M j k s : Nat) (q : BufferQueueSCSP) (g : Option Buffer)
    (hA : arena + B < 2 ^ 64) (hM : M + 1 < 2 ^ 64) (hM1 : 1 ≤ M) (hj : arena % 2 ^ j = 0)
    (hkj : k ≤ j) (hk : k < 64) (hr : Reachable arena B M q g) (he : q.empty = true)
    (hs : 1 ≤ s) :
    ((allocate q s (2 ^ k)).1.empty = false ↔
      (align_up (2 ^ k) q.m_Writer.byte_rb.input_pos + s ≤ B ∨
        s + 1 ≤ q.m_Writer.byte_rb.input_pos)) ∧
    (2 * s + 2 ^ k ≤ B + 1 → (allocate q s (2 ^ k)).1.empty = false) := by
  obtain ⟨hwf, ⟨_, hin, hout, _⟩, hbuf, _⟩ := reachable_inv arena B M hA hM q g hr
  obtain ⟨hlen, _, hwi, _⟩ := hwf
  have hb := mod_two_pow_of_le arena j k hj hkj
  have hpos := Nat.two_pow_pos k
  obtain ⟨so, sb⟩ := sync_of_empty q he
  rw [hbuf] at hin hout sb
  simp only [] at hin hout
  have hnext := next_pos_ne_self M q.m_Writer.input_pos hM hM1 hwi
  have stale := detail.get_storage_ne_iff s k arena B q.m_Writer.byte_rb.input_pos
    q.m_Writer.byte_rb.output_pos hk hA hb hs hin hout
  have fresh := detail.get_storage_ne_iff s k arena B q.m_Writer.byte_rb.input_pos
    q.m_Writer.byte_rb.input_pos hk hA hb hs hin hin
  rw [if_pos (Nat.le_refl _)] at fresh
  have hrb : q.m_Writer.byte_rb =
      ⟨⟨arena, B⟩, q.m_Writer.byte_rb.input_pos, q.m_Writer.byte_rb.output_pos⟩ := by
    rw [← hbuf]
  rw [← hrb] at stale
  rw [← sb] at fresh
  have key : (allocate q s (2 ^ k)).1.empty = false ↔
      (align_up (2 ^ k) q.m_Writer.byte_rb.input_pos + s ≤ B ∨
        s + 1 ≤ q.m_Writer.byte_rb.input_pos) := by
    unfold allocate carve
    simp only [hlen, Buffer.empty, beq_iff_eq, so] at hnext ⊢
    by_cases c1 : (if add_sz q.m_Writer.input_pos 1 ≠ M + 1 then add_sz q.m_Writer.input_pos 1
        else 0) = q.m_Writer.output_pos ∨
        (detail.get_storage q.m_Writer.byte_rb s (2 ^ k)).size = 0
    · rw [if_pos c1]
      by_cases c2 : (detail.get_storage (sync q).m_Writer.byte_rb s (2 ^ k)).size = 0
      · rw [if_pos (Or.inr c2)]
        simp only [Buffer.nil, beq_self_eq_true, Bool.true_eq_false, false_iff]
        intro h
        exact (fresh.mpr h) c2
      · rw [if_neg (by rintro (h | h); exact hnext h; exact c2 h)]
        simp only [beq_eq_false_iff_ne, ne_eq, c2, not_false_eq_true, true_iff]
        exact fresh.mp c2
    · rw [if_neg c1]
      have c3 : (detail.get_storage q.m_Writer.byte_rb s (2 ^ k)).size ≠ 0 :=
        fun h => c1 (Or.inr h)
      simp only [beq_eq_false_iff_ne, ne_eq, c3, not_false_eq_true, true_iff]
      have st := stale.mp c3
      have hge := align_up_ge (2 ^ k) q.m_Writer.byte_rb.input_pos hpos
      split_ifs at st with c4
      · rcases st with st | st
        · exact Or.inl st
        · exact Or.inr (by omega)
      · exact Or.inl (by omega)
  refine ⟨key, fun hsmall => key.mpr ?_⟩
  have hlt := align_up_lt (2 ^ k) q.m_Writer.byte_rb.input_pos hpos
  by_cases c : s + 1 ≤ q.m_Writer.byte_rb.input_pos
  · exact Or.inr c
  · exact Or.inl (by omega)

/-- The state reached by releasing 20 bytes and consuming them is reachable. -/
theorem reachable_released_consumed :
    Reachable 4096 64 4 (consume (allocate_and_release (mk_queue 4096 64 4) 20 16
      (fun b => ⟨b.data, 20⟩)).2.2).2.2 none :=
  Reachable.consume (Reachable.allocate_and_release 20 16 (fun b => ⟨b.data, 20⟩)
    Reachable.init (by decide))

/-- The amended claim C12 at the state reached by releasing 20 bytes of a 64-byte arena and
consuming them: a request of 20 bytes with alignment 16 succeeds. -/
theorem arena_reclaim_witness :
    (consume (allocate_and_release (mk_queue 4096 64 4) 20 16
      (fun b => ⟨b.data, 20⟩)).2.2).2.2.empty = true ∧
    (allocate (consume (allocate_and_release (mk_queue 4096 64 4) 20 16
      (fun b => ⟨b.data, 20⟩)).2.2).2.2 20 (2 ^ 4)).1.empty = false :=
  ⟨by decide, (arena_reclaim 4096 64 4 4 4 20 _ none (by decide) (by decide) (by decide)
    (by decide) (by decide) (by decide) reachable_released_consumed (by decide)
    (by decide)).2 (by decide)⟩

/-- Claim C12 fails as stated: with `B = 64` and `A = 16`, after 20 bytes have been released and
consumed every released buffer has been consumed, yet `allocate(48, 16)`, a request with
`1 ≤ 48 ≤ B - A`, returns the empty range: the cursors stay at offset 20, behind which only 32
aligned bytes are left and in front of which only 19.  The call changes nothing that a later
call could profit from: repeating it returns the empty range again and there is nothing to
consume. -/
theorem arena_reclaim_counterexample :
    Reachable 4096 64 4 (consume (allocate_and_release (mk_queue 4096 64 4) 20 16
      (fun b => ⟨b.data, 20⟩)).2.2).2.2 none ∧
    (consume (allocate_and_release (mk_queue 4096 64 4) 20 16
      (fun b => ⟨b.data, 20⟩)).2.2).2.2.empty = true ∧
    stored (consume (allocate_and_release (mk_queue 4096 64 4) 20 16
      (fun b => ⟨b.data, 20⟩)).2.2).2.2 = [] ∧
    (4096 % 16 = 0 ∧ 1 ≤ 48 ∧ 48 ≤ 64 - 16 ∧ 16 ≤ 16) ∧
    (allocate (consume (allocate_and_release (mk_queue 4096 64 4) 20 16
      (fun b => ⟨b.data, 20⟩)).2.2).2.2 48 16).1 = Buffer.nil ∧
    (allocate (allocate (consume (allocate_and_release (mk_queue 4096 64 4) 20 16
      (fun b => ⟨b.data, 20⟩)).2.2).2.2 48 16).2 48 16) =
      (Buffer.nil, (allocate (consume (allocate_and_release (mk_queue 4096 64 4) 20 16
        (fun b => ⟨b.data, 20⟩)).2.2).2.2 48 16).2) ∧
    (consume (allocate (consume (allocate_and_release (mk_queue 4096 64 4) 20 16
      (fun b => ⟨b.data, 20⟩)).2.2).2.2 48 16).2).1 = false :=
  ⟨Reachable.consume (Reachable.allocate_and_release 20 16 (fun b => ⟨b.data, 20⟩)
    Reachable.init (by decide)), by decide, by decide, by decide, by decide, by decide,
    by decide⟩

end BufferQueueSCSP
end rb

namespace rb
namespace BufferQueueSCSP

/-- A region that starts at the same address and is longer serves every request the shorter one
serves. -/
theorem detail.getAlignedStorage_mono (bytes alignment x n n1 : Nat) (hle : n ≤ n1)
    (hfit : x + n1 < 2 ^ 64)
    (hne : (detail.getAlignedStorage bytes alignment ⟨x, n⟩).size ≠ 0) :
    (detail.getAlignedStorage bytes alignment ⟨x, n1⟩).size ≠ 0 := by
  have sp := detail.getAlignedStorage_spec bytes alignment ⟨x, n⟩ (by simp only; omega) hne
  unfold detail.getAlignedStorage at hne sp ⊢
  simp only [] at hne sp ⊢
  generalize Nat.land (add_sz (sub_sz x 1) alignment) (sub_sz 0 alignment) = al at hne sp ⊢
  by_cases h1 : n < bytes
  · simp [h1, Buffer.nil] at hne
  · rw [if_neg h1] at hne sp
    rw [if_neg (by omega)]
    have e1 : sub_sz n bytes = n - bytes := sub_sz_of_le (by omega) (by omega)
    have e2 : sub_sz n1 bytes = n1 - bytes := sub_sz_of_le (by omega) (by omega)
    rw [e1] at hne sp
    rw [e2]
    by_cases h2 : sub_sz al x > n - bytes
    · simp [h2, Buffer.nil] at hne
    · rw [if_neg h2] at hne sp
      rw [if_neg (by omega)]
      simp only [] at hne sp ⊢
      have e3 : sub_sz al x = al - x := by
        unfold sub_sz at h2 ⊢
        rw [Nat.mod_eq_of_lt (show x < 2 ^ 64 by omega)] at h2 ⊢
        omega
      rw [e3] at hne sp h2 ⊢
      have e4 : sub_sz n (al - x) = n - (al - x) := sub_sz_of_le (by omega) (by omega)
      have e5 : sub_sz n1 (al - x) = n1 - (al - x) := sub_sz_of_le (by omega) (by omega)
      rw [e4] at hne
      rw [e5]
      omega

/-- Where `sync` puts the arena cursor `out`: not behind the old `out` in release order. -/
theorem sync_out_pos (M : Nat) (q : BufferQueueSCSP) (h : WF M q) (ha : arena_inv q) :
    (q.m_Writer.byte_rb.output_pos ≤ q.m_Writer.byte_rb.input_pos →
      q.m_Writer.byte_rb.output_pos ≤ (sync q).m_Writer.byte_rb.output_pos ∧
      (sync q).m_Writer.byte_rb.output_pos ≤ q.m_Writer.byte_rb.input_pos) ∧
    (q.m_Writer.byte_rb.input_pos < q.m_Writer.byte_rb.output_pos →
      (sync q).m_Writer.byte_rb.output_pos ≤ q.m_Writer.byte_rb.input_pos ∨
      q.m_Writer.byte_rb.output_pos ≤ (sync q).m_Writer.byte_rb.output_pos) := by
  have hsub := stored_subset_window M q h
  obtain ⟨hfit, hin, hout, hlay⟩ := ha
  by_cases he : q.m_Reader.output_pos = q.m_Writer.input_pos
  · have e : (sync q).m_Writer.byte_rb.output_pos = q.m_Writer.byte_rb.input_pos := by
      simp [sync, he]
    rw [e]
    exact ⟨fun h1 => ⟨h1, Nat.le_refl _⟩, fun _ => Or.inl (Nat.le_refl _)⟩
  · obtain ⟨ds, hds⟩ := stored_eq_cons M q h he
    have e : (sync q).m_Writer.byte_rb.output_pos =
        sub_sz (q.splice_at q.m_Reader.output_pos).data q.m_Writer.byte_rb.buffer.data := by
      simp [sync, he]
    have hd := hsub (q.splice_at q.m_Reader.output_pos) (by rw [hds]; exact List.mem_cons_self _ _)
    generalize q.splice_at q.m_Reader.output_pos = d at e hd
    rw [e]
    rcases hlay with ⟨hle, hch⟩ | ⟨hlt, d1, d2, hsplit, hc1, hc2⟩
    · have hm := chain_mem hch d hd
      rw [sub_sz_of_le (by omega) (by omega)]
      exact ⟨fun _ => ⟨by omega, by omega⟩, fun h2 => by omega⟩
    · rw [hsplit] at hd
      constructor
      · intro h1; omega
      · intro _
        rcases List.mem_append.mp hd with hd1 | hd2
        · have hm := chain_mem hc1 d hd1
          rw [sub_sz_of_le (by omega) (by omega)]
          right; omega
        · have hm := chain_mem hc2 d hd2
          rw [sub_sz_of_le (by omega) (by omega)]
          left; omega

/-- Moving the arena cursor `out` forward in release order keeps every request servable. -/
theorem detail.get_storage_mono_out (buf : Buffer) (inp out out1 s a : Nat)
    (hfit : buf.data + buf.size < 2 ^ 64) (hin : inp ≤ buf.size) (hout : out ≤ buf.size)
    (hout1 : out1 ≤ buf.size) (p1 : out ≤ inp → out ≤ out1 ∧ out1 ≤ inp)
    (p2 : inp < out → out1 ≤ inp ∨ out ≤ out1)
    (hne : (detail.get_storage ⟨buf, inp, out⟩ s a).size ≠ 0) :
    (detail.get_storage ⟨buf, inp, out1⟩ s a).size ≠ 0 := by
  obtain ⟨base, B⟩ := buf
  simp only [] at hfit hin hout hout1
  unfold detail.get_storage at hne ⊢
  simp only [Buffer.subspan_from, Buffer.subspan, Buffer.first, Buffer.empty, beq_iff_eq]
    at hne ⊢
  by_cases h1 : inp ≥ out
  · obtain ⟨q1, q2⟩ := p1 h1
    rw [if_pos h1] at hne
    rw [if_pos q2]
    by_cases h2 : (detail.getAlignedStorage s a ⟨base + inp, B - inp⟩).size = 0
    · rw [if_neg (by simpa using h2)] at hne ⊢
      by_cases h3 : out ≠ 0
      · rw [if_pos h3, sub_sz_of_le (by omega) (by omega)] at hne
        rw [if_pos (by omega), sub_sz_of_le (by omega) (by omega)]
        exact detail.getAlignedStorage_mono s a base (out - 1) (out1 - 1) (by omega) (by omega)
          hne
      · rw [if_neg h3] at hne
        simp [Buffer.nil] at hne
    · rw [if_pos (by simpa using h2)]
      exact h2
  · have e1 : sub_sz out inp = out - inp := sub_sz_of_le (by omega) (by omega)
    have e2 : sub_sz (out - inp) 1 = out - inp - 1 := sub_sz_of_le (by omega) (by omega)
    rw [if_neg h1, e1, e2] at hne
    by_cases h4 : inp ≥ out1
    · rw [if_pos h4]
      have f := detail.getAlignedStorage_mono s a (base + inp) (out - inp - 1) (B - inp)
        (by omega) (by omega) hne
      rw [if_pos (by simpa using f)]
      exact f
    · have e3 : sub_sz out1 inp = out1 - inp := sub_sz_of_le (by omega) (by omega)
      have e4 : sub_sz (out1 - inp) 1 = out1 - inp - 1 := sub_sz_of_le (by omega) (by omega)
      rw [if_neg h4, e3, e4]
      have q3 : out ≤ out1 := by
        rcases p2 (by omega) with h | h <;> omega
      exact detail.getAlignedStorage_mono s a (base + inp) (out - inp - 1) (out1 - inp - 1)
        (by omega) (by omega) hne

/-- A request `get_storage` can serve before `sync` it can serve after `sync`. -/
theorem sync_get_storage_mono (M : Nat) (q : BufferQueueSCSP) (s a : Nat) (h : WF M q)
    (ha : arena_inv q) (hne : (detail.get_storage q.m_Writer.byte_rb s a).size ≠ 0) :
    (detail.get_storage (sync q).m_Writer.byte_rb s a).size ≠ 0 := by
  obtain ⟨p1, p2⟩ := sync_out_pos M q h ha
  obtain ⟨_, _, hout1, _⟩ := sync_arena_inv M q h ha
  obtain ⟨hfit, hin, hout, _⟩ := ha
  exact detail.get_storage_mono_out q.m_Writer.byte_rb.buffer q.m_Writer.byte_rb.input_pos
    q.m_Writer.byte_rb.output_pos (sync q).m_Writer.byte_rb.output_pos s a hfit hin hout hout1
    p1 p2 hne

/-- A second `sync` changes nothing. -/
theorem sync_sync (q : BufferQueueSCSP) : sync (sync q) = sync q := rfl

/-- A second `allocate` with the same arguments, nothing happening in between, does what the
first did. -/
theorem allocate_idem (q : BufferQueueSCSP) (s a : Nat) :
    allocate (allocate q s a).2 s a = allocate q s a := by
  unfold allocate carve
  simp only []
  by_cases c1 : (if add_sz q.m_Writer.input_pos 1 ≠ q.m_SpliceArray.length
      then add_sz q.m_Writer.input_pos 1 else 0) = q.m_Writer.output_pos ∨
      (detail.get_storage q.m_Writer.byte_rb s a).empty = true
  · rw [if_pos c1]
    have hi : (sync q).m_Writer.input_pos = q.m_Writer.input_pos := rfl
    have hl : (sync q).m_SpliceArray = q.m_SpliceArray := rfl
    by_cases c2 : (if add_sz q.m_Writer.input_pos 1 ≠ q.m_SpliceArray.length
        then add_sz q.m_Writer.input_pos 1 else 0) = (sync q).m_Writer.output_pos ∨
        (detail.get_storage (sync q).m_Writer.byte_rb s a).empty = true
    · rw [if_pos c2]
      simp only [hi, hl, sync_sync]
      rw [if_pos c2, if_pos c2]
    · rw [if_neg c2]
      simp only [hi, hl]
      rw [if_neg c2]
  · rw [if_neg c1]
    simp only []
    rw [if_neg c1]

end BufferQueueSCSP
end rb

namespace rb
namespace BufferQueueSCSP

/-- The slot ring is full, `count() = max_buffers()`, exactly when the slot after `input_pos` is
the reader's output position. -/
theorem full_iff_next_eq (M : Nat) (q : BufferQueueSCSP) (h : WF M q) :
    count q = max_buffers q ↔
      (if add_sz q.m_Writer.input_pos 1 ≠ q.m_SpliceArray.length
        then add_sz q.m_Writer.input_pos 1 else 0) = q.m_Reader.output_pos := by
  rw [bq_count_eq M q h, bq_next_eq M q h]
  obtain ⟨hlen, hN, hwi, hwo, hro, hri, hd⟩ := h
  rw [ring_wrap_succ_eq hro hwi]
  unfold max_buffers
  rw [hlen, sub_sz_of_le (by omega) hN]
  omega

/-- Claim C13: `allocate(s, a)` commits nothing: the ring `input_pos`, the arena cursor `in`,
`count()`, the stored descriptors and the reader's cursors are as before, and the queue is the
one before the call or that one after `sync` (which refreshes only the writer's cached output
position and the arena cursor `out`).  In a reachable state it returns the empty range exactly
when the index ring is full or `get_storage`, run on the re-synced cursors, finds no region;
and a second call with the same arguments returns the same range and leaves the same state. -/
theorem allocate_commits_nothing (arena B M : Nat) (q : BufferQueueSCSP) (g : Option Buffer)
    (s a : Nat) (hA : arena + B < 2 ^ 64) (hM : M + 1 < 2 ^ 64)
    (hr : Reachable arena B M q g) :
    ((allocate q s a).2.m_Writer.input_pos = q.m_Writer.input_pos ∧
      (allocate q s a).2.m_Writer.byte_rb.input_pos = q.m_Writer.byte_rb.input_pos ∧
      (allocate q s a).2.m_Writer.byte_rb.buffer = q.m_Writer.byte_rb.buffer ∧
      count (allocate q s a).2 = count q ∧
      (allocate q s a).2.m_SpliceArray = q.m_SpliceArray ∧
      stored (allocate q s a).2 = stored q ∧
      (allocate q s a).2.m_Reader = q.m_Reader ∧
      ((allocate q s a).2 = q ∨ (allocate q s a).2 = sync q)) ∧
    ((allocate q s a).1.empty = true ↔
      (count q = max_buffers q ∨
        (detail.get_storage (sync q).m_Writer.byte_rb s a).empty = true)) ∧
    ((allocate q s a).1.empty = true →
      (allocate q s a).1 = Buffer.nil ∧ (allocate q s a).2 = sync q) ∧
    allocate (allocate q s a).2 s a = allocate q s a := by
  obtain ⟨hwf, hai, _, _⟩ := reachable_inv arena B M hA hM q g hr
  have hq := carve_queue q s a
  refine ⟨⟨carve_input_pos q s a, ?_, carve_buffer q s a, carve_count q s a, carve_splice q s a,
    carve_stored q s a, carve_reader q s a, hq⟩, ?_, ?_, allocate_idem q s a⟩
  · show (carve q s a).2.m_Writer.byte_rb.input_pos = _
    rcases hq with e | e <;> rw [e]
    rfl
  · rw [full_iff_next_eq M q hwf]
    have hso : (sync q).m_Writer.output_pos = q.m_Reader.output_pos := rfl
    unfold allocate carve
    simp only [hso]
    by_cases c1 : (if add_sz q.m_Writer.input_pos 1 ≠ q.m_SpliceArray.length
        then add_sz q.m_Writer.input_pos 1 else 0) = q.m_Writer.output_pos ∨
        (detail.get_storage q.m_Writer.byte_rb s a).empty = true
    · rw [if_pos c1]
      by_cases c2 : (if add_sz q.m_Writer.input_pos 1 ≠ q.m_SpliceArray.length
          then add_sz q.m_Writer.input_pos 1 else 0) = q.m_Reader.output_pos ∨
          (detail.get_storage (sync q).m_Writer.byte_rb s a).empty = true
      · rw [if_pos c2]
        exact ⟨fun _ => c2, fun _ => rfl⟩
      · rw [if_neg c2]
        simp only []
        exact ⟨fun h => absurd (Or.inr h) c2, fun h => absurd h c2⟩
    · rw [if_neg c1]
      simp only []
      have n1 : (detail.get_storage q.m_Writer.byte_rb s a).size ≠ 0 := by
        intro h0
        exact c1 (Or.inr (by simp [Buffer.empty, h0]))
      have n2 := sync_get_storage_mono M q s a hwf hai n1
      have n3 : (if add_sz q.m_Writer.input_pos 1 ≠ q.m_SpliceArray.length
          then add_sz q.m_Writer.input_pos 1 else 0) ≠ q.m_Reader.output_pos := by
        have r1 : ring_wrap (M + 1) (q.m_Writer.input_pos + 1) ≠ q.m_Writer.output_pos := by
          rw [← bq_next_eq M q hwf]
          exact fun h => c1 (Or.inl h)
        have r2 := bq_room_not_full M q hwf r1
        rw [bq_next_eq M q hwf]
        obtain ⟨hlen, hN, hwi, hwo, hro, hri, hd⟩ := hwf
        rw [Ne, ring_wrap_succ_eq hro hwi]
        omega
      constructor
      · intro h
        exact absurd (Or.inr h) c1
      · rintro (h | h)
        · exact absurd h n3
        · exact absurd (by simpa [Buffer.empty] using h) n2
  · intro hem
    unfold allocate carve at hem ⊢
    simp only [] at hem ⊢
    by_cases c1 : (if add_sz q.m_Writer.input_pos 1 ≠ q.m_SpliceArray.length
        then add_sz q.m_Writer.input_pos 1 else 0) = q.m_Writer.output_pos ∨
        (detail.get_storage q.m_Writer.byte_rb s a).empty = true
    · rw [if_pos c1] at hem ⊢
      by_cases c2 : (if add_sz q.m_Writer.input_pos 1 ≠ q.m_SpliceArray.length
          then add_sz q.m_Writer.input_pos 1 else 0) = (sync q).m_Writer.output_pos ∨
          (detail.get_storage (sync q).m_Writer.byte_rb s a).empty = true
      · rw [if_pos c2]
        exact ⟨rfl, rfl⟩
      · rw [if_neg c2] at hem
        exact absurd (Or.inr hem) c2
    · rw [if_neg c1] at hem
      exact absurd (Or.inr hem) c1

/-- Claim C13 on a reachable state with one buffer released: the request that does not fit
returns the empty range although the ring has room, and the request that fits is served. -/
theorem allocate_commits_nothing_witness :
    (allocate (allocate_and_release (mk_queue 4096 64 4) 40 16 (fun b => ⟨b.data, 40⟩)).2.2
      40 16).1.empty = true ∧
    allocate (allocate (allocate_and_release (mk_queue 4096 64 4) 40 16
      (fun b => ⟨b.data, 40⟩)).2.2 8 16).2 8 16 =
      allocate (allocate_and_release (mk_queue 4096 64 4) 40 16 (fun b => ⟨b.data, 40⟩)).2.2
        8 16 ∧
    (allocate (allocate_and_release (mk_queue 4096 64 4) 40 16 (fun b => ⟨b.data, 40⟩)).2.2
      8 16).1 = ⟨4144, 16⟩ :=
  ⟨by decide,
    (allocate_commits_nothing 4096 64 4 _ none 8 16 (by decide) (by decide)
      (Reachable.allocate_and_release 40 16 (fun b => ⟨b.data, 40⟩) Reachable.init
        (by decide))).2.2.2,
    by decide⟩

end BufferQueueSCSP
end rb

namespace rb

/-- A slot is among the `k` slots met from `a` exactly when it is less than `k` steps away. -/
theorem mem_ring_slots_iff_dist {S a k j : Nat} (ha : a < S) (hj : j < S) (hk : k ≤ S) :
    j ∈ ring_slots S a k ↔ ring_dist S a j < k := by
  rw [mem_ring_slots]
  constructor
  · rintro ⟨t, ht, e⟩
    rw [← e, ring_dist_wrap ha (by omega)]
    exact ht
  · intro h
    exact ⟨ring_dist S a j, h, ring_wrap_dist ha hj⟩

/-- Positions at the same distance from `a` are the same. -/
theorem ring_dist_inj {S a b c : Nat} (ha : a < S) (hb : b < S) (hc : c < S)
    (h : ring_dist S a b = ring_dist S a c) : b = c := by
  unfold ring_dist at h; split_ifs at h <;> omega

/-- The distance to a position that has been passed after `k` steps from `a`. -/
theorem ring_dist_wrap_passed {S a b k : Nat} (ha : a < S) (hb : b < S) (hk : k ≤ S)
    (h : ring_dist S a b < k) :
    ring_dist S (ring_wrap S (a + k)) b = ring_dist S a b + S - k := by
  unfold ring_dist ring_wrap at *; split_ifs at h ⊢ <;> omega

theorem detail.destroy_each_eq {Obj : Type} (l : List Nat) :
    ∀ (buffer : List (Option Obj)),
      detail.destroy_each l buffer = detail.invoke_and_destroy_each l buffer := by
  induction l with
  | nil => intro buffer; rfl
  | cons i rest ih =>
    intro buffer
    simp only [detail.destroy_each, detail.invoke_and_destroy_each, ih]

theorem detail.invoke_and_destroy_each_append {Obj : Type} (l1 l2 : List Nat) :
    ∀ (buffer : List (Option Obj)),
      detail.invoke_and_destroy_each (l1 ++ l2) buffer =
        ((detail.invoke_and_destroy_each l1 buffer).1 ++
          (detail.invoke_and_destroy_each l2 (detail.invoke_and_destroy_each l1 buffer).2).1,
         (detail.invoke_and_destroy_each l2 (detail.invoke_and_destroy_each l1 buffer).2).2) := by
  induction l1 with
  | nil => intro buffer; rfl
  | cons i rest ih =>
    intro buffer
    rw [List.cons_append]
    simp only [detail.invoke_and_destroy_each]
    rw [ih]
    rfl

/-- `destroy_non_consumed` destroys the slots `apply` would visit, as `invoke_and_destroy`
does. -/
theorem detail.destroy_non_consumed_eq {Obj : Type} (rb : detail.RingBuffer (Option Obj)) :
    detail.destroy_non_consumed rb =
      ((detail.apply rb).1, (detail.invoke_and_destroy_each (detail.apply rb).1 rb.buffer).1,
        (detail.invoke_and_destroy_each (detail.apply rb).1 rb.buffer).2) := by
  unfold detail.destroy_non_consumed detail.apply
  simp only [detail.destroy_each_eq]
  by_cases h1 : rb.output_pos = rb.input_pos
  · simp only [h1, if_true]
    rfl
  · have h1s : ¬ rb.input_pos = rb.output_pos := fun h => h1 h.symm
    simp only [h1, h1s, if_false]
    by_cases h2 : rb.output_pos > rb.input_pos
    · simp only [h2, if_true, detail.invoke_and_destroy_each_append]
    · simp only [h2, if_false]

end rb

namespace rb
namespace ObjectQueueSCSP
variable {Obj : Type}

theorem mk_queue_lifetime (N : Nat) : lifetime_inv (mk_queue N : ObjectQueueSCSP Obj) := by
  intro j _
  unfold live mk_queue slot_at
  simp only [ring_dist_self, Nat.not_lt_zero, iff_false]
  rw [List.get?_eq_getElem?, List.getElem?_replicate]
  split_ifs <;> simp

theorem emplace_lifetime (N : Nat) (q : ObjectQueueSCSP Obj) (obj : Obj) (h : WF N q)
    (hl : lifetime_inv q) : lifetime_inv (emplace q obj).2 := by
  rw [emplace_eq N q obj h]
  obtain ⟨hlen, hN, hwi, hwo, hro, hri, hd⟩ := h
  by_cases hlt : ring_dist (N + 1) q.m_Reader.output_pos q.m_Writer.input_pos < N
  · rw [if_pos hlt]
    intro j hj
    simp only [List.length_set, hlen] at hj
    have hq := hl j (by omega)
    unfold live at hq ⊢
    simp only [List.length_set, hlen] at hq ⊢
    rw [ring_dist_wrap_add hro hwi (by omega)]
    by_cases hjw : q.m_Writer.input_pos = j
    · subst hjw
      rw [slot_at_set_eq _ _ (by omega)]
      simp
    · rw [slot_at_set_ne _ _ hjw, hq]
      have := mt (ring_dist_inj (c := j) hro hwi hj) hjw
      omega
  · rw [if_neg hlt]
    exact hl

theorem consume_lifetime (N : Nat) (q : ObjectQueueSCSP Obj) (h : WF N q)
    (hl : lifetime_inv q) : lifetime_inv (consume q).2.2 := by
  rw [consume_eq N q h]
  obtain ⟨hlen, hN, hwi, hwo, hro, hri, hd⟩ := h
  by_cases he : q.m_Reader.output_pos = q.m_Writer.input_pos
  · rw [if_pos he]
    exact hl
  · rw [if_neg he]
    intro j hj
    simp only [List.length_set, hlen] at hj
    have hq := hl j (by omega)
    unfold live at hq ⊢
    simp only [List.length_set, hlen] at hq ⊢
    have nz := mt (ring_dist_eq_zero hro hwi).mp he
    rw [ring_dist_wrap_sub hro hwi (by omega)]
    by_cases hjw : q.m_Reader.output_pos = j
    · subst hjw
      rw [slot_at_set_eq _ _ (by omega)]
      have e := ring_dist_wrap_passed (k := 1) hro hro (by omega)
        (by rw [ring_dist_self]; omega)
      rw [e, ring_dist_self]
      have := ring_dist_lt hro hwi
      simp
      omega
    · rw [slot_at_set_ne _ _ hjw, hq]
      have nzj := mt (ring_dist_eq_zero hro hj).mp hjw
      rw [ring_dist_wrap_sub hro hj (by omega)]
      omega

/-- Destroying the first `k` live slots and moving the reader `k` slots on keeps the lifetime
invariant. -/
theorem drop_lifetime (N : Nat) (q : ObjectQueueSCSP Obj) (k ri : Nat) (h : WF N q)
    (hl : lifetime_inv q)
    (hk : k ≤ ring_dist (N + 1) q.m_Reader.output_pos q.m_Writer.input_pos) :
    lifetime_inv
      ({ m_Writer := q.m_Writer
         m_Reader := ⟨ring_wrap (N + 1) (q.m_Reader.output_pos + k), ri⟩
         m_Buffer := (detail.invoke_and_destroy_each
           (ring_slots (N + 1) q.m_Reader.output_pos k) q.m_Buffer).2 } :
        ObjectQueueSCSP Obj) := by
  obtain ⟨hlen, hN, hwi, hwo, hro, hri, hd⟩ := h
  have hdl := ring_dist_lt hro hwi
  intro j hj
  simp only [detail.invoke_and_destroy_each_length, hlen] at hj
  have hq := hl j (by omega)
  unfold live at hq ⊢
  simp only [detail.invoke_and_destroy_each_length, hlen] at hq ⊢
  have hm := mem_ring_slots_iff_dist (k := k) hro hj (by omega)
  rw [detail.invoke_and_destroy_each_slot_at, ring_dist_wrap_sub hro hwi hk]
  by_cases hp : ring_dist (N + 1) q.m_Reader.output_pos j < k
  · rw [if_pos (hm.mpr hp), ring_dist_wrap_passed hro hj (by omega) hp]
    simp
    omega
  · rw [if_neg (fun hc => hp (hm.mp hc)), hq, ring_dist_wrap_sub hro hj (by omega)]
    omega

theorem consume_all_lifetime (N : Nat) (q : ObjectQueueSCSP Obj) (h : WF N q)
    (hl : lifetime_inv q) : lifetime_inv (consume_all q).2.2 := by
  rw [consume_all_eq N q h]
  have key := drop_lifetime N q
    (ring_dist (N + 1) q.m_Reader.output_pos q.m_Writer.input_pos) q.m_Writer.input_pos h hl
    (Nat.le_refl _)
  rw [ring_wrap_dist h.2.2.2.2.1 h.2.2.1] at key
  exact key

theorem consume_n_lifetime (N : Nat) (q : ObjectQueueSCSP Obj) (n : Nat) (h : WF N q)
    (hl : lifetime_inv q) (hn : q.m_Reader.output_pos + n < 2 ^ 64) :
    lifetime_inv (consume_n q n).2.2 := by
  rw [consume_n_eq N q n h hn, count_eq N q h]
  exact drop_lifetime N q _ q.m_Writer.input_pos h hl (Nat.min_le_right _ _)

end ObjectQueueSCSP
end rb

namespace rb

/-- The slots within `len` of the live range's end are those just behind `wi`. -/
theorem ring_dist_window {S ro wi j len : Nat} (hro : ro < S) (hwi : wi < S) (hj : j < S)
    (hfit : wi + len ≤ S) (hd : ring_dist S ro wi + len < S) :
    ring_dist S ro j < ring_dist S ro wi + len ↔
      (ring_dist S ro j < ring_dist S ro wi ∨ (wi ≤ j ∧ j < wi + len)) := by
  unfold ring_dist at *; split_ifs at hd ⊢ <;> omega

namespace ObjectQueueSCSP
variable {Obj : Type}

/-- The slots `construct_in_span` writes hold an object afterwards. -/
theorem construct_in_span_isSome (objs : List Obj) (buffer : List (Option Obj)) (i j : Nat)
    (hfit : i + objs.length ≤ buffer.length) (h1 : i ≤ j) (h2 : j < i + objs.length) :
    (slot_at (construct_in_span buffer i objs) j).isSome = true := by
  have key := construct_in_span_inside objs buffer i hfit
  have hm : slot_at (construct_in_span buffer i objs) j ∈
      (List.range' i objs.length).map (slot_at (construct_in_span buffer i objs)) :=
    List.mem_map.mpr ⟨j, by rw [List.mem_range'_1]; omega, rfl⟩
  rw [key] at hm
  obtain ⟨o, _, ho⟩ := List.mem_map.mp hm
  rw [← ho]
  rfl

theorem emplace_n_lifetime (N : Nat) (q : ObjectQueueSCSP Obj)
    (functor : detail.Span → List Obj) (h : WF N q) (hf : ∀ s, (functor s).length ≤ s.size)
    (hl : lifetime_inv q) : lifetime_inv (emplace_n q functor).2.2 := by
  rw [emplace_n_eq N q functor h hf]
  by_cases hfull : ring_dist (N + 1) q.m_Reader.output_pos q.m_Writer.input_pos = N
  · rw [if_pos hfull]
    exact hl
  · rw [if_neg hfull]
    simp only []
    generalize hwo : (if detail.count_avl q.m_Writer.output_pos q.m_Writer.input_pos (N + 1) = 0
      then q.m_Reader.output_pos else q.m_Writer.output_pos) = wo
    have hwo2 : wo = q.m_Writer.output_pos ∨ wo = q.m_Reader.output_pos := by
      rw [← hwo]; split_ifs
      · exact Or.inr rfl
      · exact Or.inl rfl
    have hk := hf ⟨q.m_Writer.input_pos, detail.count_avl wo q.m_Writer.input_pos (N + 1)⟩
    simp only [] at hk
    generalize (functor ⟨q.m_Writer.input_pos,
      detail.count_avl wo q.m_Writer.input_pos (N + 1)⟩) = objs at hk ⊢
    obtain ⟨s1, s2, _⟩ := emplace_n_step N q wo _ objs h hwo2 rfl hk
    rw [count_eq N q h] at s2
    obtain ⟨hlen, hN, hwi, _, hro, hri, hd⟩ := h
    intro j hj
    simp only [construct_in_span_length, hlen] at hj
    have hq := hl j (by omega)
    unfold live at hq ⊢
    simp only [construct_in_span_length, hlen] at hq ⊢
    rw [ring_dist_wrap_add hro hwi (by omega),
      ring_dist_window hro hwi hj (by omega) (by omega)]
    by_cases hin : q.m_Writer.input_pos ≤ j ∧ j < q.m_Writer.input_pos + objs.length
    · rw [construct_in_span_isSome objs q.m_Buffer _ j (by omega) hin.1 hin.2]
      exact ⟨fun _ => Or.inr hin, fun _ => rfl⟩
    · rw [construct_in_span_outside objs q.m_Buffer _ j (by omega), hq]
      exact ⟨Or.inl, fun hc => hc.resolve_right hin⟩

/-- Every reachable state satisfies the lifetime invariant. -/
theorem reachable_lifetime (N : Nat) (hN : N + 1 < 2 ^ 64) (q : ObjectQueueSCSP Obj)
    (hr : Reachable N q) : lifetime_inv q := by
  induction hr with
  | init => exact mk_queue_lifetime N
  | emplace obj hq ih => exact emplace_lifetime N _ obj (reachable_WF N hN _ hq) ih
  | emplace_n functor hq hf ih =>
    exact emplace_n_lifetime N _ functor (reachable_WF N hN _ hq) hf ih
  | consume hq ih => exact consume_lifetime N _ (reachable_WF N hN _ hq) ih
  | consume_all hq ih => exact consume_all_lifetime N _ (reachable_WF N hN _ hq) ih
  | consume_n n hq hn ih => exact consume_n_lifetime N _ n (reachable_WF N hN _ hq) ih hn

/-- A run of calls from a reachable state ends in a reachable state. -/
theorem run_reachable (N : Nat) (calls : List (Call Obj)) :
    ∀ (q : ObjectQueueSCSP Obj), Reachable N q → Reachable N (run q calls).2 := by
  induction calls with
  | nil => intro q hq; exact hq
  | cons c cs ih =>
    intro q hq
    apply ih
    cases c with
    | push obj => exact Reachable.emplace obj hq
    | consume => exact Reachable.consume hq
    | consume_all => exact Reachable.consume_all hq

end ObjectQueueSCSP
end rb

namespace rb
namespace ObjectQueueSCSP
variable {Obj : Type}

/-- What the destructor does to a well-formed queue: it destroys the slots of the live range,
in ring order. -/
theorem destructor_eq (N : Nat) (q : ObjectQueueSCSP Obj) (h : WF N q) :
    destructor q =
      (ring_slots (N + 1) q.m_Reader.output_pos (count q), stored q,
        (detail.invoke_and_destroy_each
          (ring_slots (N + 1) q.m_Reader.output_pos (count q)) q.m_Buffer).2) := by
  have hc := count_eq N q h
  obtain ⟨hlen, hN, hwi, hwo, hro, hri, hd⟩ := h
  have hdl := ring_dist_lt hro hwi
  unfold destructor
  rw [detail.destroy_non_consumed_eq, detail.apply_eq _ (by simp only [hlen]; omega)
    (by simp only [hlen]; exact hwi) (by simp only [hlen]; exact hro)]
  simp only [hlen, hc]
  rw [detail.invoke_and_destroy_each_handed _ _ (ring_slots_nodup (by omega))]
  unfold stored
  rw [hlen]

/-- Claim C20: in every state of an `ObjectQueueSCSP` reached by `emplace`, `emplace_n` (with a
functor that constructs the objects it reports), `consume`, `consume_all` and in-range
`consume_n` calls, a slot holds a constructed object exactly when it lies in the live range
`[output_pos, input_pos)` in ring order; the destructor destroys exactly the live slots, each
once and each holding an object (the two segments `[output_pos, N]` and `[0, input_pos)` when
`output_pos > input_pos`), and leaves no object behind.  Hence in every run of `push`,
`consume` and `consume_all` calls the objects destroyed by the consume calls followed by those
destroyed by the destructor are the successfully pushed objects, each once. -/
theorem object_lifetime_invariant (N : Nat) (hN : N + 1 < 2 ^ 64) :
    (∀ q : ObjectQueueSCSP Obj, Reachable N q →
      (∀ j, j < N + 1 → ((slot_at q.m_Buffer j).isSome = true ↔ live q j)) ∧
      (destructor q).1 = ring_slots (N + 1) q.m_Reader.output_pos (count q) ∧
      (q.m_Reader.output_pos > q.m_Writer.input_pos →
        (destructor q).1 = List.range' q.m_Reader.output_pos (N + 1 - q.m_Reader.output_pos) ++
          List.range' 0 q.m_Writer.input_pos) ∧
      (destructor q).1.Nodup ∧
      (∀ j, j < N + 1 → (j ∈ (destructor q).1 ↔ live q j)) ∧
      (destructor q).2.1 = stored q ∧
      (∀ x ∈ (destructor q).2.1, x.isSome = true) ∧
      (∀ j, slot_at (destructor q).2.2 j = none)) ∧
    (∀ calls : List (Call Obj),
      handed_values (run (mk_queue N : ObjectQueueSCSP Obj) calls).1 ++
          (destructor (run (mk_queue N : ObjectQueueSCSP Obj) calls).2).2.1 =
        (pushed_values calls (run (mk_queue N : ObjectQueueSCSP Obj) calls).1).map some) := by
  constructor
  · intro q hr
    have hwf := reachable_WF N hN q hr
    have hl := reachable_lifetime N hN q hr
    have hde := destructor_eq N q hwf
    have hc := count_eq N q hwf
    obtain ⟨hlen, _, hwi, hwo, hro, hri, hd⟩ := hwf
    have hdl := ring_dist_lt hro hwi
    have hmem : ∀ j, j < N + 1 →
        (j ∈ ring_slots (N + 1) q.m_Reader.output_pos (count q) ↔ live q j) := by
      intro j hj
      rw [mem_ring_slots_iff_dist hro hj (by omega), hc]
      unfold live
      rw [hlen]
    have hinv : ∀ j, j < N + 1 → ((slot_at q.m_Buffer j).isSome = true ↔ live q j) := by
      intro j hj
      exact hl j (by omega)
    rw [hde]
    simp only []
    refine ⟨hinv, trivial, ?_, ring_slots_nodup (by omega), hmem, trivial, ?_, ?_⟩
    · intro hgt
      rw [hc, ring_slots_eq_segments hro hwi, if_neg (by omega)]
    · intro x hx
      unfold stored at hx
      rw [hlen] at hx
      obtain ⟨j, hj, rfl⟩ := List.mem_map.mp hx
      have hjlt := ring_slots_lt hro (by omega) hj
      rw [← hc] at hj
      exact (hinv j hjlt).mpr ((hmem j hjlt).mp hj)
    · intro j
      rw [detail.invoke_and_destroy_each_slot_at]
      by_cases hj : j ∈ ring_slots (N + 1) q.m_Reader.output_pos (count q)
      · rw [if_pos hj]
      · rw [if_neg hj]
        by_cases hjlt : j < N + 1
        · have := mt (hinv j hjlt).mp (mt (hmem j hjlt).mpr hj)
          simpa using this
        · unfold slot_at
          rw [List.get?_eq_none.mpr (by omega)]
          rfl
  · intro calls
    have hr := run_reachable N calls (mk_queue N : ObjectQueueSCSP Obj) Reachable.init
    have hwf := reachable_WF N hN _ hr
    rw [destructor_eq N _ hwf]
    simp only []
    obtain ⟨s1, _, s3⟩ := run_simulation N calls (mk_queue N : ObjectQueueSCSP Obj) ⟨N, []⟩
      (mk_queue_WF N hN) rfl (by rw [mk_queue_stored]; rfl)
    have p := BoundedFifo.run_preserves calls (⟨N, []⟩ : BoundedFifo Obj)
    rw [s1, s3, p]
    simp

/-- Claim C20 on a queue of capacity 4 after four pushes, three consumes and two more pushes:
the ring has wrapped, the destructor destroys slots 3, 4 and 0, each holding an object. -/
theorem object_lifetime_invariant_witness :
    4 + 1 < 2 ^ 64 ∧
    (run (mk_queue 4 : ObjectQueueSCSP Nat)
      [.push 1, .push 2, .push 3, .push 4, .consume, .consume, .consume, .push 5,
        .push 6]).2.m_Buffer = [some 6, none, none, some 4, some 5] ∧
    destructor (run (mk_queue 4 : ObjectQueueSCSP Nat)
      [.push 1, .push 2, .push 3, .push 4, .consume, .consume, .consume, .push 5,
        .push 6]).2 = ([3, 4, 0], [some 4, some 5, some 6], [none, none, none, none, none]) ∧
    handed_values (run (mk_queue 4 : ObjectQueueSCSP Nat)
      [.push 1, .push 2, .push 3, .push 4, .consume, .consume, .consume, .push 5,
        .push 6]).1 ++
      (destructor (run (mk_queue 4 : ObjectQueueSCSP Nat)
        [.push 1, .push 2, .push 3, .push 4, .consume, .consume, .consume, .push 5,
          .push 6]).2).2.1 =
      (pushed_values [.push 1, .push 2, .push 3, .push 4, .consume, .consume, .consume,
        .push 5, .push 6]
        (run (mk_queue 4 : ObjectQueueSCSP Nat)
          [.push 1, .push 2, .push 3, .push 4, .consume, .consume, .consume, .push 5,
            .push 6]).1).map some :=
  ⟨by decide, by decide, by decide,
    (object_lifetime_invariant 4 (by decide)).2
      [.push 1, .push 2, .push 3, .push 4, .consume, .consume, .consume, .push 5, .push 6]⟩

end ObjectQueueSCSP
end rb

namespace rb
namespace detail
variable {S Args R : Type}

theorem emplace_fd (opt : FQOpt) (T : CallableType S Args R) (m : Memory S) (ptr : Nat) (s : S) :
    (emplace opt T m ptr s).1.fd =
      ⟨ptr, if opt = FQOpt.InvokeMultiple then .ifptr T else .indfptr T,
        if opt ≠ FQOpt.InvokeOnce then
          .ptr (if T.is_trivially_destructible then none else some (.dfptr T))
        else .Empty⟩ := by
  unfold emplace
  split_ifs <;> rfl

theorem emplace_next_pos (opt : FQOpt) (T : CallableType S Args R) (m : Memory S) (ptr : Nat)
    (s : S) :
    (emplace opt T m ptr s).1.next_pos =
      if empty_callable T then ptr else add_sz ptr T.size_of := by
  unfold emplace
  split_ifs <;> simp_all

theorem emplace_memory (opt : FQOpt) (T : CallableType S Args R) (m : Memory S) (ptr : Nat)
    (s : S) :
    (emplace opt T m ptr s).2 = if empty_callable T then m else m.construct_at ptr s := by
  unfold emplace
  split_ifs <;> simp_all

/-- An `empty_callable` type is trivially destructible. -/
theorem empty_callable_trivial (T : CallableType S Args R) (h : empty_callable T = true) :
    T.is_trivially_destructible = true := by
  unfold empty_callable at h
  simp only [Bool.and_eq_true] at h
  exact h.2

/-- What an invocation through `ifptr` returns for a callable emplaced in state `s`, and that
it leaves the memory as it is. -/
theorem invoke_after_emplace (opt : FQOpt) (T : CallableType S Args R) (m : Memory S)
    (ptr : Nat) (s : S) (a : Args) :
    FunctionPtrs.invoke T (emplace opt T m ptr s).2 ptr a =
      (some (T.call (called_state T s) a), (emplace opt T m ptr s).2) := by
  rw [emplace_memory]
  unfold FunctionPtrs.invoke called_state
  by_cases he : empty_callable T = true
  · simp [he]
  · simp [he, Memory.construct_at]

/-- What an invocation through `indfptr` does for a callable emplaced in state `s`. -/
theorem invoke_and_destroy_after_emplace (opt : FQOpt) (T : CallableType S Args R)
    (m : Memory S) (ptr : Nat) (s : S) (a : Args) :
    FunctionPtrs.invoke_and_destroy T (emplace opt T m ptr s).2 ptr a =
      (some (T.call (called_state T s) a),
        if empty_callable T then m
        else
          { live := fun x => if x = ptr then none else m.live x
            destroyed := m.destroyed ++ [⟨ptr, T.is_trivially_destructible, some s⟩] }) := by
  rw [emplace_memory]
  unfold FunctionPtrs.invoke_and_destroy called_state
  by_cases he : empty_callable T = true
  · simp [he]
  · simp only [he, Bool.false_eq_true, if_false, Memory.construct_at, Memory.destroy_at,
      if_true, Option.map_some', Prod.mk.injEq, true_and]
    congr 1
    funext x
    by_cases hx : x = ptr <;> simp [hx]

end detail
end rb

namespace rb
namespace detail
variable {S Args R : Type}

/-- What destroying the object emplaced in state `s` at `ptr` leaves. -/
theorem destroy_after_emplace (opt : FQOpt) (T : CallableType S Args R) (m : Memory S)
    (ptr : Nat) (s : S) (he : empty_callable T = false) :
    (emplace opt T m ptr s).2.destroy_at T ptr =
      { live := fun x => if x = ptr then none else m.live x
        destroyed := m.destroyed ++ [⟨ptr, T.is_trivially_destructible, some s⟩] } := by
  rw [emplace_memory]
  simp only [he, Bool.false_eq_true, if_false, Memory.construct_at, Memory.destroy_at, if_true]
  congr 1
  funext x
  by_cases hx : x = ptr <;> simp [hx]

/-- In InvokeMultiple mode a functor that invokes the wrapper of a callable emplaced in state
`s` gets the value of the callable each time, and wrapper and memory stay as they are. -/
theorem run_script_multiple (T : CallableType S Args R) (m : Memory S) (ptr : Nat) (s : S)
    (script : List Args) :
    run_script FQOpt.InvokeMultiple script
        ⟨some (emplace FQOpt.InvokeMultiple T m ptr s).1.fd⟩
        (emplace FQOpt.InvokeMultiple T m ptr s).2 =
      (script.map (fun a => some (T.call (called_state T s) a)),
        ⟨some (emplace FQOpt.InvokeMultiple T m ptr s).1.fd⟩,
        (emplace FQOpt.InvokeMultiple T m ptr s).2) := by
  induction script with
  | nil => rfl
  | cons a rest ih =>
    have hc : Function.call FQOpt.InvokeMultiple
        ⟨some (emplace FQOpt.InvokeMultiple T m ptr s).1.fd⟩
        (emplace FQOpt.InvokeMultiple T m ptr s).2 a =
        (some (T.call (called_state T s) a),
          ⟨some (emplace FQOpt.InvokeMultiple T m ptr s).1.fd⟩,
          (emplace FQOpt.InvokeMultiple T m ptr s).2) := by
      unfold Function.call
      simp only [emplace_fd, if_true, IFPtr.invoke, invoke_after_emplace]
      simp
    simp only [run_script, hc, ih, List.map_cons]

/-- The destructor of the wrapper of a callable emplaced in a mode other than InvokeOnce, when
the wrapper still points to the descriptor: it destroys the callable unless the callable is
trivially destructible. -/
theorem wrapper_destructor_after_emplace (opt : FQOpt) (hopt : opt ≠ FQOpt.InvokeOnce)
    (T : CallableType S Args R) (m : Memory S) (ptr : Nat) (s : S) :
    Function.destructor opt ⟨some (emplace opt T m ptr s).1.fd⟩ (emplace opt T m ptr s).2 =
      if T.is_trivially_destructible then (emplace opt T m ptr s).2
      else
        { live := fun x => if x = ptr then none else m.live x
          destroyed := m.destroyed ++ [⟨ptr, false, some s⟩] } := by
  unfold Function.destructor
  simp only [hopt, if_false, emplace_fd, ne_eq, not_false_eq_true, if_true]
  by_cases ht : T.is_trivially_destructible = true
  · simp [ht]
  · have he : empty_callable T = false := by
      cases h : empty_callable T with
      | false => rfl
      | true => exact absurd (empty_callable_trivial T h) ht
    simp only [ht, Bool.false_eq_true, if_false, DFPtr.invoke, FunctionPtrs.destroy]
    rw [destroy_after_emplace opt T m ptr s he]
    simp [ht]

/-- Claim C17 (amended): in InvokeMultiple mode the consumer may invoke the wrapper any number
of times; each invocation returns the value of the callable and destroys nothing.  When the
wrapper goes out of scope at the end of the consume call, its destructor runs the stored
destructor pointer: a callable that is not trivially destructible is destroyed, exactly once,
by the consume call, and a trivially destructible one is left as it is. -/
theorem invoke_multiple_contract (T : CallableType S Args R) (m : Memory S) (ptr : Nat) (s : S)
    (script : List Args) :
    run_script FQOpt.InvokeMultiple script
        ⟨some (emplace FQOpt.InvokeMultiple T m ptr s).1.fd⟩
        (emplace FQOpt.InvokeMultiple T m ptr s).2 =
      (script.map (fun a => some (T.call (called_state T s) a)),
        ⟨some (emplace FQOpt.InvokeMultiple T m ptr s).1.fd⟩,
        (emplace FQOpt.InvokeMultiple T m ptr s).2) ∧
    (emplace FQOpt.InvokeMultiple T m ptr s).2.destroyed = m.destroyed ∧
    invoke FQOpt.InvokeMultiple script (some (emplace FQOpt.InvokeMultiple T m ptr s).1.fd)
        (emplace FQOpt.InvokeMultiple T m ptr s).2 =
      (script.map (fun a => some (T.call (called_state T s) a)),
        if T.is_trivially_destructible then (emplace FQOpt.InvokeMultiple T m ptr s).2
        else
          { live := fun x => if x = ptr then none else m.live x
            destroyed := m.destroyed ++ [⟨ptr, false, some s⟩] }) := by
  refine ⟨run_script_multiple T m ptr s script, ?_, ?_⟩
  · rw [emplace_memory]
    split_ifs <;> rfl
  · unfold invoke
    simp only [run_script_multiple]
    rw [wrapper_destructor_after_emplace FQOpt.InvokeMultiple (by decide)]

/-- Claim C17 fails as stated: in an InvokeMultiple queue holding one closure whose destructor
is not trivial, a consume call whose functor invokes the wrapper three times gets the three
values, and when the call returns the closure has been destroyed: its destructor is in the log
and no object is alive at its address. -/
theorem invoke_multiple_consume_destroys :
    (FunctionQueueSCSP.emplace FQOpt.InvokeMultiple
      (FunctionQueueSCSP.mk_queue 4096 64 4) adder 5).1 = true ∧
    (FunctionQueueSCSP.emplace FQOpt.InvokeMultiple
      (FunctionQueueSCSP.mk_queue 4096 64 4) adder 5).2.memory.live 4096 = some 5 ∧
    (FunctionQueueSCSP.consume FQOpt.InvokeMultiple
      (FunctionQueueSCSP.emplace FQOpt.InvokeMultiple
        (FunctionQueueSCSP.mk_queue 4096 64 4) adder 5).2 [1, 2, 3]).1 = true ∧
    (FunctionQueueSCSP.consume FQOpt.InvokeMultiple
      (FunctionQueueSCSP.emplace FQOpt.InvokeMultiple
        (FunctionQueueSCSP.mk_queue 4096 64 4) adder 5).2 [1, 2, 3]).2.1 =
      [[some 6, some 7, some 8]] ∧
    (FunctionQueueSCSP.consume FQOpt.InvokeMultiple
      (FunctionQueueSCSP.emplace FQOpt.InvokeMultiple
        (FunctionQueueSCSP.mk_queue 4096 64 4) adder 5).2 [1, 2, 3]).2.2.memory.destroyed =
      [⟨4096, false, some 5⟩] ∧
    (FunctionQueueSCSP.consume FQOpt.InvokeMultiple
      (FunctionQueueSCSP.emplace FQOpt.InvokeMultiple
        (FunctionQueueSCSP.mk_queue 4096 64 4) adder 5).2 [1, 2, 3]).2.2.memory.live 4096 =
      none := by
  refine ⟨by decide, by decide, by decide, by decide, by decide, by decide⟩

/-- Claim C16 (amended): in InvokeOnceDNI mode, when the consumer lets the wrapper it was
handed go out of scope without invoking it, the destructor of the wrapper runs the stored
destructor pointer: the callable is destroyed, exactly once, when it is not trivially
destructible, and nothing is run when it is. -/
theorem dni_abandoned_wrapper (T : CallableType S Args R) (m : Memory S) (ptr : Nat) (s : S) :
    invoke FQOpt.InvokeOnceDNI ([] : List Args)
        (some (emplace FQOpt.InvokeOnceDNI T m ptr s).1.fd)
        (emplace FQOpt.InvokeOnceDNI T m ptr s).2 =
      (([] : List (Option R)),
        if T.is_trivially_destructible then (emplace FQOpt.InvokeOnceDNI T m ptr s).2
        else
          { live := fun x => if x = ptr then none else m.live x
            destroyed := m.destroyed ++ [⟨ptr, false, some s⟩] }) ∧
    (emplace FQOpt.InvokeOnceDNI T m ptr s).2.destroyed = m.destroyed := by
  constructor
  · unfold invoke
    simp only [run_script]
    rw [wrapper_destructor_after_emplace FQOpt.InvokeOnceDNI (by decide)]
  · rw [emplace_memory]
    split_ifs <;> rfl

/-- Claim C16 fails as stated: in an InvokeOnceDNI queue holding one closure whose destructor
is not trivial, a consume call whose functor does not invoke the wrapper destroys the closure:
its destructor is in the log when the call returns. -/
theorem dni_abandoned_wrapper_destroys :
    (FunctionQueueSCSP.emplace FQOpt.InvokeOnceDNI
      (FunctionQueueSCSP.mk_queue 4096 64 4) adder 5).1 = true ∧
    (FunctionQueueSCSP.emplace FQOpt.InvokeOnceDNI
      (FunctionQueueSCSP.mk_queue 4096 64 4) adder 5).2.memory.destroyed = [] ∧
    (FunctionQueueSCSP.consume FQOpt.InvokeOnceDNI
      (FunctionQueueSCSP.emplace FQOpt.InvokeOnceDNI
        (FunctionQueueSCSP.mk_queue 4096 64 4) adder 5).2 ([] : List Nat)).1 = true ∧
    (FunctionQueueSCSP.consume FQOpt.InvokeOnceDNI
      (FunctionQueueSCSP.emplace FQOpt.InvokeOnceDNI
        (FunctionQueueSCSP.mk_queue 4096 64 4) adder 5).2 ([] : List Nat)).2.1 = [[]] ∧
    (FunctionQueueSCSP.consume FQOpt.InvokeOnceDNI
      (FunctionQueueSCSP.emplace FQOpt.InvokeOnceDNI
        (FunctionQueueSCSP.mk_queue 4096 64 4) adder 5).2 ([] : List Nat)).2.2.memory.destroyed =
      [⟨4096, false, some 5⟩] ∧
    (FunctionQueueSCSP.consume FQOpt.InvokeOnceDNI
      (FunctionQueueSCSP.emplace FQOpt.InvokeOnceDNI
        (FunctionQueueSCSP.mk_queue 4096 64 4) adder 5).2 ([] : List Nat)).2.2.memory.live 4096 =
      none := by
  refine ⟨by decide, by decide, by decide, by decide, by decide, by decide⟩

end detail
end rb

namespace rb
namespace detail
variable {S Args R : Type}

/-- Claim C18: in InvokeOnce mode, invoking the wrapper of a callable emplaced in state `s`
returns the value of the callable and, in the same step, destroys the callable: exactly one
`std::destroy_at`, of the object constructed at `ptr` (none for an `empty_callable` type, for
which no object was constructed).  The descriptor stores no destructor pointer, the destructor
of the wrapper runs nothing, and the destructors of the three function queues run no
destructor of a callable, also when callables that are not trivially destructible are left in
the queue: a queue holding one such closure is destroyed with an empty destruction log and the
closure still alive. -/
theorem invoke_once_contract (T : CallableType S Args R) (m : Memory S) (ptr : Nat) (s : S)
    (a : Args) (f : Function S Args R) (q0 : FunctionQueue S Args R)
    (q1 : FunctionQueueSCSP S Args R) (q2 : FunctionQueueMCSP S Args R) :
    Function.call FQOpt.InvokeOnce ⟨some (emplace FQOpt.InvokeOnce T m ptr s).1.fd⟩
        (emplace FQOpt.InvokeOnce T m ptr s).2 a =
      (some (T.call (called_state T s) a),
        ⟨some (emplace FQOpt.InvokeOnce T m ptr s).1.fd⟩,
        if empty_callable T then m
        else
          { live := fun x => if x = ptr then none else m.live x
            destroyed := m.destroyed ++ [⟨ptr, T.is_trivially_destructible, some s⟩] }) ∧
    (emplace FQOpt.InvokeOnce T m ptr s).2.destroyed = m.destroyed ∧
    (invoke FQOpt.InvokeOnce [a] (some (emplace FQOpt.InvokeOnce T m ptr s).1.fd)
        (emplace FQOpt.InvokeOnce T m ptr s).2).1 = [some (T.call (called_state T s) a)] ∧
    (invoke FQOpt.InvokeOnce [a] (some (emplace FQOpt.InvokeOnce T m ptr s).1.fd)
        (emplace FQOpt.InvokeOnce T m ptr s).2).2.destroyed =
      m.destroyed ++
        (if empty_callable T then [] else [⟨ptr, T.is_trivially_destructible, some s⟩]) ∧
    (emplace FQOpt.InvokeOnce T m ptr s).1.fd.dfptr = DField.Empty ∧
    Function.destructor FQOpt.InvokeOnce f m = m ∧
    invoke FQOpt.InvokeOnce ([] : List Args) (some (emplace FQOpt.InvokeOnce T m ptr s).1.fd)
        (emplace FQOpt.InvokeOnce T m ptr s).2 =
      (([] : List (Option R)), (emplace FQOpt.InvokeOnce T m ptr s).2) ∧
    FunctionQueue.destructor FQOpt.InvokeOnce q0 = q0.memory ∧
    FunctionQueueSCSP.destructor FQOpt.InvokeOnce q1 = q1.memory ∧
    FunctionQueueMCSP.destructor FQOpt.InvokeOnce q2 = q2.memory ∧
    ((FunctionQueueSCSP.destructor FQOpt.InvokeOnce
        (FunctionQueueSCSP.emplace FQOpt.InvokeOnce
          (FunctionQueueSCSP.mk_queue 4096 64 4) adder 5).2).destroyed = [] ∧
      (FunctionQueueSCSP.destructor FQOpt.InvokeOnce
        (FunctionQueueSCSP.emplace FQOpt.InvokeOnce
          (FunctionQueueSCSP.mk_queue 4096 64 4) adder 5).2).live 4096 = some 5 ∧
      FunctionQueueSCSP.count
        (FunctionQueueSCSP.emplace FQOpt.InvokeOnce
          (FunctionQueueSCSP.mk_queue 4096 64 4) adder 5).2 = 1) := by
  have hcall : Function.call FQOpt.InvokeOnce ⟨some (emplace FQOpt.InvokeOnce T m ptr s).1.fd⟩
        (emplace FQOpt.InvokeOnce T m ptr s).2 a =
      (some (T.call (called_state T s) a),
        ⟨some (emplace FQOpt.InvokeOnce T m ptr s).1.fd⟩,
        if empty_callable T then m
        else
          { live := fun x => if x = ptr then none else m.live x
            destroyed := m.destroyed ++ [⟨ptr, T.is_trivially_destructible, some s⟩] }) := by
    have n1 : ¬ FQOpt.InvokeOnce = FQOpt.InvokeMultiple := by decide
    have n2 : ¬ FQOpt.InvokeOnce = FQOpt.InvokeOnceDNI := by decide
    unfold Function.call
    simp only [emplace_fd, IFPtr.invoke, n1, n2, if_false]
    rw [invoke_and_destroy_after_emplace]
  have hmem : (emplace FQOpt.InvokeOnce T m ptr s).2.destroyed = m.destroyed := by
    rw [emplace_memory]
    split_ifs <;> rfl
  have hinv : invoke FQOpt.InvokeOnce [a] (some (emplace FQOpt.InvokeOnce T m ptr s).1.fd)
        (emplace FQOpt.InvokeOnce T m ptr s).2 =
      ([some (T.call (called_state T s) a)],
        if empty_callable T then m
        else
          { live := fun x => if x = ptr then none else m.live x
            destroyed := m.destroyed ++ [⟨ptr, T.is_trivially_destructible, some s⟩] }) := by
    unfold invoke
    simp only [run_script, hcall, Function.destructor, if_true]
  refine ⟨hcall, hmem, ?_, ?_, ?_, ?_, ?_, ?_, ?_, ?_, ?_⟩
  · rw [hinv]
  · rw [hinv]
    by_cases he : empty_callable T = true <;> simp [he]
  · rw [emplace_fd]
    simp
  · unfold Function.destructor
    simp
  · unfold invoke
    simp only [run_script, Function.destructor, if_true]
  · unfold FunctionQueue.destructor
    simp
  · unfold FunctionQueueSCSP.destructor
    simp
  · unfold FunctionQueueMCSP.destructor
    simp
  · refine ⟨by decide, by decide, by decide⟩

end detail
end rb

namespace rb
namespace FunctionQueueSCSP
variable {S Args R : Type}

theorem count_as_buffer_queue (q : FunctionQueueSCSP S Args R) :
    count q = BufferQueueSCSP.count (as_buffer_queue q) := by
  unfold count BufferQueueSCSP.count as_buffer_queue
  simp only [List.length_map]

theorem splice_at_as_buffer_queue (q : FunctionQueueSCSP S Args R) (i : Nat) :
    (as_buffer_queue q).splice_at i = detail.range_of ((q.m_FunctionArray.get? i).getD none) := by
  unfold BufferQueueSCSP.splice_at as_buffer_queue
  simp only [List.get?_eq_getElem?, List.getElem?_map]
  cases q.m_FunctionArray[i]? with
  | none => rfl
  | some v => rfl

theorem range_of_data (fd : Option (detail.FData S Args R)) :
    (detail.range_of fd).data = (match fd with | some d => d.obj | none => 0) := by
  cases fd with
  | none => rfl
  | some d => rfl

/-- `sync` of the function queue is `sync` of its buffer queue. -/
theorem sync_as_buffer_queue (q : FunctionQueueSCSP S Args R) :
    as_buffer_queue (sync q) = BufferQueueSCSP.sync (as_buffer_queue q) := by
  unfold sync BufferQueueSCSP.sync
  have e : ∀ i, ((as_buffer_queue q).splice_at i).data = detail.obj_at q.m_FunctionArray i := by
    intro i
    rw [splice_at_as_buffer_queue, range_of_data]
    rfl
  simp only [e]
  rfl

/-- The slot after `input_pos`, as `emplace` computes it. -/
theorem next_eq (M : Nat) (q : FunctionQueueSCSP S Args R) (h : WF M q) :
    (if add_sz q.m_Writer.input_pos 1 ≠ q.m_FunctionArray.length
      then add_sz q.m_Writer.input_pos 1 else 0) =
        ring_wrap (M + 1) (q.m_Writer.input_pos + 1) := by
  have := BufferQueueSCSP.bq_next_eq M (as_buffer_queue q) h
  simpa [as_buffer_queue] using this

/-- The pointer `get_storage<Callable>` returns for an `empty_callable` type is not null when
the arena is not at address 0. -/
theorem get_storage_callable_empty (T : CallableType S Args R) (rb : detail.ByteRingBuffer)
    (he : detail.empty_callable T = true) (hfit : rb.buffer.data + rb.buffer.size < 2 ^ 64)
    (hin : rb.input_pos ≤ rb.buffer.size) :
    detail.get_storage_callable T rb = rb.buffer.data + rb.input_pos := by
  unfold detail.get_storage_callable
  simp only [he, not_true_eq_false, if_false]
  exact add_sz_of_lt (by omega)

end FunctionQueueSCSP
end rb

namespace rb
namespace FunctionQueueSCSP
variable {S Args R : Type}

theorem emplace_fd_descriptor (opt : FQOpt) (T : CallableType S Args R) (m : detail.Memory S)
    (ptr : Nat) (s : S) : (detail.emplace opt T m ptr s).1.fd = detail.descriptor opt T ptr :=
  detail.emplace_fd opt T m ptr s

/-- The slot ring is full, `count() = M`, exactly when the slot after `input_pos` is the
reader's output position. -/
theorem full_iff (M : Nat) (q : FunctionQueueSCSP S Args R) (h : WF M q) :
    count q = M ↔ ring_wrap (M + 1) (q.m_Writer.input_pos + 1) = q.m_Reader.output_pos := by
  rw [count_as_buffer_queue, BufferQueueSCSP.bq_count_eq M _ h]
  obtain ⟨hlen, hN, hwi, hwo, hro, hri, hd⟩ := h
  have := ring_wrap_succ_eq (S := M + 1) hro hwi
  simp only [as_buffer_queue] at this ⊢
  rw [this]
  omega

theorem fq_count_le (M : Nat) (q : FunctionQueueSCSP S Args R) (h : WF M q) : count q ≤ M := by
  rw [count_as_buffer_queue, BufferQueueSCSP.bq_count_eq M _ h]
  obtain ⟨hlen, hN, hwi, hwo, hro, hri, hd⟩ := h
  obtain ⟨e1, e2⟩ := ring_order_facts hwo hro hri hwi (by omega)
  simp only [as_buffer_queue] at e1 e2 hd ⊢
  omega

/-- What `emplace` does with an `empty_callable` type: it fails, after a `sync`, when the slot
ring is full, and else writes the descriptor with the address of the arena cursor, on the
queue as it is or as `sync` leaves it, without moving the arena cursor or touching the
memory. -/
theorem emplace_empty_cases (opt : FQOpt) (M : Nat) (q : FunctionQueueSCSP S Args R)
    (T : CallableType S Args R) (s : S) (h : WF M q) (he : detail.empty_callable T = true)
    (hbase : 0 < q.m_Writer.byte_rb.buffer.data)
    (hfit : q.m_Writer.byte_rb.buffer.data + q.m_Writer.byte_rb.buffer.size < 2 ^ 64)
    (hin : q.m_Writer.byte_rb.input_pos ≤ q.m_Writer.byte_rb.buffer.size) :
    (count q = M ∧ emplace opt q T s = (false, sync q)) ∨
    (count q < M ∧ ∃ q1, (q1 = q ∨ q1 = sync q) ∧
      ring_wrap (M + 1) (q.m_Writer.input_pos + 1) ≠ q1.m_Writer.output_pos ∧
      emplace opt q T s =
        (true,
          { q1 with
            m_FunctionArray := q1.m_FunctionArray.set q.m_Writer.input_pos
              (some (detail.descriptor opt T
                (q.m_Writer.byte_rb.buffer.data + q.m_Writer.byte_rb.input_pos)))
            m_Writer := { q1.m_Writer with
              input_pos := ring_wrap (M + 1) (q.m_Writer.input_pos + 1)
              byte_rb := { q1.m_Writer.byte_rb with
                input_pos := q.m_Writer.byte_rb.input_pos } } })) := by
  have hnext := next_eq M q h
  have hfull := full_iff M q h
  have hle := fq_count_le M q h
  have hp := get_storage_callable_empty T q.m_Writer.byte_rb he hfit hin
  have hp1 : detail.get_storage_callable T (sync q).m_Writer.byte_rb =
      q.m_Writer.byte_rb.buffer.data + q.m_Writer.byte_rb.input_pos :=
    get_storage_callable_empty T (sync q).m_Writer.byte_rb he hfit hin
  have hsub : sub_sz (q.m_Writer.byte_rb.buffer.data + q.m_Writer.byte_rb.input_pos)
      q.m_Writer.byte_rb.buffer.data = q.m_Writer.byte_rb.input_pos := by
    rw [sub_sz_of_le (by omega) (by omega)]; omega
  have hso : (sync q).m_Writer.output_pos = q.m_Reader.output_pos := rfl
  have hsb : (sync q).m_Writer.byte_rb.buffer = q.m_Writer.byte_rb.buffer := rfl
  have hroom : ring_wrap (M + 1) (q.m_Writer.input_pos + 1) ≠ q.m_Writer.output_pos →
      count q < M := by
    intro hne
    rw [count_as_buffer_queue, BufferQueueSCSP.bq_count_eq M _ h]
    exact BufferQueueSCSP.bq_room_not_full M (as_buffer_queue q) h hne
  unfold emplace
  simp only [hnext, hp, hp1, hso, hsb, detail.emplace_next_pos, he, if_true,
    detail.emplace_memory, emplace_fd_descriptor, hsub]
  have hnz : ¬ (q.m_Writer.byte_rb.buffer.data + q.m_Writer.byte_rb.input_pos = 0) := by omega
  by_cases c1 : ring_wrap (M + 1) (q.m_Writer.input_pos + 1) = q.m_Writer.output_pos
  · rw [if_pos (Or.inl c1)]
    by_cases c2 : ring_wrap (M + 1) (q.m_Writer.input_pos + 1) = q.m_Reader.output_pos
    · rw [if_pos (Or.inl c2)]
      exact Or.inl ⟨hfull.mpr c2, rfl⟩
    · rw [if_neg (by rintro (h1 | h1); exact c2 h1; exact hnz h1)]
      have hlt : count q < M := by
        have := mt hfull.mp c2
        omega
      exact Or.inr ⟨hlt, sync q, Or.inr rfl, c2, rfl⟩
  · rw [if_neg (by rintro (h1 | h1); exact c1 h1; exact hnz h1)]
    exact Or.inr ⟨hroom c1, q, Or.inl rfl, c1, rfl⟩

end FunctionQueueSCSP
end rb

namespace rb
namespace FunctionQueueSCSP
variable {S Args R : Type}

end FunctionQueueSCSP

/-- `detail::count` on positions inside the ring is the distance from `output_pos` to
`input_pos`. -/
theorem detail.count_eq_ring_dist {S ro wi : Nat} (hS : S < 2 ^ 64) (hro : ro < S)
    (hwi : wi < S) : detail.count ro wi S = ring_dist S ro wi := by
  unfold detail.count ring_dist
  by_cases h1 : ro ≤ wi
  · rw [if_neg (by omega), if_pos h1, sub_sz_of_le h1 (by omega)]
  · rw [if_pos (by omega), if_neg h1]
    unfold sub_sz add_sz
    rw [Nat.mod_eq_of_lt (show ro < 2 ^ 64 by omega)]
    omega

namespace FunctionQueueSCSP

/-- Claim C19: emplacing a stateless callable (an `empty_callable` type) into a
`FunctionQueueSCSP` with a well-formed slot ring and an arena that is not at address 0 carves
nothing: the call succeeds exactly when the slot ring has a free slot, whatever the arena
cursors are; the descriptor written to the input slot has `obj` equal to arena base + `in`;
the arena cursor `in`, the arena and the memory stay as they are; a failed call changes neither
`count()` nor the descriptors.  And in the modes other than InvokeOnce the destructor pointer
`detail::emplace` stores is null exactly when the callable type is trivially destructible. -/
theorem stateless_emplace (opt : FQOpt) (M : Nat) (q : FunctionQueueSCSP S Args R)
    (T T1 : CallableType S Args R) (s s1 : S) (m : detail.Memory S) (ptr : Nat) (h : WF M q)
    (he : detail.empty_callable T = true) (hbase : 0 < q.m_Writer.byte_rb.buffer.data)
    (hfit : q.m_Writer.byte_rb.buffer.data + q.m_Writer.byte_rb.buffer.size < 2 ^ 64)
    (hin : q.m_Writer.byte_rb.input_pos ≤ q.m_Writer.byte_rb.buffer.size) :
    ((emplace opt q T s).1 = true ↔ count q < M) ∧
    ((emplace opt q T s).1 = true →
      (emplace opt q T s).2.m_FunctionArray.get? q.m_Writer.input_pos =
        some (some (detail.descriptor opt T
          (q.m_Writer.byte_rb.buffer.data + q.m_Writer.byte_rb.input_pos))) ∧
      detail.obj_at (emplace opt q T s).2.m_FunctionArray q.m_Writer.input_pos =
        q.m_Writer.byte_rb.buffer.data + q.m_Writer.byte_rb.input_pos ∧
      count (emplace opt q T s).2 = count q + 1) ∧
    ((emplace opt q T s).1 = false →
      (emplace opt q T s).2.m_FunctionArray = q.m_FunctionArray ∧
      count (emplace opt q T s).2 = count q) ∧
    (emplace opt q T s).2.m_Writer.byte_rb.input_pos = q.m_Writer.byte_rb.input_pos ∧
    (emplace opt q T s).2.m_Writer.byte_rb.buffer = q.m_Writer.byte_rb.buffer ∧
    (emplace opt q T s).2.memory = q.memory ∧
    (opt ≠ FQOpt.InvokeOnce →
      ((detail.emplace opt T1 m ptr s1).1.fd.dfptr = detail.DField.ptr none ↔
        T1.is_trivially_destructible = true)) := by
  have hcnt := BufferQueueSCSP.bq_count_eq M _ h
  have hwf := h
  obtain ⟨hlen, hN, hwi, hwo, hro, hri, hd⟩ := h
  simp only [as_buffer_queue, List.length_map] at hlen hwi hwo hro hri hd hcnt
  have hlast : opt ≠ FQOpt.InvokeOnce →
      ((detail.emplace opt T1 m ptr s1).1.fd.dfptr = detail.DField.ptr none ↔
        T1.is_trivially_destructible = true) := by
    intro hopt
    rw [detail.emplace_fd]
    simp only [hopt, ne_eq, not_false_eq_true, if_true]
    by_cases ht : T1.is_trivially_destructible = true <;> simp [ht]
  rcases emplace_empty_cases opt M q T s hwf he hbase hfit hin with
    ⟨hc, e⟩ | ⟨hc, q1, hq1, hroom, e⟩
  · rw [e]
    refine ⟨by simp; omega, by simp, fun _ => ⟨rfl, rfl⟩, rfl, rfl, rfl, hlast⟩
  · rw [e]
    have hq1a : q1.m_FunctionArray = q.m_FunctionArray := by
      rcases hq1 with r | r <;> rw [r]; rfl
    have hq1r : q1.m_Reader = q.m_Reader := by
      rcases hq1 with r | r <;> rw [r]; rfl
    have hq1b : q1.m_Writer.byte_rb.buffer = q.m_Writer.byte_rb.buffer := by
      rcases hq1 with r | r <;> rw [r]; rfl
    have hq1m : q1.memory = q.memory := by
      rcases hq1 with r | r <;> rw [r]; rfl
    have hget : (q.m_FunctionArray.set q.m_Writer.input_pos
        (some (detail.descriptor opt T
          (q.m_Writer.byte_rb.buffer.data + q.m_Writer.byte_rb.input_pos)))).get?
          q.m_Writer.input_pos =
        some (some (detail.descriptor opt T
          (q.m_Writer.byte_rb.buffer.data + q.m_Writer.byte_rb.input_pos))) := by
      rw [List.get?_eq_getElem?, List.getElem?_set_self (by omega)]
    have hd2 := ring_dist_wrap_add (S := M + 1) (k := 1) hro hwi (by
      rw [count_as_buffer_queue] at hc
      simp only [BufferQueueSCSP.count, as_buffer_queue, List.length_map] at hc hcnt
      omega)
    have hw := ring_wrap_lt (S := M + 1) (k := 1) hwi (by omega)
    refine ⟨by simp; exact hc, fun _ => ⟨?_, ?_, ?_⟩, by simp, rfl, hq1b, hq1m, hlast⟩
    · simp only [hq1a]
      exact hget
    · unfold detail.obj_at
      simp only [hq1a, hget, Option.getD_some]
      rfl
    · unfold count
      simp only [hq1a, hq1r, List.length_set, hlen]
      rw [detail.count_eq_ring_dist (by omega) hro hw, hd2,
        detail.count_eq_ring_dist (by omega) hro hwi]

/-- Claim C19 on a queue whose 12-byte arena holds a closure of 8 bytes: a second closure of
8 bytes does not fit, a stateless callable is accepted and its descriptor points at the arena
cursor. -/
theorem stateless_emplace_witness :
    (emplace FQOpt.InvokeOnceDNI
      (emplace FQOpt.InvokeOnceDNI (mk_queue 4096 12 4) detail.adder 5).2
      detail.adder 6).1 = false ∧
    (emplace FQOpt.InvokeOnceDNI
      (emplace FQOpt.InvokeOnceDNI (mk_queue 4096 12 4) detail.adder 5).2
      detail.stateless_succ 0).1 = true ∧
    detail.obj_at (emplace FQOpt.InvokeOnceDNI
      (emplace FQOpt.InvokeOnceDNI (mk_queue 4096 12 4) detail.adder 5).2
      detail.stateless_succ 0).2.m_FunctionArray 1 = 4096 + 8 ∧
    (emplace FQOpt.InvokeOnceDNI
      (emplace FQOpt.InvokeOnceDNI (mk_queue 4096 12 4) detail.adder 5).2
      detail.stateless_succ 0).2.m_Writer.byte_rb.input_pos = 8 :=
  ⟨by decide,
    ((stateless_emplace FQOpt.InvokeOnceDNI 4
      (emplace FQOpt.InvokeOnceDNI (mk_queue 4096 12 4) detail.adder 5).2
      detail.stateless_succ detail.adder 0 5 detail.Memory.fresh 0 (by decide) (by decide)
      (by decide) (by decide) (by decide)).1).mpr (by decide),
    by decide, by decide⟩

end FunctionQueueSCSP
end rb

namespace rb
namespace detail
variable {S Args R : Type}

theorem range_of_descriptor (opt : FQOpt) (T : CallableType S Args R) (ptr : Nat) :
    range_of (some (descriptor opt T ptr)) =
      ⟨ptr, if empty_callable T then 0 else T.size_of⟩ := by
  unfold range_of descriptor
  by_cases h : opt = FQOpt.InvokeMultiple <;> simp [h, IFPtr.type]

theorem nontrivial_log_destroy_at (m : Memory S) (T : CallableType S Args R) (ptr : Nat) :
    nontrivial_log (m.destroy_at T ptr) =
      nontrivial_log m ++ (if T.is_trivially_destructible then [] else [m.live ptr]) := by
  unfold nontrivial_log Memory.destroy_at
  simp only [List.filter_append, List.map_append]
  by_cases h : T.is_trivially_destructible = true <;> simp [h]

/-- A type that is not trivially destructible is not an `empty_callable`. -/
theorem not_empty_of_nontrivial (T : CallableType S Args R)
    (h : T.is_trivially_destructible = false) : empty_callable T = false := by
  cases he : empty_callable T with
  | false => rfl
  | true => rw [empty_callable_trivial T he] at h; exact absurd h (by decide)

/-- One invocation through the wrapper of a descriptor that stands for `c`. -/
theorem call_holds (opt : FQOpt) (m : Memory S) (T : CallableType S Args R) (s : S)
    (ptr : Nat) (a : Args)
    (hl : empty_callable T = false → m.live ptr = some s) :
    Function.call opt ⟨some (descriptor opt T ptr)⟩ m a =
      (some (T.call (called_state T s) a),
        if opt = FQOpt.InvokeOnceDNI then ⟨none⟩ else ⟨some (descriptor opt T ptr)⟩,
        if opt = FQOpt.InvokeMultiple ∨ empty_callable T = true then m
        else m.destroy_at T ptr) := by
  unfold Function.call
  simp only []
  by_cases he : empty_callable T = true
  · cases opt <;>
      simp [descriptor, IFPtr.invoke, FunctionPtrs.invoke, FunctionPtrs.invoke_and_destroy,
        called_state, he]
  · have hl2 := hl (by simpa using he)
    cases opt <;>
      simp [descriptor, IFPtr.invoke, FunctionPtrs.invoke, FunctionPtrs.invoke_and_destroy,
        called_state, he, hl2]

/-- The destructor of a wrapper that points to a descriptor built by `detail::emplace`. -/
theorem destructor_descriptor (opt : FQOpt) (m : Memory S) (T : CallableType S Args R)
    (ptr : Nat) :
    Function.destructor opt ⟨some (descriptor opt T ptr)⟩ m =
      if opt = FQOpt.InvokeOnce ∨ T.is_trivially_destructible = true then m
      else m.destroy_at T ptr := by
  unfold Function.destructor
  by_cases ht : T.is_trivially_destructible = true
  · cases opt <;> simp [descriptor, ht]
  · cases opt <;> simp [descriptor, ht, DFPtr.invoke, FunctionPtrs.destroy]

theorem destructor_null (opt : FQOpt) (m : Memory S) :
    Function.destructor opt (⟨none⟩ : Function S Args R) m = m := by
  unfold Function.destructor
  cases opt <;> simp

/-- In InvokeMultiple mode a script leaves wrapper and memory as they are. -/
theorem run_script_multiple_holds (m : Memory S) (T : CallableType S Args R) (s : S) (ptr : Nat)
    (hl : empty_callable T = false → m.live ptr = some s) (script : List Args) :
    run_script FQOpt.InvokeMultiple script
        ⟨some (descriptor FQOpt.InvokeMultiple T ptr)⟩ m =
      (expected (T, s) script, ⟨some (descriptor FQOpt.InvokeMultiple T ptr)⟩, m) := by
  induction script with
  | nil => rfl
  | cons a rest ih =>
    have hc := call_holds FQOpt.InvokeMultiple m T s ptr a hl
    simp only [true_or, if_true] at hc
    rw [if_neg (by decide)] at hc
    simp only [run_script, hc, ih, expected, List.map_cons]

/-- A functor at work on the wrapper of the descriptor of a callable `T` in state `s`: the
values it gets and the memory afterwards, mode by mode. -/
theorem invoke_descriptor (opt : FQOpt) (m : Memory S) (T : CallableType S Args R) (s : S)
    (ptr : Nat) (script : List Args) (hl : empty_callable T = false → m.live ptr = some s)
    (hs : script_ok opt script) :
    invoke opt script (some (descriptor opt T ptr)) m =
      (expected (T, s) script,
        if empty_callable T = true then m
        else if opt = FQOpt.InvokeOnce then
          (if script.length = 0 then m else m.destroy_at T ptr)
        else if opt = FQOpt.InvokeOnceDNI ∧ script.length ≠ 0 then m.destroy_at T ptr
        else if T.is_trivially_destructible = true then m else m.destroy_at T ptr) := by
  unfold invoke
  simp only []
  by_cases hmul : opt = FQOpt.InvokeMultiple
  · subst hmul
    rw [run_script_multiple_holds m T s ptr hl script, destructor_descriptor]
    by_cases he : empty_callable T = true
    · simp [he, empty_callable_trivial T he]
    · simp [he]
  · have hlen : script.length ≤ 1 := hs.resolve_left hmul
    match script, hlen with
    | [], _ =>
      simp only [run_script, destructor_descriptor, expected, List.map_nil]
      by_cases he : empty_callable T = true
      · simp [he, empty_callable_trivial T he]
      · cases opt <;> simp_all
    | [a], _ =>
      have hc := call_holds opt m T s ptr a hl
      simp only [hmul, false_or] at hc
      simp only [run_script, hc, expected, List.map_cons, List.map_nil]
      by_cases he : empty_callable T = true
      · have ht := empty_callable_trivial T he
        cases opt <;> simp_all [destructor_null, destructor_descriptor]
      · cases opt <;> simp_all [destructor_null, destructor_descriptor]

/-- A functor at work on the wrapper of a descriptor that stands for the callable `c`: it gets
the values of the callable; the memory stays as it is or the object of the callable is
destroyed; and in the modes other than InvokeOnce a destructor that is not trivial is run
exactly once. -/
theorem invoke_holds (opt : FQOpt) (m : Memory S) (fd : Option (FData S Args R))
    (c : CallableType S Args R × S) (script : List Args) (h : holds opt m fd c)
    (hs : script_ok opt script) :
    (invoke opt script fd m).1 = expected c script ∧
    ((invoke opt script fd m).2 = m ∨
      (empty_callable c.1 = false ∧
        (invoke opt script fd m).2 = m.destroy_at c.1 (range_of fd).data)) ∧
    (opt ≠ FQOpt.InvokeOnce →
      nontrivial_log (invoke opt script fd m).2 = nontrivial_log m ++ nontrivial_states [c]) := by
  obtain ⟨T, s⟩ := c
  obtain ⟨ptr, hfd, hlive⟩ := h
  subst hfd
  simp only [] at hlive ⊢
  have hl : empty_callable T = false → m.live ptr = some s := fun he => (hlive he).1
  have hdata : (range_of (some (descriptor opt T ptr))).data = ptr := by
    rw [range_of_descriptor]
  rw [hdata, invoke_descriptor opt m T s ptr script hl hs]
  simp only []
  have hns : nontrivial_states [(T, s)] =
      if T.is_trivially_destructible then [] else [some s] := by
    unfold nontrivial_states
    by_cases ht : T.is_trivially_destructible = true <;> simp [ht]
  have hlog : nontrivial_log (m.destroy_at T ptr) =
      nontrivial_log m ++ nontrivial_states [(T, s)] := by
    rw [nontrivial_log_destroy_at, hns]
    by_cases ht : T.is_trivially_destructible = true
    · simp [ht]
    · have := hl (not_empty_of_nontrivial T (by simpa using ht))
      simp [ht, this]
  have hlog0 : T.is_trivially_destructible = true →
      nontrivial_log m = nontrivial_log m ++ nontrivial_states [(T, s)] := by
    intro ht
    rw [hns]; simp [ht]
  refine ⟨trivial, ?_, ?_⟩
  · by_cases he : empty_callable T = true
    · rw [if_pos he]; exact Or.inl rfl
    · rw [if_neg he]
      have he' : empty_callable T = false := by simpa using he
      split_ifs
      all_goals first | exact Or.inl rfl | exact Or.inr ⟨he', rfl⟩
  · intro ho
    by_cases he : empty_callable T = true
    · rw [if_pos he]; exact hlog0 (empty_callable_trivial T he)
    · rw [if_neg he, if_neg ho]
      by_cases hd : opt = FQOpt.InvokeOnceDNI ∧ script.length ≠ 0
      · rw [if_pos hd]; exact hlog
      · rw [if_neg hd]
        by_cases ht : T.is_trivially_destructible = true
        · rw [if_pos ht]; exact hlog0 ht
        · rw [if_neg ht]; exact hlog

end detail
end rb

namespace rb
namespace detail
variable {S Args R : Type}

theorem nontrivial_states_append (a b : List (CallableType S Args R × S)) :
    nontrivial_states (a ++ b) = nontrivial_states a ++ nontrivial_states b := by
  unfold nontrivial_states
  rw [List.filter_append, List.map_append]

/-- The range of a descriptor that stands for `c`. -/
theorem range_of_holds (opt : FQOpt) (m : Memory S) (fd : Option (FData S Args R))
    (c : CallableType S Args R × S) (h : holds opt m fd c) :
    (range_of fd).size = (if empty_callable c.1 then 0 else c.1.size_of) ∧
    (empty_callable c.1 = false → 1 ≤ (range_of fd).size ∧ m.live (range_of fd).data = some c.2) ∧
    fd = some (descriptor opt c.1 (range_of fd).data) := by
  obtain ⟨ptr, hfd, hlive⟩ := h
  subst hfd
  rw [range_of_descriptor]
  refine ⟨rfl, fun he => ?_, rfl⟩
  have := hlive he
  simp only [he, Bool.false_eq_true, if_false]
  exact ⟨this.2, this.1⟩

/-- A descriptor keeps standing for its callable when the memory changes elsewhere. -/
theorem holds_of_live_eq (opt : FQOpt) (m m1 : Memory S) (fd : Option (FData S Args R))
    (c : CallableType S Args R × S) (h : holds opt m fd c)
    (hl : empty_callable c.1 = false → m1.live (range_of fd).data = m.live (range_of fd).data) :
    holds opt m1 fd c := by
  obtain ⟨_, h2, h3⟩ := range_of_holds opt m fd c h
  obtain ⟨ptr, hfd, hlive⟩ := h
  refine ⟨ptr, hfd, fun he => ?_⟩
  have e : (range_of fd).data = ptr := by rw [hfd, range_of_descriptor]
  have := hl he
  rw [e] at this
  rw [this]
  exact hlive he

/-- Destroying an object leaves alone the descriptors whose range is disjoint from its
range. -/
theorem holds_destroy_at (opt : FQOpt) (m : Memory S) (fd : Option (FData S Args R))
    (c : CallableType S Args R × S) (T : CallableType S Args R) (r : Buffer)
    (h : holds opt m fd c) (hr : 1 ≤ r.size) (hd : (range_of fd).disjoint r) :
    holds opt (m.destroy_at T r.data) fd c := by
  obtain ⟨_, h2, _⟩ := range_of_holds opt m fd c h
  apply holds_of_live_eq opt m _ fd c h
  intro he
  have := (h2 he).1
  have hne : (range_of fd).data ≠ r.data := by
    unfold Buffer.disjoint at hd
    omega
  simp [Memory.destroy_at, hne]

/-- Constructing an object leaves alone the descriptors whose range is disjoint from its
range. -/
theorem holds_construct_at (opt : FQOpt) (m : Memory S) (fd : Option (FData S Args R))
    (c : CallableType S Args R × S) (s : S) (r : Buffer)
    (h : holds opt m fd c) (hr : 1 ≤ r.size) (hd : (range_of fd).disjoint r) :
    holds opt (m.construct_at r.data s) fd c := by
  obtain ⟨_, h2, _⟩ := range_of_holds opt m fd c h
  apply holds_of_live_eq opt m _ fd c h
  intro he
  have := (h2 he).1
  have hne : (range_of fd).data ≠ r.data := by
    unfold Buffer.disjoint at hd
    omega
  simp [Memory.construct_at, hne]

/-- A functor at work on one wrapper leaves alone the descriptors whose range is disjoint from
the range of the wrapper's descriptor. -/
theorem invoke_frame (opt : FQOpt) (m : Memory S) (fd fd1 : Option (FData S Args R))
    (c c1 : CallableType S Args R × S) (script : List Args) (h : holds opt m fd c)
    (hs : script_ok opt script) (h1 : holds opt m fd1 c1)
    (hd : (range_of fd1).disjoint (range_of fd)) :
    holds opt (invoke opt script fd m).2 fd1 c1 := by
  obtain ⟨_, hm, _⟩ := invoke_holds opt m fd c script h hs
  obtain ⟨_, h2, _⟩ := range_of_holds opt m fd c h
  rcases hm with e | ⟨he, e⟩
  · rw [e]; exact h1
  · rw [e]
    exact holds_destroy_at opt m fd1 c1 c.1 (range_of fd) h1 (h2 he).1 hd

/-- The functor of a `consume_all` or `consume_n` at work on slots whose descriptors stand for
the callables `cs` and have pairwise disjoint ranges: for each wrapper it gets the values of
the callable; descriptors with ranges disjoint from those of the slots visited are left alone;
and in the modes other than InvokeOnce the destructors that are not trivial are run once each,
in the order of the slots. -/
theorem invoke_each_holds (opt : FQOpt) (script : List Args)
    (buffer : List (Option (FData S Args R))) (hs : script_ok opt script) :
    ∀ (l : List Nat) (cs : List (CallableType S Args R × S)) (m : Memory S),
      List.Forall₂ (holds opt m) (l.map (fun i => (buffer.get? i).getD none)) cs →
      (l.map (fun i => range_of ((buffer.get? i).getD none))).Pairwise Buffer.disjoint →
      (invoke_each opt script buffer l m).1 = cs.map (fun c => expected c script) ∧
      (∀ (fd1 : Option (FData S Args R)) (c1 : CallableType S Args R × S),
        holds opt m fd1 c1 →
        (∀ i ∈ l, (range_of fd1).disjoint (range_of ((buffer.get? i).getD none))) →
        holds opt (invoke_each opt script buffer l m).2 fd1 c1) ∧
      (opt ≠ FQOpt.InvokeOnce →
        nontrivial_log (invoke_each opt script buffer l m).2 =
          nontrivial_log m ++ nontrivial_states cs) := by
  intro l
  induction l with
  | nil =>
    intro cs m hf _
    cases hf
    refine ⟨rfl, fun fd1 c1 h1 _ => h1, fun _ => ?_⟩
    simp [invoke_each, nontrivial_states]
  | cons i rest ih =>
    intro cs m hf hp
    rw [List.map_cons] at hf hp
    cases hf with
    | @cons _ c _ cs1 hc hrest =>
      obtain ⟨hp1, hp2⟩ := List.pairwise_cons.mp hp
      obtain ⟨r1, _, r3⟩ := invoke_holds opt m _ c script hc hs
      -- the descriptors of the other slots are left alone by the first invocation
      have hrest1 : List.Forall₂
          (holds opt (invoke opt script ((buffer.get? i).getD none) m).2)
          (rest.map (fun j => (buffer.get? j).getD none)) cs1 := by
        have aux : ∀ (l1 : List Nat) (cs2 : List (CallableType S Args R × S)),
            List.Forall₂ (holds opt m) (l1.map (fun j => (buffer.get? j).getD none)) cs2 →
            (∀ j ∈ l1, (range_of ((buffer.get? i).getD none)).disjoint
              (range_of ((buffer.get? j).getD none))) →
            List.Forall₂ (holds opt (invoke opt script ((buffer.get? i).getD none) m).2)
              (l1.map (fun j => (buffer.get? j).getD none)) cs2 := by
          intro l1
          induction l1 with
          | nil => intro cs2 hf2 _; cases hf2; exact List.Forall₂.nil
          | cons j l2 ih2 =>
            intro cs2 hf2 hdis
            rw [List.map_cons] at hf2 ⊢
            cases hf2 with
            | @cons _ c2 _ cs3 hc2 hr2 =>
              refine List.Forall₂.cons ?_ (ih2 cs3 hr2 (fun k hk =>
                hdis k (List.mem_cons_of_mem _ hk)))
              apply invoke_frame opt m _ _ c c2 script hc hs hc2
              have := hdis j (List.mem_cons_self _ _)
              unfold Buffer.disjoint at this ⊢
              omega
        apply aux rest cs1 hrest
        intro j hj
        exact hp1 _ (List.mem_map.mpr ⟨j, hj, rfl⟩)
      obtain ⟨q1, q2, q3⟩ := ih cs1 _ hrest1 hp2
      refine ⟨?_, ?_, ?_⟩
      · simp only [invoke_each, List.map_cons, r1, q1]
      · intro fd1 c1 h1 hdis
        simp only [invoke_each]
        apply q2 fd1 c1
        · exact invoke_frame opt m _ fd1 c c1 script hc hs h1
            (hdis i (List.mem_cons_self _ _))
        · intro j hj
          exact hdis j (List.mem_cons_of_mem _ hj)
      · intro ho
        simp only [invoke_each]
        rw [q3 ho, r3 ho, List.append_assoc, ← nontrivial_states_append]
        rfl

end detail
end rb

namespace rb
namespace BufferQueueSCSP

/-- The buffers of a chain do not overlap. -/
theorem chain_pairwise {hi : Nat} :
    ∀ (ds : List Buffer) {lo : Nat}, chain lo hi ds → ds.Pairwise Buffer.disjoint
  | [], _, _ => List.Pairwise.nil
  | d :: ds, _, h => by
    refine List.pairwise_cons.mpr ⟨?_, chain_pairwise ds h.2⟩
    intro d1 hd1
    have := chain_mem h.2 d1 hd1
    unfold Buffer.disjoint
    omega

/-- The unreclaimed buffers of a queue that satisfies the arena invariant do not overlap. -/
theorem window_pairwise (q : BufferQueueSCSP) (ha : arena_inv q) :
    (window q).Pairwise Buffer.disjoint := by
  obtain ⟨hfit, hin, hout, hlay⟩ := ha
  rcases hlay with ⟨_, hch⟩ | ⟨hlt, d1, d2, hsplit, hc1, hc2⟩
  · exact chain_pairwise _ hch
  · rw [hsplit]
    refine List.pairwise_append.mpr ⟨chain_pairwise _ hc1, chain_pairwise _ hc2, ?_⟩
    intro a ha b hb
    have m1 := chain_mem hc1 a ha
    have m2 := chain_mem hc2 b hb
    unfold Buffer.disjoint
    omega

/-- The stored buffers of a queue that satisfies the arena invariant do not overlap. -/
theorem stored_pairwise (M : Nat) (q : BufferQueueSCSP) (h : WF M q) (ha : arena_inv q) :
    (stored q).Pairwise Buffer.disjoint := by
  obtain ⟨ps, hps⟩ := window_eq M q h
  have := window_pairwise q ha
  rw [hps] at this
  exact (List.pairwise_append.mp this).2.1

end BufferQueueSCSP

namespace detail
variable {S Args R : Type}

/-- In the modes other than InvokeOnce the lambda of `destroy_non_consumed` does to a slot what
a functor that does not invoke the wrapper does. -/
theorem destroy_functions_eq (opt : FQOpt) (ho : opt ≠ FQOpt.InvokeOnce)
    (buffer : List (Option (FData S Args R))) :
    ∀ (l : List Nat) (m : Memory S),
      destroy_functions buffer l m = (invoke_each opt ([] : List Args) buffer l m).2 := by
  intro l
  induction l with
  | nil => intro m; rfl
  | cons i rest ih =>
    intro m
    simp only [destroy_functions, invoke_each]
    rw [ih]
    congr 1
    cases hfd : (buffer.get? i).getD none with
    | none => rfl
    | some fd =>
      obtain ⟨obj, fptr, dfptr⟩ := fd
      simp only [invoke, run_script, Function.destructor, ho, if_false]
      cases dfptr with
      | Empty => rfl
      | ptr p =>
        cases p with
        | none => rfl
        | some d => rfl

/-- A functor at work on the wrappers of no slot. -/
theorem invoke_each_nil (opt : FQOpt) (script : List Args)
    (buffer : List (Option (FData S Args R))) (m : Memory S) :
    invoke_each opt script buffer [] m = ([], m) := rfl

theorem invoke_each_append (opt : FQOpt) (script : List Args)
    (buffer : List (Option (FData S Args R))) (l1 l2 : List Nat) :
    ∀ (m : Memory S),
      invoke_each opt script buffer (l1 ++ l2) m =
        ((invoke_each opt script buffer l1 m).1 ++
          (invoke_each opt script buffer l2 (invoke_each opt script buffer l1 m).2).1,
         (invoke_each opt script buffer l2 (invoke_each opt script buffer l1 m).2).2) := by
  induction l1 with
  | nil => intro m; rfl
  | cons i rest ih =>
    intro m
    rw [List.cons_append]
    simp only [invoke_each]
    rw [ih]
    rfl

end detail
end rb

namespace rb

theorem ring_stored_length {X : Type} (arr : List (Option X)) (out inp : Nat) :
    (ring_stored arr out inp).length = ring_dist arr.length out inp := by
  unfold ring_stored
  rw [List.length_map, ring_slots_length]

/-- Writing the slot at `inp` and stepping `inp` forward appends to the stored content. -/
theorem ring_stored_append {X : Type} (arr : List (Option X)) (S out inp : Nat) (v : Option X)
    (hlen : arr.length = S) (ho : out < S) (hi : inp < S)
    (hroom : ring_dist S out inp + 1 < S) :
    ring_stored (arr.set inp v) out (ring_wrap S (inp + 1)) = ring_stored arr out inp ++ [v] := by
  unfold ring_stored
  simp only [List.length_set, hlen]
  have hd2 := ring_dist_wrap_add (S := S) (k := 1) ho hi (by omega)
  have hw := ring_wrap_dist (S := S) ho hi
  rw [hd2, ring_slots_succ, List.map_append, List.map_singleton, hw,
    slot_at_set_eq _ _ (by omega)]
  congr 1
  apply List.map_congr_left
  intro i hmem
  apply slot_at_set_ne
  obtain ⟨j, hj, rfl⟩ := mem_ring_slots.mp hmem
  intro hcon
  have := ring_dist_wrap (S := S) (k := j) ho (by omega)
  rw [← hcon] at this
  omega

/-- Stepping `out` forward by `k` slots drops the `k` oldest of the stored content. -/
theorem ring_stored_advance {X : Type} (arr : List (Option X)) (S out inp k : Nat)
    (hlen : arr.length = S) (ho : out < S) (hi : inp < S) (hk : k ≤ ring_dist S out inp) :
    ring_stored arr (ring_wrap S (out + k)) inp = (ring_stored arr out inp).drop k ∧
    (ring_slots S out k).map (slot_at arr) = (ring_stored arr out inp).take k := by
  have hd := ring_dist_lt ho hi
  have hd2 := ring_dist_wrap_sub (S := S) (k := k) ho hi hk
  have hsplit : ring_slots S out (ring_dist S out inp) =
      ring_slots S out k ++ ring_slots S (ring_wrap S (out + k)) (ring_dist S out inp - k) := by
    rw [← ring_slots_add ho (by omega)]
    congr 1; omega
  unfold ring_stored
  rw [hlen, hd2, hsplit, List.map_append]
  exact ⟨(List.drop_left' (by simp [ring_slots_length])).symm,
    (List.take_left' (by simp [ring_slots_length])).symm⟩

namespace detail
variable {S Args R : Type}

/-- The ranges of the stored descriptors are the stored buffers of the bookkeeping queue. -/
theorem stored_ranges (b : BufferQueueSCSP) (arr : List (Option (FData S Args R)))
    (hs : b.m_SpliceArray = arr.map range_of) :
    BufferQueueSCSP.stored b =
      (ring_stored arr b.m_Reader.output_pos b.m_Writer.input_pos).map range_of := by
  unfold BufferQueueSCSP.stored ring_stored
  rw [hs, List.length_map, List.map_map]
  apply List.map_congr_left
  intro i _
  simp only [Function.comp, BufferQueueSCSP.splice_at, slot_at, hs, List.get?_eq_getElem?,
    List.getElem?_map]
  cases arr[i]? <;> rfl

theorem fq_inv_length (opt : FQOpt) (arena B M : Nat) (b : BufferQueueSCSP)
    (arr : List (Option (FData S Args R))) (mem : Memory S)
    (items : List (CallableType S Args R × S)) (h : fq_inv opt arena B M b arr mem items) :
    arr.length = M + 1 ∧
    items.length = ring_dist (M + 1) b.m_Reader.output_pos b.m_Writer.input_pos := by
  obtain ⟨hs, hwf, _, _, _, hf⟩ := h
  have hl : arr.length = M + 1 := by
    have := hwf.1
    rw [hs, List.length_map] at this
    exact this
  refine ⟨hl, ?_⟩
  rw [← hf.length_eq, ring_stored_length, hl]

/-- The invariant does not depend on the reader's cached input position. -/
theorem fq_inv_view (opt : FQOpt) (arena B M : Nat) (b b1 : BufferQueueSCSP)
    (arr : List (Option (FData S Args R))) (mem : Memory S)
    (items : List (CallableType S Args R × S)) (h : fq_inv opt arena B M b arr mem items)
    (hw : b1.m_Writer = b.m_Writer) (hsp : b1.m_SpliceArray = b.m_SpliceArray)
    (hr : b1.m_Reader.output_pos = b.m_Reader.output_pos) (hwf : BufferQueueSCSP.WF M b1) :
    fq_inv opt arena B M b1 arr mem items := by
  obtain ⟨hs, _, ha, hb, hbase, hf⟩ := h
  refine ⟨by rw [hsp, hs], hwf, (BufferQueueSCSP.writer_view b b1 hw hsp).1 ha, by rw [hw, hb],
    hbase, ?_⟩
  rw [hw, hr]
  exact hf

end detail
end rb

namespace rb

theorem Buffer.disjoint_symm {x y : Buffer} (h : x.disjoint y) : y.disjoint x := by
  unfold Buffer.disjoint at h ⊢
  omega

theorem forall₂_imp_mem {α β : Type} {P Q : α → β → Prop} :
    ∀ {l1 : List α} {l2 : List β}, List.Forall₂ P l1 l2 →
      (∀ a ∈ l1, ∀ b, P a b → Q a b) → List.Forall₂ Q l1 l2
  | _, _, List.Forall₂.nil, _ => List.Forall₂.nil
  | _, _, List.Forall₂.cons h t, himp =>
    List.Forall₂.cons (himp _ (List.mem_cons_self _ _) _ h)
      (forall₂_imp_mem t (fun a ha b hab => himp a (List.mem_cons_of_mem _ ha) b hab))

namespace detail
variable {S Args R : Type}

/-- A functor at work on the wrappers of the `k` oldest descriptors: it gets the values of the
`k` oldest callables, the invariant holds for the rest, and in the modes that destroy the
`k` callables are destroyed. -/
theorem fq_inv_advance (opt : FQOpt) (arena B M : Nat) (b b1 : BufferQueueSCSP)
    (arr : List (Option (FData S Args R))) (mem : Memory S)
    (items : List (CallableType S Args R × S)) (script : List Args) (k : Nat)
    (h : fq_inv opt arena B M b arr mem items) (hs : script_ok opt script)
    (hk : k ≤ ring_dist (M + 1) b.m_Reader.output_pos b.m_Writer.input_pos)
    (hw : b1.m_Writer = b.m_Writer) (hsp : b1.m_SpliceArray = b.m_SpliceArray)
    (hr : b1.m_Reader.output_pos = ring_wrap (M + 1) (b.m_Reader.output_pos + k))
    (hwf : BufferQueueSCSP.WF M b1) :
    (invoke_each opt script arr (ring_slots (M + 1) b.m_Reader.output_pos k) mem).1 =
      (items.take k).map (fun c => expected c script) ∧
    fq_inv opt arena B M b1 arr
      (invoke_each opt script arr (ring_slots (M + 1) b.m_Reader.output_pos k) mem).2
      (items.drop k) ∧
    (opt ≠ FQOpt.InvokeOnce →
      nontrivial_log
          (invoke_each opt script arr (ring_slots (M + 1) b.m_Reader.output_pos k) mem).2 =
        nontrivial_log mem ++ nontrivial_states (items.take k)) := by
  have hlen := (fq_inv_length opt arena B M b arr mem items h).1
  obtain ⟨hsplice, hwfb, ha, hb, hbase, hf⟩ := h
  have hro : b.m_Reader.output_pos < M + 1 := hwfb.2.2.2.2.1
  have hwi : b.m_Writer.input_pos < M + 1 := hwfb.2.2.1
  obtain ⟨hdrop, htake⟩ := ring_stored_advance arr (M + 1) b.m_Reader.output_pos
    b.m_Writer.input_pos k hlen hro hwi hk
  have hpw := BufferQueueSCSP.stored_pairwise M b hwfb ha
  rw [stored_ranges b arr hsplice] at hpw
  have hsplit : ring_stored arr b.m_Reader.output_pos b.m_Writer.input_pos =
      (ring_stored arr b.m_Reader.output_pos b.m_Writer.input_pos).take k ++
        (ring_stored arr b.m_Reader.output_pos b.m_Writer.input_pos).drop k :=
    (List.take_append_drop _ _).symm
  rw [hsplit, List.map_append] at hpw
  obtain ⟨hp1, _, hp3⟩ := List.pairwise_append.mp hpw
  have hmap1 : (ring_slots (M + 1) b.m_Reader.output_pos k).map
      (fun i => (arr.get? i).getD none) =
      (ring_stored arr b.m_Reader.output_pos b.m_Writer.input_pos).take k := htake
  have hmap2 : (ring_slots (M + 1) b.m_Reader.output_pos k).map
      (fun i => range_of ((arr.get? i).getD none)) =
      ((ring_stored arr b.m_Reader.output_pos b.m_Writer.input_pos).take k).map range_of := by
    rw [← hmap1, List.map_map]; rfl
  obtain ⟨r1, r2, r3⟩ := invoke_each_holds opt script arr hs
    (ring_slots (M + 1) b.m_Reader.output_pos k) (items.take k) mem
    (by rw [hmap1]; exact List.forall₂_take k hf)
    (by rw [hmap2]; exact hp1)
  refine ⟨r1, ⟨by rw [hsp, hsplice], hwf, (BufferQueueSCSP.writer_view b b1 hw hsp).1 ha,
    by rw [hw, hb], hbase, ?_⟩, r3⟩
  rw [hw, hr, hdrop]
  refine forall₂_imp_mem (List.forall₂_drop k hf) ?_
  intro fd hfd c hc
  apply r2 fd c hc
  intro i hi
  apply Buffer.disjoint_symm
  apply hp3
  · rw [← hmap2]
    exact List.mem_map.mpr ⟨i, hi, rfl⟩
  · exact List.mem_map.mpr ⟨fd, hfd, rfl⟩

end detail
end rb

namespace rb
namespace detail
variable {S Args R : Type}

/-- The storage `get_storage<Callable>` finds lies in the free part of the arena. -/
theorem get_storage_callable_free (opt : FQOpt) (b : BufferQueueSCSP)
    (T : CallableType S Args R) (hv : T.valid) (ha : BufferQueueSCSP.arena_inv b)
    (hptr : get_storage_callable T b.m_Writer.byte_rb ≠ 0) :
    ∃ c : Buffer, BufferQueueSCSP.in_free_region b c ∧
      (range_of (some (descriptor opt T (get_storage_callable T b.m_Writer.byte_rb)))).within c ∧
      (empty_callable T = false →
        1 ≤ (range_of
          (some (descriptor opt T (get_storage_callable T b.m_Writer.byte_rb)))).size) := by
  obtain ⟨hfit, hin, hout, hlay⟩ := ha
  rw [range_of_descriptor]
  cases he : empty_callable T with
  | true =>
    have hp := FunctionQueueSCSP.get_storage_callable_empty T b.m_Writer.byte_rb he hfit hin
    rw [hp]
    refine ⟨⟨b.m_Writer.byte_rb.buffer.data + b.m_Writer.byte_rb.input_pos, 0⟩, ?_, ?_, ?_⟩
    · unfold BufferQueueSCSP.in_free_region
      dsimp only
      by_cases c : b.m_Writer.byte_rb.output_pos ≤ b.m_Writer.byte_rb.input_pos
      · left; omega
      · right; right; omega
    · simp [Buffer.within]
    · intro h; cases h
  | false =>
    have hp : get_storage_callable T b.m_Writer.byte_rb =
        if (get_storage b.m_Writer.byte_rb T.size_of T.align_of).empty then 0
        else (get_storage b.m_Writer.byte_rb T.size_of T.align_of).data := by
      unfold get_storage_callable
      simp [he]
    rw [hp] at hptr ⊢
    have hne : (get_storage b.m_Writer.byte_rb T.size_of T.align_of).empty = false := by
      cases hc : (get_storage b.m_Writer.byte_rb T.size_of T.align_of).empty with
      | true => rw [hc] at hptr; simp at hptr
      | false => rfl
    have hsz : (get_storage b.m_Writer.byte_rb T.size_of T.align_of).size ≠ 0 := by
      intro hz
      unfold Buffer.empty at hne
      rw [hz] at hne
      simp at hne
    obtain ⟨hfree, hle⟩ := BufferQueueSCSP.get_storage_free b T.size_of T.align_of hfit hin hout hsz
    refine ⟨get_storage b.m_Writer.byte_rb T.size_of T.align_of, hfree, ?_, ?_⟩
    · simp only [hne, Bool.false_eq_true, if_false]
      unfold Buffer.within
      dsimp only
      omega
    · intro _
      simp only [Bool.false_eq_true, if_false]
      exact hv

/-- The object `detail::emplace` builds changes no object that was alive, and the log of the
destructions not at all. -/
theorem emplace_log (opt : FQOpt) (T : CallableType S Args R) (m : Memory S) (ptr : Nat) (s : S) :
    nontrivial_log (emplace opt T m ptr s).2 = nontrivial_log m := by
  rw [emplace_memory]
  by_cases he : empty_callable T = true
  · rw [if_pos he]
  · rw [if_neg he]; rfl

/-- A push that finds a free slot and storage: the bookkeeping is that of `release` with the
range of the new object, and the invariant holds with the callable appended. -/
theorem fq_inv_push (opt : FQOpt) (arena B M : Nat) (b : BufferQueueSCSP)
    (arr : List (Option (FData S Args R))) (mem : Memory S)
    (items : List (CallableType S Args R × S)) (T : CallableType S Args R) (s : S)
    (h : fq_inv opt arena B M b arr mem items) (hv : T.valid)
    (hroom : ring_wrap (M + 1) (b.m_Writer.input_pos + 1) ≠ b.m_Writer.output_pos)
    (hptr : get_storage_callable T b.m_Writer.byte_rb ≠ 0) :
    fq_inv opt arena B M
      (BufferQueueSCSP.release b
        (range_of (some (descriptor opt T (get_storage_callable T b.m_Writer.byte_rb))))).2
      (arr.set b.m_Writer.input_pos
        (some (descriptor opt T (get_storage_callable T b.m_Writer.byte_rb))))
      (emplace opt T mem (get_storage_callable T b.m_Writer.byte_rb) s).2
      (items ++ [(T, s)]) := by
  have hlen := (fq_inv_length opt arena B M b arr mem items h).1
  obtain ⟨hsplice, hwf, ha, hb, hbase, hf⟩ := h
  obtain ⟨c, hc, hrc, hr1⟩ := get_storage_callable_free opt b T hv ha hptr
  generalize hpe : get_storage_callable T b.m_Writer.byte_rb = ptr at *
  have hro : b.m_Reader.output_pos < M + 1 := hwf.2.2.2.2.1
  have hwi : b.m_Writer.input_pos < M + 1 := hwf.2.2.1
  have hnf := BufferQueueSCSP.bq_room_not_full M b hwf hroom
  have hdis := (BufferQueueSCSP.free_region_disjoint b c ha hc).2
  have hsub := BufferQueueSCSP.stored_subset_window M b hwf
  rw [stored_ranges b arr hsplice] at hsub
  refine ⟨?_, BufferQueueSCSP.release_WF M b _ hwf hroom,
    BufferQueueSCSP.release_arena_inv M b c _ hwf ha hc hrc hroom, hb, hbase, ?_⟩
  · show b.m_SpliceArray.set _ _ = _
    rw [hsplice, List.map_set]
  · have e1 : (BufferQueueSCSP.release b (range_of (some (descriptor opt T ptr)))).2.m_Reader =
        b.m_Reader := rfl
    have e2 : (BufferQueueSCSP.release b
        (range_of (some (descriptor opt T ptr)))).2.m_Writer.input_pos =
        ring_wrap (M + 1) (b.m_Writer.input_pos + 1) := by
      rw [← BufferQueueSCSP.bq_next_eq M b hwf]
      rfl
    rw [e1, e2, ring_stored_append arr (M + 1) _ _ _ hlen hro hwi (by omega)]
    apply List.rel_append
    · refine forall₂_imp_mem hf ?_
      intro fd hfd c1 hc1
      rw [emplace_memory]
      by_cases he : empty_callable T = true
      · rw [if_pos he]; exact hc1
      · rw [if_neg he]
        have he1 : empty_callable T = false := by
          cases h0 : empty_callable T with
          | true => exact absurd h0 he
          | false => rfl
        have hr2 := hr1 he1
        have hd1 := hdis _ (hsub _ (List.mem_map.mpr ⟨fd, hfd, rfl⟩))
        have hd2 : (range_of fd).disjoint (range_of (some (descriptor opt T ptr))) := by
          unfold Buffer.disjoint at hd1 ⊢
          unfold Buffer.within at hrc
          omega
        have := holds_construct_at opt mem fd c1 s _ hc1 hr2 hd2
        rw [range_of_descriptor] at this
        exact this
    · refine List.Forall₂.cons ⟨ptr, rfl, ?_⟩ List.Forall₂.nil
      intro he
      rw [emplace_memory]
      simp only [he, Bool.false_eq_true, if_false]
      refine ⟨?_, hv⟩
      simp [Memory.construct_at]

end detail
end rb

namespace rb
namespace detail
variable {S Args R : Type}

/-- The invariant is kept when the writer reclaims what the reader has consumed. -/
theorem fq_inv_sync (opt : FQOpt) (arena B M : Nat) (b : BufferQueueSCSP)
    (arr : List (Option (FData S Args R))) (mem : Memory S)
    (items : List (CallableType S Args R × S)) (h : fq_inv opt arena B M b arr mem items) :
    fq_inv opt arena B M (BufferQueueSCSP.sync b) arr mem items := by
  obtain ⟨hsplice, hwf, ha, hb, hbase, hf⟩ := h
  exact ⟨hsplice, BufferQueueSCSP.bq_sync_WF M b hwf, BufferQueueSCSP.sync_arena_inv M b hwf ha,
    hb, hbase, hf⟩

theorem destroy_functions_append (buffer : List (Option (FData S Args R))) (l1 l2 : List Nat) :
    ∀ (m : Memory S),
      destroy_functions buffer (l1 ++ l2) m =
        destroy_functions buffer l2 (destroy_functions buffer l1 m) := by
  induction l1 with
  | nil => intro m; rfl
  | cons i rest ih =>
    intro m
    rw [List.cons_append]
    simp only [destroy_functions]
    rw [ih]

/-- `destroy_non_consumed` runs the lambda on the slots `apply` visits. -/
theorem destroy_non_consumed_functions_eq (rb : RingBuffer (Option (FData S Args R)))
    (m : Memory S) :
    destroy_non_consumed_functions rb m = destroy_functions rb.buffer (apply rb).1 m := by
  unfold destroy_non_consumed_functions apply
  by_cases h1 : rb.output_pos = rb.input_pos
  · rw [if_pos h1, if_pos h1.symm]; rfl
  · have h1s : ¬ rb.input_pos = rb.output_pos := fun e => h1 e.symm
    by_cases h2 : rb.output_pos > rb.input_pos
    · simp only [h1, h1s, h2, if_true, if_false, destroy_functions_append]
    · simp only [h1, h1s, h2, if_false]

/-- The destructor of a function queue in the modes that destroy: the callables not yet
consumed are destroyed, oldest first. -/
theorem fq_inv_destructor (opt : FQOpt) (arena B M : Nat) (b : BufferQueueSCSP)
    (arr : List (Option (FData S Args R))) (mem : Memory S)
    (items : List (CallableType S Args R × S)) (h : fq_inv opt arena B M b arr mem items)
    (ho : opt ≠ FQOpt.InvokeOnce) :
    nontrivial_log (destroy_non_consumed_functions
        { buffer := arr, input_pos := b.m_Writer.input_pos,
          output_pos := b.m_Reader.output_pos } mem) =
      nontrivial_log mem ++ nontrivial_states items := by
  have hlen := (fq_inv_length opt arena B M b arr mem items h).1
  obtain ⟨hsplice, hwf, ha, hb, hbase, hf⟩ := h
  have hro : b.m_Reader.output_pos < M + 1 := hwf.2.2.2.2.1
  have hwi : b.m_Writer.input_pos < M + 1 := hwf.2.2.1
  have hM : M + 1 < 2 ^ 64 := hwf.2.1
  rw [destroy_non_consumed_functions_eq,
    apply_eq _ (by dsimp only; omega) (by dsimp only; omega) (by dsimp only; omega)]
  dsimp only
  rw [destroy_functions_eq opt ho]
  have hpw := BufferQueueSCSP.stored_pairwise M b hwf ha
  rw [stored_ranges b arr hsplice] at hpw
  have hs : script_ok opt ([] : List Args) := Or.inr (Nat.zero_le _)
  have hmap : ((ring_slots arr.length b.m_Reader.output_pos
      (ring_dist arr.length b.m_Reader.output_pos b.m_Writer.input_pos)).map
        (fun i => range_of ((arr.get? i).getD none))) =
      (ring_stored arr b.m_Reader.output_pos b.m_Writer.input_pos).map range_of := by
    unfold ring_stored
    rw [List.map_map]; rfl
  exact (invoke_each_holds opt [] arr hs _ items mem hf (by rw [hmap]; exact hpw)).2.2 ho

end detail
end rb

namespace rb
namespace detail
variable {S Args R : Type}

theorem take_drop_append {α : Type} (items a1 a2 : List α) (n1 n2 : Nat)
    (h1 : n1 ≤ items.length) :
    (items ++ (a1 ++ a2)).take (n1 + n2) = items.take n1 ++ ((items.drop n1 ++ a1) ++ a2).take n2 ∧
    (items ++ (a1 ++ a2)).drop (n1 + n2) = ((items.drop n1 ++ a1) ++ a2).drop n2 := by
  have hs : items ++ (a1 ++ a2) = items.take n1 ++ ((items.drop n1 ++ a1) ++ a2) := by
    rw [List.append_assoc, ← List.append_assoc (items.take n1), List.take_append_drop]
  have hl : (items.take n1).length = n1 := by
    rw [List.length_take]; omega
  have k1 : ∀ (X Y : List α), X.length = n1 → (X ++ Y).take (n1 + n2) = X ++ Y.take n2 := by
    intro X Y h; subst h; exact List.take_append _
  have k2 : ∀ (X Y : List α), X.length = n1 → (X ++ Y).drop (n1 + n2) = Y.drop n2 := by
    intro X Y h; subst h; exact List.drop_append _
  rw [hs]
  exact ⟨k1 _ _ hl, k2 _ _ hl⟩

/-- From a property of every call to the property of every sequence of calls: the wrappers are
handed out in push order, each returns the values of its callable, and in the modes that
destroy the callables handed out are the callables destroyed. -/
theorem run_calls_spec {Q Op : Type} (opt : FQOpt) (step : Q → Op → FQLog S Args R × Q)
    (inv : Q → List (CallableType S Args R × S) → Prop) (ok : Op → Prop) (mem : Q → Memory S)
    (hstep : ∀ q items op, inv q items → ok op →
      (step q op).1.handed.length ≤ items.length ∧
      (step q op).1.handed.map Prod.snd =
        expected_values (items.take (step q op).1.handed.length)
          ((step q op).1.handed.map Prod.fst) ∧
      inv (step q op).2 (items.drop (step q op).1.handed.length ++ (step q op).1.accepted) ∧
      (opt ≠ FQOpt.InvokeOnce →
        nontrivial_log (mem (step q op).2) =
          nontrivial_log (mem q) ++
            nontrivial_states (items.take (step q op).1.handed.length))) :
    ∀ (ops : List Op) (q : Q) (items : List (CallableType S Args R × S)),
      inv q items → (∀ op ∈ ops, ok op) →
      (run_calls step q ops).1.handed.length ≤
        (items ++ (run_calls step q ops).1.accepted).length ∧
      (run_calls step q ops).1.handed.map Prod.snd =
        expected_values
          ((items ++ (run_calls step q ops).1.accepted).take
            (run_calls step q ops).1.handed.length)
          ((run_calls step q ops).1.handed.map Prod.fst) ∧
      inv (run_calls step q ops).2
        ((items ++ (run_calls step q ops).1.accepted).drop
          (run_calls step q ops).1.handed.length) ∧
      (opt ≠ FQOpt.InvokeOnce →
        nontrivial_log (mem (run_calls step q ops).2) =
          nontrivial_log (mem q) ++
            nontrivial_states ((items ++ (run_calls step q ops).1.accepted).take
              (run_calls step q ops).1.handed.length)) := by
  intro ops
  induction ops with
  | nil =>
    intro q items hi _
    simp only [run_calls, List.length_nil, List.append_nil, List.take_zero, List.drop_zero,
      List.map_nil, Nat.zero_le, true_and]
    refine ⟨rfl, hi, ?_⟩
    intro _
    simp [nontrivial_states]
  | cons op ops ih =>
    intro q items hi hok
    obtain ⟨s1, s2, s3, s4⟩ := hstep q items op hi (hok op (List.mem_cons_self _ _))
    obtain ⟨i1, i2, i3, i4⟩ := ih (step q op).2 _ s3
      (fun o ho => hok o (List.mem_cons_of_mem _ ho))
    simp only [run_calls]
    generalize (step q op).1.handed = H1 at *
    generalize (step q op).1.accepted = A1 at *
    generalize (run_calls step (step q op).2 ops).1.handed = H2 at *
    generalize (run_calls step (step q op).2 ops).1.accepted = A2 at *
    obtain ⟨t1, t2⟩ := take_drop_append items A1 A2 H1.length H2.length s1
    rw [List.length_append, t1, t2, List.map_append, List.map_append]
    refine ⟨?_, ?_, i3, ?_⟩
    · simp only [List.length_append, List.length_drop] at i1 ⊢
      omega
    · unfold expected_values at s2 i2 ⊢
      rw [List.zipWith_append _ _ _ _ _ (by rw [List.length_take, List.length_map]; omega),
        ← s2, ← i2]
    · intro ho
      rw [i4 ho, s4 ho, nontrivial_states_append, List.append_assoc]

end detail
end rb

namespace rb
namespace detail
variable {S Args R : Type}

theorem zipWith_const_right {α β γ δ : Type} (f : α → β → γ) (c : β) :
    ∀ (l : List α) (l1 : List δ), l.length = l1.length →
      List.zipWith f l (l1.map (fun _ => c)) = l.map (fun a => f a c)
  | [], [], _ => rfl
  | [], _ :: _, h => by simp at h
  | _ :: _, [], h => by simp at h
  | a :: l, _ :: l1, h => by
    simp only [List.map_cons, List.zipWith_cons_cons]
    rw [zipWith_const_right f c l l1 (by simpa using h)]

theorem ring_slots_one {S a : Nat} (ha : a < S) : ring_slots S a 1 = [a] := by
  have h1 : List.range 1 = [0] := rfl
  simp [ring_slots, ring_wrap, ha, h1]

/-- A consume call that hands out the wrappers of the `k` oldest descriptors. -/
theorem fq_step_consume (opt : FQOpt) (arena B M : Nat) (b b1 : BufferQueueSCSP)
    (arr : List (Option (FData S Args R))) (mem mem1 : Memory S)
    (items : List (CallableType S Args R × S)) (script : List Args) (k : Nat)
    (values : List (List (Option R)))
    (h : fq_inv opt arena B M b arr mem items) (hs : script_ok opt script)
    (hk : k ≤ ring_dist (M + 1) b.m_Reader.output_pos b.m_Writer.input_pos)
    (hw : b1.m_Writer = b.m_Writer) (hsp : b1.m_SpliceArray = b.m_SpliceArray)
    (hr : b1.m_Reader.output_pos = ring_wrap (M + 1) (b.m_Reader.output_pos + k))
    (hwf : BufferQueueSCSP.WF M b1)
    (hval : (values, mem1) =
      invoke_each opt script arr (ring_slots (M + 1) b.m_Reader.output_pos k) mem) :
    (consume_log script values : FQLog S Args R).handed.length ≤ items.length ∧
    (consume_log script values : FQLog S Args R).handed.map Prod.snd =
      expected_values (items.take (consume_log script values : FQLog S Args R).handed.length)
        ((consume_log script values : FQLog S Args R).handed.map Prod.fst) ∧
    fq_inv opt arena B M b1 arr mem1
      (items.drop (consume_log script values : FQLog S Args R).handed.length ++
        (consume_log script values : FQLog S Args R).accepted) ∧
    (opt ≠ FQOpt.InvokeOnce →
      nontrivial_log mem1 =
        nontrivial_log mem ++
          nontrivial_states (items.take (consume_log script values : FQLog S Args R).handed.length)) := by
  have hlen := (fq_inv_length opt arena B M b arr mem items h).2
  obtain ⟨r1, r2, r3⟩ := fq_inv_advance opt arena B M b b1 arr mem items script k h hs hk hw hsp
    hr hwf
  rw [← hval] at r1 r2 r3
  dsimp only at r1 r2 r3
  have hvl : values.length = k := by
    rw [r1, List.length_map, List.length_take]; omega
  simp only [consume_log, List.length_map, List.map_map, List.append_nil, hvl]
  refine ⟨by omega, ?_, r2, r3⟩
  unfold expected_values
  have e1 : (Prod.snd ∘ fun v => (script, v)) = (fun v : List (Option R) => v) := rfl
  have e2 : (Prod.fst ∘ fun v => (script, v)) = (fun _ : List (Option R) => script) := rfl
  rw [e1, e2, zipWith_const_right _ _ _ _ (by rw [List.length_take, hvl]; omega), List.map_id']
  exact r1

/-- A call that hands out no wrapper and accepts no callable. -/
theorem fq_step_idle (opt : FQOpt) (arena B M : Nat) (b : BufferQueueSCSP)
    (arr : List (Option (FData S Args R))) (mem : Memory S)
    (items : List (CallableType S Args R × S)) (log : FQLog S Args R)
    (h : fq_inv opt arena B M b arr mem items) (ha : log.accepted = []) (hh : log.handed = []) :
    log.handed.length ≤ items.length ∧
    log.handed.map Prod.snd =
      expected_values (items.take log.handed.length) (log.handed.map Prod.fst) ∧
    fq_inv opt arena B M b arr mem (items.drop log.handed.length ++ log.accepted) ∧
    (opt ≠ FQOpt.InvokeOnce →
      nontrivial_log mem =
        nontrivial_log mem ++ nontrivial_states (items.take log.handed.length)) := by
  rw [ha, hh]
  simp only [List.length_nil, List.map_nil, List.take_zero, List.drop_zero, List.append_nil,
    Nat.zero_le, true_and]
  refine ⟨rfl, h, ?_⟩
  intro _
  simp [nontrivial_states]

end detail
end rb

namespace rb
namespace detail
variable {S Args R : Type}

/-- A push that finds a free slot and storage. -/
theorem fq_step_push (opt : FQOpt) (arena B M : Nat) (b : BufferQueueSCSP)
    (arr : List (Option (FData S Args R))) (mem : Memory S)
    (items : List (CallableType S Args R × S)) (T : CallableType S Args R) (s : S)
    (h : fq_inv opt arena B M b arr mem items) (hv : T.valid)
    (hroom : ring_wrap (M + 1) (b.m_Writer.input_pos + 1) ≠ b.m_Writer.output_pos)
    (hptr : get_storage_callable T b.m_Writer.byte_rb ≠ 0) :
    (push_log T s true).handed.length ≤ items.length ∧
    (push_log T s true).handed.map Prod.snd =
      expected_values (items.take (push_log T s true).handed.length)
        ((push_log T s true : FQLog S Args R).handed.map Prod.fst) ∧
    fq_inv opt arena B M
      (BufferQueueSCSP.release b
        (range_of (some (descriptor opt T (get_storage_callable T b.m_Writer.byte_rb))))).2
      (arr.set b.m_Writer.input_pos
        (some (descriptor opt T (get_storage_callable T b.m_Writer.byte_rb))))
      (emplace opt T mem (get_storage_callable T b.m_Writer.byte_rb) s).2
      (items.drop (push_log T s true : FQLog S Args R).handed.length ++
        (push_log T s true).accepted) ∧
    (opt ≠ FQOpt.InvokeOnce →
      nontrivial_log (emplace opt T mem (get_storage_callable T b.m_Writer.byte_rb) s).2 =
        nontrivial_log mem ++
          nontrivial_states (items.take (push_log T s true : FQLog S Args R).handed.length)) := by
  simp only [push_log, List.length_nil, List.map_nil, List.take_zero, List.drop_zero,
    Nat.zero_le, true_and, if_true]
  refine ⟨rfl, fq_inv_push opt arena B M b arr mem items T s h hv hroom hptr, ?_⟩
  intro _
  rw [emplace_log]
  simp [nontrivial_states]

/-- The arena cursor after a push, as `release` computes it. -/
theorem emplace_input_pos (opt : FQOpt) (T : CallableType S Args R) (m : Memory S)
    (ptr base : Nat) (s : S) :
    sub_sz (emplace opt T m ptr s).1.next_pos base =
      add_sz (sub_sz (range_of (some (descriptor opt T ptr))).data base)
        (range_of (some (descriptor opt T ptr))).size := by
  rw [emplace_next_pos, range_of_descriptor]
  dsimp only
  by_cases he : empty_callable T = true
  · simp only [he, if_true]
    unfold add_sz sub_sz
    omega
  · simp only [he, Bool.false_eq_true, if_false]
    unfold add_sz sub_sz
    omega

end detail

namespace FunctionQueueSCSP
variable {S Args R : Type}

/-- The bookkeeping of the state a successful `emplace` builds is that of `release`. -/
theorem as_buffer_queue_emplace (opt : FQOpt) (q1 : FunctionQueueSCSP S Args R)
    (T : CallableType S Args R) (s : S) (ptr : Nat) :
    as_buffer_queue
      ({ q1 with
        m_FunctionArray := q1.m_FunctionArray.set q1.m_Writer.input_pos
          (some (detail.emplace opt T q1.memory ptr s).1.fd)
        memory := (detail.emplace opt T q1.memory ptr s).2
        m_Writer := { q1.m_Writer with
          input_pos :=
            if add_sz q1.m_Writer.input_pos 1 ≠ q1.m_FunctionArray.length
              then add_sz q1.m_Writer.input_pos 1 else 0
          byte_rb := { q1.m_Writer.byte_rb with
            input_pos := sub_sz (detail.emplace opt T q1.memory ptr s).1.next_pos
              q1.m_Writer.byte_rb.buffer.data } } } : FunctionQueueSCSP S Args R) =
      (BufferQueueSCSP.release (as_buffer_queue q1)
        (detail.range_of (some (detail.descriptor opt T ptr)))).2 := by
  unfold as_buffer_queue BufferQueueSCSP.release
  simp only [detail.emplace_input_pos, emplace_fd_descriptor, List.map_set, List.length_map]

/-- The ways `emplace` can go. -/
theorem emplace_cases (opt : FQOpt) (q : FunctionQueueSCSP S Args R)
    (T : CallableType S Args R) (s : S) :
    emplace opt q T s = (false, sync q) ∨
    ∃ q1, (q1 = q ∨ q1 = sync q) ∧
      (if add_sz q.m_Writer.input_pos 1 ≠ q.m_FunctionArray.length
        then add_sz q.m_Writer.input_pos 1 else 0) ≠ q1.m_Writer.output_pos ∧
      detail.get_storage_callable T q1.m_Writer.byte_rb ≠ 0 ∧
      emplace opt q T s =
        (true,
          { q1 with
            m_FunctionArray := q1.m_FunctionArray.set q1.m_Writer.input_pos
              (some (detail.emplace opt T q1.memory
                (detail.get_storage_callable T q1.m_Writer.byte_rb) s).1.fd)
            memory := (detail.emplace opt T q1.memory
              (detail.get_storage_callable T q1.m_Writer.byte_rb) s).2
            m_Writer := { q1.m_Writer with
              input_pos :=
                if add_sz q1.m_Writer.input_pos 1 ≠ q1.m_FunctionArray.length
                  then add_sz q1.m_Writer.input_pos 1 else 0
              byte_rb := { q1.m_Writer.byte_rb with
                input_pos := sub_sz (detail.emplace opt T q1.memory
                  (detail.get_storage_callable T q1.m_Writer.byte_rb) s).1.next_pos
                  q1.m_Writer.byte_rb.buffer.data } } }) := by
  unfold emplace
  dsimp only
  by_cases c1 : (if add_sz q.m_Writer.input_pos 1 ≠ q.m_FunctionArray.length
      then add_sz q.m_Writer.input_pos 1 else 0) = q.m_Writer.output_pos ∨
      detail.get_storage_callable T q.m_Writer.byte_rb = 0
  · rw [if_pos c1]
    by_cases c2 : (if add_sz q.m_Writer.input_pos 1 ≠ q.m_FunctionArray.length
        then add_sz q.m_Writer.input_pos 1 else 0) = (sync q).m_Writer.output_pos ∨
        detail.get_storage_callable T (sync q).m_Writer.byte_rb = 0
    · rw [if_pos c2]
      exact Or.inl rfl
    · rw [if_neg c2]
      exact Or.inr ⟨sync q, Or.inr rfl, fun e => c2 (Or.inl e), fun e => c2 (Or.inr e), rfl⟩
  · rw [if_neg c1]
    exact Or.inr ⟨q, Or.inl rfl, fun e => c1 (Or.inl e), fun e => c1 (Or.inr e), rfl⟩

/-- The invariant of `FunctionQueueSCSP` is kept by `sync`. -/
theorem sync_Inv (opt : FQOpt) (arena B M : Nat) (q : FunctionQueueSCSP S Args R)
    (items : List (CallableType S Args R × S)) (h : Inv opt arena B M q items) :
    Inv opt arena B M (sync q) items := by
  unfold Inv at h ⊢
  rw [sync_as_buffer_queue]
  exact detail.fq_inv_sync opt arena B M _ _ _ _ h

end FunctionQueueSCSP
end rb

namespace rb
namespace detail
variable {S Args R : Type}

/-- `detail::invoke(func, rb)` on a ring of `M + 1` slots: the functor gets the wrappers of the
slots from `out` up to `inp`. -/
theorem invoke_all_eq (opt : FQOpt) (script : List Args) (arr : List (Option (FData S Args R)))
    (inp out M : Nat) (m : Memory S) (hlen : arr.length = M + 1) (hM : M + 1 < 2 ^ 64)
    (hi : inp < M + 1) (ho : out < M + 1) :
    invoke_all opt script { buffer := arr, input_pos := inp, output_pos := out } m =
      (ring_dist (M + 1) out inp,
        invoke_each opt script arr (ring_slots (M + 1) out (ring_dist (M + 1) out inp)) m) := by
  unfold invoke_all
  rw [apply_eq _ (by dsimp only; omega) (by dsimp only; omega) (by dsimp only; omega)]
  dsimp only
  rw [hlen]

end detail

namespace FunctionQueueSCSP
variable {S Args R : Type}

/-- The step of `FunctionQueueSCSP` that is a push. -/
theorem push_step (opt : FQOpt) (arena B M : Nat) (q : FunctionQueueSCSP S Args R)
    (items : List (CallableType S Args R × S)) (T : CallableType S Args R) (s : S)
    (h : Inv opt arena B M q items) (hv : T.valid) :
    (call opt q (.push T s)).1.handed.length ≤ items.length ∧
    (call opt q (.push T s)).1.handed.map Prod.snd =
      detail.expected_values (items.take (call opt q (.push T s)).1.handed.length)
        ((call opt q (.push T s)).1.handed.map Prod.fst) ∧
    Inv opt arena B M (call opt q (.push T s)).2
      (items.drop (call opt q (.push T s)).1.handed.length ++
        (call opt q (.push T s)).1.accepted) ∧
    (opt ≠ FQOpt.InvokeOnce →
      detail.nontrivial_log (call opt q (.push T s)).2.memory =
        detail.nontrivial_log q.memory ++
          detail.nontrivial_states (items.take (call opt q (.push T s)).1.handed.length)) := by
  simp only [call, push]
  rcases emplace_cases opt q T s with e | ⟨q1, hq1, hroom, hptr, e⟩
  · rw [e]
    exact detail.fq_step_idle opt arena B M _ _ _ items _ (sync_Inv opt arena B M q items h)
      rfl rfl
  · have h1 : Inv opt arena B M q1 items := by
      rcases hq1 with rfl | rfl
      · exact h
      · exact sync_Inv opt arena B M q items h
    have hm : detail.nontrivial_log q1.memory = detail.nontrivial_log q.memory := by
      rcases hq1 with rfl | rfl <;> rfl
    have hroom1 : ring_wrap (M + 1) ((as_buffer_queue q1).m_Writer.input_pos + 1) ≠
        (as_buffer_queue q1).m_Writer.output_pos := by
      have hn := next_eq M q1 h1.2.1
      have e1 : q1.m_Writer.input_pos = q.m_Writer.input_pos := by
        rcases hq1 with rfl | rfl <;> rfl
      have e2 : q1.m_FunctionArray = q.m_FunctionArray := by
        rcases hq1 with rfl | rfl <;> rfl
      rw [e1, e2] at hn
      rw [hn] at hroom
      rw [← e1] at hroom
      exact hroom
    have key := detail.fq_step_push opt arena B M (as_buffer_queue q1) q1.m_FunctionArray
      q1.memory items T s h1 hv hroom1 hptr
    rw [e]
    dsimp only
    unfold Inv
    rw [as_buffer_queue_emplace, emplace_fd_descriptor, ← hm]
    exact key

end FunctionQueueSCSP
end rb

namespace rb
namespace FunctionQueueSCSP
variable {S Args R : Type}

/-- What `consume` does, next to what `consume` of the bookkeeping queue does. -/
theorem consume_as_buffer_queue (opt : FQOpt) (q : FunctionQueueSCSP S Args R)
    (script : List Args) :
    as_buffer_queue (consume opt q script).2.2 =
      (BufferQueueSCSP.consume (as_buffer_queue q)).2.2 ∧
    (consume opt q script).2.2.m_FunctionArray = q.m_FunctionArray ∧
    ((consume opt q script).2.1, (consume opt q script).2.2.memory) =
      if (BufferQueueSCSP.consume (as_buffer_queue q)).1 then
        detail.invoke_each opt script q.m_FunctionArray [q.m_Reader.output_pos] q.memory
      else ([], q.memory) := by
  unfold consume BufferQueueSCSP.consume as_buffer_queue
  dsimp only
  by_cases c1 : q.m_Reader.output_pos = q.m_Reader.input_pos
  · by_cases c2 : q.m_Reader.output_pos = q.m_Writer.input_pos
    · simp only [if_pos c1, if_pos c2]
      exact ⟨trivial, trivial, rfl⟩
    · simp only [if_pos c1, if_neg c2, List.length_map]
      exact ⟨trivial, trivial, rfl⟩
  · simp only [if_neg c1, List.length_map]
    exact ⟨trivial, trivial, rfl⟩

/-- The step of `FunctionQueueSCSP` that is a `consume`. -/
theorem consume_step (opt : FQOpt) (arena B M : Nat) (q : FunctionQueueSCSP S Args R)
    (items : List (CallableType S Args R × S)) (script : List Args)
    (h : Inv opt arena B M q items) (hs : detail.script_ok opt script) :
    (call opt q (.consume script)).1.handed.length ≤ items.length ∧
    (call opt q (.consume script)).1.handed.map Prod.snd =
      detail.expected_values (items.take (call opt q (.consume script)).1.handed.length)
        ((call opt q (.consume script)).1.handed.map Prod.fst) ∧
    Inv opt arena B M (call opt q (.consume script)).2
      (items.drop (call opt q (.consume script)).1.handed.length ++
        (call opt q (.consume script)).1.accepted) ∧
    (opt ≠ FQOpt.InvokeOnce →
      detail.nontrivial_log (call opt q (.consume script)).2.memory =
        detail.nontrivial_log q.memory ++
          detail.nontrivial_states
            (items.take (call opt q (.consume script)).1.handed.length)) := by
  simp only [call]
  obtain ⟨e1, e2, e3⟩ := consume_as_buffer_queue opt q script
  have hwf : BufferQueueSCSP.WF M (as_buffer_queue q) := h.2.1
  obtain ⟨i1, i2, i3⟩ := BufferQueueSCSP.bq_consume_inv M (as_buffer_queue q) hwf
  have hq := BufferQueueSCSP.bq_consume_eq M (as_buffer_queue q) hwf
  have hro : q.m_Reader.output_pos < M + 1 := hwf.2.2.2.2.1
  have hwi : q.m_Writer.input_pos < M + 1 := hwf.2.2.1
  unfold Inv
  rw [e2]
  unfold Inv at h
  by_cases c : (as_buffer_queue q).m_Reader.output_pos = (as_buffer_queue q).m_Writer.input_pos
  · rw [if_pos c] at hq
    rw [hq] at e3
    refine detail.fq_step_consume opt arena B M (as_buffer_queue q) _ _ q.memory _ items script 0
      _ h hs (Nat.zero_le _) (by rw [e1]; exact i2) (by rw [e1]; exact i3) ?_
      (by rw [e1]; exact i1) ?_
    · rw [e1, hq]
      simp only [ring_wrap]
      rw [if_pos (by simpa using hro)]
      rfl
    · rw [e3]; rfl
  · rw [if_neg c] at hq
    rw [hq] at e3
    have hd := ObjectQueueMCSP.ring_dist_pos_of_ne (by simpa using hro) (by simpa using hwi) c
    refine detail.fq_step_consume opt arena B M (as_buffer_queue q) _ _ q.memory _ items script 1
      _ h hs hd.1 (by rw [e1]; exact i2) (by rw [e1]; exact i3) ?_
      (by rw [e1]; exact i1) ?_
    · rw [e1, hq]
    · rw [e3, detail.ring_slots_one (by simpa using hro)]
      rfl

end FunctionQueueSCSP
end rb

namespace rb
namespace FunctionQueueSCSP
variable {S Args R : Type}

/-- The step of `FunctionQueueSCSP` that is a `consume_all`. -/
theorem consume_all_step (opt : FQOpt) (arena B M : Nat) (q : FunctionQueueSCSP S Args R)
    (items : List (CallableType S Args R × S)) (script : List Args)
    (h : Inv opt arena B M q items) (hs : detail.script_ok opt script) :
    (call opt q (.consume_all script)).1.handed.length ≤ items.length ∧
    (call opt q (.consume_all script)).1.handed.map Prod.snd =
      detail.expected_values (items.take (call opt q (.consume_all script)).1.handed.length)
        ((call opt q (.consume_all script)).1.handed.map Prod.fst) ∧
    Inv opt arena B M (call opt q (.consume_all script)).2
      (items.drop (call opt q (.consume_all script)).1.handed.length ++
        (call opt q (.consume_all script)).1.accepted) ∧
    (opt ≠ FQOpt.InvokeOnce →
      detail.nontrivial_log (call opt q (.consume_all script)).2.memory =
        detail.nontrivial_log q.memory ++
          detail.nontrivial_states
            (items.take (call opt q (.consume_all script)).1.handed.length)) := by
  simp only [call]
  have hlen := (detail.fq_inv_length opt arena B M _ _ _ items h).1
  have hwf : BufferQueueSCSP.WF M (as_buffer_queue q) := h.2.1
  obtain ⟨i1, i2, i3⟩ := BufferQueueSCSP.bq_consume_all_inv M (as_buffer_queue q) hwf
  have hro : q.m_Reader.output_pos < M + 1 := hwf.2.2.2.2.1
  have hwi : q.m_Writer.input_pos < M + 1 := hwf.2.2.1
  have hM : M + 1 < 2 ^ 64 := hwf.2.1
  have e1 : as_buffer_queue (consume_all opt q script).2.2 =
      (BufferQueueSCSP.consume_all (as_buffer_queue q)).2.2 := rfl
  have e3 := detail.invoke_all_eq opt script q.m_FunctionArray q.m_Writer.input_pos
    q.m_Reader.output_pos M q.memory hlen hM hwi hro
  unfold Inv at h ⊢
  refine detail.fq_step_consume opt arena B M (as_buffer_queue q) _ _ q.memory _ items script
    (ring_dist (M + 1) q.m_Reader.output_pos q.m_Writer.input_pos)
    _ h hs (Nat.le_refl _) (by rw [e1]; exact i2) (by rw [e1]; exact i3) ?_
    (by rw [e1]; exact i1) ?_
  · show q.m_Writer.input_pos = _
    exact (ring_wrap_dist hro hwi).symm
  · unfold consume_all
    dsimp only
    rw [e3]
    rfl

/-- The step of `FunctionQueueSCSP` that is a `consume_n`. -/
theorem consume_n_step (opt : FQOpt) (arena B M : Nat) (q : FunctionQueueSCSP S Args R)
    (items : List (CallableType S Args R × S)) (script : List Args) (n : Nat)
    (h : Inv opt arena B M q items) (hs : detail.script_ok opt script) (hn : n + M < 2 ^ 64) :
    (call opt q (.consume_n script n)).1.handed.length ≤ items.length ∧
    (call opt q (.consume_n script n)).1.handed.map Prod.snd =
      detail.expected_values (items.take (call opt q (.consume_n script n)).1.handed.length)
        ((call opt q (.consume_n script n)).1.handed.map Prod.fst) ∧
    Inv opt arena B M (call opt q (.consume_n script n)).2
      (items.drop (call opt q (.consume_n script n)).1.handed.length ++
        (call opt q (.consume_n script n)).1.accepted) ∧
    (opt ≠ FQOpt.InvokeOnce →
      detail.nontrivial_log (call opt q (.consume_n script n)).2.memory =
        detail.nontrivial_log q.memory ++
          detail.nontrivial_states
            (items.take (call opt q (.consume_n script n)).1.handed.length)) := by
  simp only [call]
  have hlen := (detail.fq_inv_length opt arena B M _ _ _ items h).1
  have hwf : BufferQueueSCSP.WF M (as_buffer_queue q) := h.2.1
  have hro : q.m_Reader.output_pos < M + 1 := hwf.2.2.2.2.1
  have hwi : q.m_Writer.input_pos < M + 1 := hwf.2.2.1
  have hM : M + 1 < 2 ^ 64 := hwf.2.1
  have hn1 : (as_buffer_queue q).m_Reader.output_pos + n < 2 ^ 64 := by
    show q.m_Reader.output_pos + n < 2 ^ 64
    omega
  obtain ⟨i1, i2, i3⟩ := BufferQueueSCSP.bq_consume_n_inv M (as_buffer_queue q) n hwf hn1
  have e1 : as_buffer_queue (consume_n opt q script n).2.2 =
      (BufferQueueSCSP.consume_n (as_buffer_queue q) n).2.2 := by
    unfold consume_n BufferQueueSCSP.consume_n as_buffer_queue
    simp only [List.length_map]
  have hnp := detail.next_pos_eq_of_no_wrap (n := n) hM hro hwi (by omega)
  have hd := ring_dist_lt hro hwi
  have hk : min n (ring_dist (M + 1) q.m_Reader.output_pos q.m_Writer.input_pos) < M + 1 := by
    omega
  have hnl := ring_wrap_lt (S := M + 1)
    (k := min n (ring_dist (M + 1) q.m_Reader.output_pos q.m_Writer.input_pos)) hro (by omega)
  have e3 := detail.invoke_all_eq opt script q.m_FunctionArray
    (ring_wrap (M + 1) (q.m_Reader.output_pos +
      min n (ring_dist (M + 1) q.m_Reader.output_pos q.m_Writer.input_pos)))
    q.m_Reader.output_pos M q.memory hlen hM hnl hro
  rw [ring_dist_wrap hro hk] at e3
  unfold Inv at h ⊢
  refine detail.fq_step_consume opt arena B M (as_buffer_queue q) _ _ q.memory _ items script
    (min n (ring_dist (M + 1) q.m_Reader.output_pos q.m_Writer.input_pos))
    _ h hs (Nat.min_le_right _ _) (by rw [e1]; exact i2) (by rw [e1]; exact i3) ?_
    (by rw [e1]; exact i1) ?_
  · show detail.next_pos q.m_Reader.output_pos q.m_Writer.input_pos q.m_FunctionArray.length n = _
    rw [hlen, hnp]
    rfl
  · unfold consume_n
    dsimp only
    rw [hlen, hnp, e3]
    rfl

end FunctionQueueSCSP
end rb

namespace rb
namespace detail
variable {S Args R : Type}

/-- The invariant of a function queue that was just built. -/
theorem fq_inv_init (opt : FQOpt) (arena B M : Nat) (hbase : 0 < arena)
    (hA : arena + B < 2 ^ 64) (hM : M + 1 < 2 ^ 64) :
    fq_inv opt arena B M (BufferQueueSCSP.mk_queue arena B M)
      (List.replicate (add_sz M 1) (none : Option (FData S Args R))) Memory.fresh [] := by
  obtain ⟨hwf, ha, hb, _⟩ := BufferQueueSCSP.mk_queue_reach_inv arena B M hA hM
  refine ⟨?_, hwf, ha, hb, hbase, ?_⟩
  · simp [BufferQueueSCSP.mk_queue, range_of]
  · have : ring_stored (List.replicate (add_sz M 1) (none : Option (FData S Args R)))
        (BufferQueueSCSP.mk_queue arena B M).m_Reader.output_pos
        (BufferQueueSCSP.mk_queue arena B M).m_Writer.input_pos = [] := by
      unfold ring_stored
      simp [BufferQueueSCSP.mk_queue, ring_dist, ring_slots]
    rw [this]
    exact List.Forall₂.nil

/-- When the queue is destroyed in a mode that destroys, the callables destroyed are the
callables accepted, in push order. -/
theorem fq_inv_final (opt : FQOpt) (arena B M : Nat) (b : BufferQueueSCSP)
    (arr : List (Option (FData S Args R))) (mem : Memory S)
    (accepted : List (CallableType S Args R × S)) (n : Nat)
    (h : fq_inv opt arena B M b arr mem (accepted.drop n)) (ho : opt ≠ FQOpt.InvokeOnce)
    (hl : nontrivial_log mem = nontrivial_states (accepted.take n)) :
    nontrivial_log (destroy_non_consumed_functions
        { buffer := arr, input_pos := b.m_Writer.input_pos,
          output_pos := b.m_Reader.output_pos } mem) = nontrivial_states accepted := by
  rw [fq_inv_destructor opt arena B M b arr mem _ h ho, hl, ← nontrivial_states_append,
    List.take_append_drop]

/-- A queue whose cursors meet holds no callable. -/
theorem fq_inv_empty (opt : FQOpt) (arena B M : Nat) (b : BufferQueueSCSP)
    (arr : List (Option (FData S Args R))) (mem : Memory S)
    (items : List (CallableType S Args R × S)) (h : fq_inv opt arena B M b arr mem items) :
    b.m_Writer.input_pos = b.m_Reader.output_pos ↔ items = [] := by
  have hl := (fq_inv_length opt arena B M b arr mem items h).2
  have hwf := h.2.1
  have hro : b.m_Reader.output_pos < M + 1 := hwf.2.2.2.2.1
  have hwi : b.m_Writer.input_pos < M + 1 := hwf.2.2.1
  rw [← List.length_eq_zero, hl, ring_dist_eq_zero hro hwi]
  exact eq_comm

end detail
end rb

namespace rb
namespace FunctionQueueSCSP
variable {S Args R : Type}

/-- Every call of `FunctionQueueSCSP` keeps the invariant and hands out the oldest callables. -/
theorem call_spec (opt : FQOpt) (arena B M : Nat) (q : FunctionQueueSCSP S Args R)
    (items : List (CallableType S Args R × S)) (c : FQCall S Args R)
    (h : Inv opt arena B M q items) (hc : c.ok opt M) :
    (call opt q c).1.handed.length ≤ items.length ∧
    (call opt q c).1.handed.map Prod.snd =
      detail.expected_values (items.take (call opt q c).1.handed.length)
        ((call opt q c).1.handed.map Prod.fst) ∧
    Inv opt arena B M (call opt q c).2
      (items.drop (call opt q c).1.handed.length ++ (call opt q c).1.accepted) ∧
    (opt ≠ FQOpt.InvokeOnce →
      detail.nontrivial_log (call opt q c).2.memory =
        detail.nontrivial_log q.memory ++
          detail.nontrivial_states (items.take (call opt q c).1.handed.length)) := by
  cases c with
  | push T s => exact push_step opt arena B M q items T s h hc
  | consume script => exact consume_step opt arena B M q items script h hc
  | consume_all script => exact consume_all_step opt arena B M q items script h hc
  | consume_n script n => exact consume_n_step opt arena B M q items script n h hc.1 hc.2

/-- Every sequence of calls of a `FunctionQueueSCSP`, from its construction on. -/
theorem run_spec (opt : FQOpt) (arena B M : Nat) (hbase : 0 < arena) (hA : arena + B < 2 ^ 64)
    (hM : M + 1 < 2 ^ 64) (calls : List (FQCall S Args R)) (hok : ∀ c ∈ calls, c.ok opt M) :
    (run opt (mk_queue arena B M) calls).1.handed.length ≤
      (run opt (mk_queue arena B M) calls).1.accepted.length ∧
    (run opt (mk_queue arena B M) calls).1.handed.map Prod.snd =
      detail.expected_values
        ((run opt (mk_queue arena B M) calls).1.accepted.take
          (run opt (mk_queue arena B M) calls).1.handed.length)
        ((run opt (mk_queue arena B M) calls).1.handed.map Prod.fst) ∧
    (empty (run opt (mk_queue arena B M) calls).2 = true →
      (run opt (mk_queue arena B M) calls).1.handed.length =
        (run opt (mk_queue arena B M) calls).1.accepted.length) ∧
    (opt ≠ FQOpt.InvokeOnce →
      detail.nontrivial_log (destructor opt (run opt (mk_queue arena B M) calls).2) =
        detail.nontrivial_states (run opt (mk_queue arena B M) calls).1.accepted) := by
  have h0 : Inv opt arena B M (mk_queue arena B M : FunctionQueueSCSP S Args R) [] := by
    have e : as_buffer_queue (mk_queue arena B M : FunctionQueueSCSP S Args R) =
        BufferQueueSCSP.mk_queue arena B M := by
      simp [as_buffer_queue, mk_queue, BufferQueueSCSP.mk_queue, detail.range_of, Buffer.nil]
    unfold Inv
    rw [e]
    exact detail.fq_inv_init opt arena B M hbase hA hM
  obtain ⟨r1, r2, r3, r4⟩ := detail.run_calls_spec opt (call opt) (Inv opt arena B M)
    (fun c => c.ok opt M) (fun q => q.memory)
    (fun q items c hi hc => call_spec opt arena B M q items c hi hc)
    calls (mk_queue arena B M) [] h0 hok
  simp only [List.nil_append] at r1 r2 r3 r4
  refine ⟨r1, r2, ?_, ?_⟩
  · intro he
    have hz := (detail.fq_inv_empty opt arena B M _ _ _ _ r3).mp
      (by simpa [empty] using he)
    have := congrArg List.length hz
    rw [List.length_drop, List.length_nil] at this
    unfold run
    omega
  · intro ho
    have r5 := r4 ho
    have hf : detail.nontrivial_log (mk_queue arena B M : FunctionQueueSCSP S Args R).memory =
        [] := rfl
    rw [hf, List.nil_append] at r5
    unfold destructor
    rw [if_pos ho]
    exact detail.fq_inv_final opt arena B M _ _ _ _ _ r3 ho r5

end FunctionQueueSCSP
end rb

namespace rb
namespace BufferQueueSCSP

/-- A reader that has consumed the `k` oldest buffers and has not looked at the writer since
leaves the slot ring well formed. -/
theorem WF_advance (M : Nat) (b b1 : BufferQueueSCSP) (k : Nat) (h : WF M b)
    (hk : k ≤ ring_dist (M + 1) b.m_Reader.output_pos b.m_Writer.input_pos)
    (hw : b1.m_Writer = b.m_Writer) (hsp : b1.m_SpliceArray = b.m_SpliceArray)
    (hr : b1.m_Reader = ⟨ring_wrap (M + 1) (b.m_Reader.output_pos + k),
      ring_wrap (M + 1) (b.m_Reader.output_pos + k)⟩) : WF M b1 := by
  obtain ⟨hlen, hN, hwi, hwo, hro, hri, hd⟩ := h
  obtain ⟨f1, f2⟩ := ring_order_facts hwo hro hri hwi (by omega)
  have hd1 := ring_dist_lt hro hwi
  have hnp := ring_wrap_lt (S := M + 1) (k := k) hro (by omega)
  have d1 := ring_dist_wrap_add (S := M + 1) (k := k) hwo hro (by omega)
  have d2 := ring_dist_wrap_sub (S := M + 1) (k := k) hro hwi hk
  refine ⟨by rw [hsp]; exact hlen, hN, by rw [hw]; exact hwi, by rw [hw]; exact hwo,
    by rw [hr]; exact hnp, by rw [hr]; exact hnp, ?_⟩
  rw [hw, hr]
  dsimp only
  rw [ring_dist_self]
  omega

end BufferQueueSCSP

namespace FunctionQueue
variable {S Args R : Type}

theorem splice_at_data (q : FunctionQueue S Args R) (i : Nat) :
    ((as_buffer_queue q).splice_at i).data = detail.obj_at q.m_FunctionRB.buffer i := by
  unfold BufferQueueSCSP.splice_at as_buffer_queue detail.obj_at
  simp only [List.get?_eq_getElem?, List.getElem?_map]
  cases q.m_FunctionRB.buffer[i]? with
  | none => rfl
  | some fd =>
    cases fd with
    | none => rfl
    | some d => rfl

/-- The bookkeeping of `set_output_pos`: the reader moves to the new position, and the writer
reclaims at once. -/
theorem set_output_pos_as_buffer_queue (q : FunctionQueue S Args R) (np : Nat) :
    as_buffer_queue (set_output_pos q np) =
      BufferQueueSCSP.sync { as_buffer_queue q with m_Reader := ⟨np, np⟩ } := by
  have hs := splice_at_data q np
  unfold as_buffer_queue set_output_pos BufferQueueSCSP.sync
  unfold as_buffer_queue at hs
  unfold BufferQueueSCSP.splice_at at hs ⊢
  dsimp only at hs ⊢
  rw [hs]

/-- A consume call of `FunctionQueue` that hands out the wrappers of the `k` oldest
descriptors. -/
theorem consume_core (opt : FQOpt) (arena B M : Nat) (q : FunctionQueue S Args R)
    (items : List (CallableType S Args R × S)) (script : List Args) (k np : Nat)
    (values : List (List (Option R))) (mem1 : detail.Memory S)
    (h : Inv opt arena B M q items) (hs : detail.script_ok opt script)
    (hk : k ≤ ring_dist (M + 1) q.m_FunctionRB.output_pos q.m_FunctionRB.input_pos)
    (hnp : np = ring_wrap (M + 1) (q.m_FunctionRB.output_pos + k))
    (hval : (values, mem1) = detail.invoke_each opt script q.m_FunctionRB.buffer
      (ring_slots (M + 1) q.m_FunctionRB.output_pos k) q.memory) :
    (detail.consume_log script values : FQLog S Args R).handed.length ≤ items.length ∧
    (detail.consume_log script values : FQLog S Args R).handed.map Prod.snd =
      detail.expected_values
        (items.take (detail.consume_log script values : FQLog S Args R).handed.length)
        ((detail.consume_log script values : FQLog S Args R).handed.map Prod.fst) ∧
    Inv opt arena B M (set_output_pos { q with memory := mem1 } np)
      (items.drop (detail.consume_log script values : FQLog S Args R).handed.length ++
        (detail.consume_log script values : FQLog S Args R).accepted) ∧
    (opt ≠ FQOpt.InvokeOnce →
      detail.nontrivial_log mem1 =
        detail.nontrivial_log q.memory ++
          detail.nontrivial_states
            (items.take (detail.consume_log script values : FQLog S Args R).handed.length)) := by
  unfold Inv at h ⊢
  have hwf : BufferQueueSCSP.WF M (as_buffer_queue q) := h.2.1
  have hwf1 := BufferQueueSCSP.WF_advance M (as_buffer_queue q)
    { as_buffer_queue q with m_Reader := ⟨np, np⟩ } k hwf hk rfl rfl (by rw [hnp]; rfl)
  obtain ⟨r1, r2, r3, r4⟩ := detail.fq_step_consume opt arena B M (as_buffer_queue q)
    { as_buffer_queue q with m_Reader := ⟨np, np⟩ } q.m_FunctionRB.buffer q.memory mem1 items
    script k values h hs hk rfl rfl hnp hwf1 hval
  refine ⟨r1, r2, ?_, r4⟩
  rw [set_output_pos_as_buffer_queue]
  exact detail.fq_inv_sync opt arena B M _ _ _ _ r3

end FunctionQueue
end rb

namespace rb
namespace FunctionQueue
variable {S Args R : Type}

/-- The step of `FunctionQueue` that is a `consume`. -/
theorem fq_consume_step (opt : FQOpt) (arena B M : Nat) (q : FunctionQueue S Args R)
    (items : List (CallableType S Args R × S)) (script : List Args)
    (h : Inv opt arena B M q items) (hs : detail.script_ok opt script) :
    (call opt q (.consume script)).1.handed.length ≤ items.length ∧
    (call opt q (.consume script)).1.handed.map Prod.snd =
      detail.expected_values (items.take (call opt q (.consume script)).1.handed.length)
        ((call opt q (.consume script)).1.handed.map Prod.fst) ∧
    Inv opt arena B M (call opt q (.consume script)).2
      (items.drop (call opt q (.consume script)).1.handed.length ++
        (call opt q (.consume script)).1.accepted) ∧
    (opt ≠ FQOpt.InvokeOnce →
      detail.nontrivial_log (call opt q (.consume script)).2.memory =
        detail.nontrivial_log q.memory ++
          detail.nontrivial_states
            (items.take (call opt q (.consume script)).1.handed.length)) := by
  simp only [call]
  have hlen := (detail.fq_inv_length opt arena B M _ _ _ items h).1
  have hwf : BufferQueueSCSP.WF M (as_buffer_queue q) := h.2.1
  have hro : q.m_FunctionRB.output_pos < M + 1 := hwf.2.2.2.2.1
  have hwi : q.m_FunctionRB.input_pos < M + 1 := hwf.2.2.1
  have hM : M + 1 < 2 ^ 64 := hwf.2.1
  unfold consume
  by_cases c : q.empty = true
  · rw [if_pos c]
    exact detail.fq_step_idle opt arena B M _ _ _ items _ h rfl rfl
  · rw [if_neg c]
    dsimp only
    have hne : q.m_FunctionRB.output_pos ≠ q.m_FunctionRB.input_pos := by
      intro e
      apply c
      simp [empty, e]
    have hd := ObjectQueueMCSP.ring_dist_pos_of_ne hro hwi hne
    have hnext : (if add_sz q.m_FunctionRB.output_pos 1 ≠ q.m_FunctionRB.buffer.length
        then add_sz q.m_FunctionRB.output_pos 1 else 0) =
        ring_wrap (M + 1) (q.m_FunctionRB.output_pos + 1) := by
      rw [add_sz_of_lt (by omega), hlen]
      simp only [ring_wrap]
      split_ifs <;> omega
    rw [hnext]
    exact consume_core opt arena B M q items script 1 _ _ _ h hs hd.1 rfl
      (by rw [detail.ring_slots_one hro]; rfl)

/-- The step of `FunctionQueue` that is a `consume_all`. -/
theorem fq_consume_all_step (opt : FQOpt) (arena B M : Nat) (q : FunctionQueue S Args R)
    (items : List (CallableType S Args R × S)) (script : List Args)
    (h : Inv opt arena B M q items) (hs : detail.script_ok opt script) :
    (call opt q (.consume_all script)).1.handed.length ≤ items.length ∧
    (call opt q (.consume_all script)).1.handed.map Prod.snd =
      detail.expected_values (items.take (call opt q (.consume_all script)).1.handed.length)
        ((call opt q (.consume_all script)).1.handed.map Prod.fst) ∧
    Inv opt arena B M (call opt q (.consume_all script)).2
      (items.drop (call opt q (.consume_all script)).1.handed.length ++
        (call opt q (.consume_all script)).1.accepted) ∧
    (opt ≠ FQOpt.InvokeOnce →
      detail.nontrivial_log (call opt q (.consume_all script)).2.memory =
        detail.nontrivial_log q.memory ++
          detail.nontrivial_states
            (items.take (call opt q (.consume_all script)).1.handed.length)) := by
  simp only [call]
  have hlen := (detail.fq_inv_length opt arena B M _ _ _ items h).1
  have hwf : BufferQueueSCSP.WF M (as_buffer_queue q) := h.2.1
  have hro : q.m_FunctionRB.output_pos < M + 1 := hwf.2.2.2.2.1
  have hwi : q.m_FunctionRB.input_pos < M + 1 := hwf.2.2.1
  have hM : M + 1 < 2 ^ 64 := hwf.2.1
  have e3 := detail.invoke_all_eq opt script q.m_FunctionRB.buffer q.m_FunctionRB.input_pos
    q.m_FunctionRB.output_pos M q.memory hlen hM hwi hro
  unfold consume_all
  dsimp only
  exact consume_core opt arena B M q items script
    (ring_dist (M + 1) q.m_FunctionRB.output_pos q.m_FunctionRB.input_pos) _ _ _ h hs
    (Nat.le_refl _) (ring_wrap_dist hro hwi).symm (by rw [e3])

/-- The step of `FunctionQueue` that is a `consume_n`. -/
theorem fq_consume_n_step (opt : FQOpt) (arena B M : Nat) (q : FunctionQueue S Args R)
    (items : List (CallableType S Args R × S)) (script : List Args) (n : Nat)
    (h : Inv opt arena B M q items) (hs : detail.script_ok opt script) (hn : n + M < 2 ^ 64) :
    (call opt q (.consume_n script n)).1.handed.length ≤ items.length ∧
    (call opt q (.consume_n script n)).1.handed.map Prod.snd =
      detail.expected_values (items.take (call opt q (.consume_n script n)).1.handed.length)
        ((call opt q (.consume_n script n)).1.handed.map Prod.fst) ∧
    Inv opt arena B M (call opt q (.consume_n script n)).2
      (items.drop (call opt q (.consume_n script n)).1.handed.length ++
        (call opt q (.consume_n script n)).1.accepted) ∧
    (opt ≠ FQOpt.InvokeOnce →
      detail.nontrivial_log (call opt q (.consume_n script n)).2.memory =
        detail.nontrivial_log q.memory ++
          detail.nontrivial_states
            (items.take (call opt q (.consume_n script n)).1.handed.length)) := by
  simp only [call]
  have hlen := (detail.fq_inv_length opt arena B M _ _ _ items h).1
  have hwf : BufferQueueSCSP.WF M (as_buffer_queue q) := h.2.1
  have hro : q.m_FunctionRB.output_pos < M + 1 := hwf.2.2.2.2.1
  have hwi : q.m_FunctionRB.input_pos < M + 1 := hwf.2.2.1
  have hM : M + 1 < 2 ^ 64 := hwf.2.1
  have hnp := detail.next_pos_eq_of_no_wrap (n := n) hM hro hwi (by omega)
  have hd := ring_dist_lt hro hwi
  have hk : min n (ring_dist (M + 1) q.m_FunctionRB.output_pos q.m_FunctionRB.input_pos) <
      M + 1 := by omega
  have hnl := ring_wrap_lt (S := M + 1)
    (k := min n (ring_dist (M + 1) q.m_FunctionRB.output_pos q.m_FunctionRB.input_pos)) hro
    (by omega)
  have e3 := detail.invoke_all_eq opt script q.m_FunctionRB.buffer
    (ring_wrap (M + 1) (q.m_FunctionRB.output_pos +
      min n (ring_dist (M + 1) q.m_FunctionRB.output_pos q.m_FunctionRB.input_pos)))
    q.m_FunctionRB.output_pos M q.memory hlen hM hnl hro
  rw [ring_dist_wrap hro hk] at e3
  unfold consume_n
  dsimp only
  rw [hlen, hnp]
  exact consume_core opt arena B M q items script
    (min n (ring_dist (M + 1) q.m_FunctionRB.output_pos q.m_FunctionRB.input_pos)) _ _ _ h hs
    (Nat.min_le_right _ _) rfl (by rw [e3])

end FunctionQueue
end rb

namespace rb
namespace FunctionQueue
variable {S Args R : Type}

/-- The bookkeeping of the state a successful `emplace` builds is that of `release`. -/
theorem fq_as_buffer_queue_emplace (opt : FQOpt) (q : FunctionQueue S Args R)
    (T : CallableType S Args R) (s : S) (ptr : Nat) :
    as_buffer_queue
      ({ m_ByteRB := { q.m_ByteRB with
          input_pos := sub_sz (detail.emplace opt T q.memory ptr s).1.next_pos
            q.m_ByteRB.buffer.data }
         m_FunctionRB := { q.m_FunctionRB with
          buffer := q.m_FunctionRB.buffer.set q.m_FunctionRB.input_pos
            (some (detail.emplace opt T q.memory ptr s).1.fd)
          input_pos :=
            if add_sz q.m_FunctionRB.input_pos 1 = q.m_FunctionRB.buffer.length then 0
            else add_sz q.m_FunctionRB.input_pos 1 }
         memory := (detail.emplace opt T q.memory ptr s).2 } : FunctionQueue S Args R) =
      (BufferQueueSCSP.release (as_buffer_queue q)
        (detail.range_of (some (detail.descriptor opt T ptr)))).2 := by
  unfold as_buffer_queue BufferQueueSCSP.release
  simp only [detail.emplace_input_pos, FunctionQueueSCSP.emplace_fd_descriptor, List.map_set,
    List.length_map, ite_not]

/-- The step of `FunctionQueue` that is a push. -/
theorem fq_push_step (opt : FQOpt) (arena B M : Nat) (q : FunctionQueue S Args R)
    (items : List (CallableType S Args R × S)) (T : CallableType S Args R) (s : S)
    (h : Inv opt arena B M q items) (hv : T.valid) :
    (call opt q (.push T s)).1.handed.length ≤ items.length ∧
    (call opt q (.push T s)).1.handed.map Prod.snd =
      detail.expected_values (items.take (call opt q (.push T s)).1.handed.length)
        ((call opt q (.push T s)).1.handed.map Prod.fst) ∧
    Inv opt arena B M (call opt q (.push T s)).2
      (items.drop (call opt q (.push T s)).1.handed.length ++
        (call opt q (.push T s)).1.accepted) ∧
    (opt ≠ FQOpt.InvokeOnce →
      detail.nontrivial_log (call opt q (.push T s)).2.memory =
        detail.nontrivial_log q.memory ++
          detail.nontrivial_states (items.take (call opt q (.push T s)).1.handed.length)) := by
  simp only [call, push]
  have hwf : BufferQueueSCSP.WF M (as_buffer_queue q) := h.2.1
  have hn := BufferQueueSCSP.bq_next_eq M (as_buffer_queue q) hwf
  have hn1 : (if add_sz q.m_FunctionRB.input_pos 1 = q.m_FunctionRB.buffer.length then 0
      else add_sz q.m_FunctionRB.input_pos 1) =
      ring_wrap (M + 1) (q.m_FunctionRB.input_pos + 1) := by
    simp only [as_buffer_queue, List.length_map, ite_not] at hn
    exact hn
  unfold emplace
  dsimp only
  by_cases c1 : (if add_sz q.m_FunctionRB.input_pos 1 = q.m_FunctionRB.buffer.length then 0
      else add_sz q.m_FunctionRB.input_pos 1) = q.m_FunctionRB.output_pos ∨
      detail.get_storage_callable T q.m_ByteRB = 0
  · rw [if_pos c1]
    exact detail.fq_step_idle opt arena B M _ _ _ items _ h rfl rfl
  · rw [if_neg c1]
    have hroom : ring_wrap (M + 1) ((as_buffer_queue q).m_Writer.input_pos + 1) ≠
        (as_buffer_queue q).m_Writer.output_pos := by
      intro e
      apply c1
      left
      rw [hn1]
      exact e
    have hptr : detail.get_storage_callable T (as_buffer_queue q).m_Writer.byte_rb ≠ 0 :=
      fun e => c1 (Or.inr e)
    have key := detail.fq_step_push opt arena B M (as_buffer_queue q) q.m_FunctionRB.buffer
      q.memory items T s h hv hroom hptr
    dsimp only
    unfold Inv
    rw [fq_as_buffer_queue_emplace, FunctionQueueSCSP.emplace_fd_descriptor]
    exact key

/-- Every call of `FunctionQueue` keeps the invariant and hands out the oldest callables. -/
theorem fq_call_spec (opt : FQOpt) (arena B M : Nat) (q : FunctionQueue S Args R)
    (items : List (CallableType S Args R × S)) (c : FQCall S Args R)
    (h : Inv opt arena B M q items) (hc : c.ok opt M) :
    (call opt q c).1.handed.length ≤ items.length ∧
    (call opt q c).1.handed.map Prod.snd =
      detail.expected_values (items.take (call opt q c).1.handed.length)
        ((call opt q c).1.handed.map Prod.fst) ∧
    Inv opt arena B M (call opt q c).2
      (items.drop (call opt q c).1.handed.length ++ (call opt q c).1.accepted) ∧
    (opt ≠ FQOpt.InvokeOnce →
      detail.nontrivial_log (call opt q c).2.memory =
        detail.nontrivial_log q.memory ++
          detail.nontrivial_states (items.take (call opt q c).1.handed.length)) := by
  cases c with
  | push T s => exact fq_push_step opt arena B M q items T s h hc
  | consume script => exact fq_consume_step opt arena B M q items script h hc
  | consume_all script => exact fq_consume_all_step opt arena B M q items script h hc
  | consume_n script n => exact fq_consume_n_step opt arena B M q items script n h hc.1 hc.2

/-- Every sequence of calls of a `FunctionQueue`, from its construction on. -/
theorem fq_run_spec (opt : FQOpt) (arena B M : Nat) (hbase : 0 < arena)
    (hA : arena + B < 2 ^ 64) (hM : M + 1 < 2 ^ 64) (calls : List (FQCall S Args R))
    (hok : ∀ c ∈ calls, c.ok opt M) :
    (run opt (mk_queue arena B M) calls).1.handed.length ≤
      (run opt (mk_queue arena B M) calls).1.accepted.length ∧
    (run opt (mk_queue arena B M) calls).1.handed.map Prod.snd =
      detail.expected_values
        ((run opt (mk_queue arena B M) calls).1.accepted.take
          (run opt (mk_queue arena B M) calls).1.handed.length)
        ((run opt (mk_queue arena B M) calls).1.handed.map Prod.fst) ∧
    (empty (run opt (mk_queue arena B M) calls).2 = true →
      (run opt (mk_queue arena B M) calls).1.handed.length =
        (run opt (mk_queue arena B M) calls).1.accepted.length) ∧
    (opt ≠ FQOpt.InvokeOnce →
      detail.nontrivial_log (destructor opt (run opt (mk_queue arena B M) calls).2) =
        detail.nontrivial_states (run opt (mk_queue arena B M) calls).1.accepted) := by
  have h0 : Inv opt arena B M (mk_queue arena B M : FunctionQueue S Args R) [] := by
    have e : as_buffer_queue (mk_queue arena B M : FunctionQueue S Args R) =
        BufferQueueSCSP.mk_queue arena B M := by
      simp [as_buffer_queue, mk_queue, BufferQueueSCSP.mk_queue, detail.range_of, Buffer.nil]
    unfold Inv
    rw [e]
    exact detail.fq_inv_init opt arena B M hbase hA hM
  obtain ⟨r1, r2, r3, r4⟩ := detail.run_calls_spec opt (call opt) (Inv opt arena B M)
    (fun c => c.ok opt M) (fun q => q.memory)
    (fun q items c hi hc => fq_call_spec opt arena B M q items c hi hc)
    calls (mk_queue arena B M) [] h0 hok
  simp only [List.nil_append] at r1 r2 r3 r4
  refine ⟨r1, r2, ?_, ?_⟩
  · intro he
    have hz := (detail.fq_inv_empty opt arena B M _ _ _ _ r3).mp
      (by simpa [empty] using he)
    have := congrArg List.length hz
    rw [List.length_drop, List.length_nil] at this
    unfold run
    omega
  · intro ho
    have r5 := r4 ho
    have hf : detail.nontrivial_log (mk_queue arena B M : FunctionQueue S Args R).memory =
        [] := rfl
    rw [hf, List.nil_append] at r5
    unfold destructor
    rw [if_pos ho]
    exact detail.fq_inv_final opt arena B M _ _ _ _ _ r3 ho r5

end FunctionQueue
end rb

namespace rb
namespace ObjectQueueMCSP
variable {Obj : Type}

/-- Well-formedness looks at the cursors, the position array and the number of slots only. -/
theorem WF_congr {Obj1 : Type} (N : Nat) (q : ObjectQueueMCSP Obj) (q1 : ObjectQueueMCSP Obj1)
    (h : WF N q) (hw : q1.m_Writer = q.m_Writer) (ho : q1.m_OutputPos = q.m_OutputPos)
    (hp : q1.m_PositionArray = q.m_PositionArray) (hl : q1.m_Buffer.length = N + 1) :
    WF N q1 := by
  unfold WF ring_order at h ⊢
  obtain ⟨hlen, hN, hi, hov, hc, htag, hpos, hord1, hord2⟩ := h
  rw [hw, ho, hp, hl]
  rw [hlen] at hord1 hord2
  exact ⟨rfl, hN, hi, hov, hc, htag, hpos, hord1, hord2⟩

end ObjectQueueMCSP

namespace FunctionQueueMCSP
variable {S Args R : Type}

theorem mcsp_splice_at_data (q : FunctionQueueMCSP S Args R) (i : Nat) :
    ((as_buffer_queue q).splice_at i).data = detail.obj_at q.m_FunctionArray i := by
  unfold BufferQueueSCSP.splice_at as_buffer_queue detail.obj_at
  simp only [List.get?_eq_getElem?, List.getElem?_map]
  cases q.m_FunctionArray[i]? with
  | none => rfl
  | some fd =>
    cases fd with
    | none => rfl
    | some d => rfl

/-- The bookkeeping of `sync`: the writer reclaims up to the position `detail::sync` finds. -/
theorem mcsp_sync_as_buffer_queue (q : FunctionQueueMCSP S Args R) :
    as_buffer_queue (sync q) =
      { BufferQueueSCSP.sync { as_buffer_queue q with
          m_Reader := ⟨detail.sync tb q.m_Writer.output_pos q.m_PositionArray q.m_OutputPos,
            detail.sync tb q.m_Writer.output_pos q.m_PositionArray q.m_OutputPos⟩ } with
        m_Reader := (as_buffer_queue q).m_Reader } := by
  have hs := mcsp_splice_at_data q
    (detail.sync tb q.m_Writer.output_pos q.m_PositionArray q.m_OutputPos)
  unfold as_buffer_queue sync BufferQueueSCSP.sync
  unfold as_buffer_queue at hs
  unfold BufferQueueSCSP.splice_at at hs ⊢
  dsimp only at hs ⊢
  rw [hs]

/-- The invariant of `FunctionQueueMCSP` is kept by `sync`. -/
theorem mcsp_sync_Inv (opt : FQOpt) (arena B M : Nat) (q : FunctionQueueMCSP S Args R)
    (items : List (CallableType S Args R × S)) (h : Inv opt arena B M q items) :
    Inv opt arena B M (sync q) items := by
  obtain ⟨⟨hsplice, hwf, ha, hb, hbase, hf⟩, hm⟩ := h
  have hm1 := ObjectQueueMCSP.mcsp_sync_WF M (as_object_queue q) hm
  refine ⟨?_, hm1⟩
  obtain ⟨hlen, hN, hi, ho, hc, htag, hpos, hord1, hord2⟩ := hm
  rw [hlen] at hord1 hord2
  dsimp only [as_object_queue, ObjectQueueMCSP.tb] at hlen hN hi ho hc htag hpos hord1 hord2
  obtain ⟨s1, s2, s3⟩ := detail.sync_between (M + 1) q.m_Writer.output_pos q.m_OutputPos
    q.m_PositionArray hN hc ho hpos hord1
  have t0 := ring_dist_split hc s1 ho s2
  have t1 := ring_dist_split hc ho hi hord2
  have t2 := ring_dist_split hc s1 hi (by omega)
  have l1 := ring_dist_lt hc hi
  have hM : M + 1 < 2 ^ 64 := hwf.2.1
  rw [mcsp_sync_as_buffer_queue]
  generalize hp : detail.sync tb q.m_Writer.output_pos q.m_PositionArray q.m_OutputPos = p at *
  have hwfp : BufferQueueSCSP.WF M { as_buffer_queue q with m_Reader := ⟨p, p⟩ } := by
    refine ⟨hwf.1, hM, hi, hc, s1, s1, ?_⟩
    dsimp only [as_buffer_queue, as_object_queue, tb] at *
    rw [ring_dist_self]
    omega
  have hap : BufferQueueSCSP.arena_inv { as_buffer_queue q with m_Reader := ⟨p, p⟩ } :=
    (BufferQueueSCSP.writer_view (as_buffer_queue q) _ rfl rfl).1 ha
  have hsync := BufferQueueSCSP.sync_arena_inv M _ hwfp hap
  refine ⟨hsplice, ?_, (BufferQueueSCSP.writer_view _ _ rfl rfl).1 hsync, hb, hbase, hf⟩
  refine ⟨hwf.1, hM, hi, s1, ho, ho, ?_⟩
  dsimp only [as_buffer_queue, as_object_queue, BufferQueueSCSP.sync, tb] at *
  rw [ring_dist_self]
  omega

end FunctionQueueMCSP
end rb

namespace rb
namespace FunctionQueueMCSP
variable {S Args R : Type}

/-- The ways `emplace` can go. -/
theorem mcsp_emplace_cases (opt : FQOpt) (q : FunctionQueueMCSP S Args R)
    (T : CallableType S Args R) (s : S) :
    emplace opt q T s = (false, sync q) ∨
    ∃ q1, (q1 = q ∨ q1 = sync q) ∧
      (if add_sz (detail.value tb q1.m_Writer.input_pos) 1 ≠ q1.m_FunctionArray.length
        then add_sz (detail.value tb q1.m_Writer.input_pos) 1 else 0) ≠ q1.m_Writer.output_pos ∧
      detail.get_storage_callable T q1.m_Writer.byte_rb ≠ 0 ∧
      emplace opt q T s =
        (true,
          { q1 with
            m_FunctionArray := q1.m_FunctionArray.set (detail.value tb q1.m_Writer.input_pos)
              (some (detail.emplace opt T q1.memory
                (detail.get_storage_callable T q1.m_Writer.byte_rb) s).1.fd)
            memory := (detail.emplace opt T q1.memory
              (detail.get_storage_callable T q1.m_Writer.byte_rb) s).2
            m_OutputPos := (detail.publish tb q1.m_Writer.input_pos
              (if add_sz (detail.value tb q1.m_Writer.input_pos) 1 ≠ q1.m_FunctionArray.length
                then add_sz (detail.value tb q1.m_Writer.input_pos) 1 else 0) q1.m_OutputPos).2
            m_Writer := { q1.m_Writer with
              input_pos := (detail.publish tb q1.m_Writer.input_pos
                (if add_sz (detail.value tb q1.m_Writer.input_pos) 1 ≠ q1.m_FunctionArray.length
                  then add_sz (detail.value tb q1.m_Writer.input_pos) 1 else 0)
                q1.m_OutputPos).1
              byte_rb := { q1.m_Writer.byte_rb with
                input_pos := sub_sz (detail.emplace opt T q1.memory
                  (detail.get_storage_callable T q1.m_Writer.byte_rb) s).1.next_pos
                  q1.m_Writer.byte_rb.buffer.data } } }) := by
  unfold emplace
  dsimp only
  by_cases c1 : (if add_sz (detail.value tb q.m_Writer.input_pos) 1 ≠ q.m_FunctionArray.length
      then add_sz (detail.value tb q.m_Writer.input_pos) 1 else 0) = q.m_Writer.output_pos ∨
      detail.get_storage_callable T q.m_Writer.byte_rb = 0
  · rw [if_pos c1]
    by_cases c2 : (if add_sz (detail.value tb q.m_Writer.input_pos) 1 ≠ q.m_FunctionArray.length
        then add_sz (detail.value tb q.m_Writer.input_pos) 1 else 0) =
        (sync q).m_Writer.output_pos ∨
        detail.get_storage_callable T (sync q).m_Writer.byte_rb = 0
    · rw [if_pos c2]
      exact Or.inl rfl
    · rw [if_neg c2]
      exact Or.inr ⟨sync q, Or.inr rfl, fun e => c2 (Or.inl e), fun e => c2 (Or.inr e), rfl⟩
  · rw [if_neg c1]
    exact Or.inr ⟨q, Or.inl rfl, fun e => c1 (Or.inl e), fun e => c1 (Or.inr e), rfl⟩

/-- The step of `FunctionQueueMCSP` that is a push. -/
theorem mcsp_push_step (opt : FQOpt) (arena B M : Nat) (q : FunctionQueueMCSP S Args R)
    (items : List (CallableType S Args R × S)) (T : CallableType S Args R) (s : S)
    (h : Inv opt arena B M q items) (hv : T.valid) :
    (step opt q (.push T s)).1.handed.length ≤ items.length ∧
    (step opt q (.push T s)).1.handed.map Prod.snd =
      detail.expected_values (items.take (step opt q (.push T s)).1.handed.length)
        ((step opt q (.push T s)).1.handed.map Prod.fst) ∧
    Inv opt arena B M (step opt q (.push T s)).2
      (items.drop (step opt q (.push T s)).1.handed.length ++
        (step opt q (.push T s)).1.accepted) ∧
    (opt ≠ FQOpt.InvokeOnce →
      detail.nontrivial_log (step opt q (.push T s)).2.memory =
        detail.nontrivial_log q.memory ++
          detail.nontrivial_states (items.take (step opt q (.push T s)).1.handed.length)) := by
  simp only [step, push]
  rcases mcsp_emplace_cases opt q T s with e | ⟨q1, hq1, hroom, hptr, e⟩
  · rw [e]
    have hs := mcsp_sync_Inv opt arena B M q items h
    obtain ⟨k1, k2, k3, k4⟩ := detail.fq_step_idle opt arena B M _ _ _ items
      (detail.push_log T s false) hs.1 rfl rfl
    exact ⟨k1, k2, ⟨k3, hs.2⟩, k4⟩
  · have h1 : Inv opt arena B M q1 items := by
      rcases hq1 with rfl | rfl
      · exact h
      · exact mcsp_sync_Inv opt arena B M q items h
    have hm : detail.nontrivial_log q1.memory = detail.nontrivial_log q.memory := by
      rcases hq1 with rfl | rfl <;> rfl
    obtain ⟨hfq, hmw⟩ := h1
    have hmw0 := hmw
    obtain ⟨hlen, hN, hi, ho, hc, htag, hpos, hord1, hord2⟩ := hmw
    dsimp only [as_object_queue, ObjectQueueMCSP.tb] at hlen hN hi ho hc htag hpos
    have hnext : (if add_sz (detail.value tb q1.m_Writer.input_pos) 1 ≠ q1.m_FunctionArray.length
        then add_sz (detail.value tb q1.m_Writer.input_pos) 1 else 0) =
        ring_wrap (M + 1) (detail.value tb q1.m_Writer.input_pos + 1) := by
      rw [add_sz_of_lt (by simp only [tb]; omega), hlen]
      simp only [ring_wrap, tb]
      split_ifs <;> omega
    rw [hnext] at hroom e
    have hw1 := ring_wrap_lt (S := M + 1) (k := 1) hi (by omega)
    obtain ⟨p1, p2, p3⟩ := @ObjectQueueMCSP.detail.publish_spec q1.m_Writer.input_pos q1.m_OutputPos
      (ring_wrap (M + 1) (detail.value 16 q1.m_Writer.input_pos + 1)) (by omega) htag
    have key := detail.fq_step_push opt arena B M (as_buffer_queue q1) q1.m_FunctionArray
      q1.memory items T s hfq hv hroom hptr
    have hpub := (ObjectQueueMCSP.mcsp_publish_WF M (as_object_queue q1)
      (detail.emplace opt T q1.memory
        (detail.get_storage_callable T q1.m_Writer.byte_rb) s).1.fd hmw0 hroom).1
    have hn2 := BufferQueueSCSP.bq_next_eq M (as_buffer_queue q1) hfq.2.1
    rw [e]
    dsimp only
    obtain ⟨k1, k2, k3, k4⟩ := key
    rw [← hm]
    refine ⟨k1, k2, ⟨?_, hpub⟩, k4⟩
    have hsh : as_buffer_queue
        ({ q1 with
          m_FunctionArray := q1.m_FunctionArray.set (detail.value tb q1.m_Writer.input_pos)
            (some (detail.emplace opt T q1.memory
              (detail.get_storage_callable T q1.m_Writer.byte_rb) s).1.fd)
          memory := (detail.emplace opt T q1.memory
            (detail.get_storage_callable T q1.m_Writer.byte_rb) s).2
          m_OutputPos := (detail.publish tb q1.m_Writer.input_pos
            (ring_wrap (M + 1) (detail.value tb q1.m_Writer.input_pos + 1)) q1.m_OutputPos).2
          m_Writer := { q1.m_Writer with
            input_pos := (detail.publish tb q1.m_Writer.input_pos
              (ring_wrap (M + 1) (detail.value tb q1.m_Writer.input_pos + 1))
              q1.m_OutputPos).1
            byte_rb := { q1.m_Writer.byte_rb with
              input_pos := sub_sz (detail.emplace opt T q1.memory
                (detail.get_storage_callable T q1.m_Writer.byte_rb) s).1.next_pos
                q1.m_Writer.byte_rb.buffer.data } } } : FunctionQueueMCSP S Args R) =
        (BufferQueueSCSP.release (as_buffer_queue q1)
          (detail.range_of (some (detail.descriptor opt T
            (detail.get_storage_callable T q1.m_Writer.byte_rb))))).2 := by
      simp only [as_buffer_queue, List.length_map, tb] at hn2
      unfold BufferQueueSCSP.release as_buffer_queue
      simp only [detail.emplace_input_pos, FunctionQueueSCSP.emplace_fd_descriptor,
        List.map_set, List.length_map, tb, p1, p2, hn2]
    rw [hsh, FunctionQueueSCSP.emplace_fd_descriptor]
    exact k3

end FunctionQueueMCSP
end rb

namespace rb
namespace FunctionQueueMCSP
variable {S Args R : Type}

theorem as_object_queue_consume (opt : FQOpt) (q : FunctionQueueMCSP S Args R) (i : Nat)
    (c rel : Bool) (script : List Args) :
    (as_object_queue (consume opt q i c rel script).2.2).m_Writer =
      (ObjectQueueMCSP.consume (as_object_queue q) i c rel).2.2.m_Writer ∧
    (as_object_queue (consume opt q i c rel script).2.2).m_OutputPos =
      (ObjectQueueMCSP.consume (as_object_queue q) i c rel).2.2.m_OutputPos ∧
    (as_object_queue (consume opt q i c rel script).2.2).m_PositionArray =
      (ObjectQueueMCSP.consume (as_object_queue q) i c rel).2.2.m_PositionArray ∧
    (consume opt q i c rel script).2.2.m_FunctionArray = q.m_FunctionArray := by
  unfold consume ObjectQueueMCSP.consume as_object_queue
  dsimp only [tb, ObjectQueueMCSP.tb]
  cases (detail.reserve_one c 16 q.m_OutputPos q.m_Writer.input_pos q.m_FunctionArray.length).1 with
  | none => exact ⟨rfl, rfl, rfl, rfl⟩
  | some rp => exact ⟨rfl, rfl, rfl, rfl⟩

theorem as_object_queue_consume_all (opt : FQOpt) (q : FunctionQueueMCSP S Args R) (i : Nat)
    (c : Bool) (script : List Args) :
    (as_object_queue (consume_all opt q i c script).2.2).m_Writer =
      (ObjectQueueMCSP.consume_all (as_object_queue q) i c).2.2.m_Writer ∧
    (as_object_queue (consume_all opt q i c script).2.2).m_OutputPos =
      (ObjectQueueMCSP.consume_all (as_object_queue q) i c).2.2.m_OutputPos ∧
    (as_object_queue (consume_all opt q i c script).2.2).m_PositionArray =
      (ObjectQueueMCSP.consume_all (as_object_queue q) i c).2.2.m_PositionArray ∧
    (consume_all opt q i c script).2.2.m_FunctionArray = q.m_FunctionArray := by
  unfold consume_all ObjectQueueMCSP.consume_all as_object_queue
  dsimp only [tb, ObjectQueueMCSP.tb]
  cases (detail.reserve_all c 16 q.m_OutputPos q.m_Writer.input_pos).1 with
  | none => exact ⟨rfl, rfl, rfl, rfl⟩
  | some rp => exact ⟨rfl, rfl, rfl, rfl⟩

theorem as_object_queue_consume_n (opt : FQOpt) (q : FunctionQueueMCSP S Args R) (i n : Nat)
    (c rel : Bool) (script : List Args) :
    (as_object_queue (consume_n opt q i n c rel script).2.2).m_Writer =
      (ObjectQueueMCSP.consume_n (as_object_queue q) i n c rel).2.2.m_Writer ∧
    (as_object_queue (consume_n opt q i n c rel script).2.2).m_OutputPos =
      (ObjectQueueMCSP.consume_n (as_object_queue q) i n c rel).2.2.m_OutputPos ∧
    (as_object_queue (consume_n opt q i n c rel script).2.2).m_PositionArray =
      (ObjectQueueMCSP.consume_n (as_object_queue q) i n c rel).2.2.m_PositionArray ∧
    (consume_n opt q i n c rel script).2.2.m_FunctionArray = q.m_FunctionArray := by
  unfold consume_n ObjectQueueMCSP.consume_n as_object_queue
  dsimp only [tb, ObjectQueueMCSP.tb]
  cases (detail.reserve_n c 16 q.m_OutputPos q.m_Writer.input_pos q.m_FunctionArray.length n).1 with
  | none => exact ⟨rfl, rfl, rfl, rfl⟩
  | some rp => exact ⟨rfl, rfl, rfl, rfl⟩


/-- A consume call of `FunctionQueueMCSP` that hands out the wrappers of the `k` oldest
descriptors. -/
theorem mcsp_consume_core (opt : FQOpt) (arena B M : Nat) (q q1 : FunctionQueueMCSP S Args R)
    (items : List (CallableType S Args R × S)) (script : List Args) (k : Nat)
    (values : List (List (Option R)))
    (h : Inv opt arena B M q items) (hs : detail.script_ok opt script)
    (hk : k ≤ ring_dist (M + 1) (detail.value tb q.m_OutputPos)
      (detail.value tb q.m_Writer.input_pos))
    (hw : q1.m_Writer = q.m_Writer) (harr : q1.m_FunctionArray = q.m_FunctionArray)
    (hv : detail.value tb q1.m_OutputPos =
      ring_wrap (M + 1) (detail.value tb q.m_OutputPos + k))
    (hwf : ObjectQueueMCSP.WF M (as_object_queue q1))
    (hval : (values, q1.memory) = detail.invoke_each opt script q.m_FunctionArray
      (ring_slots (M + 1) (detail.value tb q.m_OutputPos) k) q.memory) :
    (detail.consume_log script values : FQLog S Args R).handed.length ≤ items.length ∧
    (detail.consume_log script values : FQLog S Args R).handed.map Prod.snd =
      detail.expected_values
        (items.take (detail.consume_log script values : FQLog S Args R).handed.length)
        ((detail.consume_log script values : FQLog S Args R).handed.map Prod.fst) ∧
    Inv opt arena B M q1
      (items.drop (detail.consume_log script values : FQLog S Args R).handed.length ++
        (detail.consume_log script values : FQLog S Args R).accepted) ∧
    (opt ≠ FQOpt.InvokeOnce →
      detail.nontrivial_log q1.memory =
        detail.nontrivial_log q.memory ++
          detail.nontrivial_states
            (items.take (detail.consume_log script values : FQLog S Args R).handed.length)) := by
  obtain ⟨hfq, _⟩ := h
  have hwfb : BufferQueueSCSP.WF M (as_buffer_queue q) := hfq.2.1
  have e1 : (as_buffer_queue q1).m_Writer = (as_buffer_queue q).m_Writer := by
    unfold as_buffer_queue
    rw [hw]
  have e2 : (as_buffer_queue q1).m_SpliceArray = (as_buffer_queue q).m_SpliceArray := by
    unfold as_buffer_queue
    rw [harr]
  have e3 : (as_buffer_queue q1).m_Reader =
      ⟨ring_wrap (M + 1) ((as_buffer_queue q).m_Reader.output_pos + k),
        ring_wrap (M + 1) ((as_buffer_queue q).m_Reader.output_pos + k)⟩ := by
    unfold as_buffer_queue
    dsimp only
    rw [hv]
  have hwf1 := BufferQueueSCSP.WF_advance M (as_buffer_queue q) (as_buffer_queue q1) k hwfb hk
    e1 e2 e3
  obtain ⟨r1, r2, r3, r4⟩ := detail.fq_step_consume opt arena B M (as_buffer_queue q)
    (as_buffer_queue q1) q.m_FunctionArray q.memory q1.memory items script k values hfq hs hk
    e1 e2 (by rw [e3]) hwf1 hval
  refine ⟨r1, r2, ⟨?_, hwf⟩, r4⟩
  rw [harr]
  exact r3

end FunctionQueueMCSP
end rb

namespace rb
namespace FunctionQueueMCSP
variable {S Args R : Type}

/-- A reader that reserves the `k` oldest slots leaves the cursors well formed. -/
theorem mcsp_advance_WF (M : Nat) (q q1 : FunctionQueueMCSP S Args R) (k : Nat)
    (h : ObjectQueueMCSP.WF M (as_object_queue q))
    (hk : k ≤ ring_dist (M + 1) (detail.value tb q.m_OutputPos)
      (detail.value tb q.m_Writer.input_pos))
    (hw : q1.m_Writer = q.m_Writer) (harr : q1.m_FunctionArray = q.m_FunctionArray)
    (hv : detail.value tb q1.m_OutputPos =
      ring_wrap (M + 1) (detail.value tb q.m_OutputPos + k))
    (ht : detail.tag tb q1.m_OutputPos ≤ detail.tag tb q.m_Writer.input_pos)
    (hp : q1.m_PositionArray = q.m_PositionArray ∨ ∃ idx, q1.m_PositionArray =
      q.m_PositionArray.set idx (ring_wrap (M + 1) (detail.value tb q.m_OutputPos + k))) :
    ObjectQueueMCSP.WF M (as_object_queue q1) := by
  have hlen : q.m_FunctionArray.length = M + 1 := h.1
  have key := (ObjectQueueMCSP.advance_spec M (as_object_queue q)
    { as_object_queue q1 with
      m_Buffer := (detail.invoke_and_destroy_each
        (ring_slots (M + 1) (detail.value tb q.m_OutputPos) k) q.m_FunctionArray).2 }
    k h hk (by simp only [as_object_queue, hw]) hv ht rfl hp).1
  exact ObjectQueueMCSP.WF_congr M _ _ key rfl rfl rfl (by
    show q1.m_FunctionArray.length = M + 1
    rw [harr]; exact hlen)

/-- The step of `FunctionQueueMCSP` that is a `consume`. -/
theorem mcsp_consume_step (opt : FQOpt) (arena B M : Nat) (q : FunctionQueueMCSP S Args R)
    (items : List (CallableType S Args R × S)) (i : Nat) (c rel : Bool) (script : List Args)
    (h : Inv opt arena B M q items) (hs : detail.script_ok opt script) :
    (step opt q (.consume i c rel script)).1.handed.length ≤ items.length ∧
    (step opt q (.consume i c rel script)).1.handed.map Prod.snd =
      detail.expected_values
        (items.take (step opt q (.consume i c rel script)).1.handed.length)
        ((step opt q (.consume i c rel script)).1.handed.map Prod.fst) ∧
    Inv opt arena B M (step opt q (.consume i c rel script)).2
      (items.drop (step opt q (.consume i c rel script)).1.handed.length ++
        (step opt q (.consume i c rel script)).1.accepted) ∧
    (opt ≠ FQOpt.InvokeOnce →
      detail.nontrivial_log (step opt q (.consume i c rel script)).2.memory =
        detail.nontrivial_log q.memory ++
          detail.nontrivial_states
            (items.take (step opt q (.consume i c rel script)).1.handed.length)) := by
  simp only [step]
  have hmw := h.2
  obtain ⟨a1, a2, a3, a4⟩ := as_object_queue_consume opt q i c rel script
  have hw := (ObjectQueueMCSP.mcsp_consume_spec M (as_object_queue q) i c rel hmw).1
  obtain ⟨hlen, hN, hi, ho, hc, htag, hpos, hord1, hord2⟩ := hmw
  dsimp only [as_object_queue, ObjectQueueMCSP.tb] at hlen hN hi ho hc htag hpos
  have hwf1 : ObjectQueueMCSP.WF M (as_object_queue (consume opt q i c rel script).2.2) :=
    ObjectQueueMCSP.WF_congr M _ _ hw a1 a2 a3 (by
      show (consume opt q i c rel script).2.2.m_FunctionArray.length = M + 1
      rw [a4]; exact hlen)
  by_cases he : detail.empty 16 q.m_OutputPos q.m_Writer.input_pos = true
  · have e : consume opt q i c rel script = (false, [], q) := by
      unfold consume
      rw [detail.reserve_one_eq, if_pos he]
    rw [e]
    obtain ⟨k1, k2, k3, k4⟩ := detail.fq_step_idle opt arena B M _ _ _ items
      (detail.consume_log script ([] : List (List (Option R)))) h.1 rfl rfl
    exact ⟨k1, k2, ⟨k3, h.2⟩, k4⟩
  · have hne : detail.value 16 q.m_OutputPos ≠ detail.value 16 q.m_Writer.input_pos :=
      fun e => he ((detail.empty_iff htag).mpr e)
    have hd := ObjectQueueMCSP.ring_dist_pos_of_ne ho hi hne
    have hnext : (if add_sz (detail.value 16 q.m_OutputPos) 1 = q.m_FunctionArray.length then 0
        else add_sz (detail.value 16 q.m_OutputPos) 1) =
        ring_wrap (M + 1) (detail.value 16 q.m_OutputPos + 1) := by
      rw [add_sz_of_lt (by omega), hlen]
      simp only [ring_wrap]
      split_ifs <;> omega
    have hw1 := ring_wrap_lt (S := M + 1) (k := 1) ho (by omega)
    have hst := (@ObjectQueueMCSP.same_tagged_value_tag q.m_Writer.input_pos
      (ring_wrap (M + 1) (detail.value 16 q.m_OutputPos + 1)) (by omega)).1
    have e : consume opt q i c rel script =
        (true, [(detail.invoke opt script
            ((q.m_FunctionArray.get? (detail.value 16 q.m_OutputPos)).getD none) q.memory).1],
          { q with
            m_OutputPos := detail.same_tagged 16 q.m_Writer.input_pos
              (ring_wrap (M + 1) (detail.value 16 q.m_OutputPos + 1))
            memory := (detail.invoke opt script
              ((q.m_FunctionArray.get? (detail.value 16 q.m_OutputPos)).getD none) q.memory).2
            m_PositionArray :=
              if rel then q.m_PositionArray.set i
                (ring_wrap (M + 1) (detail.value 16 q.m_OutputPos + 1))
              else q.m_PositionArray }) := by
      unfold consume
      rw [detail.reserve_one_eq, if_neg he, hnext]
    rw [e] at hwf1 ⊢
    exact mcsp_consume_core opt arena B M q _ items script 1 _ h hs hd.1 rfl rfl hst hwf1
      (by rw [detail.ring_slots_one ho]; rfl)

/-- The step of `FunctionQueueMCSP` that is a `consume_all`. -/
theorem mcsp_consume_all_step (opt : FQOpt) (arena B M : Nat) (q : FunctionQueueMCSP S Args R)
    (items : List (CallableType S Args R × S)) (i : Nat) (c : Bool) (script : List Args)
    (h : Inv opt arena B M q items) (hs : detail.script_ok opt script) :
    (step opt q (.consume_all i c script)).1.handed.length ≤ items.length ∧
    (step opt q (.consume_all i c script)).1.handed.map Prod.snd =
      detail.expected_values
        (items.take (step opt q (.consume_all i c script)).1.handed.length)
        ((step opt q (.consume_all i c script)).1.handed.map Prod.fst) ∧
    Inv opt arena B M (step opt q (.consume_all i c script)).2
      (items.drop (step opt q (.consume_all i c script)).1.handed.length ++
        (step opt q (.consume_all i c script)).1.accepted) ∧
    (opt ≠ FQOpt.InvokeOnce →
      detail.nontrivial_log (step opt q (.consume_all i c script)).2.memory =
        detail.nontrivial_log q.memory ++
          detail.nontrivial_states
            (items.take (step opt q (.consume_all i c script)).1.handed.length)) := by
  simp only [step]
  have hmw := h.2
  obtain ⟨a1, a2, a3, a4⟩ := as_object_queue_consume_all opt q i c script
  have hw := (ObjectQueueMCSP.mcsp_consume_all_spec M (as_object_queue q) i c hmw).1
  obtain ⟨hlen, hN, hi, ho, hc, htag, hpos, hord1, hord2⟩ := hmw
  dsimp only [as_object_queue, ObjectQueueMCSP.tb] at hlen hN hi ho hc htag hpos
  have hwf1 : ObjectQueueMCSP.WF M (as_object_queue (consume_all opt q i c script).2.2) :=
    ObjectQueueMCSP.WF_congr M _ _ hw a1 a2 a3 (by
      show (consume_all opt q i c script).2.2.m_FunctionArray.length = M + 1
      rw [a4]; exact hlen)
  by_cases he : detail.empty 16 q.m_OutputPos q.m_Writer.input_pos = true
  · have e : consume_all opt q i c script = (0, [], q) := by
      unfold consume_all
      rw [detail.reserve_all_eq, if_pos he]
    rw [e]
    obtain ⟨k1, k2, k3, k4⟩ := detail.fq_step_idle opt arena B M _ _ _ items
      (detail.consume_log script ([] : List (List (Option R)))) h.1 rfl rfl
    exact ⟨k1, k2, ⟨k3, h.2⟩, k4⟩
  · have e3 := detail.invoke_all_eq opt script q.m_FunctionArray
      (detail.value 16 q.m_Writer.input_pos) (detail.value 16 q.m_OutputPos) M q.memory hlen
      (by omega) hi ho
    have e : consume_all opt q i c script =
        (ring_dist (M + 1) (detail.value 16 q.m_OutputPos)
            (detail.value 16 q.m_Writer.input_pos),
          (detail.invoke_each opt script q.m_FunctionArray
            (ring_slots (M + 1) (detail.value 16 q.m_OutputPos)
              (ring_dist (M + 1) (detail.value 16 q.m_OutputPos)
                (detail.value 16 q.m_Writer.input_pos))) q.memory).1,
          { q with
            m_OutputPos := q.m_Writer.input_pos
            memory := (detail.invoke_each opt script q.m_FunctionArray
              (ring_slots (M + 1) (detail.value 16 q.m_OutputPos)
                (ring_dist (M + 1) (detail.value 16 q.m_OutputPos)
                  (detail.value 16 q.m_Writer.input_pos))) q.memory).2 }) := by
      unfold consume_all
      rw [detail.reserve_all_eq, if_neg he]
      dsimp only
      rw [e3]
    rw [e] at hwf1 ⊢
    exact mcsp_consume_core opt arena B M q _ items script _ _ h hs (Nat.le_refl _) rfl rfl
      (ring_wrap_dist ho hi).symm hwf1 rfl

/-- The step of `FunctionQueueMCSP` that is a `consume_n`. -/
theorem mcsp_consume_n_step (opt : FQOpt) (arena B M : Nat) (q : FunctionQueueMCSP S Args R)
    (items : List (CallableType S Args R × S)) (i n : Nat) (c rel : Bool) (script : List Args)
    (h : Inv opt arena B M q items) (hs : detail.script_ok opt script)
    (hn : n + M < 2 ^ 64) :
    (step opt q (.consume_n i n c rel script)).1.handed.length ≤ items.length ∧
    (step opt q (.consume_n i n c rel script)).1.handed.map Prod.snd =
      detail.expected_values
        (items.take (step opt q (.consume_n i n c rel script)).1.handed.length)
        ((step opt q (.consume_n i n c rel script)).1.handed.map Prod.fst) ∧
    Inv opt arena B M (step opt q (.consume_n i n c rel script)).2
      (items.drop (step opt q (.consume_n i n c rel script)).1.handed.length ++
        (step opt q (.consume_n i n c rel script)).1.accepted) ∧
    (opt ≠ FQOpt.InvokeOnce →
      detail.nontrivial_log (step opt q (.consume_n i n c rel script)).2.memory =
        detail.nontrivial_log q.memory ++
          detail.nontrivial_states
            (items.take (step opt q (.consume_n i n c rel script)).1.handed.length)) := by
  simp only [step]
  have hmw := h.2
  obtain ⟨hlen, hN, hi, ho, hc, htag, hpos, hord1, hord2⟩ := hmw
  dsimp only [as_object_queue, ObjectQueueMCSP.tb] at hlen hN hi ho hc htag hpos
  by_cases he : detail.empty 16 q.m_OutputPos q.m_Writer.input_pos = true
  · have e : consume_n opt q i n c rel script = (0, [], q) := by
      unfold consume_n
      rw [detail.reserve_n_eq, if_pos he]
    rw [e]
    obtain ⟨k1, k2, k3, k4⟩ := detail.fq_step_idle opt arena B M _ _ _ items
      (detail.consume_log script ([] : List (List (Option R)))) h.1 rfl rfl
    exact ⟨k1, k2, ⟨k3, h.2⟩, k4⟩
  · have hnp := detail.next_pos_eq_of_no_wrap (n := n) (by omega : M + 1 < 2 ^ 64) ho hi
      (by omega)
    have hd := ring_dist_lt ho hi
    have hk : min n (ring_dist (M + 1) (detail.value 16 q.m_OutputPos)
        (detail.value 16 q.m_Writer.input_pos)) < M + 1 := by omega
    have hnl := ring_wrap_lt (S := M + 1)
      (k := min n (ring_dist (M + 1) (detail.value 16 q.m_OutputPos)
        (detail.value 16 q.m_Writer.input_pos))) ho (by omega)
    have e3 := detail.invoke_all_eq opt script q.m_FunctionArray
      (ring_wrap (M + 1) (detail.value 16 q.m_OutputPos +
        min n (ring_dist (M + 1) (detail.value 16 q.m_OutputPos)
          (detail.value 16 q.m_Writer.input_pos))))
      (detail.value 16 q.m_OutputPos) M q.memory hlen (by omega) hnl ho
    rw [ring_dist_wrap ho hk] at e3
    have hst := (@ObjectQueueMCSP.same_tagged_value_tag q.m_Writer.input_pos
      (ring_wrap (M + 1) (detail.value 16 q.m_OutputPos +
        min n (ring_dist (M + 1) (detail.value 16 q.m_OutputPos)
          (detail.value 16 q.m_Writer.input_pos)))) (by omega)).1
    have e : consume_n opt q i n c rel script =
        (min n (ring_dist (M + 1) (detail.value 16 q.m_OutputPos)
            (detail.value 16 q.m_Writer.input_pos)),
          (detail.invoke_each opt script q.m_FunctionArray
            (ring_slots (M + 1) (detail.value 16 q.m_OutputPos)
              (min n (ring_dist (M + 1) (detail.value 16 q.m_OutputPos)
                (detail.value 16 q.m_Writer.input_pos)))) q.memory).1,
          { q with
            m_OutputPos := detail.same_tagged 16 q.m_Writer.input_pos
              (ring_wrap (M + 1) (detail.value 16 q.m_OutputPos +
                min n (ring_dist (M + 1) (detail.value 16 q.m_OutputPos)
                  (detail.value 16 q.m_Writer.input_pos))))
            memory := (detail.invoke_each opt script q.m_FunctionArray
              (ring_slots (M + 1) (detail.value 16 q.m_OutputPos)
                (min n (ring_dist (M + 1) (detail.value 16 q.m_OutputPos)
                  (detail.value 16 q.m_Writer.input_pos)))) q.memory).2
            m_PositionArray :=
              if rel then q.m_PositionArray.set i
                (ring_wrap (M + 1) (detail.value 16 q.m_OutputPos +
                  min n (ring_dist (M + 1) (detail.value 16 q.m_OutputPos)
                    (detail.value 16 q.m_Writer.input_pos))))
              else q.m_PositionArray }) := by
      unfold consume_n
      rw [detail.reserve_n_eq, if_neg he]
      dsimp only
      rw [hlen, hnp, e3]
    have hst2 := (@ObjectQueueMCSP.same_tagged_value_tag q.m_Writer.input_pos
      (ring_wrap (M + 1) (detail.value 16 q.m_OutputPos +
        min n (ring_dist (M + 1) (detail.value 16 q.m_OutputPos)
          (detail.value 16 q.m_Writer.input_pos)))) (by omega)).2
    have hwf1 : ObjectQueueMCSP.WF M
        (as_object_queue (consume_n opt q i n c rel script).2.2) := by
      rw [e]
      refine mcsp_advance_WF M q _ _ h.2 (Nat.min_le_right _ _) rfl rfl hst (Nat.le_of_eq hst2)
        ?_
      cases rel with
      | false => exact Or.inl rfl
      | true => exact Or.inr ⟨i, rfl⟩
    rw [e] at hwf1 ⊢
    exact mcsp_consume_core opt arena B M q _ items script _ _ h hs (Nat.min_le_right _ _)
      rfl rfl hst hwf1 rfl

end FunctionQueueMCSP
end rb

namespace rb
namespace FunctionQueueMCSP
variable {S Args R : Type}

/-- Every atomic step of `FunctionQueueMCSP` keeps the invariant and hands out the oldest
callables. -/
theorem mcsp_fq_step_spec (opt : FQOpt) (arena B M : Nat) (q : FunctionQueueMCSP S Args R)
    (items : List (CallableType S Args R × S)) (c : Step S Args R)
    (h : Inv opt arena B M q items) (hc : c.ok opt M) :
    (step opt q c).1.handed.length ≤ items.length ∧
    (step opt q c).1.handed.map Prod.snd =
      detail.expected_values (items.take (step opt q c).1.handed.length)
        ((step opt q c).1.handed.map Prod.fst) ∧
    Inv opt arena B M (step opt q c).2
      (items.drop (step opt q c).1.handed.length ++ (step opt q c).1.accepted) ∧
    (opt ≠ FQOpt.InvokeOnce →
      detail.nontrivial_log (step opt q c).2.memory =
        detail.nontrivial_log q.memory ++
          detail.nontrivial_states (items.take (step opt q c).1.handed.length)) := by
  cases c with
  | get_reader i =>
    obtain ⟨k1, k2, k3, k4⟩ := detail.fq_step_idle opt arena B M _ _ _ items
      (⟨[], []⟩ : FQLog S Args R) h.1 rfl rfl
    exact ⟨k1, k2, ⟨k3, (ObjectQueueMCSP.mcsp_get_reader_WF M (as_object_queue q) i h.2).1⟩, k4⟩
  | drop_reader i =>
    obtain ⟨k1, k2, k3, k4⟩ := detail.fq_step_idle opt arena B M _ _ _ items
      (⟨[], []⟩ : FQLog S Args R) h.1 rfl rfl
    exact ⟨k1, k2, ⟨k3, (ObjectQueueMCSP.mcsp_drop_reader_WF M (as_object_queue q) i h.2).1⟩, k4⟩
  | push T s => exact mcsp_push_step opt arena B M q items T s h hc
  | consume i c rel script => exact mcsp_consume_step opt arena B M q items i c rel script h hc
  | consume_all i c script => exact mcsp_consume_all_step opt arena B M q items i c script h hc
  | consume_n i n c rel script =>
    exact mcsp_consume_n_step opt arena B M q items i n c rel script h hc.1 hc.2

/-- Every sequence of atomic steps of a `FunctionQueueMCSP`, from its construction on. -/
theorem mcsp_fq_run_spec (opt : FQOpt) (arena B M Rd : Nat) (hbase : 0 < arena)
    (hA : arena + B < 2 ^ 64) (hM : M + 1 ≤ 2 ^ 48) (steps : List (Step S Args R))
    (hok : ∀ c ∈ steps, c.ok opt M) :
    (run opt (mk_queue arena B M Rd) steps).1.handed.length ≤
      (run opt (mk_queue arena B M Rd) steps).1.accepted.length ∧
    (run opt (mk_queue arena B M Rd) steps).1.handed.map Prod.snd =
      detail.expected_values
        ((run opt (mk_queue arena B M Rd) steps).1.accepted.take
          (run opt (mk_queue arena B M Rd) steps).1.handed.length)
        ((run opt (mk_queue arena B M Rd) steps).1.handed.map Prod.fst) ∧
    (empty (run opt (mk_queue arena B M Rd) steps).2 = true →
      (run opt (mk_queue arena B M Rd) steps).1.handed.length =
        (run opt (mk_queue arena B M Rd) steps).1.accepted.length) ∧
    (opt ≠ FQOpt.InvokeOnce →
      detail.nontrivial_log (destructor opt (run opt (mk_queue arena B M Rd) steps).2) =
        detail.nontrivial_states (run opt (mk_queue arena B M Rd) steps).1.accepted) := by
  have h0 : Inv opt arena B M (mk_queue arena B M Rd : FunctionQueueMCSP S Args R) [] := by
    have e : as_buffer_queue (mk_queue arena B M Rd : FunctionQueueMCSP S Args R) =
        BufferQueueSCSP.mk_queue arena B M := by
      simp [as_buffer_queue, mk_queue, BufferQueueSCSP.mk_queue, detail.range_of, Buffer.nil,
        detail.value]
    refine ⟨?_, (ObjectQueueMCSP.mcsp_mk_queue_WF M Rd hM).1⟩
    rw [e]
    exact detail.fq_inv_init opt arena B M hbase hA (by omega)
  obtain ⟨r1, r2, r3, r4⟩ := detail.run_calls_spec opt (step opt) (Inv opt arena B M)
    (fun c => c.ok opt M) (fun q => q.memory)
    (fun q items c hi hc => mcsp_fq_step_spec opt arena B M q items c hi hc)
    steps (mk_queue arena B M Rd) [] h0 hok
  simp only [List.nil_append] at r1 r2 r3 r4
  have htag := r3.2.2.2.2.2.2.1
  refine ⟨r1, r2, ?_, ?_⟩
  · intro he
    have hv := (detail.empty_iff htag).mp he
    have hz := (detail.fq_inv_empty opt arena B M _ _ _ _ r3.1).mp hv.symm
    have := congrArg List.length hz
    rw [List.length_drop, List.length_nil] at this
    unfold run
    omega
  · intro ho
    have r5 := r4 ho
    have hf : detail.nontrivial_log (mk_queue arena B M Rd : FunctionQueueMCSP S Args R).memory =
        [] := rfl
    rw [hf, List.nil_append] at r5
    unfold destructor
    rw [if_pos ho]
    exact detail.fq_inv_final opt arena B M _ _ _ _ _ r3.1 ho r5

end FunctionQueueMCSP
end rb

namespace rb
namespace detail
variable {S Args R : Type}

/-- When every functor invokes its wrapper once, with the argument `a`, the values to be shown
are the values of the callables at `a`. -/
theorem expected_values_const (a : Args) :
    ∀ (cs : List (CallableType S Args R × S)) (scripts : List (List Args)),
      scripts.length = cs.length → (∀ s ∈ scripts, s = [a]) →
      expected_values cs scripts =
        cs.map (fun c => [some (c.1.call (called_state c.1 c.2) a)])
  | [], [], _, _ => rfl
  | [], _ :: _, h, _ => by simp at h
  | _ :: _, [], h, _ => by simp at h
  | c :: cs, s :: scripts, h, hs => by
    have h1 : s = [a] := hs s (List.mem_cons_self _ _)
    have h2 := expected_values_const a cs scripts (by simpa using h)
      (fun t ht => hs t (List.mem_cons_of_mem _ ht))
    unfold expected_values at h2 ⊢
    rw [List.zipWith_cons_cons, List.map_cons, h2, h1]
    rfl

/-- A log of a drained queue whose functors all invoked their wrapper once, with `a`. -/
theorem drained_values (a : Args) (log : FQLog S Args R)
    (hv : log.handed.map Prod.snd =
      expected_values (log.accepted.take log.handed.length) (log.handed.map Prod.fst))
    (hl : log.handed.length = log.accepted.length) (hs : ∀ e ∈ log.handed, e.1 = [a]) :
    log.handed.map Prod.snd =
      log.accepted.map (fun c => [some (c.1.call (called_state c.1 c.2) a)]) := by
  rw [hv, hl, List.take_length]
  apply expected_values_const a
  · rw [List.length_map, hl]
  · intro s hmem
    obtain ⟨e, he, rfl⟩ := List.mem_map.mp hmem
    exact hs e he

end detail

variable {S Args R : Type}

end rb

namespace rb
variable {S Args R : Type}

end rb

namespace rb

/-- Splitting a 64-bit word into value and tag and packing it again gives the word back. -/
theorem detail.tagged_size_value_tag {x : Nat} (hx : x < 2 ^ 64) :
    detail.tagged_size 16 (detail.value 16 x) (detail.tag 16 x) = x := by
  unfold detail.tagged_size detail.value detail.tag
  omega

/-- The arithmetic form of `tagged_size` is the shift-and-mask expression of the source. -/
theorem detail.tagged_size_bits (v t : Nat) :
    detail.tagged_size 16 v t = ((v <<< 16) % 2 ^ 64) ||| (t &&& (2 ^ 16 - 1)) := by
  unfold detail.tagged_size
  rw [Nat.and_pow_two_sub_one_eq_mod, Nat.shiftLeft_eq]
  have h1 : v * 2 ^ 16 % 2 ^ 64 = 2 ^ 16 * (v % 2 ^ 48) := by omega
  rw [h1]
  exact Nat.mul_add_lt_is_or (Nat.mod_lt _ (by norm_num)) _

/-- Claim C29: with 64-bit words and 16 tag bits, a word packed from a value below 2^48 and a tag has
that value and the tag modulo 2^16; packing the value and tag of a 64-bit word gives the word back;
and `same_tagged` replaces the value of a word while keeping its tag. The pack and unpack
operations are the shift-and-mask expressions of the source. -/
theorem detail.tagged_index_round_trip (v t x : Nat) (hv : v < 2 ^ 48) (hx : x < 2 ^ 64) :
    detail.value 16 (detail.tagged_size 16 v t) = v ∧
    detail.tag 16 (detail.tagged_size 16 v t) = t % 2 ^ 16 ∧
    detail.tagged_size 16 v t < 2 ^ 64 ∧
    detail.tagged_size 16 (detail.value 16 x) (detail.tag 16 x) = x ∧
    detail.value 16 (detail.same_tagged 16 x v) = v ∧
    detail.tag 16 (detail.same_tagged 16 x v) = detail.tag 16 x ∧
    detail.tagged_size 16 v t = ((v <<< 16) % 2 ^ 64) ||| (t &&& (2 ^ 16 - 1)) ∧
    detail.tag 16 x = x &&& (2 ^ 16 - 1) ∧
    detail.value 16 x = x >>> 16 := by
  refine ⟨detail.value_tagged_size hv, detail.tag_tagged_size v t, ?_,
    detail.tagged_size_value_tag hx, ?_, ?_, detail.tagged_size_bits v t, ?_, ?_⟩
  · unfold detail.tagged_size; omega
  · unfold detail.same_tagged; exact detail.value_tagged_size hv
  · unfold detail.same_tagged
    rw [detail.tag_tagged_size]
    unfold detail.tag
    omega
  · unfold detail.tag; rw [Nat.and_pow_two_sub_one_eq_mod]
  · unfold detail.value; rw [Nat.shiftRight_eq_div_pow]

theorem detail.tagged_index_round_trip_witness :
    detail.value 16 (detail.tagged_size 16 5 70000) = 5 ∧
    detail.tag 16 (detail.tagged_size 16 5 70000) = 70000 % 2 ^ 16 ∧
    detail.tagged_size 16 (detail.value 16 332144) (detail.tag 16 332144) = 332144 :=
  have h := detail.tagged_index_round_trip 5 70000 332144 (by norm_num) (by norm_num)
  ⟨h.1, h.2.1, h.2.2.2.1⟩


/-- The forward ring distance is the difference of the positions modulo the ring size. -/
theorem ring_dist_eq_emod {S a b : Nat} (ha : a < S) (hb : b < S) :
    (ring_dist S a b : Int) = ((b : Int) - (a : Int)) % (S : Int) := by
  unfold ring_dist
  by_cases h : a ≤ b
  · rw [if_pos h, Int.emod_eq_of_lt (by omega) (by omega)]
    omega
  · rw [if_neg h]
    have e : ((b : Int) - (a : Int)) % (S : Int) = ((b : Int) - (a : Int) + (S : Int)) % (S : Int) := by
      rw [Int.add_emod_self]
    rw [e, Int.emod_eq_of_lt (by omega) (by omega)]
    omega

/-- The tagged count is zero exactly when the tagged emptiness test holds. -/
theorem detail.count_tagged_eq_zero_iff {S op ip : Nat} (hS : S < 2 ^ 64)
    (ho : detail.value 16 op < S) (hi : detail.value 16 ip < S) :
    detail.count_tagged 16 op ip S = 0 ↔ detail.empty 16 op ip = true := by
  unfold detail.count_tagged detail.empty
  simp only [Bool.or_eq_true, decide_eq_true_eq]
  by_cases ht : detail.tag 16 ip ≥ detail.tag 16 op
  · rw [if_pos ht, detail.count_eq_ring_dist hS ho hi]
    unfold ring_dist
    constructor
    · intro h
      right
      by_cases h1 : detail.value 16 op ≤ detail.value 16 ip
      · rw [if_pos h1] at h; omega
      · rw [if_neg h1] at h; omega
    · rintro (h | h)
      · omega
      · rw [h, if_pos (Nat.le_refl _)]; omega
  · rw [if_neg ht]
    exact ⟨fun _ => Or.inl (by omega), fun _ => rfl⟩

/-- Claim C30: for positions `out`, `inp` below the ring size `S` (a 64-bit number), the count
computed with wrapping subtraction is `(inp - out) mod S`, is at most `S - 1` (the capacity), and
is zero iff `inp = out`; the tagged count is zero when the tag of the input word is below the tag
of the output word, and for words with values inside the ring it is zero exactly when the tagged
emptiness test is true, so `count()` of the MCSP object queue is zero exactly when its `empty()`
is true. -/
theorem detail.count_spec (Obj : Type) (out inp S : Nat) (hS : S < 2 ^ 64) (ho : out < S)
    (hi : inp < S) :
    (detail.count out inp S : Int) = ((inp : Int) - (out : Int)) % (S : Int) ∧
    detail.count out inp S ≤ S - 1 ∧
    (detail.count out inp S = 0 ↔ inp = out) ∧
    (∀ op ip, detail.tag 16 ip < detail.tag 16 op → detail.count_tagged 16 op ip S = 0) ∧
    (∀ op ip, detail.value 16 op < S → detail.value 16 ip < S →
      (detail.count_tagged 16 op ip S = 0 ↔ detail.empty 16 op ip = true)) ∧
    (∀ q : ObjectQueueMCSP Obj, q.m_Buffer.length = S →
      detail.value 16 q.m_OutputPos < S → detail.value 16 q.m_Writer.input_pos < S →
      (ObjectQueueMCSP.count q = 0 ↔ ObjectQueueMCSP.empty q = true)) := by
  have hc := @detail.count_eq_ring_dist S out inp hS ho hi
  refine ⟨?_, ?_, ?_, ?_, ?_, ?_⟩
  · rw [hc]; exact ring_dist_eq_emod ho hi
  · rw [hc]; unfold ring_dist; split <;> omega
  · rw [hc]; unfold ring_dist; split <;> omega
  · intro op ip h
    unfold detail.count_tagged
    rw [if_neg (by omega)]
  · intro op ip h1 h2
    exact detail.count_tagged_eq_zero_iff hS h1 h2
  · intro q hl h1 h2
    unfold ObjectQueueMCSP.count ObjectQueueMCSP.empty
    rw [hl]
    exact detail.count_tagged_eq_zero_iff hS h1 h2

theorem detail.count_spec_witness :
    (detail.count 6 2 8 : Int) = ((2 : Int) - (6 : Int)) % (8 : Int) ∧
    detail.count 6 2 8 ≤ 8 - 1 ∧ (detail.count 6 2 8 = 0 ↔ 2 = 6) :=
  have h := detail.count_spec Nat 6 2 8 (by norm_num) (by norm_num) (by norm_num)
  ⟨h.1, h.2.1, h.2.2.1⟩

end rb

namespace rb
/-- Claim C28: `publish(input_pos, cur, next, output_pos)` with `next < 2^48` stores in `input_pos`
the word with value `next` and tag `(tag(cur) + 1) mod 2^16`; when that tag is 0 the new
`output_pos` is the old one masked with the complement of the tag mask, which has tag 0 and
the old value; otherwise `output_pos` is unchanged. -/
theorem detail.publish_contract (cur next ow : Nat) (hnext : next < 2 ^ 48) (how : ow < 2 ^ 64) :
    detail.value 16 (detail.publish 16 cur next ow).1 = next ∧
    detail.tag 16 (detail.publish 16 cur next ow).1 = (detail.tag 16 cur + 1) % 2 ^ 16 ∧
    (detail.publish 16 cur next ow).1 =
      detail.tagged_size 16 next ((detail.tag 16 cur + 1) % 2 ^ 16) ∧
    ((detail.tag 16 cur + 1) % 2 ^ 16 = 0 →
      (detail.publish 16 cur next ow).2 = ow &&& (2 ^ 64 - 2 ^ 16) ∧
      (detail.publish 16 cur next ow).2 = detail.tagged_size 16 (detail.value 16 ow) 0 ∧
      detail.tag 16 (detail.publish 16 cur next ow).2 = 0 ∧
      detail.value 16 (detail.publish 16 cur next ow).2 = detail.value 16 ow) ∧
    ((detail.tag 16 cur + 1) % 2 ^ 16 ≠ 0 → (detail.publish 16 cur next ow).2 = ow) := by
  have hlt := detail.tag_lt cur
  have e : add_sz (detail.tag 16 cur) 1 = detail.tag 16 cur + 1 := add_sz_of_lt (by omega)
  have ht : detail.tag 16 (detail.incr_tagged 16 cur next) = (detail.tag 16 cur + 1) % 2 ^ 16 := by
    unfold detail.incr_tagged
    rw [detail.tag_tagged_size, e]
  have hw : detail.incr_tagged 16 cur next =
      detail.tagged_size 16 next ((detail.tag 16 cur + 1) % 2 ^ 16) := by
    unfold detail.incr_tagged
    rw [e]
    unfold detail.tagged_size
    omega
  have hland : ow &&& (2 ^ 64 - 2 ^ 16) = ow / 2 ^ 16 * 2 ^ 16 :=
    detail.land_neg_two_pow ow 16 how (by norm_num)
  unfold detail.publish
  simp only []
  rw [ht]
  refine ⟨?_, rfl, hw, ?_, ?_⟩
  · unfold detail.incr_tagged; exact detail.value_tagged_size hnext
  · intro h0
    rw [if_pos h0, hland]
    refine ⟨by omega, ?_, ?_, ?_⟩
    · unfold detail.tagged_size detail.value; omega
    · unfold detail.tag; omega
    · unfold detail.value; omega
  · intro h0
    rw [if_neg h0]

theorem detail.publish_contract_witness :
    detail.value 16 (detail.publish 16 65535 3 131077).1 = 3 ∧
    detail.tag 16 (detail.publish 16 65535 3 131077).1 = 0 ∧
    (detail.publish 16 65535 3 131077).2 = 131072 :=
  have h := detail.publish_contract 65535 3 131077 (by norm_num) (by norm_num)
  ⟨h.1, h.2.1, (h.2.2.2.1 (by decide)).2.1.trans (by decide)⟩


namespace ObjectQueueMCSP
variable {Obj : Type}

/-- `Reader::consume` does not write the producer's cursor pair. -/
theorem mcsp_consume_writer (q : ObjectQueueMCSP Obj) (idx : Nat) (c rel : Bool) :
    (consume q idx c rel).2.2.m_Writer = q.m_Writer := by
  unfold consume
  simp only []
  split <;> rfl

/-- `Reader::consume_all` does not write the producer's cursor pair. -/
theorem mcsp_consume_all_writer (q : ObjectQueueMCSP Obj) (idx : Nat) (c : Bool) :
    (consume_all q idx c).2.2.m_Writer = q.m_Writer := by
  unfold consume_all
  simp only []
  split <;> rfl

/-- `Reader::consume_n` does not write the producer's cursor pair. -/
theorem mcsp_consume_n_writer (q : ObjectQueueMCSP Obj) (idx n : Nat) (c rel : Bool) :
    (consume_n q idx n c rel).2.2.m_Writer = q.m_Writer := by
  unfold consume_n
  simp only []
  split <;> rfl

end ObjectQueueMCSP

/-- Claim C27: a reservation that no other thread interferes with, started from the words
`op = output_pos` and `ip = input_pos`. When `empty(op, ip)` holds, the three reserve functions
return none and leave `output_pos` as it was. Otherwise they store the word with the next value
and the tag of `ip` in `output_pos` and return `(value(op), next value)`: the next value is
`(value(op) + 1) mod size` for `reserve_one`, `value(ip)` for `reserve_all` (the stored word
is `ip` itself) and `next_pos(value(op), value(ip), size, n)` for `reserve_n`. The reader calls
of the MCSP object queue leave the producer's cursor pair, `input_pos` included, unchanged. -/
theorem detail.reserve_contract (Obj : Type) (check_once : Bool) (op ip S n : Nat) :
    (detail.empty 16 op ip = true →
      detail.reserve_one check_once 16 op ip S = (none, op) ∧
      detail.reserve_all check_once 16 op ip = (none, op) ∧
      detail.reserve_n check_once 16 op ip S n = (none, op)) ∧
    (detail.empty 16 op ip = false →
      (∃ next_value,
        detail.reserve_one check_once 16 op ip S =
          (some ⟨detail.value 16 op, next_value⟩,
            detail.tagged_size 16 next_value (detail.tag 16 ip)) ∧
        (detail.value 16 op < S → S < 2 ^ 64 → next_value = (detail.value 16 op + 1) % S)) ∧
      detail.reserve_all check_once 16 op ip =
        (some ⟨detail.value 16 op, detail.value 16 ip⟩, ip) ∧
      (ip < 2 ^ 64 → ip = detail.tagged_size 16 (detail.value 16 ip) (detail.tag 16 ip)) ∧
      detail.reserve_n check_once 16 op ip S n =
        (some ⟨detail.value 16 op, detail.next_pos (detail.value 16 op) (detail.value 16 ip) S n⟩,
          detail.tagged_size 16 (detail.next_pos (detail.value 16 op) (detail.value 16 ip) S n)
            (detail.tag 16 ip))) ∧
    (∀ (q : ObjectQueueMCSP Obj) (idx : Nat) (release : Bool),
      (ObjectQueueMCSP.consume q idx check_once release).2.2.m_Writer = q.m_Writer ∧
      (ObjectQueueMCSP.consume_all q idx check_once).2.2.m_Writer = q.m_Writer ∧
      (ObjectQueueMCSP.consume_n q idx n check_once release).2.2.m_Writer = q.m_Writer) := by
  refine ⟨?_, ?_, ?_⟩
  · intro he
    rw [detail.reserve_one_eq, detail.reserve_all_eq, detail.reserve_n_eq, he]
    exact ⟨rfl, rfl, rfl⟩
  · intro he
    rw [detail.reserve_one_eq, detail.reserve_all_eq, detail.reserve_n_eq, he]
    refine ⟨⟨_, rfl, ?_⟩, rfl, ?_, rfl⟩
    · intro hv hS
      rw [add_sz_of_lt (by omega)]
      by_cases h1 : detail.value 16 op + 1 = S
      · rw [if_pos h1, h1, Nat.mod_self]
      · rw [if_neg h1, Nat.mod_eq_of_lt (by omega)]
    · intro hip
      exact (detail.tagged_size_value_tag hip).symm
  · intro q idx release
    exact ⟨ObjectQueueMCSP.mcsp_consume_writer q idx check_once release,
      ObjectQueueMCSP.mcsp_consume_all_writer q idx check_once,
      ObjectQueueMCSP.mcsp_consume_n_writer q idx n check_once release⟩

theorem detail.reserve_contract_witness :
    detail.empty 16 131072 327683 = false ∧
    detail.reserve_all true 16 131072 327683 = (some ⟨2, 5⟩, 327683) ∧
    detail.reserve_n true 16 131072 327683 8 2 = (some ⟨2, 4⟩, 262147) ∧
    detail.empty 16 327683 327683 = true ∧
    detail.reserve_one true 16 327683 327683 8 = (none, 327683) :=
  have h := detail.reserve_contract Nat true 131072 327683 8 2
  have g := detail.reserve_contract Nat true 327683 327683 8 2
  ⟨by decide, (h.2.1 (by decide)).2.1, (h.2.1 (by decide)).2.2.2.trans (by decide),
    by decide, (g.1 (by decide)).1⟩

end rb

namespace rb
/-- Vacant entries do not change what the loop of `sync` computes, as long as the running
`gpos` is a 64-bit value. -/
theorem detail.sync_loop_filter_vacant (prev : Nat) (hprev : prev < detail.max_pos) :
    ∀ (l : List Nat) (g l0 : Nat), g ≤ detail.max_pos →
      detail.sync_loop prev l (g, l0) =
        detail.sync_loop prev (l.filter (fun a => decide (a ≠ detail.max_pos))) (g, l0) := by
  intro l
  induction l with
  | nil => intro g l0 _; rfl
  | cons x xs ih =>
    intro g l0 hg
    by_cases hx : x = detail.max_pos
    · have hf : (x :: xs).filter (fun a => decide (a ≠ detail.max_pos)) =
          xs.filter (fun a => decide (a ≠ detail.max_pos)) := by
        simp [hx]
      rw [hf, ← ih g l0 hg]
      have hne : ¬ x = prev := by omega
      have hgt : x > prev := by omega
      have hmin : min g x = g := by omega
      simp only [detail.sync_loop]
      rw [if_neg hne, if_pos hgt, hmin]
    · have hf : (x :: xs).filter (fun a => decide (a ≠ detail.max_pos)) =
          x :: xs.filter (fun a => decide (a ≠ detail.max_pos)) := by
        simp [hx]
      rw [hf]
      simp only [detail.sync_loop]
      by_cases h1 : x = prev
      · rw [if_pos h1, if_pos h1]
      · rw [if_neg h1, if_neg h1]
        by_cases h2 : x > prev
        · rw [if_pos h2, if_pos h2]
          exact ih _ _ (by omega)
        · rw [if_neg h2, if_neg h2]
          exact ih _ _ hg

/-- The value of a 64-bit word is a 64-bit number. -/
theorem detail.value_le_max_pos (tb ow : Nat) (how : ow < 2 ^ 64) :
    detail.value tb ow ≤ detail.max_pos := by
  have h1 : detail.value tb ow ≤ ow := by
    unfold detail.value; exact Nat.div_le_self _ _
  unfold detail.max_pos; omega

/-- Vacant entries of the position array do not change the result of `sync`. -/
theorem detail.sync_filter_vacant (tb prev ow : Nat) (pos : List Nat)
    (hprev : prev < detail.max_pos) (hcp : detail.value tb ow ≤ detail.max_pos) :
    detail.sync tb prev pos ow =
      detail.sync tb prev (pos.filter (fun a => decide (a ≠ detail.max_pos))) ow := by
  unfold detail.sync
  simp only []
  rw [detail.sync_loop_filter_vacant prev hprev pos _ _ (by split <;> omega)]

/-- With every entry vacant, `sync` returns the value of the shared output cursor. -/
theorem detail.sync_all_vacant (tb prev ow : Nat) (pos : List Nat)
    (hprev : prev < detail.max_pos) (hcp : detail.value tb ow ≤ detail.max_pos)
    (hall : ∀ a ∈ pos, a = detail.max_pos) :
    detail.sync tb prev pos ow = detail.value tb ow := by
  have hf : pos.filter (fun a => decide (a ≠ detail.max_pos)) = [] := by
    rw [List.filter_eq_nil_iff]
    intro a ha
    simp [hall a ha]
  rw [detail.sync_filter_vacant tb prev ow pos hprev hcp, hf]
  unfold detail.sync
  simp only [detail.sync_loop]
  by_cases h1 : detail.value tb ow = prev
  · rw [if_pos h1, h1]
  · rw [if_neg h1]
    by_cases h2 : detail.value tb ow > prev
    · simp only [if_pos h2]
    · simp only [if_neg h2, ne_eq, not_true_eq_false, if_false]

/-- Claim C26: `sync` returns the previous cache value unchanged when the value of `output_pos`
equals it, and also when some entry of the position array equals it, whatever the other
entries and the shared output cursor hold. -/
theorem detail.sync_returns_prev (tb prev ow : Nat) (pos : List Nat) :
    (detail.value tb ow = prev → detail.sync tb prev pos ow = prev) ∧
    (prev ∈ pos → detail.sync tb prev pos ow = prev) := by
  constructor
  · intro h
    unfold detail.sync
    simp only []
    rw [if_pos h]
  · intro h
    unfold detail.sync
    simp only []
    by_cases h1 : detail.value tb ow = prev
    · rw [if_pos h1]
    · rw [if_neg h1, (detail.sync_loop_spec prev pos _ _).1 h]

theorem detail.sync_returns_prev_witness :
    detail.sync 16 5 [7, 1] 327683 = 5 ∧ detail.sync 16 5 [7, 5, 1] 131072 = 5 :=
  ⟨(detail.sync_returns_prev 16 5 327683 [7, 1]).1 (by decide),
    (detail.sync_returns_prev 16 5 131072 [7, 5, 1]).2 (by decide)⟩

/-- Claim C25: `sync` as a minimum by forward ring distance. With `cp = value(output_pos)`, a ring
of `S` slots (a 64-bit size), `prev < S`, `cp < S`, `cp ≠ prev`, no entry equal to `prev` and
every entry vacant or below `S`, the result `x` of `sync` is `cp` or a non-vacant entry, and no
element of `cp` and the non-vacant entries is nearer to `prev` going forward round the ring.
When `cp > prev` it is the least of `cp` and the entries above `prev`; when `cp < prev` it is
the least non-vacant entry above `prev` if there is one, and otherwise the least of `cp` and
the entries below `prev`. -/
theorem detail.sync_min_ring_dist (tb S prev ow : Nat) (pos : List Nat)
    (hS : S ≤ detail.max_pos) (hprev : prev < S) (hcp : detail.value tb ow < S)
    (hne : detail.value tb ow ≠ prev) (hmem : prev ∉ pos)
    (hpos : ∀ a ∈ pos, a = detail.max_pos ∨ a < S) :
    (detail.sync tb prev pos ow = detail.value tb ow ∨
      (detail.sync tb prev pos ow ∈ pos ∧ detail.sync tb prev pos ow ≠ detail.max_pos)) ∧
    detail.sync tb prev pos ow < S ∧
    ring_dist S prev (detail.sync tb prev pos ow) ≤ ring_dist S prev (detail.value tb ow) ∧
    (∀ a ∈ pos, a ≠ detail.max_pos →
      ring_dist S prev (detail.sync tb prev pos ow) ≤ ring_dist S prev a) ∧
    (detail.value tb ow > prev →
      prev < detail.sync tb prev pos ow ∧ detail.sync tb prev pos ow ≤ detail.value tb ow ∧
      ∀ a ∈ pos, prev < a → detail.sync tb prev pos ow ≤ a) ∧
    (detail.value tb ow < prev →
      ((∃ a ∈ pos, a ≠ detail.max_pos ∧ prev < a) →
        detail.sync tb prev pos ow ∈ pos ∧ detail.sync tb prev pos ow ≠ detail.max_pos ∧
        prev < detail.sync tb prev pos ow ∧
        ∀ a ∈ pos, prev < a → detail.sync tb prev pos ow ≤ a) ∧
      ((¬ ∃ a ∈ pos, a ≠ detail.max_pos ∧ prev < a) →
        detail.sync tb prev pos ow ≤ detail.value tb ow ∧
        (detail.sync tb prev pos ow = detail.value tb ow ∨
          (detail.sync tb prev pos ow ∈ pos ∧ detail.sync tb prev pos ow < prev)) ∧
        ∀ a ∈ pos, a < prev → detail.sync tb prev pos ow ≤ a)) := by
  unfold detail.sync
  simp only []
  generalize detail.value tb ow = cp at hcp hne ⊢
  rw [if_neg hne]
  obtain ⟨g1, l1, e, p1, p2, p3, p4, p5, p6⟩ :=
    (detail.sync_loop_spec prev pos (if cp > prev then cp else detail.max_pos) cp).2 hmem
  rw [e]
  simp only []
  have hreal : ∀ a ∈ pos, a ≠ detail.max_pos → a < S ∧ a ≠ prev := by
    intro a ha hn
    refine ⟨?_, ?_⟩
    · rcases hpos a ha with e | e
      · exact absurd e hn
      · exact e
    · rintro rfl; exact hmem ha
  by_cases hgt : cp > prev
  · rw [if_pos hgt] at p1 p3 ⊢
    have hg1 : prev < g1 ∧ g1 ≤ cp := by
      rcases p3 with e | ⟨_, e2⟩ <;> omega
    refine ⟨?_, by omega, ?_, ?_, fun _ => ⟨hg1.1, hg1.2, p2⟩, fun h => by omega⟩
    · rcases p3 with e | ⟨e1, _⟩
      · exact Or.inl e
      · exact Or.inr ⟨e1, by omega⟩
    · simp only [ring_dist]; split_ifs <;> omega
    · intro a ha hn
      obtain ⟨r1, r2⟩ := hreal a ha hn
      have := p2 a ha
      simp only [ring_dist]
      split_ifs <;> omega
  · rw [if_neg hgt] at p1 p3 ⊢
    have hlt : cp < prev := by omega
    by_cases hgm : g1 ≠ detail.max_pos
    · rw [if_pos hgm]
      have hg1 : g1 ∈ pos ∧ prev < g1 := by
        rcases p3 with e | e
        · exact absurd e hgm
        · exact e
      obtain ⟨r1, r2⟩ := hreal g1 hg1.1 hgm
      refine ⟨Or.inr ⟨hg1.1, hgm⟩, r1, ?_, ?_, fun h => by omega, fun _ => ⟨?_, ?_⟩⟩
      · simp only [ring_dist]; split_ifs <;> omega
      · intro a ha hn
        obtain ⟨q1, q2⟩ := hreal a ha hn
        have := p2 a ha
        simp only [ring_dist]
        split_ifs <;> omega
      · intro _
        exact ⟨hg1.1, hgm, hg1.2, p2⟩
      · intro hno
        exact absurd ⟨g1, hg1.1, hgm, hg1.2⟩ hno
    · rw [if_neg hgm]
      have hgm2 : g1 = detail.max_pos := by
        by_contra hh; exact hgm hh
      have hl1 : l1 ≤ cp ∧ l1 < prev := by
        rcases p6 with e | ⟨_, e2⟩ <;> omega
      have hbelow : ∀ a ∈ pos, a ≠ detail.max_pos → a < prev := by
        intro a ha hn
        obtain ⟨q1, q2⟩ := hreal a ha hn
        by_contra hh
        have := p2 a ha (by omega)
        omega
      refine ⟨?_, by omega, ?_, ?_, fun h => by omega, fun _ => ⟨?_, ?_⟩⟩
      · rcases p6 with e | ⟨e1, e2⟩
        · exact Or.inl e
        · exact Or.inr ⟨e1, by omega⟩
      · simp only [ring_dist]; split_ifs <;> omega
      · intro a ha hn
        have h1 := hbelow a ha hn
        have h2 := p5 a ha h1
        simp only [ring_dist]
        split_ifs <;> omega
      · rintro ⟨a, ha, hn, hpa⟩
        have := hbelow a ha hn
        omega
      · intro _
        refine ⟨hl1.1, ?_, p5⟩
        rcases p6 with e | ⟨e1, e2⟩
        · exact Or.inl e
        · exact Or.inr ⟨e1, e2⟩

theorem detail.sync_min_ring_dist_witness :
    detail.sync 16 5 [7, 1, detail.max_pos] 131072 = 7 ∧
    ring_dist 8 5 (detail.sync 16 5 [7, 1, detail.max_pos] 131072) ≤ ring_dist 8 5 1 :=
  have h := detail.sync_min_ring_dist 16 8 5 131072 [7, 1, detail.max_pos] (by decide) (by decide)
    (by decide) (by decide) (by decide) (by decide)
  ⟨by decide, h.2.2.2.1 1 (by decide) (by decide)⟩

end rb

namespace rb
namespace ObjectQueueMCSP
variable {Obj : Type}

theorem mcsp_stored_length (q : ObjectQueueMCSP Obj) :
    (stored q).length =
      ring_dist q.m_Buffer.length (detail.value tb q.m_OutputPos)
        (detail.value tb q.m_Writer.input_pos) := by
  simp [stored, ring_slots_length]

/-- `emplace` never writes the per-reader position array. -/
theorem mcsp_emplace_positions (q : ObjectQueueMCSP Obj) (obj : Obj) :
    (emplace q obj).2.m_PositionArray = q.m_PositionArray := by
  unfold emplace
  simp only []
  split_ifs <;> rfl

/-- With every reader slot vacant, `emplace` fails only when the ring holds `N` elements: the
one `sync` it runs moves the producer's cache up to the shared output cursor. -/
theorem mcsp_emplace_all_vacant (N : Nat) (q : ObjectQueueMCSP Obj) (obj : Obj) (h : WF N q)
    (hv : ∀ a ∈ q.m_PositionArray, a = detail.max_pos) :
    (emplace q obj).1 = true ↔ (stored q).length < N := by
  obtain ⟨hlen, hN, hi, ho, hc, htag, hpos, hord1, hord2⟩ := h
  rw [mcsp_stored_length, hlen]
  rw [hlen] at hord1 hord2
  have hnext : (if add_sz (detail.value tb q.m_Writer.input_pos) 1 ≠ q.m_Buffer.length
      then add_sz (detail.value tb q.m_Writer.input_pos) 1 else 0) =
      ring_wrap (N + 1) (detail.value tb q.m_Writer.input_pos + 1) := by
    rw [add_sz_of_lt (by omega), hlen]
    simp only [ring_wrap]
    split_ifs <;> omega
  have hmax : N + 1 ≤ detail.max_pos := by unfold detail.max_pos; omega
  have hsync : detail.sync tb q.m_Writer.output_pos q.m_PositionArray q.m_OutputPos =
      detail.value tb q.m_OutputPos :=
    detail.sync_all_vacant tb _ _ _ (by omega) (by omega) hv
  have hsp := ring_dist_split hc ho hi hord2
  have hl := ring_dist_lt hc hi
  have hl2 := ring_dist_lt ho hi
  have e1 := ring_wrap_succ_eq (S := N + 1) hc hi
  have e2 := ring_wrap_succ_eq (S := N + 1) ho hi
  unfold emplace
  simp only [hnext, hsync]
  by_cases h1 : ring_wrap (N + 1) (detail.value tb q.m_Writer.input_pos + 1) =
      q.m_Writer.output_pos
  · rw [if_pos h1]
    by_cases h2 : ring_wrap (N + 1) (detail.value tb q.m_Writer.input_pos + 1) =
        detail.value tb q.m_OutputPos
    · rw [if_pos h2]
      have := e2.mp h2
      simp only [Bool.false_eq_true, false_iff]
      omega
    · rw [if_neg h2]
      have := mt e2.mpr h2
      simp only [true_iff]
      omega
  · rw [if_neg h1]
    have := mt e1.mpr h1
    simp only [true_iff]
    omega

/-- `Reader::consume` returns `true` exactly when the queue is not empty. -/
theorem mcsp_consume_flag (q : ObjectQueueMCSP Obj) (idx : Nat) (c rel : Bool) :
    (consume q idx c rel).1 = !(detail.empty tb q.m_OutputPos q.m_Writer.input_pos) := by
  unfold consume
  simp only [tb, detail.reserve_one_eq]
  by_cases he : detail.empty 16 q.m_OutputPos q.m_Writer.input_pos = true
  · simp only [he, if_true]; rfl
  · simp only [he, Bool.false_eq_true, if_false]
    rfl

/-- `Reader::consume` writes no slot of the position array other than the reader's own. -/
theorem mcsp_consume_positions (q : ObjectQueueMCSP Obj) (idx : Nat) (c rel : Bool) :
    (consume q idx c rel).2.2.m_PositionArray = q.m_PositionArray ∨
      ∃ v, (consume q idx c rel).2.2.m_PositionArray = q.m_PositionArray.set idx v := by
  unfold consume
  simp only []
  split
  · exact Or.inl rfl
  · cases rel
    · exact Or.inl rfl
    · exact Or.inr ⟨_, rfl⟩

/-- `Reader::consume_all` does not write the position array. -/
theorem mcsp_consume_all_positions (q : ObjectQueueMCSP Obj) (idx : Nat) (c : Bool) :
    (consume_all q idx c).2.2.m_PositionArray = q.m_PositionArray := by
  unfold consume_all
  simp only []
  split <;> rfl

/-- `Reader::consume_n` writes no slot of the position array other than the reader's own. -/
theorem mcsp_consume_n_positions (q : ObjectQueueMCSP Obj) (idx n : Nat) (c rel : Bool) :
    (consume_n q idx n c rel).2.2.m_PositionArray = q.m_PositionArray ∨
      ∃ v, (consume_n q idx n c rel).2.2.m_PositionArray = q.m_PositionArray.set idx v := by
  unfold consume_n
  simp only []
  split
  · exact Or.inl rfl
  · cases rel
    · exact Or.inl rfl
    · exact Or.inr ⟨_, rfl⟩

/-- After `Reader::consume_all` nothing is stored. -/
theorem mcsp_consume_all_stored (N : Nat) (q : ObjectQueueMCSP Obj) (idx : Nat) (c : Bool)
    (h : WF N q) : stored (consume_all q idx c).2.2 = [] := by
  obtain ⟨hlen, hN, hi, ho, hc, htag, hpos, hord⟩ := h
  have hz : ∀ q1 : ObjectQueueMCSP Obj,
      detail.value tb q1.m_OutputPos = detail.value tb q1.m_Writer.input_pos →
      stored q1 = [] := by
    intro q1 e
    unfold stored
    rw [e, ring_dist_self]
    rfl
  apply hz
  rw [mcsp_consume_all_writer]
  unfold consume_all
  simp only [tb, detail.reserve_all_eq]
  by_cases he : detail.empty 16 q.m_OutputPos q.m_Writer.input_pos = true
  · simp only [he, if_true]
    exact (detail.empty_iff htag).mp he
  · simp only [he, Bool.false_eq_true, if_false]

/-- Releasing a reader slot of an array whose other slots are vacant leaves every slot
vacant. -/
theorem all_vacant_set (l : List Nat) (i : Nat) (hv : ∀ a ∈ l, a = detail.max_pos) :
    ∀ a ∈ l.set i detail.max_pos, a = detail.max_pos := by
  intro a ha
  rcases List.mem_or_eq_of_mem_set ha with e | e
  · exact hv a e
  · exact e

/-- One call of the single-reader driver, against the bounded FIFO queue. -/
theorem call_one_reader_simulation (N : Nat) (c0 : Bool) (q : ObjectQueueMCSP Obj)
    (f : BoundedFifo Obj) (c : ObjectQueueSCSP.Call Obj) (h : WF N q) (hc : f.capacity = N)
    (hs : stored q = f.items.map some) (hv : ∀ a ∈ q.m_PositionArray, a = detail.max_pos) :
    (call_one_reader c0 q c).1 = (f.call c).1 ∧ WF N (call_one_reader c0 q c).2 ∧
      (f.call c).2.capacity = N ∧
      stored (call_one_reader c0 q c).2 = (f.call c).2.items.map some ∧
      (∀ a ∈ (call_one_reader c0 q c).2.m_PositionArray, a = detail.max_pos) := by
  have hlen : (stored q).length = f.items.length := by rw [hs, List.length_map]
  cases c with
  | push obj =>
    obtain ⟨hwf, hst⟩ := mcsp_emplace_spec N q obj h
    have hiff := mcsp_emplace_all_vacant N q obj h hv
    have hp := mcsp_emplace_positions q obj
    simp only [call_one_reader, push, BoundedFifo.call]
    by_cases hlt : f.items.length < f.capacity
    · have ht : (emplace q obj).1 = true := hiff.mpr (by omega)
      rw [if_pos hlt]
      refine ⟨by rw [ht], hwf, hc, ?_, by rw [hp]; exact hv⟩
      rw [hst, ht, hs]; simp
    · have ht : (emplace q obj).1 = false := by
        cases e : (emplace q obj).1 with
        | false => rfl
        | true => have := hiff.mp e; omega
      rw [if_neg hlt]
      refine ⟨by rw [ht], hwf, hc, ?_, by rw [hp]; exact hv⟩
      rw [hst, ht, hs]; simp
  | consume =>
    obtain ⟨hwf1, hst1⟩ := mcsp_get_reader_WF N q 0 h
    obtain ⟨hwf2, hst2, hl2⟩ := mcsp_consume_spec N (get_reader q 0) 0 c0 true hwf1
    have hfl := mcsp_consume_flag (get_reader q 0) 0 c0 true
    obtain ⟨hwf3, hst3⟩ := mcsp_drop_reader_WF N _ 0 hwf2
    have hvac : ∀ a ∈ (drop_reader (consume (get_reader q 0) 0 c0 true).2.2 0).m_PositionArray,
        a = detail.max_pos := by
      have hp := mcsp_consume_positions (get_reader q 0) 0 c0 true
      simp only [drop_reader, get_reader] at hp ⊢
      rcases hp with e | ⟨v, e⟩
      · rw [e, List.set_set]; exact all_vacant_set _ _ hv
      · rw [e, List.set_set, List.set_set]; exact all_vacant_set _ _ hv
    have hemp : detail.empty tb (get_reader q 0).m_OutputPos (get_reader q 0).m_Writer.input_pos
        = true ↔ stored q = [] := by
      obtain ⟨hlen1, hN, hi, ho, hc1, htag, hpos, hord⟩ := h
      show detail.empty tb q.m_OutputPos q.m_Writer.input_pos = true ↔ _
      rw [detail.empty_iff htag, ← List.length_eq_zero, mcsp_stored_length, hlen1,
        ring_dist_eq_zero ho hi]
    simp only [call_one_reader, BoundedFifo.call]
    rw [hst1] at hst2
    cases hitems : f.items with
    | nil =>
      have hs0 := hs
      rw [hitems] at hs
      have he := hemp.mpr hs
      rw [he] at hfl
      simp only [Bool.not_true] at hfl
      rw [hfl] at hl2 ⊢
      simp only [Bool.false_eq_true, if_false, List.length_eq_zero] at hl2
      rw [hl2] at hst2 ⊢
      refine ⟨rfl, hwf3, hc, ?_, hvac⟩
      rw [hst3, ← hs0]
      simpa using hst2
    | cons x xs =>
      rw [hitems] at hs
      have he : detail.empty tb (get_reader q 0).m_OutputPos
          (get_reader q 0).m_Writer.input_pos = false := by
        cases e : detail.empty tb (get_reader q 0).m_OutputPos
            (get_reader q 0).m_Writer.input_pos with
        | false => rfl
        | true => have := hemp.mp e; rw [this] at hs; simp at hs
      rw [he] at hfl
      simp only [Bool.not_false] at hfl
      rw [hfl] at hl2 ⊢
      simp only [if_true] at hl2
      rw [hs] at hst2
      obtain ⟨y, hy⟩ := List.length_eq_one.mp hl2
      rw [hy] at hst2 ⊢
      simp only [List.map_cons, List.singleton_append, List.cons.injEq] at hst2
      refine ⟨by rw [hst2.1], hwf3, hc, ?_, hvac⟩
      rw [hst3]
      exact hst2.2
  | consume_all =>
    obtain ⟨hwf1, hst1⟩ := mcsp_get_reader_WF N q 0 h
    obtain ⟨hwf2, hst2, hl2⟩ := mcsp_consume_all_spec N (get_reader q 0) 0 c0 hwf1
    have hnil := mcsp_consume_all_stored N (get_reader q 0) 0 c0 hwf1
    obtain ⟨hwf3, hst3⟩ := mcsp_drop_reader_WF N _ 0 hwf2
    have hvac : ∀ a ∈ (drop_reader (consume_all (get_reader q 0) 0 c0).2.2 0).m_PositionArray,
        a = detail.max_pos := by
      have hp := mcsp_consume_all_positions (get_reader q 0) 0 c0
      simp only [drop_reader, get_reader] at hp ⊢
      rw [hp, List.set_set]; exact all_vacant_set _ _ hv
    simp only [call_one_reader, BoundedFifo.call]
    rw [hnil, List.append_nil, hst1, hs] at hst2
    refine ⟨?_, hwf3, hc, ?_, hvac⟩
    · rw [← hl2, hst2, List.length_map]
    · rw [hst3, hnil]; rfl

theorem run_one_reader_simulation (N : Nat) (c0 : Bool) (calls : List (ObjectQueueSCSP.Call Obj)) :
    ∀ (q : ObjectQueueMCSP Obj) (f : BoundedFifo Obj), WF N q → f.capacity = N →
      stored q = f.items.map some → (∀ a ∈ q.m_PositionArray, a = detail.max_pos) →
      (run_one_reader c0 q calls).1 = (f.run calls).1 := by
  induction calls with
  | nil => intro q f _ _ _ _; rfl
  | cons c cs ih =>
    intro q f h hc hs hv
    obtain ⟨h1, h2, h3, h4, h5⟩ := call_one_reader_simulation N c0 q f c h hc hs hv
    have i1 := ih _ _ h2 h3 h4 h5
    simp only [run_one_reader, BoundedFifo.run]
    rw [h1, i1]

/-- Claim C21: the MCSP object queue with one reader slot, driven by pushes and by drains that
each take a fresh reader handle `get_reader(0)`, returns from every call what `ObjectQueueSCSP`
of the same capacity returns and hands the functor the same objects in the same order, for
every sequence of calls (`consume_all` drains, and single `consume` calls as well). -/
theorem single_reader_agrees_with_scsp (N : Nat) (hN : N + 1 ≤ 2 ^ 48) (check_once : Bool)
    (calls : List (ObjectQueueSCSP.Call Obj)) :
    (run_one_reader check_once (mk_queue N 1 : ObjectQueueMCSP Obj) calls).1 =
        (ObjectQueueSCSP.run (ObjectQueueSCSP.mk_queue N : ObjectQueueSCSP Obj) calls).1 ∧
      ObjectQueueSCSP.handed_values
          (run_one_reader check_once (mk_queue N 1 : ObjectQueueMCSP Obj) calls).1 =
        ObjectQueueSCSP.handed_values
          (ObjectQueueSCSP.run (ObjectQueueSCSP.mk_queue N : ObjectQueueSCSP Obj) calls).1 := by
  obtain ⟨hwf, hst⟩ := @mcsp_mk_queue_WF Obj N 1 hN
  have h1 := run_one_reader_simulation N check_once calls (mk_queue N 1 : ObjectQueueMCSP Obj)
    ⟨N, []⟩ hwf rfl (by rw [hst]; rfl) (by
      intro a ha
      simp only [mk_queue] at ha
      exact List.eq_of_mem_replicate ha)
  have h2 := (ObjectQueueSCSP.run_simulation N calls
    (ObjectQueueSCSP.mk_queue N : ObjectQueueSCSP Obj) ⟨N, []⟩
    (ObjectQueueSCSP.mk_queue_WF N (by omega)) rfl
    (by rw [ObjectQueueSCSP.mk_queue_stored]; rfl)).1
  have e := h1.trans h2.symm
  exact ⟨e, by rw [e]⟩

theorem single_reader_agrees_with_scsp_witness :
    (run_one_reader true (mk_queue 2 1 : ObjectQueueMCSP Nat)
        [.push 10, .push 20, .push 30, .consume_all, .push 40, .consume_all, .consume_all]).1 =
      [.push true, .push true, .push false, .consume_all 2 [some 10, some 20], .push true,
        .consume_all 1 [some 40], .consume_all 0 []] ∧
    (run_one_reader true (mk_queue 2 1 : ObjectQueueMCSP Nat)
        [.push 10, .push 20, .push 30, .consume_all, .push 40, .consume_all, .consume_all]).1 =
      (ObjectQueueSCSP.run (ObjectQueueSCSP.mk_queue 2 : ObjectQueueSCSP Nat)
        [.push 10, .push 20, .push 30, .consume_all, .push 40, .consume_all, .consume_all]).1 :=
  ⟨by decide, (single_reader_agrees_with_scsp 2 (by norm_num) true
    [.push 10, .push 20, .push 30, .consume_all, .push 40, .consume_all, .consume_all]).1⟩

end ObjectQueueMCSP
end rb

namespace rb
namespace ObjectQueueMCSP
variable {Obj : Type}

/-- `emplace` leaves the value of the shared output cursor as it is: `publish` writes only its
tag bits. -/
theorem mcsp_emplace_output_value (N : Nat) (q : ObjectQueueMCSP Obj) (obj : Obj) (h : WF N q) :
    detail.value tb (emplace q obj).2.m_OutputPos = detail.value tb q.m_OutputPos := by
  obtain ⟨hlen, hN, hi, ho, hc, htag, hpos, hord⟩ := h
  have hnext : (if add_sz (detail.value tb q.m_Writer.input_pos) 1 ≠ q.m_Buffer.length
      then add_sz (detail.value tb q.m_Writer.input_pos) 1 else 0) < 2 ^ 48 := by
    rw [add_sz_of_lt (by omega), hlen]
    split_ifs <;> omega
  have hp : ∀ nx, nx < 2 ^ 48 →
      detail.value tb (detail.publish tb q.m_Writer.input_pos nx q.m_OutputPos).2 =
        detail.value tb q.m_OutputPos :=
    fun nx hnx => (@detail.publish_spec q.m_Writer.input_pos q.m_OutputPos nx hnx htag).2.1
  unfold emplace
  simp only []
  generalize (if add_sz (detail.value tb q.m_Writer.input_pos) 1 ≠ q.m_Buffer.length
      then add_sz (detail.value tb q.m_Writer.input_pos) 1 else 0) = nx at hnext ⊢
  by_cases h1 : nx = q.m_Writer.output_pos
  · rw [if_pos h1]
    by_cases h2 : nx = detail.sync tb q.m_Writer.output_pos q.m_PositionArray q.m_OutputPos
    · rw [if_pos h2]
    · rw [if_neg h2]
      exact hp nx hnext
  · rw [if_neg h1]
    exact hp nx hnext

/-- A step of the producer or of another reader leaves the announced position of the reader in
slot `idx` in place, and moves the value of the shared output cursor forward from it by the
number of slots the step hands out. -/
theorem mcsp_step_other (N : Nat) (q : ObjectQueueMCSP Obj) (s : Step Obj) (idx p : Nat)
    (h : WF N q) (hs : s.in_range) (ho : s.other_than idx)
    (hreg : q.m_PositionArray.get? idx = some p) (hp : p ≠ detail.max_pos) :
    WF N (step q s).2 ∧ (step q s).2.m_PositionArray.get? idx = some p ∧
      ring_dist (N + 1) p (detail.value tb (step q s).2.m_OutputPos) =
        ring_dist (N + 1) p (detail.value tb q.m_OutputPos) +
          (handed_of (step q s).1).length := by
  obtain ⟨hwf, hst⟩ := mcsp_step_spec N q s h hs
  refine ⟨hwf, ?_⟩
  have hmem : p ∈ q.m_PositionArray := List.get?_mem hreg
  -- the steps of a reader: the producer's cursor pair stays, the position entry stays
  have key : (step q s).2.m_Writer = q.m_Writer →
      (step q s).2.m_PositionArray.get? idx = some p →
      (pushed_of s (step q s).1) = [] →
      (step q s).2.m_PositionArray.get? idx = some p ∧
      ring_dist (N + 1) p (detail.value tb (step q s).2.m_OutputPos) =
        ring_dist (N + 1) p (detail.value tb q.m_OutputPos) +
          (handed_of (step q s).1).length := by
    intro hw hreg1 hpush
    refine ⟨hreg1, ?_⟩
    have hmem1 : p ∈ (step q s).2.m_PositionArray := List.get?_mem hreg1
    rw [hpush, List.map_nil, List.append_nil] at hst
    have hl := congrArg List.length hst
    rw [List.length_append, List.length_map, mcsp_stored_length, mcsp_stored_length, hw] at hl
    obtain ⟨hlen, hN, hi, ho1, hc, htag, hpos, hord1, hord2⟩ := h
    obtain ⟨hlen1, _, hi1, ho2, hc1, _, hpos1, hord3, hord4⟩ := hwf
    rw [hlen1] at hl hord3 hord4
    rw [hlen] at hl hord1 hord2
    rw [hw] at hord3 hord4 hi1
    have hpS : p < N + 1 := by
      rcases hpos p hmem with e | e
      · exact absurd e hp
      · exact e
    have a1 := hord1 p hmem hp
    have a2 := hord3 p hmem1 hp
    have s1 := ring_dist_split hc hpS ho1 a1
    have s2 := ring_dist_split hc hpS ho2 a2
    have s3 := ring_dist_split hc ho1 hi hord2
    have s4 := ring_dist_split hc ho2 hi hord4
    omega
  cases s with
  | get_reader i =>
    simp only [Step.other_than] at ho
    refine ⟨?_, ?_⟩
    · simp only [step, get_reader]
      rw [List.get?_eq_getElem?, List.getElem?_set_ne ho, ← List.get?_eq_getElem?]
      exact hreg
    · simp [step, get_reader, handed_of]
  | drop_reader i =>
    simp only [Step.other_than] at ho
    refine ⟨?_, ?_⟩
    · simp only [step, drop_reader]
      rw [List.get?_eq_getElem?, List.getElem?_set_ne ho, ← List.get?_eq_getElem?]
      exact hreg
    · simp [step, drop_reader, handed_of]
  | push obj =>
    refine ⟨?_, ?_⟩
    · simp only [step, push]
      rw [mcsp_emplace_positions]
      exact hreg
    · simp only [step, push, handed_of, List.length_nil, Nat.add_zero]
      rw [mcsp_emplace_output_value N q obj h]
  | consume i c rel =>
    simp only [Step.other_than] at ho
    apply key
    · exact mcsp_consume_writer q i c rel
    · simp only [step]
      rcases mcsp_consume_positions q i c rel with e | ⟨v, e⟩
      · rw [e]; exact hreg
      · rw [e, List.get?_eq_getElem?, List.getElem?_set_ne ho, ← List.get?_eq_getElem?]
        exact hreg
    · rfl
  | consume_all i c =>
    apply key
    · exact mcsp_consume_all_writer q i c
    · simp only [step]
      rw [mcsp_consume_all_positions]
      exact hreg
    · rfl
  | consume_n i n c rel =>
    simp only [Step.other_than] at ho
    apply key
    · exact mcsp_consume_n_writer q i n c rel
    · simp only [step]
      rcases mcsp_consume_n_positions q i n c rel with e | ⟨v, e⟩
      · rw [e]; exact hreg
      · rw [e, List.get?_eq_getElem?, List.getElem?_set_ne ho, ← List.get?_eq_getElem?]
        exact hreg
    · rfl

/-- Along a run of steps of the producer and of other readers, the value of the shared output
cursor moves forward from the announced position of the reader in slot `idx` by the number of
slots handed out. -/
theorem mcsp_run_other (N : Nat) (idx p : Nat) (hp : p ≠ detail.max_pos)
    (steps : List (Step Obj)) :
    ∀ (q : ObjectQueueMCSP Obj), WF N q → q.m_PositionArray.get? idx = some p →
      (∀ s ∈ steps, s.in_range ∧ s.other_than idx) →
      WF N (run q steps).2 ∧ (run q steps).2.m_PositionArray.get? idx = some p ∧
      ring_dist (N + 1) p (detail.value tb (run q steps).2.m_OutputPos) =
        ring_dist (N + 1) p (detail.value tb q.m_OutputPos) +
          (handed_log (run q steps).1).length := by
  induction steps with
  | nil => intro q h hreg _; exact ⟨h, hreg, by simp [run, handed_log]⟩
  | cons s ss ih =>
    intro q h hreg hr
    obtain ⟨r1, r2⟩ := hr s (List.mem_cons_self _ _)
    obtain ⟨a1, a2, a3⟩ := mcsp_step_other N q s idx p h r1 r2 hreg hp
    obtain ⟨b1, b2, b3⟩ := ih (step q s).2 a1 a2 (fun t ht => hr t (List.mem_cons_of_mem _ ht))
    refine ⟨b1, b2, ?_⟩
    simp only [run, handed_log, List.length_append]
    rw [b3, a3, Nat.add_assoc]

end ObjectQueueMCSP
end rb

namespace rb
namespace ObjectQueueMCSP
variable {Obj : Type}

/-- What `publish` does to the two words, in terms of the tag of the old `input_pos`. -/
theorem detail.publish_words (cur next ow : Nat) :
    detail.tag tb (detail.publish tb cur next ow).1 = (detail.tag tb cur + 1) % 2 ^ 16 ∧
    (detail.publish tb cur next ow).2 =
      if (detail.tag tb cur + 1) % 2 ^ 16 = 0 then ow - ow % 2 ^ 16 else ow := by
  have hlt := rb.detail.tag_lt cur
  have e : add_sz (detail.tag 16 cur) 1 = detail.tag 16 cur + 1 := add_sz_of_lt (by omega)
  have ht : detail.tag 16 (detail.incr_tagged 16 cur next) = (detail.tag 16 cur + 1) % 2 ^ 16 := by
    unfold detail.incr_tagged
    rw [rb.detail.tag_tagged_size, e]
  unfold detail.publish
  simp only [tb]
  rw [ht]
  exact ⟨rfl, rfl⟩

/-- The two shared words after `emplace`: untouched when it returns `false`, written by
`publish` when it returns `true`. -/
theorem mcsp_emplace_words (q : ObjectQueueMCSP Obj) (obj : Obj) :
    ((emplace q obj).1 = false →
      (emplace q obj).2.m_OutputPos = q.m_OutputPos ∧
      (emplace q obj).2.m_Writer.input_pos = q.m_Writer.input_pos) ∧
    ((emplace q obj).1 = true →
      detail.tag tb (emplace q obj).2.m_Writer.input_pos =
        (detail.tag tb q.m_Writer.input_pos + 1) % 2 ^ 16 ∧
      (emplace q obj).2.m_OutputPos =
        if (detail.tag tb q.m_Writer.input_pos + 1) % 2 ^ 16 = 0
        then q.m_OutputPos - q.m_OutputPos % 2 ^ 16 else q.m_OutputPos) := by
  unfold emplace
  simp only []
  generalize (if add_sz (detail.value tb q.m_Writer.input_pos) 1 ≠ q.m_Buffer.length
      then add_sz (detail.value tb q.m_Writer.input_pos) 1 else 0) = nx
  have hp := detail.publish_words q.m_Writer.input_pos nx q.m_OutputPos
  by_cases h1 : nx = q.m_Writer.output_pos
  · rw [if_pos h1]
    by_cases h2 : nx = detail.sync tb q.m_Writer.output_pos q.m_PositionArray q.m_OutputPos
    · rw [if_pos h2]
      exact ⟨fun _ => ⟨rfl, rfl⟩, fun h => by simp at h⟩
    · rw [if_neg h2]
      exact ⟨fun h => by simp at h, fun _ => hp⟩
  · rw [if_neg h1]
    exact ⟨fun h => by simp at h, fun _ => hp⟩

/-- The arithmetic of one more accepted push in front of a run of pushes. -/
theorem tag_wrap_step (T K O T1 O1 : Nat) (b : Bool) (hT : T < 2 ^ 16)
    (h1 : b = true → T1 = (T + 1) % 2 ^ 16 ∧
      O1 = if (T + 1) % 2 ^ 16 = 0 then O - O % 2 ^ 16 else O)
    (h0 : b = false → O1 = O ∧ T1 = T) :
    (T1 + K) % 2 ^ 16 = (T + ((if b = true then 1 else 0) + K)) % 2 ^ 16 ∧
    (if 2 ^ 16 ≤ T1 + K then O1 - O1 % 2 ^ 16 else O1) =
      (if 2 ^ 16 ≤ T + ((if b = true then 1 else 0) + K) then O - O % 2 ^ 16 else O) := by
  cases b with
  | false =>
    obtain ⟨e1, e2⟩ := h0 rfl
    subst e1 e2
    simp only [Bool.false_eq_true, if_false, Nat.zero_add]
    exact ⟨trivial, trivial⟩
  | true =>
    obtain ⟨e1, e2⟩ := h1 rfl
    subst e1 e2
    simp only [if_true]
    constructor
    · omega
    · by_cases h0 : (T + 1) % 2 ^ 16 = 0
      · rw [if_pos h0, h0, if_pos (show 2 ^ 16 ≤ T + (1 + K) by omega)]
        split_ifs <;> omega
      · rw [if_neg h0]
        have e : (T + 1) % 2 ^ 16 + K = T + (1 + K) := by omega
        rw [e]

/-- A run of pushes alone: the tag of `input_pos` counts the accepted pushes modulo `2 ^ 16`,
and `output_pos` has its tag bits cleared once that count has wrapped. -/
theorem mcsp_run_pushes (steps : List (Step Obj)) :
    ∀ (q : ObjectQueueMCSP Obj), (∀ s ∈ steps, ∃ obj, s = Step.push obj) →
      detail.tag tb (run q steps).2.m_Writer.input_pos =
        (detail.tag tb q.m_Writer.input_pos + (pushed_log steps (run q steps).1).length)
          % 2 ^ 16 ∧
      (run q steps).2.m_OutputPos =
        if 2 ^ 16 ≤ detail.tag tb q.m_Writer.input_pos +
            (pushed_log steps (run q steps).1).length
        then q.m_OutputPos - q.m_OutputPos % 2 ^ 16 else q.m_OutputPos := by
  induction steps with
  | nil =>
    intro q _
    have := rb.detail.tag_lt q.m_Writer.input_pos
    simp only [run, pushed_log, List.length_nil, Nat.add_zero, tb]
    exact ⟨(Nat.mod_eq_of_lt this).symm, by rw [if_neg (by omega)]⟩
  | cons s ss ih =>
    intro q hs
    obtain ⟨obj, rfl⟩ := hs s (List.mem_cons_self _ _)
    obtain ⟨i1, i2⟩ := ih (step q (Step.push obj)).2 (fun t ht => hs t (List.mem_cons_of_mem _ ht))
    obtain ⟨w1, w2⟩ := mcsp_emplace_words q obj
    have hlt := rb.detail.tag_lt q.m_Writer.input_pos
    simp only [run, pushed_log]
    simp only [step, push] at i1 i2 ⊢
    rw [i1, i2]
    have gen : ∀ b : Bool, pushed_of (Step.push obj) (Observed.push b) =
        if b = true then [obj] else [] := by
      intro b; cases b <;> rfl
    have hlen : (pushed_of (Step.push obj) (Observed.push (emplace q obj).1) ++
        pushed_log ss (run (emplace q obj).2 ss).1).length =
        (if (emplace q obj).1 = true then 1 else 0) +
          (pushed_log ss (run (emplace q obj).2 ss).1).length := by
      rw [List.length_append, gen]
      split_ifs <;> rfl
    simp only [hlen]
    exact tag_wrap_step _ _ _ _ _ _ hlt
      (fun h => ⟨(w2 h).1, (w2 h).2⟩) (fun h => ⟨(w1 h).1, congrArg (detail.tag tb) (w1 h).2⟩)

end ObjectQueueMCSP
end rb

namespace rb
namespace ObjectQueueMCSP
variable {Obj : Type}

/-- With room behind the producer's cached output position, `emplace` succeeds without a
`sync`: the cache stays and the value of `input_pos` moves on by one slot. -/
theorem mcsp_emplace_room (N : Nat) (q : ObjectQueueMCSP Obj) (obj : Obj) (h : WF N q)
    (hroom : ring_dist (N + 1) q.m_Writer.output_pos (detail.value tb q.m_Writer.input_pos)
      < N) :
    (emplace q obj).1 = true ∧
    (emplace q obj).2.m_Writer.output_pos = q.m_Writer.output_pos ∧
    detail.value tb (emplace q obj).2.m_Writer.input_pos =
      ring_wrap (N + 1) (detail.value tb q.m_Writer.input_pos + 1) := by
  obtain ⟨hlen, hN, hi, ho, hc, htag, hpos, hord⟩ := h
  have hnext : (if add_sz (detail.value tb q.m_Writer.input_pos) 1 ≠ q.m_Buffer.length
      then add_sz (detail.value tb q.m_Writer.input_pos) 1 else 0) =
      ring_wrap (N + 1) (detail.value tb q.m_Writer.input_pos + 1) := by
    rw [add_sz_of_lt (by omega), hlen]
    simp only [ring_wrap]
    split_ifs <;> omega
  have hw1 := ring_wrap_lt (S := N + 1) (k := 1) hi (by omega)
  have hne : ring_wrap (N + 1) (detail.value tb q.m_Writer.input_pos + 1) ≠
      q.m_Writer.output_pos := by
    intro e
    have := (ring_wrap_succ_eq (S := N + 1) hc hi).mp e
    omega
  have hp := (@detail.publish_spec q.m_Writer.input_pos q.m_OutputPos
    (ring_wrap (N + 1) (detail.value tb q.m_Writer.input_pos + 1)) (by omega) htag).1
  unfold emplace
  simp only [hnext]
  rw [if_neg hne]
  exact ⟨rfl, rfl, hp⟩

/-- A run of `k` pushes into a queue with room for them behind the producer's cached output
position: every push returns `true`. -/
theorem mcsp_run_pushes_accepted (N : Nat) (obj : Obj) (k : Nat) :
    ∀ (q : ObjectQueueMCSP Obj), WF N q →
      ring_dist (N + 1) q.m_Writer.output_pos (detail.value tb q.m_Writer.input_pos) + k ≤ N →
      (run q (List.replicate k (Step.push obj))).1 = List.replicate k (Observed.push true) := by
  induction k with
  | zero => intro q _ _; rfl
  | succ k ih =>
    intro q h hroom
    obtain ⟨e1, e2, e3⟩ := mcsp_emplace_room N q obj h (by omega)
    obtain ⟨hwf, _⟩ := mcsp_emplace_spec N q obj h
    obtain ⟨hlen, hN, hi, ho, hc, htag, hpos, hord⟩ := h
    have hd := ring_dist_wrap_add (S := N + 1) (k := 1) hc hi (by omega)
    have i1 := ih (emplace q obj).2 hwf (by rw [e2, e3, hd]; omega)
    simp only [List.replicate_succ, run, step, push]
    rw [i1, e1]

/-- While the reader in slot `idx` keeps its announced position, the producer accepts at most
`N` pushes: the pushes accepted, the elements stored at the start and the distance from the
announced position to `value(output_pos)` fit into the `N` usable slots. -/
theorem mcsp_run_other_pushes (N : Nat) (idx p : Nat) (hp : p ≠ detail.max_pos)
    (steps : List (Step Obj)) (q : ObjectQueueMCSP Obj) (h : WF N q)
    (hreg : q.m_PositionArray.get? idx = some p)
    (hsteps : ∀ s ∈ steps, s.in_range ∧ s.other_than idx) :
    (pushed_log steps (run q steps).1).length + (stored q).length +
      ring_dist (N + 1) p (detail.value tb q.m_OutputPos) ≤ N := by
  obtain ⟨hwf, hreg1, hd⟩ := mcsp_run_other N idx p hp steps q h hreg hsteps
  obtain ⟨_, hst⟩ := mcsp_run_spec N steps q h (fun s hs => (hsteps s hs).1)
  have hmem1 : p ∈ (run q steps).2.m_PositionArray := List.get?_mem hreg1
  have hl := congrArg List.length hst
  rw [List.length_append, List.length_append, List.length_map, List.length_map,
    mcsp_stored_length (run q steps).2] at hl
  obtain ⟨hlen1, _, hi1, ho1, hc1, _, hpos1, hord1, hord2⟩ := hwf
  rw [hlen1] at hl hord1 hord2
  have hpS : p < N + 1 := by
    rcases hpos1 p hmem1 with e | e
    · exact absurd e hp
    · exact e
  have a1 := hord1 p hmem1 hp
  have s1 := ring_dist_split hc1 hpS ho1 a1
  have s2 := ring_dist_split hc1 ho1 hi1 hord2
  have := ring_dist_lt (S := N + 1) (a := (run q steps).2.m_Writer.output_pos)
    (b := detail.value tb (run q steps).2.m_Writer.input_pos) hc1 hi1
  omega

/-- A successful reservation of one slot stores the tag of `input_pos` in `output_pos`. -/
theorem mcsp_consume_output_tag (N : Nat) (q : ObjectQueueMCSP Obj) (idx : Nat) (c rel : Bool)
    (h : WF N q)
    (hne : detail.value tb q.m_OutputPos ≠ detail.value tb q.m_Writer.input_pos) :
    detail.tag tb (consume q idx c rel).2.2.m_OutputPos = detail.tag tb q.m_Writer.input_pos := by
  obtain ⟨hlen, hN, hi, ho, hc, htag, hpos, hord⟩ := h
  have he : detail.empty 16 q.m_OutputPos q.m_Writer.input_pos = false := by
    cases e : detail.empty 16 q.m_OutputPos q.m_Writer.input_pos with
    | false => rfl
    | true => exact absurd ((detail.empty_iff htag).mp e) hne
  have hv : (if add_sz (detail.value 16 q.m_OutputPos) 1 = q.m_Buffer.length then 0
      else add_sz (detail.value 16 q.m_OutputPos) 1) < 2 ^ 48 := by
    have e1 : detail.value 16 q.m_OutputPos < N + 1 := ho
    rw [add_sz_of_lt (by omega), hlen]
    split_ifs <;> omega
  unfold consume
  simp only [tb, detail.reserve_one_eq, he, Bool.false_eq_true, if_false]
  exact (same_tagged_value_tag hv).2

/-- The accepted pushes of a run of `k` pushes that all return `true`. -/
theorem pushed_log_replicate (obj : Obj) (k : Nat) :
    (pushed_log (List.replicate k (Step.push obj))
      (List.replicate k (Observed.push true))).length = k := by
  induction k with
  | zero => rfl
  | succ k ih =>
    simp only [List.replicate_succ, pushed_log, pushed_of, List.length_append,
      List.length_singleton, ih]
    omega


/-- The state used to exercise the tag lap: on a fresh queue of capacity `N` readers 0 and 1
register, one value is pushed and reader 1 consumes it. The queue is well formed, reader 0 still
announces position 0, the tag of `output_pos` is 1, and the next `k` pushes are all accepted when
`k + 1 ≤ N`. -/
theorem tag_lap_state (N k : Nat) (hN : N + 1 ≤ 2 ^ 48) (h2 : 2 ≤ N) (hk : k + 1 ≤ N)
    (obj : Obj) :
    WF N (run (mk_queue N 2 : ObjectQueueMCSP Obj)
      [.get_reader 0, .get_reader 1, .push obj, .consume 1 true true]).2 ∧
    (run (mk_queue N 2 : ObjectQueueMCSP Obj)
      [.get_reader 0, .get_reader 1, .push obj, .consume 1 true true]).2.m_PositionArray.get? 0 =
        some 0 ∧
    detail.tag tb (run (mk_queue N 2 : ObjectQueueMCSP Obj)
      [.get_reader 0, .get_reader 1, .push obj, .consume 1 true true]).2.m_OutputPos = 1 ∧
    (run (run (mk_queue N 2 : ObjectQueueMCSP Obj)
      [.get_reader 0, .get_reader 1, .push obj, .consume 1 true true]).2
      (List.replicate k (Step.push obj))).1 =
        List.replicate k (Observed.push true) := by
  have hmk := (@mcsp_mk_queue_WF Obj N 2 hN).1
  have hg0 := (mcsp_get_reader_WF N _ 0 hmk).1
  have h0 := (mcsp_get_reader_WF N _ 1 hg0).1
  have v0 : detail.value tb 0 = 0 := by decide
  have t0 : detail.tag tb 0 = 0 := by decide
  have hrun : (run (mk_queue N 2 : ObjectQueueMCSP Obj)
      [.get_reader 0, .get_reader 1, .push obj, .consume 1 true true]).2 =
      (consume (emplace
        (get_reader (get_reader (mk_queue N 2 : ObjectQueueMCSP Obj) 0) 1)
        obj).2 1 true true).2.2 := by
    simp only [run, step, push]
  -- the push
  obtain ⟨e1, e2, e3⟩ := mcsp_emplace_room N
    (get_reader (get_reader (mk_queue N 2 : ObjectQueueMCSP Obj) 0) 1) obj h0
    (by
      show ring_dist (N + 1) 0 (detail.value tb 0) < N
      rw [v0, ring_dist_self]; omega)
  have ha := (mcsp_emplace_spec N _ obj h0).1
  have hw := (mcsp_emplace_words
    (get_reader (get_reader (mk_queue N 2 : ObjectQueueMCSP Obj) 0) 1) obj).2 e1
  have e3v : detail.value tb (emplace
      (get_reader (get_reader (mk_queue N 2 : ObjectQueueMCSP Obj) 0) 1)
      obj).2.m_Writer.input_pos = 1 := by
    rw [e3]
    show ring_wrap (N + 1) (detail.value tb 0 + 1) = 1
    rw [v0]
    unfold ring_wrap
    split_ifs <;> omega
  have e2v : (emplace
      (get_reader (get_reader (mk_queue N 2 : ObjectQueueMCSP Obj) 0) 1)
      obj).2.m_Writer.output_pos = 0 := e2
  have e4 : detail.tag tb (emplace
      (get_reader (get_reader (mk_queue N 2 : ObjectQueueMCSP Obj) 0) 1)
      obj).2.m_Writer.input_pos = 1 := by
    rw [hw.1]
    show (detail.tag tb 0 + 1) % 2 ^ 16 = 1
    rw [t0]
    decide
  have e5 : detail.value tb (emplace
      (get_reader (get_reader (mk_queue N 2 : ObjectQueueMCSP Obj) 0) 1)
      obj).2.m_OutputPos = 0 := by
    rw [mcsp_emplace_output_value N _ obj h0]
    exact v0
  -- the consume of reader 1
  have hb := (mcsp_consume_spec N _ 1 true true ha).1
  have hwr := mcsp_consume_writer (emplace
      (get_reader (get_reader (mk_queue N 2 : ObjectQueueMCSP Obj) 0) 1)
      obj).2 1 true true
  have htag := mcsp_consume_output_tag N _ 1 true true ha
    (by rw [e5, e3v]; decide)
  have hreg := (mcsp_run_other N 0 0 (by decide)
    [.get_reader 1, .push obj, .consume 1 true true]
    (get_reader (mk_queue N 2 : ObjectQueueMCSP Obj) 0) hg0
    (by
      show ((List.replicate 2 detail.max_pos).set 0 (detail.value tb 0)).get? 0 = some 0
      rw [v0]; rfl)
    (by
      intro s hs
      simp only [List.mem_cons, List.mem_singleton, List.not_mem_nil, or_false] at hs
      rcases hs with rfl | rfl | rfl
      · exact ⟨trivial, by simp [Step.other_than]⟩
      · exact ⟨trivial, trivial⟩
      · exact ⟨trivial, by simp [Step.other_than]⟩)).2.1
  have hreg1 : (consume (emplace
        (get_reader (get_reader (mk_queue N 2 : ObjectQueueMCSP Obj) 0) 1)
        obj).2 1 true true).2.2.m_PositionArray.get? 0 = some 0 := by
    simp only [run, step, push] at hreg
    exact hreg
  rw [hrun]
  refine ⟨hb, hreg1, htag.trans e4, ?_⟩
  apply mcsp_run_pushes_accepted N obj k _ hb
  rw [hwr, e2v, e3v]
  unfold ring_dist
  split_ifs <;> omega

end ObjectQueueMCSP
end rb

namespace rb

/-- Claim C22: when every entry of the position array is the vacant sentinel `max_pos`, `sync`
returns the value of `output_pos` for every previous cache value below `max_pos`; and vacant
entries never change the result of `sync`: it is the result for the array without them. On a
well-formed MCSP object queue whose reader slots are all vacant, `emplace` therefore fails only
when all `N` slots up to the shared output cursor are in use. -/
theorem detail.sync_reader_drop_liveness (Obj : Type) (tb prev ow : Nat) (pos : List Nat)
    (hprev : prev < detail.max_pos) (how : ow < 2 ^ 64) :
    ((∀ a ∈ pos, a = detail.max_pos) → detail.sync tb prev pos ow = detail.value tb ow) ∧
    detail.sync tb prev pos ow =
      detail.sync tb prev (pos.filter (fun a => decide (a ≠ detail.max_pos))) ow ∧
    (∀ (N : Nat) (q : ObjectQueueMCSP Obj) (obj : Obj), ObjectQueueMCSP.WF N q →
      (∀ a ∈ q.m_PositionArray, a = detail.max_pos) →
      ((ObjectQueueMCSP.emplace q obj).1 = true ↔ (ObjectQueueMCSP.stored q).length < N)) :=
  ⟨detail.sync_all_vacant tb prev ow pos hprev (detail.value_le_max_pos tb ow how),
    detail.sync_filter_vacant tb prev ow pos hprev (detail.value_le_max_pos tb ow how),
    fun N q obj h hv => ObjectQueueMCSP.mcsp_emplace_all_vacant N q obj h hv⟩

theorem detail.sync_reader_drop_liveness_witness :
    detail.sync 16 5 [detail.max_pos, detail.max_pos] 131072 = detail.value 16 131072 ∧
    detail.sync 16 5 [7, detail.max_pos, 1] 131072 = detail.sync 16 5 [7, 1] 131072 :=
  ⟨(detail.sync_reader_drop_liveness Nat 16 5 131072 [detail.max_pos, detail.max_pos]
      (by decide) (by norm_num)).1 (by decide),
    (detail.sync_reader_drop_liveness Nat 16 5 131072 [7, detail.max_pos, 1]
      (by decide) (by norm_num)).2.1.trans (by decide)⟩

end rb

namespace rb
namespace FunctionQueueMCSP

set_option maxRecDepth 4000 in
/-- Claim C23, a failing input in the InvokeOnce and InvokeOnceDNI modes, on a queue with two
function slots (an array of three) and two readers. After the calls of `two_lap_steps` every slot
of the array holds a descriptor written by a push, five callables have been accepted, four of
them invoked and destroyed, and only slot 1 is published (`output_pos` 1, `input_pos` 2). Then
reader 1 calls `consume_n` with `n = 2^64 - 1`: `output_pos + n` wraps in `next_pos`, the
reservation runs past `input_pos` round the ring to slot 0, and the call hands out two wrappers
with one callable stored, that of slot 1 and the stale one of slot 2, whose callable (the third)
was invoked and destroyed before. The following `consume` of reader 0 is handed slot 0 again,
whose callable (the fourth) it had consumed itself. Five callables were accepted, seven wrappers
were invoked, and `destroy_at` ran a second time on the objects at addresses 4112 and 4120,
after their lifetime had ended; in the log of returned values `none` marks an invocation at an
address where no object is alive. -/
theorem consume_n_wrap_invokes_twice :
    ((run FQOpt.InvokeOnce (mk_queue 4096 64 2 2) two_lap_steps).1.accepted.length = 5 ∧
    (run FQOpt.InvokeOnce (mk_queue 4096 64 2 2) two_lap_steps).1.handed =
      [([0], [some 1]), ([0], [some 2]), ([0], [some 3]), ([0], [some 4])] ∧
    (run FQOpt.InvokeOnce (mk_queue 4096 64 2 2) two_lap_steps).2.m_FunctionArray.map
        (fun fd => fd.map (fun d => d.obj)) = [some 4120, some 4128, some 4112] ∧
    detail.value tb (run FQOpt.InvokeOnce (mk_queue 4096 64 2 2) two_lap_steps).2.m_OutputPos
      = 1 ∧
    detail.value tb
      (run FQOpt.InvokeOnce (mk_queue 4096 64 2 2) two_lap_steps).2.m_Writer.input_pos = 2 ∧
    (consume_n FQOpt.InvokeOnce (run FQOpt.InvokeOnce (mk_queue 4096 64 2 2) two_lap_steps).2
      1 (2 ^ 64 - 1) true true [0]).1 = 2 ∧
    (consume_n FQOpt.InvokeOnce (run FQOpt.InvokeOnce (mk_queue 4096 64 2 2) two_lap_steps).2
      1 (2 ^ 64 - 1) true true [0]).2.1 = [[some 5], [none]] ∧
    (run FQOpt.InvokeOnce (mk_queue 4096 64 2 2) (two_lap_steps ++
      [.consume_n 1 (2 ^ 64 - 1) true true [0], .consume 0 true true [0]])).1.accepted.length
      = 5 ∧
    (run FQOpt.InvokeOnce (mk_queue 4096 64 2 2) (two_lap_steps ++
      [.consume_n 1 (2 ^ 64 - 1) true true [0], .consume 0 true true [0]])).1.handed =
      [([0], [some 1]), ([0], [some 2]), ([0], [some 3]), ([0], [some 4]), ([0], [some 5]),
        ([0], [none]), ([0], [none])] ∧
    (run FQOpt.InvokeOnce (mk_queue 4096 64 2 2) (two_lap_steps ++
      [.consume_n 1 (2 ^ 64 - 1) true true [0], .consume 0 true true [0]])).2.memory.destroyed =
      [⟨4096, false, some 1⟩, ⟨4104, false, some 2⟩, ⟨4112, false, some 3⟩,
        ⟨4120, false, some 4⟩, ⟨4128, false, some 5⟩, ⟨4112, false, none⟩,
        ⟨4120, false, none⟩]) ∧
    ((run FQOpt.InvokeOnceDNI (mk_queue 4096 64 2 2) two_lap_steps).2.m_FunctionArray.map
        (fun fd => fd.map (fun d => d.obj)) = [some 4120, some 4128, some 4112] ∧
    (consume_n FQOpt.InvokeOnceDNI
      (run FQOpt.InvokeOnceDNI (mk_queue 4096 64 2 2) two_lap_steps).2
      1 (2 ^ 64 - 1) true true [0]).1 = 2 ∧
    (run FQOpt.InvokeOnceDNI (mk_queue 4096 64 2 2) (two_lap_steps ++
      [.consume_n 1 (2 ^ 64 - 1) true true [0], .consume 0 true true [0]])).1.handed =
      [([0], [some 1]), ([0], [some 2]), ([0], [some 3]), ([0], [some 4]), ([0], [some 5]),
        ([0], [none]), ([0], [none])] ∧
    (run FQOpt.InvokeOnceDNI (mk_queue 4096 64 2 2) (two_lap_steps ++
      [.consume_n 1 (2 ^ 64 - 1) true true [0], .consume 0 true true [0]])).2.memory.destroyed =
      [⟨4096, false, some 1⟩, ⟨4104, false, some 2⟩, ⟨4112, false, some 3⟩,
        ⟨4120, false, some 4⟩, ⟨4128, false, some 5⟩, ⟨4112, false, none⟩,
        ⟨4120, false, none⟩]) := by
  refine ⟨⟨?_, ?_, ?_, ?_, ?_, ?_, ?_, ?_, ?_, ?_⟩, ?_, ?_, ?_, ?_⟩ <;> decide

end FunctionQueueMCSP
end rb

namespace rb
/-- Claim C33: for positions `out`, `inp` below the ring size `S` (a 64-bit number), the span of
`count_avl` slots behind `inp` ends inside the ring, `count_avl` is at most
`(S - 1) - count(out, inp, S)`, so the span holds no live slot and leaves the one-slot guard
free, and `count_avl` is 0 iff the ring is full (`count = S - 1`). -/
theorem detail.count_avl_contract (out inp S : Nat) (hS : S < 2 ^ 64) (ho : out < S)
    (hi : inp < S) :
    inp + detail.count_avl out inp S ≤ S ∧
    detail.count_avl out inp S ≤ (S - 1) - detail.count out inp S ∧
    (detail.count_avl out inp S = 0 ↔ detail.count out inp S = S - 1) ∧
    (∀ j, inp ≤ j → j < inp + detail.count_avl out inp S →
      detail.count out inp S ≤ ring_dist S out j ∧ ring_dist S out j + 1 < S) := by
  obtain ⟨f1, f2, f3⟩ := @detail.count_avl_facts S out inp hS ho hi
  have hc := @detail.count_eq_ring_dist S out inp hS ho hi
  rw [hc]
  refine ⟨f1, by omega, ?_, ?_⟩
  · rw [f3]; omega
  · intro j h1 h2
    rw [detail.count_avl_eq hS ho hi] at h2 f2
    unfold ring_dist at f2 ⊢
    split_ifs at h2 f2 ⊢ <;> omega

theorem detail.count_avl_contract_witness :
    5 + detail.count_avl 2 5 8 ≤ 8 ∧
    detail.count_avl 2 5 8 ≤ (8 - 1) - detail.count 2 5 8 ∧
    (detail.count_avl 2 5 8 = 0 ↔ detail.count 2 5 8 = 8 - 1) :=
  have h := detail.count_avl_contract 2 5 8 (by decide) (by decide) (by decide)
  ⟨h.1, h.2.1, h.2.2.1⟩

end rb

namespace rb

/-- The rounded-up address is a multiple of the alignment. -/
theorem align_up_mod (a x : Nat) : align_up a x % a = 0 := by
  unfold align_up
  exact Nat.mul_mod_left _ _

/-- No multiple of the alignment lies between an address and the rounded-up address. -/
theorem align_up_least (a x m : Nat) (ha : 0 < a) (hm : x ≤ m) (hd : m % a = 0) :
    align_up a x ≤ m := by
  unfold align_up
  obtain ⟨t, rfl⟩ := Nat.dvd_of_mod_eq_zero hd
  have h1 : (x + a - 1) / a ≤ (a * t + a - 1) / a := Nat.div_le_div_right (by omega)
  have h2 : (a * t + a - 1) / a = t := by
    have e : a * t + a - 1 = a - 1 + a * t := by omega
    rw [e, Nat.add_mul_div_left _ _ ha, Nat.div_eq_of_lt (by omega)]
    omega
  rw [h2] at h1
  calc (x + a - 1) / a * a ≤ t * a := Nat.mul_le_mul_right _ h1
    _ = a * t := Nat.mul_comm _ _

/-- The lambda `getAlignedStorage`, for a power-of-two alignment, computes the aligned fit of
the region it is given. -/
theorem detail.getAlignedStorage_eq_aligned_fit (bytes k : Nat) (buffer : Buffer) (hk : k < 64)
    (hfit : buffer.data + buffer.size < 2 ^ 64) :
    detail.getAlignedStorage bytes (2 ^ k) buffer =
      detail.aligned_fit bytes (2 ^ k) buffer.data (buffer.data + buffer.size) := by
  rw [detail.getAlignedStorage_eq bytes k buffer hk hfit]
  rfl

/-- An aligned fit for at least one byte is non-empty exactly when the request fits behind the
aligned address. -/
theorem detail.aligned_fit_size_ne (bytes a lo hi : Nat) (hs : 1 ≤ bytes) :
    (detail.aligned_fit bytes a lo hi).size ≠ 0 ↔ align_up a lo + bytes ≤ hi := by
  unfold detail.aligned_fit
  by_cases h : align_up a lo + bytes ≤ hi
  · rw [if_pos h]
    simp only [ne_eq, h, iff_true]
    omega
  · rw [if_neg h]
    simp [Buffer.nil, h]

/-- Claim C31: region choice of `get_storage` for a request of `bytes >= 1` bytes with a
power-of-two alignment, in an arena of `B` bytes at address `base` with cursors `inp`, `out`.
With `inp >= out` the result is the aligned fit of the forward region `[inp, B)` when the
request fits there after aligning upward; otherwise, with `out > 0`, the aligned fit of the wrap
region `[0, out - 1)`; otherwise empty. With `inp < out` it is the aligned fit of
`[inp, out - 1)`. An aligned fit starts at the least multiple of the alignment that is not below
the start of the region, and it is non-empty iff at least `bytes` bytes of the region remain
from that address. -/
theorem detail.get_storage_region_choice (bytes k base B inp out : Nat) (hk : k < 64)
    (hs : 1 ≤ bytes) (hfit : base + B < 2 ^ 64) (hin : inp ≤ B) (hout : out ≤ B) :
    (inp ≥ out → align_up (2 ^ k) (base + inp) + bytes ≤ base + B →
      detail.get_storage ⟨⟨base, B⟩, inp, out⟩ bytes (2 ^ k) =
        detail.aligned_fit bytes (2 ^ k) (base + inp) (base + B)) ∧
    (inp ≥ out → ¬ align_up (2 ^ k) (base + inp) + bytes ≤ base + B → 0 < out →
      detail.get_storage ⟨⟨base, B⟩, inp, out⟩ bytes (2 ^ k) =
        detail.aligned_fit bytes (2 ^ k) base (base + (out - 1))) ∧
    (inp ≥ out → ¬ align_up (2 ^ k) (base + inp) + bytes ≤ base + B → out = 0 →
      detail.get_storage ⟨⟨base, B⟩, inp, out⟩ bytes (2 ^ k) = Buffer.nil) ∧
    (inp < out →
      detail.get_storage ⟨⟨base, B⟩, inp, out⟩ bytes (2 ^ k) =
        detail.aligned_fit bytes (2 ^ k) (base + inp) (base + (out - 1))) ∧
    (∀ lo hi : Nat,
      ((detail.aligned_fit bytes (2 ^ k) lo hi).size ≠ 0 ↔
        align_up (2 ^ k) lo + bytes ≤ hi) ∧
      ((detail.aligned_fit bytes (2 ^ k) lo hi).size ≠ 0 →
        (detail.aligned_fit bytes (2 ^ k) lo hi).data = align_up (2 ^ k) lo ∧
        (detail.aligned_fit bytes (2 ^ k) lo hi).data +
          (detail.aligned_fit bytes (2 ^ k) lo hi).size = hi) ∧
      lo ≤ align_up (2 ^ k) lo ∧ align_up (2 ^ k) lo % 2 ^ k = 0 ∧
      ∀ m, lo ≤ m → m % 2 ^ k = 0 → align_up (2 ^ k) lo ≤ m) := by
  have hpos := Nat.two_pow_pos k
  have hfwd : detail.getAlignedStorage bytes (2 ^ k) ⟨base + inp, B - inp⟩ =
      detail.aligned_fit bytes (2 ^ k) (base + inp) (base + B) := by
    rw [detail.getAlignedStorage_eq_aligned_fit bytes k _ hk (by simp only []; omega)]
    simp only []
    congr 1
    omega
  have hwrap : 0 < out → detail.getAlignedStorage bytes (2 ^ k) ⟨base, sub_sz out 1⟩ =
      detail.aligned_fit bytes (2 ^ k) base (base + (out - 1)) := by
    intro h0
    rw [sub_sz_of_le (by omega) (by omega),
      detail.getAlignedStorage_eq_aligned_fit bytes k _ hk (by simp only []; omega)]
  have hmid : inp < out →
      detail.getAlignedStorage bytes (2 ^ k) ⟨base + inp, sub_sz (sub_sz out inp) 1⟩ =
        detail.aligned_fit bytes (2 ^ k) (base + inp) (base + (out - 1)) := by
    intro h0
    have e1 : sub_sz out inp = out - inp := sub_sz_of_le (by omega) (by omega)
    have e2 : sub_sz (out - inp) 1 = out - inp - 1 := sub_sz_of_le (by omega) (by omega)
    rw [e1, e2,
      detail.getAlignedStorage_eq_aligned_fit bytes k _ hk (by simp only []; omega)]
    have e3 : base + inp + (out - inp - 1) = base + (out - 1) := by omega
    simp only [e3]
  have hne := detail.aligned_fit_size_ne bytes (2 ^ k) (base + inp) (base + B) hs
  refine ⟨?_, ?_, ?_, ?_, ?_⟩
  · intro h1 h2
    unfold detail.get_storage
    simp only [Buffer.subspan_from, Buffer.subspan, Buffer.first, Buffer.empty, beq_iff_eq]
    rw [if_pos h1, hfwd, if_pos (hne.mpr h2)]
  · intro h1 h2 h3
    unfold detail.get_storage
    simp only [Buffer.subspan_from, Buffer.subspan, Buffer.first, Buffer.empty, beq_iff_eq]
    rw [if_pos h1, hfwd, if_neg (fun h => h2 (hne.mp h)), if_pos (by omega), hwrap h3]
  · intro h1 h2 h3
    unfold detail.get_storage
    simp only [Buffer.subspan_from, Buffer.subspan, Buffer.first, Buffer.empty, beq_iff_eq]
    rw [if_pos h1, hfwd, if_neg (fun h => h2 (hne.mp h)), if_neg (by omega)]
  · intro h1
    unfold detail.get_storage
    simp only [Buffer.subspan_from, Buffer.subspan, Buffer.first, Buffer.empty, beq_iff_eq]
    rw [if_neg (by omega), hmid h1]
  · intro lo hi
    refine ⟨detail.aligned_fit_size_ne bytes (2 ^ k) lo hi hs, ?_,
      BufferQueueSCSP.align_up_ge (2 ^ k) lo hpos, align_up_mod (2 ^ k) lo,
      fun m hm hd => align_up_least (2 ^ k) lo m hpos hm hd⟩
    intro h
    have h2 := (detail.aligned_fit_size_ne bytes (2 ^ k) lo hi hs).mp h
    unfold detail.aligned_fit
    rw [if_pos h2]
    simp only []
    exact ⟨trivial, by omega⟩

theorem detail.get_storage_region_choice_witness :
    detail.get_storage ⟨⟨4096, 64⟩, 20, 0⟩ 8 16 = ⟨4128, 32⟩ ∧
    detail.get_storage ⟨⟨4096, 64⟩, 60, 40⟩ 8 16 = ⟨4096, 39⟩ ∧
    detail.get_storage ⟨⟨4096, 64⟩, 60, 0⟩ 8 16 = Buffer.nil ∧
    detail.get_storage ⟨⟨4096, 64⟩, 10, 40⟩ 8 16 = ⟨4112, 23⟩ :=
  have h1 := detail.get_storage_region_choice 8 4 4096 64 20 0 (by decide) (by decide)
    (by decide) (by decide) (by decide)
  have h2 := detail.get_storage_region_choice 8 4 4096 64 60 40 (by decide) (by decide)
    (by decide) (by decide) (by decide)
  have h3 := detail.get_storage_region_choice 8 4 4096 64 60 0 (by decide) (by decide)
    (by decide) (by decide) (by decide)
  have h4 := detail.get_storage_region_choice 8 4 4096 64 10 40 (by decide) (by decide)
    (by decide) (by decide) (by decide)
  ⟨(h1.1 (by decide) (by decide)).trans (by decide),
    (h2.2.1 (by decide) (by decide) (by decide)).trans (by decide),
    h3.2.2.1 (by decide) (by decide) rfl,
    (h4.2.2.2.1 (by decide)).trans (by decide)⟩

/-- Claim C32, amended: when `get_storage(rb, s, a)` succeeds, the range it returns holds at least
`s` bytes and is the whole rest of the region it was cut from: it ends at the end of the arena
(forward region) or one byte before the arena cursor `out` (the other two regions). Its length
is `s` only when the request fits tightly. -/
theorem detail.get_storage_length (rb : detail.ByteRingBuffer) (s a : Nat)
    (hfit : rb.buffer.data + rb.buffer.size < 2 ^ 64)
    (hin : rb.input_pos ≤ rb.buffer.size) (hout : rb.output_pos ≤ rb.buffer.size)
    (hne : (detail.get_storage rb s a).size ≠ 0) :
    s ≤ (detail.get_storage rb s a).size ∧
    ((detail.get_storage rb s a).data + (detail.get_storage rb s a).size =
        rb.buffer.data + rb.buffer.size ∨
      (detail.get_storage rb s a).data + (detail.get_storage rb s a).size + 1 =
        rb.buffer.data + rb.output_pos) ∧
    ((detail.get_storage rb s a).size = s ↔
      ((detail.get_storage rb s a).data + s = rb.buffer.data + rb.buffer.size ∨
        (detail.get_storage rb s a).data + s + 1 = rb.buffer.data + rb.output_pos)) := by
  have key : s ≤ (detail.get_storage rb s a).size ∧
      (((detail.get_storage rb s a).data + (detail.get_storage rb s a).size =
          rb.buffer.data + rb.buffer.size ∧
          ((detail.get_storage rb s a).data + s + 1 = rb.buffer.data + rb.output_pos →
            (detail.get_storage rb s a).size = s)) ∨
        ((detail.get_storage rb s a).data + (detail.get_storage rb s a).size + 1 =
          rb.buffer.data + rb.output_pos ∧
          ((detail.get_storage rb s a).data + s = rb.buffer.data + rb.buffer.size →
            (detail.get_storage rb s a).size = s))) := by
    unfold detail.get_storage at hne ⊢
    by_cases h1 : rb.input_pos ≥ rb.output_pos
    · rw [if_pos h1] at hne ⊢
      simp only [] at hne ⊢
      by_cases h2 : (detail.getAlignedStorage s a
          (rb.buffer.subspan_from rb.input_pos)).empty = true
      · simp only [h2, not_true_eq_false, if_false] at hne ⊢
        by_cases h3 : rb.output_pos ≠ 0
        · rw [if_pos h3] at hne ⊢
          have e : sub_sz rb.output_pos 1 = rb.output_pos - 1 :=
            sub_sz_of_le (by omega) (by omega)
          rw [e] at hne ⊢
          have sp := BufferQueueSCSP.detail.getAlignedStorage_spec s a
            (rb.buffer.first (rb.output_pos - 1))
            (by simp only [Buffer.first]; omega) hne
          simp only [Buffer.first] at sp ⊢
          exact ⟨sp.2.2, Or.inr ⟨by omega, fun _ => by omega⟩⟩
        · rw [if_neg h3] at hne
          simp [Buffer.nil] at hne
      · simp only [h2, Bool.false_eq_true, not_false_eq_true, if_true] at hne ⊢
        have sp := BufferQueueSCSP.detail.getAlignedStorage_spec s a
          (rb.buffer.subspan_from rb.input_pos)
          (by simp only [Buffer.subspan_from]; omega) hne
        simp only [Buffer.subspan_from] at sp ⊢
        exact ⟨sp.2.2, Or.inl ⟨by omega, fun _ => by omega⟩⟩
    · rw [if_neg h1] at hne ⊢
      have e1 : sub_sz rb.output_pos rb.input_pos = rb.output_pos - rb.input_pos :=
        sub_sz_of_le (by omega) (by omega)
      have e2 : sub_sz (rb.output_pos - rb.input_pos) 1 =
          rb.output_pos - rb.input_pos - 1 :=
        sub_sz_of_le (by omega) (by omega)
      rw [e1, e2] at hne ⊢
      have sp := BufferQueueSCSP.detail.getAlignedStorage_spec s a
        (rb.buffer.subspan rb.input_pos (rb.output_pos - rb.input_pos - 1))
        (by simp only [Buffer.subspan]; omega) hne
      simp only [Buffer.subspan] at sp ⊢
      exact ⟨sp.2.2, Or.inr ⟨by omega, fun _ => by omega⟩⟩
  obtain ⟨k1, k2⟩ := key
  refine ⟨k1, ?_, ?_⟩
  · rcases k2 with ⟨e, _⟩ | ⟨e, _⟩
    · exact Or.inl e
    · exact Or.inr e
  · constructor
    · intro e
      rcases k2 with ⟨e2, _⟩ | ⟨e2, _⟩
      · left; omega
      · right; omega
    · rintro (e | e)
      · rcases k2 with ⟨e2, _⟩ | ⟨_, e3⟩
        · omega
        · exact e3 e
      · rcases k2 with ⟨_, e3⟩ | ⟨e2, _⟩
        · exact e3 e
        · omega

theorem detail.get_storage_length_witness :
    8 ≤ (detail.get_storage ⟨⟨4096, 64⟩, 20, 0⟩ 8 16).size ∧
    (detail.get_storage ⟨⟨4096, 64⟩, 20, 0⟩ 8 16).data +
      (detail.get_storage ⟨⟨4096, 64⟩, 20, 0⟩ 8 16).size = 4096 + 64 :=
  have h := detail.get_storage_length ⟨⟨4096, 64⟩, 20, 0⟩ 8 16 (by decide) (by decide)
    (by decide) (by decide)
  ⟨h.1, h.2.1.resolve_right (by decide)⟩

/-- Counterexample to the literal claim C32: asked for 8 bytes with alignment 8 in an empty arena
of 64 bytes at address 4096, `get_storage` returns the whole arena, 64 bytes. -/
theorem detail.get_storage_returns_rest_of_region :
    detail.get_storage ⟨⟨4096, 64⟩, 0, 0⟩ 8 8 = ⟨4096, 64⟩ ∧
    (detail.get_storage ⟨⟨4096, 64⟩, 0, 0⟩ 8 8).size ≠ 8 := by
  constructor <;> decide

end rb

namespace rb

/-- In a well-formed buffer queue whose arena invariant holds and that stores a buffer, `sync`
sets the arena cursor `out` to the offset of the oldest stored buffer, a position inside the
arena. -/
theorem BufferQueueSCSP.sync_offset (M : Nat) (q : BufferQueueSCSP) (h : BufferQueueSCSP.WF M q)
    (ha : BufferQueueSCSP.arena_inv q) (hne : q.m_Reader.output_pos ≠ q.m_Writer.input_pos) :
    q.m_Writer.byte_rb.buffer.data + (BufferQueueSCSP.sync q).m_Writer.byte_rb.output_pos =
      (q.splice_at q.m_Reader.output_pos).data ∧
    (BufferQueueSCSP.sync q).m_Writer.byte_rb.output_pos ≤ q.m_Writer.byte_rb.buffer.size := by
  have hsub := BufferQueueSCSP.stored_subset_window M q h
  obtain ⟨hfit, hin, hout, hlay⟩ := ha
  obtain ⟨ds, hds⟩ := BufferQueueSCSP.stored_eq_cons M q h hne
  have e : (BufferQueueSCSP.sync q).m_Writer.byte_rb.output_pos =
      sub_sz (q.splice_at q.m_Reader.output_pos).data q.m_Writer.byte_rb.buffer.data := by
    simp [BufferQueueSCSP.sync, hne]
  have hd := hsub (q.splice_at q.m_Reader.output_pos) (by rw [hds]; exact List.mem_cons_self _ _)
  generalize q.splice_at q.m_Reader.output_pos = d at e hd
  rw [e]
  rcases hlay with ⟨hle, hch⟩ | ⟨hlt, d1, d2, hsplit, hc1, hc2⟩
  · have hm := BufferQueueSCSP.chain_mem hch d hd
    rw [sub_sz_of_le (by omega) (by omega)]
    omega
  · rw [hsplit] at hd
    rcases List.mem_append.mp hd with hd1 | hd2
    · have hm := BufferQueueSCSP.chain_mem hc1 d hd1
      rw [sub_sz_of_le (by omega) (by omega)]
      omega
    · have hm := BufferQueueSCSP.chain_mem hc2 d hd2
      rw [sub_sz_of_le (by omega) (by omega)]
      omega

/-- Claim C34: post-condition of the producer-side `sync` of `BufferQueueSCSP` and of
`FunctionQueueSCSP`. Afterwards the producer's cached output position is the consumer's
`output_pos`; the arena cursor `out` is the arena cursor `in` when that position equals
`input_pos`, and otherwise the difference between the pointer of the descriptor in the slot at
that position and the arena base; `input_pos`, the arena cursor `in`, the arena, the
descriptors and the consumer's fields are unchanged. In the states the queues reach (slot ring
well formed, arena invariant) the difference is the offset of that descriptor inside the
arena. -/
theorem sync_postcondition {S Args R : Type} (q : BufferQueueSCSP)
    (f : FunctionQueueSCSP S Args R) :
    ((BufferQueueSCSP.sync q).m_Writer.output_pos = q.m_Reader.output_pos ∧
      ((BufferQueueSCSP.sync q).m_Writer.output_pos = (BufferQueueSCSP.sync q).m_Writer.input_pos →
        (BufferQueueSCSP.sync q).m_Writer.byte_rb.output_pos =
          (BufferQueueSCSP.sync q).m_Writer.byte_rb.input_pos) ∧
      ((BufferQueueSCSP.sync q).m_Writer.output_pos ≠ (BufferQueueSCSP.sync q).m_Writer.input_pos →
        (BufferQueueSCSP.sync q).m_Writer.byte_rb.output_pos =
          sub_sz ((BufferQueueSCSP.sync q).splice_at
              (BufferQueueSCSP.sync q).m_Writer.output_pos).data
            (BufferQueueSCSP.sync q).m_Writer.byte_rb.buffer.data) ∧
      (BufferQueueSCSP.sync q).m_Writer.input_pos = q.m_Writer.input_pos ∧
      (BufferQueueSCSP.sync q).m_Writer.byte_rb.input_pos = q.m_Writer.byte_rb.input_pos ∧
      (BufferQueueSCSP.sync q).m_Writer.byte_rb.buffer = q.m_Writer.byte_rb.buffer ∧
      (BufferQueueSCSP.sync q).m_SpliceArray = q.m_SpliceArray ∧
      (BufferQueueSCSP.sync q).m_Reader = q.m_Reader) ∧
    ((FunctionQueueSCSP.sync f).m_Writer.output_pos = f.m_Reader.output_pos ∧
      ((FunctionQueueSCSP.sync f).m_Writer.output_pos =
          (FunctionQueueSCSP.sync f).m_Writer.input_pos →
        (FunctionQueueSCSP.sync f).m_Writer.byte_rb.output_pos =
          (FunctionQueueSCSP.sync f).m_Writer.byte_rb.input_pos) ∧
      ((FunctionQueueSCSP.sync f).m_Writer.output_pos ≠
          (FunctionQueueSCSP.sync f).m_Writer.input_pos →
        (FunctionQueueSCSP.sync f).m_Writer.byte_rb.output_pos =
          sub_sz (detail.obj_at (FunctionQueueSCSP.sync f).m_FunctionArray
              (FunctionQueueSCSP.sync f).m_Writer.output_pos)
            (FunctionQueueSCSP.sync f).m_Writer.byte_rb.buffer.data) ∧
      (FunctionQueueSCSP.sync f).m_Writer.input_pos = f.m_Writer.input_pos ∧
      (FunctionQueueSCSP.sync f).m_Writer.byte_rb.input_pos = f.m_Writer.byte_rb.input_pos ∧
      (FunctionQueueSCSP.sync f).m_Writer.byte_rb.buffer = f.m_Writer.byte_rb.buffer ∧
      (FunctionQueueSCSP.sync f).m_FunctionArray = f.m_FunctionArray ∧
      (FunctionQueueSCSP.sync f).m_Reader = f.m_Reader ∧
      (FunctionQueueSCSP.sync f).memory = f.memory) ∧
    (∀ M, BufferQueueSCSP.WF M q → BufferQueueSCSP.arena_inv q →
      q.m_Reader.output_pos ≠ q.m_Writer.input_pos →
      q.m_Writer.byte_rb.buffer.data + (BufferQueueSCSP.sync q).m_Writer.byte_rb.output_pos =
        (q.splice_at q.m_Reader.output_pos).data ∧
      (BufferQueueSCSP.sync q).m_Writer.byte_rb.output_pos ≤ q.m_Writer.byte_rb.buffer.size) ∧
    (∀ opt arena B M items, FunctionQueueSCSP.Inv opt arena B M f items →
      f.m_Reader.output_pos ≠ f.m_Writer.input_pos →
      arena + (FunctionQueueSCSP.sync f).m_Writer.byte_rb.output_pos =
        detail.obj_at f.m_FunctionArray f.m_Reader.output_pos ∧
      (FunctionQueueSCSP.sync f).m_Writer.byte_rb.output_pos ≤ B) := by
  refine ⟨⟨rfl, ?_, ?_, rfl, rfl, rfl, rfl, rfl⟩, ⟨rfl, ?_, ?_, rfl, rfl, rfl, rfl, rfl, rfl⟩,
    ?_, ?_⟩
  · intro h
    simp only [BufferQueueSCSP.sync] at h ⊢
    rw [if_neg (by simpa using h)]
  · intro h
    simp only [BufferQueueSCSP.sync] at h ⊢
    rw [if_pos h]
    rfl
  · intro h
    simp only [FunctionQueueSCSP.sync] at h ⊢
    rw [if_neg (by simpa using h)]
  · intro h
    simp only [FunctionQueueSCSP.sync] at h ⊢
    rw [if_pos h]
  · intro M h ha hne
    exact BufferQueueSCSP.sync_offset M q h ha hne
  · intro opt arena B M items hinv hne
    obtain ⟨_, hwf, hai, hbuf, _, _⟩ := hinv
    have h := BufferQueueSCSP.sync_offset M (FunctionQueueSCSP.as_buffer_queue f) hwf hai hne
    rw [← FunctionQueueSCSP.sync_as_buffer_queue, hbuf,
      FunctionQueueSCSP.splice_at_as_buffer_queue, FunctionQueueSCSP.range_of_data] at h
    exact h

theorem sync_postcondition_witness :
    (BufferQueueSCSP.sync
      (BufferQueueSCSP.consume
        (BufferQueueSCSP.allocate_and_release
          (BufferQueueSCSP.allocate_and_release (BufferQueueSCSP.mk_queue 4096 64 4) 4 1
            (fun b => b.first 4)).2.2 8 8 (fun b => b.first 8)).2.2).2.2).m_Writer.byte_rb.output_pos
      = 8 ∧
    (FunctionQueueSCSP.sync
      (FunctionQueueSCSP.mk_queue 4096 64 4 :
        FunctionQueueSCSP Nat Nat Nat)).m_Writer.byte_rb.output_pos = 0 :=
  have h := @sync_postcondition Nat Nat Nat
    (BufferQueueSCSP.consume
      (BufferQueueSCSP.allocate_and_release
        (BufferQueueSCSP.allocate_and_release (BufferQueueSCSP.mk_queue 4096 64 4) 4 1
          (fun b => b.first 4)).2.2 8 8 (fun b => b.first 8)).2.2).2.2
    (FunctionQueueSCSP.mk_queue 4096 64 4)
  ⟨(h.1.2.2.1 (by decide)).trans (by decide), (h.2.1.2.1 rfl).trans rfl⟩

end rb

namespace rb
namespace BufferQueueSCSP

/-- With an unreclaimed slot, the unreclaimed descriptors start with the one in the slot at the
writer's cached output position. -/
theorem window_eq_cons (M : Nat) (q : BufferQueueSCSP) (h : WF M q)
    (hne : q.m_Writer.output_pos ≠ q.m_Writer.input_pos) :
    ∃ ds, window q = q.splice_at q.m_Writer.output_pos :: ds := by
  obtain ⟨hlen, hN, hwi, hwo, hro, hri, hd⟩ := h
  unfold window
  rw [hlen]
  have nz := mt (ring_dist_eq_zero hwo hwi).mp hne
  have l1 := ring_dist_lt hwo hwi
  have e1 : ring_dist (M + 1) q.m_Writer.output_pos q.m_Writer.input_pos =
      (ring_dist (M + 1) q.m_Writer.output_pos q.m_Writer.input_pos - 1) + 1 := by omega
  have e2 : ring_dist (M + 1) q.m_Writer.output_pos q.m_Writer.input_pos - 1 + 1 ≤ M + 1 := by
    omega
  rw [e1, ring_slots_cons hwo e2]
  exact ⟨_, rfl⟩

/-- In every reachable state in which the ring is empty in the writer's view, the arena cursor
`out` equals the arena cursor `in`. -/
theorem reachable_empty_view (arena B M : Nat) (hA : arena + B < 2 ^ 64) (hM : M + 1 < 2 ^ 64)
    (q : BufferQueueSCSP) (g : Option Buffer) (hr : Reachable arena B M q g) :
    q.m_Writer.output_pos = q.m_Writer.input_pos →
      q.m_Writer.byte_rb.output_pos = q.m_Writer.byte_rb.input_pos := by
  have hsync : ∀ q1 : BufferQueueSCSP,
      (sync q1).m_Writer.output_pos = (sync q1).m_Writer.input_pos →
        (sync q1).m_Writer.byte_rb.output_pos = (sync q1).m_Writer.byte_rb.input_pos := by
    intro q1 h
    simp only [sync] at h ⊢
    rw [if_neg (by simpa using h)]
  have hcarve : ∀ (q1 : BufferQueueSCSP) (s a : Nat),
      (q1.m_Writer.output_pos = q1.m_Writer.input_pos →
        q1.m_Writer.byte_rb.output_pos = q1.m_Writer.byte_rb.input_pos) →
      (carve q1 s a).2.m_Writer.output_pos = (carve q1 s a).2.m_Writer.input_pos →
        (carve q1 s a).2.m_Writer.byte_rb.output_pos =
          (carve q1 s a).2.m_Writer.byte_rb.input_pos := by
    intro q1 s a h1
    rcases carve_queue q1 s a with e | e <;> rw [e]
    · exact h1
    · exact hsync q1
  induction hr with
  | init => intro _; rfl
  | @consume q g hq ih =>
    obtain ⟨hwf, _⟩ := reachable_inv arena B M hA hM q g hq
    obtain ⟨_, c2, _⟩ := bq_consume_inv M q hwf
    rw [c2]; exact ih
  | @consume_all q g hq ih =>
    obtain ⟨hwf, _⟩ := reachable_inv arena B M hA hM q g hq
    obtain ⟨_, c2, _⟩ := bq_consume_all_inv M q hwf
    rw [c2]; exact ih
  | @consume_n q g n hq hn ih =>
    obtain ⟨hwf, _⟩ := reachable_inv arena B M hA hM q g hq
    obtain ⟨_, c2, _⟩ := bq_consume_n_inv M q n hwf hn
    rw [c2]; exact ih
  | @allocate q g s a hq ih =>
    unfold allocate
    exact hcarve q s a ih
  | @release q c r hq hsub ih =>
    obtain ⟨hwf, _, _, hg⟩ := reachable_inv arena B M hA hM q (some c) hq
    obtain ⟨_, _, g3⟩ := hg c rfl
    have hnext := bq_next_eq M q hwf
    intro h
    simp only [release, hnext] at h
    exact absurd h.symm g3
  | @allocate_and_release q g s a f hq hsub ih =>
    rw [allocate_and_release_eq]
    by_cases hz : (carve q s a).1.size = 0
    · rw [if_pos hz]
      exact hcarve q s a ih
    · rw [if_neg hz]
      have hroom := carve_room q s a hz
      intro h
      simp only [release, carve_input_pos, carve_splice] at h
      exact absurd h.symm hroom

/-- Claim C35, amended: in every reachable state of a buffer queue with arena `[arena, arena + B)`,
the arena cursor `out` equals the arena cursor `in` when the ring is empty in the producer's
view. When it is not empty, `out` is a bound for the descriptor `d` in the slot at the producer's
output position, not always its start: `d` lies between `out` and `in`, or, when the arena has
wrapped (`in < out`), between `out` and the end of the arena or between the arena base and
`in`. Right after a `sync` that finds a stored buffer, `out` is the offset of the descriptor at
the producer's output position. -/
theorem arena_out_bound (arena B M : Nat) (hA : arena + B < 2 ^ 64) (hM : M + 1 < 2 ^ 64)
    (q : BufferQueueSCSP) (g : Option Buffer) (hr : Reachable arena B M q g) :
    (q.m_Writer.output_pos = q.m_Writer.input_pos →
      q.m_Writer.byte_rb.output_pos = q.m_Writer.byte_rb.input_pos) ∧
    (q.m_Writer.output_pos ≠ q.m_Writer.input_pos →
      (q.m_Writer.byte_rb.output_pos ≤ q.m_Writer.byte_rb.input_pos →
        arena + q.m_Writer.byte_rb.output_pos ≤ (q.splice_at q.m_Writer.output_pos).data ∧
        (q.splice_at q.m_Writer.output_pos).data + (q.splice_at q.m_Writer.output_pos).size ≤
          arena + q.m_Writer.byte_rb.input_pos) ∧
      (q.m_Writer.byte_rb.input_pos < q.m_Writer.byte_rb.output_pos →
        (arena + q.m_Writer.byte_rb.output_pos ≤ (q.splice_at q.m_Writer.output_pos).data ∧
          (q.splice_at q.m_Writer.output_pos).data +
            (q.splice_at q.m_Writer.output_pos).size ≤ arena + B) ∨
        (arena ≤ (q.splice_at q.m_Writer.output_pos).data ∧
          (q.splice_at q.m_Writer.output_pos).data +
            (q.splice_at q.m_Writer.output_pos).size ≤
              arena + q.m_Writer.byte_rb.input_pos))) ∧
    ((sync q).m_Writer.output_pos ≠ (sync q).m_Writer.input_pos →
      arena + (sync q).m_Writer.byte_rb.output_pos =
        ((sync q).splice_at (sync q).m_Writer.output_pos).data) := by
  obtain ⟨hwf, hai, hb, _⟩ := reachable_inv arena B M hA hM q g hr
  refine ⟨reachable_empty_view arena B M hA hM q g hr, ?_, ?_⟩
  · intro hne
    obtain ⟨ds, hds⟩ := window_eq_cons M q hwf hne
    obtain ⟨hfit, hin, hout, hlay⟩ := hai
    rw [hb] at hlay hfit hin hout
    simp only [] at hlay hfit hin hout
    generalize q.splice_at q.m_Writer.output_pos = d at hds
    have hmem : d ∈ window q := by rw [hds]; exact List.mem_cons_self _ _
    rcases hlay with ⟨hle, hch⟩ | ⟨hlt, d1, d2, hsplit, hc1, hc2⟩
    · have hm := chain_mem hch d hmem
      exact ⟨fun _ => hm, fun h => by omega⟩
    · refine ⟨fun h => by omega, fun _ => ?_⟩
      rw [hsplit] at hmem
      rcases List.mem_append.mp hmem with hd1 | hd2
      · exact Or.inl (chain_mem hc1 d hd1)
      · exact Or.inr (chain_mem hc2 d hd2)
  · intro hne
    have h1 : q.m_Reader.output_pos ≠ q.m_Writer.input_pos := hne
    have h2 := (sync_offset M q hwf hai h1).1
    rw [hb] at h2
    exact h2

theorem arena_out_bound_witness :
    4096 + (allocate_and_release (consume (allocate_and_release (mk_queue 4096 64 1) 4 1
        (fun b => b.first 4)).2.2).2.2 8 8 (fun b => b.first 8)).2.2.m_Writer.byte_rb.output_pos ≤
      (splice_at (allocate_and_release (consume (allocate_and_release (mk_queue 4096 64 1) 4 1
        (fun b => b.first 4)).2.2).2.2 8 8 (fun b => b.first 8)).2.2
        (allocate_and_release (consume (allocate_and_release (mk_queue 4096 64 1) 4 1
        (fun b => b.first 4)).2.2).2.2 8 8 (fun b => b.first 8)).2.2.m_Writer.output_pos).data ∧
    (splice_at (allocate_and_release (consume (allocate_and_release (mk_queue 4096 64 1) 4 1
        (fun b => b.first 4)).2.2).2.2 8 8 (fun b => b.first 8)).2.2
        (allocate_and_release (consume (allocate_and_release (mk_queue 4096 64 1) 4 1
        (fun b => b.first 4)).2.2).2.2 8 8 (fun b => b.first 8)).2.2.m_Writer.output_pos).data +
      (splice_at (allocate_and_release (consume (allocate_and_release (mk_queue 4096 64 1) 4 1
        (fun b => b.first 4)).2.2).2.2 8 8 (fun b => b.first 8)).2.2
        (allocate_and_release (consume (allocate_and_release (mk_queue 4096 64 1) 4 1
        (fun b => b.first 4)).2.2).2.2 8 8 (fun b => b.first 8)).2.2.m_Writer.output_pos).size ≤
      4096 + (allocate_and_release (consume (allocate_and_release (mk_queue 4096 64 1) 4 1
        (fun b => b.first 4)).2.2).2.2 8 8 (fun b => b.first 8)).2.2.m_Writer.byte_rb.input_pos :=
  have hr : Reachable 4096 64 1
      (allocate_and_release (consume (allocate_and_release (mk_queue 4096 64 1) 4 1
        (fun b => b.first 4)).2.2).2.2 8 8 (fun b => b.first 8)).2.2 none :=
    Reachable.allocate_and_release 8 8 (fun b => b.first 8)
      (Reachable.consume
        (Reachable.allocate_and_release 4 1 (fun b => b.first 4) Reachable.init
          (fun _ => by decide)))
      (fun _ => by decide)
  ((arena_out_bound 4096 64 1 (by decide) (by decide) _ none hr).2.1 (by decide)).1 (by decide)

/-- Counterexample to the literal claim C35, in a queue with a 64-byte arena at address 4096 and
two slots: release 4 bytes, consume them, then allocate and release 8 bytes with alignment 8.
The second call syncs on an empty ring (`out = in = 4`) and carves at the aligned offset 8. In
the state reached the ring is not empty, the arena cursor `out` is 4, and the descriptor at the
producer's output position starts at offset 8. -/
theorem arena_out_behind_descriptor :
    Reachable 4096 64 1
      (allocate_and_release (consume (allocate_and_release (mk_queue 4096 64 1) 4 1
        (fun b => b.first 4)).2.2).2.2 8 8 (fun b => b.first 8)).2.2 none ∧
    (allocate_and_release (consume (allocate_and_release (mk_queue 4096 64 1) 4 1
      (fun b => b.first 4)).2.2).2.2 8 8 (fun b => b.first 8)).2.2 =
      { m_Writer := { input_pos := 0, output_pos := 1,
                      byte_rb := { buffer := ⟨4096, 64⟩, input_pos := 16, output_pos := 4 } },
        m_Reader := ⟨1, 1⟩,
        m_SpliceArray := [⟨4096, 4⟩, ⟨4104, 8⟩] } :=
  ⟨Reachable.allocate_and_release 8 8 (fun b => b.first 8)
      (Reachable.consume
        (Reachable.allocate_and_release 4 1 (fun b => b.first 4) Reachable.init
          (fun _ => by decide)))
      (fun _ => by decide),
    by decide⟩

end BufferQueueSCSP
end rb

namespace rb
namespace ObjectQueueMCSP
variable {Obj : Type}

/-- Claim C36: announcement frame of the reader calls of the MCSP object queue. `consume` and
`consume_n` instantiated with `release = true` store the reserved `next_output_pos` in the slot
`m_Index` of the position array when the reservation succeeds, and leave the array as it is when
the reservation fails; with `release = false`, and for `consume_all`, the array is left as it
is. The return value of `consume` tells whether the reservation succeeded. No reader call
changes another slot of the position array, its length, or the producer's cursor pair
(`input_pos` and the cached output position). -/
theorem announcement_frame (q : ObjectQueueMCSP Obj) (m_Index n : Nat) (check_once : Bool) :
    (∀ rp, (detail.reserve_one check_once tb q.m_OutputPos q.m_Writer.input_pos
        q.m_Buffer.length).1 = some rp →
      (consume q m_Index check_once true).1 = true ∧
      (consume q m_Index check_once true).2.2.m_PositionArray =
        q.m_PositionArray.set m_Index rp.next_output_pos) ∧
    ((detail.reserve_one check_once tb q.m_OutputPos q.m_Writer.input_pos
        q.m_Buffer.length).1 = none →
      (consume q m_Index check_once true).1 = false ∧
      (consume q m_Index check_once true).2.2.m_PositionArray = q.m_PositionArray) ∧
    (consume q m_Index check_once false).2.2.m_PositionArray = q.m_PositionArray ∧
    (∀ rp, (detail.reserve_n check_once tb q.m_OutputPos q.m_Writer.input_pos
        q.m_Buffer.length n).1 = some rp →
      (consume_n q m_Index n check_once true).2.2.m_PositionArray =
        q.m_PositionArray.set m_Index rp.next_output_pos) ∧
    ((detail.reserve_n check_once tb q.m_OutputPos q.m_Writer.input_pos
        q.m_Buffer.length n).1 = none →
      (consume_n q m_Index n check_once true).2.2.m_PositionArray = q.m_PositionArray) ∧
    (consume_n q m_Index n check_once false).2.2.m_PositionArray = q.m_PositionArray ∧
    (consume_all q m_Index check_once).2.2.m_PositionArray = q.m_PositionArray ∧
    (∀ (release : Bool) (j : Nat), j ≠ m_Index →
      (consume q m_Index check_once release).2.2.m_PositionArray.get? j =
        q.m_PositionArray.get? j ∧
      (consume_n q m_Index n check_once release).2.2.m_PositionArray.get? j =
        q.m_PositionArray.get? j) ∧
    (∀ release : Bool,
      (consume q m_Index check_once release).2.2.m_PositionArray.length =
        q.m_PositionArray.length ∧
      (consume_n q m_Index n check_once release).2.2.m_PositionArray.length =
        q.m_PositionArray.length ∧
      (consume q m_Index check_once release).2.2.m_Writer = q.m_Writer ∧
      (consume_n q m_Index n check_once release).2.2.m_Writer = q.m_Writer ∧
      (consume_all q m_Index check_once).2.2.m_Writer = q.m_Writer) := by
  have hget : ∀ (l l1 : List Nat) (j : Nat), j ≠ m_Index →
      (l1 = l ∨ ∃ v, l1 = l.set m_Index v) → l1.get? j = l.get? j := by
    intro l l1 j hj h
    rcases h with e | ⟨v, e⟩
    · rw [e]
    · rw [e, List.get?_eq_getElem?, List.getElem?_set_ne (Ne.symm hj), ← List.get?_eq_getElem?]
  have hlen : ∀ (l l1 : List Nat), (l1 = l ∨ ∃ v, l1 = l.set m_Index v) →
      l1.length = l.length := by
    intro l l1 h
    rcases h with e | ⟨v, e⟩
    · rw [e]
    · rw [e, List.length_set]
  refine ⟨?_, ?_, ?_, ?_, ?_, ?_, mcsp_consume_all_positions q m_Index check_once, ?_, ?_⟩
  · intro rp h
    unfold consume
    simp only [h]
    exact ⟨trivial, rfl⟩
  · intro h
    unfold consume
    simp only [h]
    exact ⟨trivial, trivial⟩
  · unfold consume
    simp only []
    split <;> rfl
  · intro rp h
    unfold consume_n
    simp only [h]
    rfl
  · intro h
    unfold consume_n
    simp only [h]
  · unfold consume_n
    simp only []
    split <;> rfl
  · intro release j hj
    exact ⟨hget _ _ j hj (mcsp_consume_positions q m_Index check_once release),
      hget _ _ j hj (mcsp_consume_n_positions q m_Index n check_once release)⟩
  · intro release
    exact ⟨hlen _ _ (mcsp_consume_positions q m_Index check_once release),
      hlen _ _ (mcsp_consume_n_positions q m_Index n check_once release),
      mcsp_consume_writer q m_Index check_once release,
      mcsp_consume_n_writer q m_Index n check_once release,
      mcsp_consume_all_writer q m_Index check_once⟩

theorem announcement_frame_witness :
    (consume (run (mk_queue 4 2 : ObjectQueueMCSP Nat)
        [.get_reader 0, .get_reader 1, .push 1, .push 2]).2 1 true true).2.2.m_PositionArray =
      [0, 1] ∧
    (consume (mk_queue 4 2 : ObjectQueueMCSP Nat) 1 true true).2.2.m_PositionArray =
      (mk_queue 4 2 : ObjectQueueMCSP Nat).m_PositionArray :=
  ⟨((announcement_frame (run (mk_queue 4 2 : ObjectQueueMCSP Nat)
        [.get_reader 0, .get_reader 1, .push 1, .push 2]).2 1 0 true).1 ⟨0, 1⟩
      (by decide)).2.trans (by decide),
    ((announcement_frame (mk_queue 4 2 : ObjectQueueMCSP Nat) 1 0 true).2.1 (by decide)).2⟩

end ObjectQueueMCSP
end rb

namespace rb
namespace ObjectQueueMCSP
variable {Obj : Type}

/-- `publish` keeps the tag of `output_pos` at or below the tag of `input_pos`, for every next
position, also when the tag of `input_pos` wraps. -/
theorem publish_tag_le (cur next ow : Nat) (h : detail.tag tb ow ≤ detail.tag tb cur) :
    detail.tag tb (detail.publish tb cur next ow).2 ≤
      detail.tag tb (detail.publish tb cur next ow).1 := by
  obtain ⟨e1, e2⟩ := detail.publish_words cur next ow
  have hlt := rb.detail.tag_lt cur
  rw [e1, e2]
  by_cases h0 : (detail.tag tb cur + 1) % 2 ^ 16 = 0
  · rw [if_pos h0]
    unfold detail.tag
    simp only [tb]
    omega
  · rw [if_neg h0]
    simp only [tb] at h hlt h0 ⊢
    omega

/-- A reservation leaves the tag of `output_pos` at or below the tag of `input_pos`. -/
theorem reserve_tag_le (c : Bool) (ow iw S n : Nat) (h : detail.tag tb ow ≤ detail.tag tb iw) :
    detail.tag tb (detail.reserve_one c tb ow iw S).2 ≤ detail.tag tb iw ∧
    detail.tag tb (detail.reserve_all c tb ow iw).2 ≤ detail.tag tb iw ∧
    detail.tag tb (detail.reserve_n c tb ow iw S n).2 ≤ detail.tag tb iw := by
  have hs : ∀ v, detail.tag tb (detail.same_tagged tb iw v) ≤ detail.tag tb iw := by
    intro v
    unfold detail.same_tagged
    simp only [tb]
    rw [rb.detail.tag_tagged_size]
    exact Nat.mod_le _ _
  simp only [tb] at h hs ⊢
  rw [detail.reserve_one_eq, detail.reserve_all_eq, detail.reserve_n_eq]
  refine ⟨?_, ?_, ?_⟩ <;> split <;> first | exact h | exact hs _ | exact Nat.le_refl _

/-- The tag invariant is kept by `emplace`. -/
theorem emplace_tag_le (q : ObjectQueueMCSP Obj) (obj : Obj)
    (h : detail.tag tb q.m_OutputPos ≤ detail.tag tb q.m_Writer.input_pos) :
    detail.tag tb (emplace q obj).2.m_OutputPos ≤
      detail.tag tb (emplace q obj).2.m_Writer.input_pos := by
  unfold emplace
  simp only []
  split_ifs
  · exact h
  · exact publish_tag_le _ _ _ h
  · exact publish_tag_le _ _ _ h
  · exact h
  · exact publish_tag_le _ _ _ h
  · exact publish_tag_le _ _ _ h

/-- The tag invariant is kept by `emplace_n`, whatever the functor constructs. -/
theorem emplace_n_tag_le (q : ObjectQueueMCSP Obj) (functor : detail.Span → List Obj)
    (h : detail.tag tb q.m_OutputPos ≤ detail.tag tb q.m_Writer.input_pos) :
    detail.tag tb (emplace_n q functor).2.2.m_OutputPos ≤
      detail.tag tb (emplace_n q functor).2.2.m_Writer.input_pos := by
  unfold emplace_n
  simp only []
  split_ifs <;> first | exact h | exact publish_tag_le _ _ _ h

/-- Every state whole calls reach satisfies the tag invariant. -/
theorem reachable_tag_le (N R : Nat) (q : ObjectQueueMCSP Obj) (hr : Reachable N R q) :
    detail.tag tb q.m_OutputPos ≤ detail.tag tb q.m_Writer.input_pos := by
  induction hr with
  | init => exact Nat.le_refl _
  | get_reader i _ ih => exact ih
  | drop_reader i _ ih => exact ih
  | emplace obj _ ih => exact emplace_tag_le _ obj ih
  | emplace_n functor _ ih => exact emplace_n_tag_le _ functor ih
  | @consume q i c rel _ ih =>
    rw [mcsp_consume_writer]
    have h := (reserve_tag_le c q.m_OutputPos q.m_Writer.input_pos q.m_Buffer.length 0 ih).1
    unfold consume
    simp only []
    split <;> exact h
  | @consume_all q i c _ ih =>
    rw [mcsp_consume_all_writer]
    have h := (reserve_tag_le c q.m_OutputPos q.m_Writer.input_pos q.m_Buffer.length 0 ih).2.1
    unfold consume_all
    simp only []
    split <;> exact h
  | @consume_n q i n c rel _ ih =>
    rw [mcsp_consume_n_writer]
    have h := (reserve_tag_le c q.m_OutputPos q.m_Writer.input_pos q.m_Buffer.length n ih).2.2
    unfold consume_n
    simp only []
    split <;> exact h

/-- When the tag of `input_pos` is `2^16 - 1`, an accepted push wraps it to 0 and clears the tag
bits of `output_pos`. -/
theorem emplace_tag_wrap (q : ObjectQueueMCSP Obj) (obj : Obj)
    (hw : detail.tag tb q.m_Writer.input_pos = 2 ^ 16 - 1) (hok : (emplace q obj).1 = true) :
    detail.tag tb (emplace q obj).2.m_Writer.input_pos = 0 ∧
    detail.tag tb (emplace q obj).2.m_OutputPos = 0 := by
  obtain ⟨e1, e2⟩ := (mcsp_emplace_words q obj).2 hok
  rw [e1, e2, hw]
  refine ⟨by decide, ?_⟩
  rw [if_pos (by decide)]
  unfold detail.tag
  simp only [tb]
  omega

end ObjectQueueMCSP

namespace FunctionQueueMCSP
variable {S Args R : Type}

/-- The tag invariant is kept by every atomic step of the MCSP function queue. -/
theorem fq_step_tag_le (opt : FQOpt) (q : FunctionQueueMCSP S Args R) (s : Step S Args R)
    (h : detail.tag tb q.m_OutputPos ≤ detail.tag tb q.m_Writer.input_pos) :
    detail.tag tb (step opt q s).2.m_OutputPos ≤
      detail.tag tb (step opt q s).2.m_Writer.input_pos := by
  cases s with
  | get_reader i => exact h
  | drop_reader i => exact h
  | push T st =>
    simp only [step, push]
    unfold emplace sync
    simp only []
    split_ifs <;> first | exact h | exact ObjectQueueMCSP.publish_tag_le _ _ _ h
  | consume i c rel script =>
    have hr := (ObjectQueueMCSP.reserve_tag_le c q.m_OutputPos q.m_Writer.input_pos
      q.m_FunctionArray.length 0 h).1
    simp only [step]
    unfold consume
    simp only []
    split <;> exact hr
  | consume_all i c script =>
    have hr := (ObjectQueueMCSP.reserve_tag_le c q.m_OutputPos q.m_Writer.input_pos
      q.m_FunctionArray.length 0 h).2.1
    simp only [step]
    unfold consume_all
    simp only []
    split <;> exact hr
  | consume_n i n c rel script =>
    have hr := (ObjectQueueMCSP.reserve_tag_le c q.m_OutputPos q.m_Writer.input_pos
      q.m_FunctionArray.length n h).2.2
    simp only [step]
    unfold consume_n
    simp only []
    split <;> exact hr

/-- Every run of atomic steps of the MCSP function queue keeps the tag invariant. -/
theorem fq_run_tag_le (opt : FQOpt) (steps : List (Step S Args R)) :
    ∀ q : FunctionQueueMCSP S Args R,
      detail.tag tb q.m_OutputPos ≤ detail.tag tb q.m_Writer.input_pos →
      detail.tag tb (run opt q steps).2.m_OutputPos ≤
        detail.tag tb (run opt q steps).2.m_Writer.input_pos := by
  induction steps with
  | nil => intro q h; exact h
  | cons s ss ih =>
    intro q h
    exact ih _ (fq_step_tag_le opt q s h)

end FunctionQueueMCSP

namespace ObjectQueueMCSP
variable {Obj : Type}

/-- Claim C37: in every state of the MCSP object queue reached by whole calls executed one after
the other (`emplace`, `emplace_n` with any functor, the reader calls with any flags and any `n`,
readers that come and go), the tag of `output_pos` is at most the tag of `input_pos` as plain
integers, also after the 16-bit tag has wrapped. Hence the first disjunct of `empty` is false in
these states, and `empty()` holds iff the values of `input_pos` and `output_pos` are equal. At
the wrap itself, an accepted push from tag `2^16 - 1` leaves both tags 0. The tag invariant
holds as well in every state the MCSP function queue reaches by atomic steps. -/
theorem sequential_tag_invariant (N R : Nat) (q : ObjectQueueMCSP Obj)
    (hr : Reachable N R q) :
    detail.tag tb q.m_OutputPos ≤ detail.tag tb q.m_Writer.input_pos ∧
    decide (detail.tag tb q.m_Writer.input_pos < detail.tag tb q.m_OutputPos) = false ∧
    (empty q = true ↔ detail.value tb q.m_Writer.input_pos = detail.value tb q.m_OutputPos) ∧
    (count q = 0 ↔
      detail.count (detail.value tb q.m_OutputPos) (detail.value tb q.m_Writer.input_pos)
        q.m_Buffer.length = 0) ∧
    (∀ obj, detail.tag tb q.m_Writer.input_pos = 2 ^ 16 - 1 → (emplace q obj).1 = true →
      detail.tag tb (emplace q obj).2.m_Writer.input_pos = 0 ∧
      detail.tag tb (emplace q obj).2.m_OutputPos = 0) ∧
    (∀ (S Args Res : Type) (opt : FQOpt) (arena B M readers : Nat)
      (steps : List (FunctionQueueMCSP.Step S Args Res)),
      detail.tag tb (FunctionQueueMCSP.run opt
          (FunctionQueueMCSP.mk_queue arena B M readers) steps).2.m_OutputPos ≤
        detail.tag tb (FunctionQueueMCSP.run opt
          (FunctionQueueMCSP.mk_queue arena B M readers) steps).2.m_Writer.input_pos) := by
  have h := reachable_tag_le N R q hr
  refine ⟨h, ?_, ?_, ?_, fun obj hw hok => emplace_tag_wrap q obj hw hok,
    fun S Args Res opt arena B M readers steps =>
      FunctionQueueMCSP.fq_run_tag_le opt steps _ (Nat.le_refl _)⟩
  · simp only [decide_eq_false_iff_not]
    omega
  · unfold empty
    rw [detail.empty_iff h]
    exact eq_comm
  · unfold count detail.count_tagged
    rw [if_pos h]

theorem sequential_tag_invariant_witness :
    detail.tag tb (emplace (consume (emplace (mk_queue 4 1 : ObjectQueueMCSP Nat) 7).2
        0 true true).2.2 8).2.m_OutputPos ≤
      detail.tag tb (emplace (consume (emplace (mk_queue 4 1 : ObjectQueueMCSP Nat) 7).2
        0 true true).2.2 8).2.m_Writer.input_pos :=
  (sequential_tag_invariant 4 1 _
    (Reachable.emplace 8 (Reachable.consume 0 true true
      (Reachable.emplace 7 Reachable.init)))).1

end ObjectQueueMCSP
end rb

namespace rb
namespace ObjectQueueSCSP
variable {Obj : Type}

/-- In a well-formed queue that satisfies the lifetime invariant every stored element is a
constructed object. -/
theorem stored_isSome (N : Nat) (q : ObjectQueueSCSP Obj) (h : WF N q) (hl : lifetime_inv q) :
    ∀ x ∈ stored q, x.isSome = true := by
  obtain ⟨hlen, _, hwi, hwo, hro, hri, hd⟩ := h
  have hdl := ring_dist_lt hro hwi
  intro x hx
  unfold stored at hx
  rw [hlen] at hx
  obtain ⟨j, hj, rfl⟩ := List.mem_map.mp hx
  have hjlt := ring_slots_lt hro (by omega) hj
  have hd2 := (mem_ring_slots_iff_dist hro hjlt (by omega)).mp hj
  refine (hl j (by omega)).mpr ?_
  unfold live
  rw [hlen]
  exact hd2

/-- In a well-formed queue that satisfies the lifetime invariant a slot that is not live holds
no object. -/
theorem slot_none_of_not_live (q : ObjectQueueSCSP Obj) (hl : lifetime_inv q) (j : Nat)
    (hj : j < q.m_Buffer.length) (hn : ¬ live q j) : slot_at q.m_Buffer j = none := by
  have h := mt (hl j hj).mp hn
  cases e : slot_at q.m_Buffer j with
  | none => rfl
  | some x => rw [e] at h; simp at h

/-- Claim C38: cursor and mirror invariant of `ObjectQueueSCSP`. In every state reached by
`emplace`, `emplace_n` with a functor that constructs no more objects than its span holds,
`consume`, `consume_all` and `consume_n` (with `output_pos + n` below `2^64`, which covers
`n <= N`), all four cursors are below `N + 1`, the consumer's input mirror lies in the ring
interval from `output_pos` to `input_pos`, and the producer's cached output position lies in the
ring interval from the slot after `input_pos` round to `output_pos`. Hence the consume calls hand
out only slots that hold a constructed object, and `emplace` and `emplace_n` construct only in
slots that hold none. -/
theorem cursor_mirror_invariant (N : Nat) (hN : N + 1 < 2 ^ 64) (q : ObjectQueueSCSP Obj)
    (hr : Reachable N q) :
    (q.m_Writer.input_pos < N + 1 ∧ q.m_Reader.output_pos < N + 1 ∧
      q.m_Reader.input_pos < N + 1 ∧ q.m_Writer.output_pos < N + 1) ∧
    ring_dist (N + 1) q.m_Reader.output_pos q.m_Reader.input_pos ≤
      ring_dist (N + 1) q.m_Reader.output_pos q.m_Writer.input_pos ∧
    ring_dist (N + 1) (ring_wrap (N + 1) (q.m_Writer.input_pos + 1)) q.m_Writer.output_pos ≤
      ring_dist (N + 1) (ring_wrap (N + 1) (q.m_Writer.input_pos + 1)) q.m_Reader.output_pos ∧
    ((consume q).1 = true →
      live q q.m_Reader.output_pos ∧
      ∃ x, slot_at q.m_Buffer q.m_Reader.output_pos = some x ∧ (consume q).2.1 = [some x]) ∧
    (∀ x ∈ (consume_all q).2.1, x.isSome = true) ∧
    (∀ n, q.m_Reader.output_pos + n < 2 ^ 64 → ∀ x ∈ (consume_n q n).2.1, x.isSome = true) ∧
    (∀ obj, (emplace q obj).1 = true →
      ¬ live q q.m_Writer.input_pos ∧ slot_at q.m_Buffer q.m_Writer.input_pos = none) ∧
    (∀ (functor : detail.Span → List Obj) (span : detail.Span),
      (∀ s, (functor s).length ≤ s.size) → (emplace_n q functor).2.1 = some span →
      span.first_index = q.m_Writer.input_pos ∧
      ∀ j, span.first_index ≤ j → j < span.first_index + span.size →
        j < N + 1 ∧ ¬ live q j ∧ slot_at q.m_Buffer j = none) := by
  have hwf := reachable_WF N hN q hr
  have hl := reachable_lifetime N hN q hr
  have hst := stored_isSome N q hwf hl
  have hce := consume_eq N q hwf
  have hcae := consume_all_eq N q hwf
  have hee : ∀ obj, _ := fun obj => emplace_eq N q obj hwf
  have hne : ∀ functor hf, _ := fun functor hf => emplace_n_eq N q functor hwf hf
  have hcn : ∀ n hn, _ := fun n hn => consume_n_eq N q n hwf hn
  obtain ⟨hlen, _, hwi, hwo, hro, hri, hd⟩ := hwf
  obtain ⟨e1, e2⟩ := ring_order_facts hwo hro hri hwi (by omega)
  have hdl := ring_dist_lt hro hwi
  refine ⟨⟨hwi, hro, hri, hwo⟩, by omega, ?_, ?_, ?_, ?_, ?_, ?_⟩
  · have hw := ring_wrap_lt (S := N + 1) (k := 1) hwi (by omega)
    generalize q.m_Writer.input_pos = i at *
    generalize q.m_Writer.output_pos = wo at *
    generalize q.m_Reader.output_pos = ro at *
    have h2 : ring_dist (N + 1) wo ro ≤ ring_dist (N + 1) wo i := by omega
    have h3 : ring_dist (N + 1) wo i ≤ N := by omega
    clear e1 e2 hd hce hcae hee hne hcn hst hl
    unfold ring_dist ring_wrap at *
    split_ifs at h2 h3 hw ⊢ <;> omega
  · intro ht
    rw [hce] at ht
    by_cases he : q.m_Reader.output_pos = q.m_Writer.input_pos
    · rw [if_pos he] at ht; simp at ht
    · have hlive : live q q.m_Reader.output_pos := by
        unfold live
        rw [hlen, ring_dist_self]
        have := mt (ring_dist_eq_zero hro hwi).mp he
        omega
      have hs := (hl _ (by omega)).mpr hlive
      obtain ⟨x, hx⟩ := Option.isSome_iff_exists.mp hs
      refine ⟨hlive, x, hx, ?_⟩
      rw [hce, if_neg he, hx]
  · intro x hx
    rw [hcae] at hx
    exact hst x hx
  · intro n hn x hx
    rw [hcn n hn] at hx
    exact hst x (List.mem_of_mem_take hx)
  · intro obj ht
    have hnl : ¬ live q q.m_Writer.input_pos := by
      unfold live
      omega
    exact ⟨hnl, slot_none_of_not_live q hl _ (by omega) hnl⟩
  · intro functor span hf hs
    rw [hne functor hf] at hs
    by_cases hfull : ring_dist (N + 1) q.m_Reader.output_pos q.m_Writer.input_pos = N
    · rw [if_pos hfull] at hs; simp at hs
    · rw [if_neg hfull] at hs
      simp only [Option.some.injEq] at hs
      subst hs
      simp only []
      refine ⟨trivial, ?_⟩
      intro j hj1 hj2
      have hfacts : q.m_Writer.input_pos +
          detail.count_avl (if detail.count_avl q.m_Writer.output_pos q.m_Writer.input_pos
            (N + 1) = 0 then q.m_Reader.output_pos else q.m_Writer.output_pos)
            q.m_Writer.input_pos (N + 1) ≤ N + 1 ∧
          ring_dist (N + 1) q.m_Reader.output_pos q.m_Writer.input_pos +
            detail.count_avl (if detail.count_avl q.m_Writer.output_pos q.m_Writer.input_pos
              (N + 1) = 0 then q.m_Reader.output_pos else q.m_Writer.output_pos)
              q.m_Writer.input_pos (N + 1) + 1 ≤ N + 1 := by
        split_ifs
        · obtain ⟨a1, a2, _⟩ := @detail.count_avl_facts (N + 1) q.m_Reader.output_pos
            q.m_Writer.input_pos (by omega) hro hwi
          exact ⟨a1, a2⟩
        · obtain ⟨a1, a2, _⟩ := @detail.count_avl_facts (N + 1) q.m_Writer.output_pos
            q.m_Writer.input_pos (by omega) hwo hwi
          exact ⟨a1, by omega⟩
      generalize detail.count_avl (if detail.count_avl q.m_Writer.output_pos
        q.m_Writer.input_pos (N + 1) = 0 then q.m_Reader.output_pos
        else q.m_Writer.output_pos) q.m_Writer.input_pos (N + 1) = navl at hj2 hfacts
      have hjS : j < N + 1 := by omega
      have hnl : ¬ live q j := by
        unfold live
        rw [hlen]
        have hadd := ring_dist_wrap_add (S := N + 1) (k := j - q.m_Writer.input_pos) hro hwi
          (by omega)
        have hw : ring_wrap (N + 1) (q.m_Writer.input_pos + (j - q.m_Writer.input_pos)) = j := by
          unfold ring_wrap
          rw [if_pos (by omega)]
          omega
        rw [hw] at hadd
        omega
      exact ⟨hjS, hnl, slot_none_of_not_live q hl j (by omega) hnl⟩

theorem cursor_mirror_invariant_witness :
    (emplace (emplace (mk_queue 4 : ObjectQueueSCSP Nat) 7).2 8).2.m_Writer.input_pos < 4 + 1 ∧
    ring_dist (4 + 1) (emplace (emplace (mk_queue 4 : ObjectQueueSCSP Nat) 7).2 8).2.m_Reader.output_pos
        (emplace (emplace (mk_queue 4 : ObjectQueueSCSP Nat) 7).2 8).2.m_Reader.input_pos ≤
      ring_dist (4 + 1)
        (emplace (emplace (mk_queue 4 : ObjectQueueSCSP Nat) 7).2 8).2.m_Reader.output_pos
        (emplace (emplace (mk_queue 4 : ObjectQueueSCSP Nat) 7).2 8).2.m_Writer.input_pos ∧
    (consume (emplace (emplace (mk_queue 4 : ObjectQueueSCSP Nat) 7).2 8).2).2.1 = [some 7] :=
  have h := cursor_mirror_invariant 4 (by decide)
    (emplace (emplace (mk_queue 4 : ObjectQueueSCSP Nat) 7).2 8).2
    (Reachable.emplace 8 (Reachable.emplace 7 Reachable.init))
  ⟨h.1.1, h.2.1, by decide⟩

end ObjectQueueSCSP
end rb
